import Mathlib

/-!
# stringtrie: a radix trie keyed by byte strings

A shallow embedding of `stringtrie.h`.  Nodes live in a heap addressed by natural
numbers; a pointer is `Option Nat` (`none` is `NULL`).  Every operation returns an
`Option`: the outer `none` stands for undefined behaviour of the C++ code (use of a
destroyed node, a table index outside `0..127`, a `NULL` dereference) or for
exhausted fuel.
-/

namespace StringTrie

/-- A key, `std::string`, as the list of its bytes. -/
abbrev Key := List Nat

/-- Number of slots of a node's table (`enum { RANGE = 128 }`). -/
def RANGE : Nat := 128

/-- Mask applied to a byte to obtain its table slot (`RANGE_MASK = 0x7f`). -/
def RANGE_MASK : Nat := 0x7f

/-- The class `stringtrie_node<T>`: parent pointer, table of child pointers, value,
in-use flag, full key and the offset at which the node's own segment begins. -/
structure Node (T : Type) where
  parent : Option Nat
  table : Nat → Option Nat
  value : T
  bInUse : Bool
  nodeKey : Key
  posNodeKeyStart : Nat

/-- The live nodes, by address. -/
abbrev Heap (T : Type) := Nat → Option (Node T)

/-- The class `stringtrie<T>`: the heap of nodes it owns, the next address handed
out by `new`, and the members `root`, `numnodes` (an `int`) and `nsize` (a `size_t`,
which the code decrements only after it has incremented it or has found a node
holding a value). -/
structure Trie (T : Type) where
  heap : Heap T
  fresh : Nat
  root : Nat
  numnodes : Int
  nsize : Nat

variable {T : Type}

/-- Store a node at an address. -/
def Heap.write (h : Heap T) (p : Nat) (n : Node T) : Heap T :=
  fun q => if q = p then some n else h q

/-- Destroy the node at an address (`delete`). -/
def Heap.free (h : Heap T) (p : Nat) : Heap T :=
  fun q => if q = p then none else h q

/-- The constructor `stringtrie_node()`: no parent, value `T()`, not in use,
offset 0, every table slot `NULL`. -/
def Node.new [Inhabited T] : Node T :=
  { parent := none, table := fun _ => none, value := default, bInUse := false,
    nodeKey := [], posNodeKeyStart := 0 }

/-- The member `hasValue()`. -/
def Node.hasValue (n : Node T) : Bool := n.bInUse

/-- The member `getkey()`. -/
def Node.getkey (n : Node T) : Key := n.nodeKey

/-- The member `getvalue()`. -/
def Node.getvalue (n : Node T) : T := n.value

/-- The member `setvalue(v)`: `value = v; bInUse = true`. -/
def Node.setvalue (n : Node T) (v : T) : Node T :=
  { n with value := v, bInUse := true }

/-- The member `gettableindex()`: `nodeKey[posNodeKeyStart] & RANGE_MASK`.  Reading a
`std::string` at its length yields the null character. -/
def Node.gettableindex (n : Node T) : Nat :=
  n.nodeKey.getD n.posNodeKeyStart 0 &&& RANGE_MASK

/-- A read of `table[i]`; an index outside the table is undefined behaviour. -/
def Node.tableAt (n : Node T) (i : Nat) : Option (Option Nat) :=
  if i < RANGE then some (n.table i) else none

/-- A write `table[i] = c`. -/
def Node.setTable (n : Node T) (i : Nat) (c : Option Nat) : Node T :=
  { n with table := fun j => if j = i then c else n.table j }

/-- The comparison loop of `substrlength`, `_find` and `_findpartial`: the number of
steps taken while both strings have a character left and the characters agree. -/
def matchlen : Key → Key → Nat
  | a :: s1, b :: s2 => if a ≠ b then 0 else matchlen s1 s2 + 1
  | _, _ => 0

/-- The member `substrlength(s1, s2)`: the value of `p1` when the loop ends. -/
def substrlength (s1 s2 : Key) : Nat := matchlen s1 s2

/-- The member `addchild(pNode)` of the node at `self`:
`table[pNode->gettableindex()] = pNode`. -/
def addchild (h : Heap T) (self pNode : Nat) : Option (Heap T) :=
  match h self, h pNode with
  | some s, some c => some (h.write self (s.setTable c.gettableindex (some pNode)))
  | _, _ => none

/-- The member `_find(key, pos)` of the node at `self`; the result is the node found
or `NULL`. -/
def _find (h : Heap T) : Nat → Nat → Key → Nat → Option (Option Nat)
  | 0, _, _, _ => none
  | fuel + 1, self, key, pos =>
    match h self with
    | none => none
    | some n =>
      let m := matchlen (n.nodeKey.drop n.posNodeKeyStart) (key.drop pos)
      let posPartialKey := n.posNodeKeyStart + m
      let pos := pos + m
      if pos = key.length ∧ posPartialKey = n.nodeKey.length then some (some self)
      else if posPartialKey < n.nodeKey.length then some none
      else
        match n.tableAt (key.getD pos 0) with
        | none => none
        | some none => some none
        | some (some t) => _find h fuel t key pos

/-- The member `_findpartial(key, pos)` of the node at `self`: the deepest node that
matches the key at least partially. -/
def _findpartial (h : Heap T) : Nat → Nat → Key → Nat → Option Nat
  | 0, _, _, _ => none
  | fuel + 1, self, key, pos =>
    match h self with
    | none => none
    | some n =>
      let m := matchlen (n.nodeKey.drop n.posNodeKeyStart) (key.drop pos)
      let posPartialKey := n.posNodeKeyStart + m
      let pos := pos + m
      if pos = key.length ∧ posPartialKey = n.nodeKey.length then some self
      else if posPartialKey < n.nodeKey.length then some self
      else
        match n.tableAt (key.getD pos 0) with
        | none => none
        | some none => some self
        | some (some t) => _findpartial h fuel t key pos

/-- Fuel for a walk along the path of a key: a path has at most `2 * length + 1`
nodes. -/
def fuelOf (key : Key) : Nat := 2 * key.length + 2

/-- The constructor `stringtrie()`: a root node, `numnodes = 0`, `nsize = 0`. -/
def Trie.new [Inhabited T] : Trie T :=
  { heap := Heap.write (fun _ => none) 0 Node.new, fresh := 1, root := 0,
    numnodes := 0, nsize := 0 }

/-- The member `size()`. -/
def Trie.size (s : Trie T) : Nat := s.nsize

/-- The member `getnumnodes()`. -/
def Trie.getnumnodes (s : Trie T) : Int := s.numnodes

/-- The member `find(key)`: the iterator's node, `none` for `end()`. -/
def Trie.find (s : Trie T) (key : Key) : Option (Option Nat) :=
  match _find s.heap (fuelOf key) s.root key 0 with
  | none => none
  | some none => some none
  | some (some p) =>
    match s.heap p with
    | none => none
    | some n => if n.hasValue = false then some none else some (some p)

/-- The member `insert(value_type(key, value))`: the new state, the node of the
returned iterator and the returned flag. -/
def Trie.insert [Inhabited T] (s : Trie T) (key : Key) (value : T) :
    Option (Trie T × Option Nat × Bool) :=
  match _findpartial s.heap (fuelOf key) s.root key 0 with
  | none => none
  | some pNode =>
    match s.heap pNode with
    | none => none
    | some n =>
      if n.getkey = key then
        if n.bInUse then
          some ({ s with nsize := s.nsize + 1 - 1 }, none, false)
        else
          some ({ s with nsize := s.nsize + 1,
                         heap := s.heap.write pNode (n.setvalue value) }, some pNode, true)
      else
        let pos := substrlength n.getkey key
        if pos = n.getkey.length then
          let pNewChildNode := s.fresh
          let child : Node T :=
            { (Node.new : Node T) with
              nodeKey := key, posNodeKeyStart := pos, parent := some pNode,
              value := value, bInUse := true }
          match addchild (s.heap.write pNewChildNode child) pNode pNewChildNode with
          | none => none
          | some h =>
            some ({ s with nsize := s.nsize + 1, numnodes := s.numnodes + 1,
                           fresh := s.fresh + 1, heap := h }, some pNode, true)
        else
          match n.parent with
          | none => none
          | some orig_parent =>
            let pNewParentNode := s.fresh
            let split : Node T :=
              { (Node.new : Node T) with
                parent := n.parent, nodeKey := n.getkey.take pos,
                posNodeKeyStart := n.posNodeKeyStart }
            match addchild (s.heap.write pNewParentNode split) orig_parent pNewParentNode with
            | none => none
            | some h1 =>
              let h2 := h1.write pNode
                { n with parent := some pNewParentNode, posNodeKeyStart := pos }
              match addchild h2 pNewParentNode pNode with
              | none => none
              | some h3 =>
                let pLeaf := s.fresh + 1
                let leaf : Node T :=
                  { (Node.new : Node T) with
                    parent := some pNewParentNode, value := value, bInUse := true,
                    nodeKey := key, posNodeKeyStart := pos }
                match addchild (h3.write pLeaf leaf) pNewParentNode pLeaf with
                | none => none
                | some h4 =>
                  some ({ s with nsize := s.nsize + 1, numnodes := s.numnodes + 2,
                                 fresh := s.fresh + 2, heap := h4 }, some pLeaf, true)

/-- The scan `for (tblidx = from; tblidx < RANGE; ++tblidx) if (table[tblidx]) break;`:
the index at which it stops, `RANGE` when no slot is occupied.  The first argument
counts the slots still to be looked at. -/
def scanTable (table : Nat → Option Nat) : Nat → Nat → Nat
  | 0, tblidx => tblidx
  | k + 1, tblidx => if (table tblidx).isSome then tblidx else scanTable table k (tblidx + 1)

/-- The loop of `erase` that walks upward from `pNode` and destroys every node that
has no child and no value; it returns the heap and `numnodes`. -/
def eraseLoop (fuel : Nat) (h : Heap T) (numnodes : Int) (pNode : Option Nat) :
    Option (Heap T × Int) :=
  match pNode with
  | none => some (h, numnodes)
  | some p =>
    match fuel with
    | 0 => none
    | fuel + 1 =>
      match h p with
      | none => none
      | some n =>
        let tblidx := scanTable n.table RANGE 0
        if RANGE = tblidx ∧ n.bInUse = false then
          let unlinked : Option (Heap T) :=
            match n.parent with
            | none => some h
            | some par =>
              match h par with
              | none => none
              | some pn => some (h.write par (pn.setTable n.gettableindex none))
          match unlinked with
          | none => none
          | some h1 => eraseLoop fuel (h1.free p) (numnodes - 1) n.parent
        else some (h, numnodes)

/-- The member `erase(k)`: the new state and the returned count. -/
def Trie.erase (s : Trie T) (k : Key) : Option (Trie T × Nat) :=
  match s.find k with
  | none => none
  | some none => some (s, 0)
  | some (some pNode) =>
    match s.heap pNode with
    | none => none
    | some n =>
      let h := s.heap.write pNode { n with bInUse := false }
      match eraseLoop (fuelOf k) h s.numnodes (some pNode) with
      | none => none
      | some (h1, numnodes) =>
        some ({ s with heap := h1, numnodes := numnodes, nsize := s.nsize - 1 }, 1)

/-- The member `next(current)`: one step of the depth-first walk; the result is the
next node or `NULL`. -/
def nextLoop (h : Heap T) : Nat → Option Nat → Nat → Option (Option Nat)
  | _, none, _ => some none
  | 0, some _, _ => none
  | fuel + 1, some pn, tblidx =>
    match h pn with
    | none => none
    | some n =>
      let i := scanTable n.table (RANGE - tblidx) tblidx
      if i < RANGE then some (n.table i)
      else
        match n.parent with
        | none => some none
        | some par => nextLoop h fuel (some par) (n.gettableindex + 1)

/-- The member `next(current)`. -/
def Trie.next (s : Trie T) (current : Option Nat) : Option (Option Nat) :=
  nextLoop s.heap (s.fresh + 1) current 0

/-- The loop `while (pNode && pNode->hasValue() == false) pNode = next(pNode);` of
the iterator's `operator++`. -/
def skipLoop (s : Trie T) : Nat → Option Nat → Option (Option Nat)
  | _, none => some none
  | 0, some _ => none
  | fuel + 1, some p =>
    match s.heap p with
    | none => none
    | some n =>
      if n.hasValue = false then
        match s.next (some p) with
        | none => none
        | some q => skipLoop s fuel q
      else some (some p)

/-- The loop `while (pNode->hasValue() == false) pNode = next(pNode);` of `begin()`,
which dereferences `pNode` without a null test. -/
def beginLoop (s : Trie T) : Nat → Option Nat → Option (Option Nat)
  | _, none => none
  | 0, some _ => none
  | fuel + 1, some p =>
    match s.heap p with
    | none => none
    | some n =>
      if n.hasValue = false then
        match s.next (some p) with
        | none => none
        | some q => beginLoop s fuel q
      else some (some p)

/-- The member `begin()`. -/
def Trie.begin (s : Trie T) : Option (Option Nat) :=
  match s.next (some s.root) with
  | none => none
  | some pNode => beginLoop s (s.fresh + 1) pNode

/-- The iterator's `operator++`. -/
def Trie.increment (s : Trie T) (pNode : Option Nat) : Option (Option Nat) :=
  match pNode with
  | none => some none
  | some p =>
    match s.next (some p) with
    | none => none
    | some q => skipLoop s (s.fresh + 1) q

/-- The iterator's `operator*`: the pair of the node's key and value. -/
def Trie.deref (s : Trie T) (pNode : Option Nat) : Option (Key × T) :=
  match pNode with
  | none => none
  | some p =>
    match s.heap p with
    | none => none
    | some n => some (n.getkey, n.getvalue)

/-- The member `operator[](k)`: the new state and the node whose value slot is
returned. -/
def Trie.index [Inhabited T] (s : Trie T) (k : Key) : Option (Trie T × Nat) :=
  match s.find k with
  | none => none
  | some (some i) => some (s, i)
  | some none =>
    match s.insert k default with
    | none => none
    | some (s1, _, _) =>
      match s1.find k with
      | none => none
      | some none => none
      | some (some it) => some (s1, it)

/-- The key "test". -/
def kTest : Key := [116, 101, 115, 116]

/-- The key "testing". -/
def kTesting : Key := [116, 101, 115, 116, 105, 110, 103]

/-- The key "te__ing". -/
def kTe__ing : Key := [116, 101, 95, 95, 105, 110, 103]

/-- The key "a". -/
def kA : Key := [97]

/-- The key "b". -/
def kB : Key := [98]

/-- Insert and keep the state only. -/
def Trie.insertS [Inhabited T] (s : Trie T) (key : Key) (value : T) : Option (Trie T) :=
  (s.insert key value).map (fun r => r.1)

/-- Erase and keep the state only. -/
def Trie.eraseS (s : Trie T) (k : Key) : Option (Trie T) :=
  (s.erase k).map (fun r => r.1)

/-- The loop of `iteratortest`: `while (it != eit) { ... (*it).first ...; ++it; }`,
collecting the keys it prints. -/
def collectKeys (s : Trie T) : Nat → Option Nat → Option (List Key)
  | _, none => some []
  | 0, some _ => none
  | fuel + 1, some p =>
    match s.deref (some p), s.increment (some p) with
    | some kv, some q => (collectKeys s fuel q).map (fun ks => kv.1 :: ks)
    | _, _ => none

/-- The keys produced by stepping from `begin()` to `end()`. -/
def Trie.keys (s : Trie T) : Option (List Key) :=
  match s.begin with
  | none => none
  | some it => collectKeys s (s.fresh + 1) it

/-- Insert the pairs one after the other, in the order of the list. -/
def insertAll [Inhabited T] (s : Trie T) : List (Key × T) → Option (Trie T)
  | [] => some s
  | kv :: rest =>
    match s.insert kv.1 kv.2 with
    | none => none
    | some r => insertAll r.1 rest

/-- Erase the keys one after the other, in the order of the list. -/
def eraseAll (s : Trie T) : List Key → Option (Trie T)
  | [] => some s
  | k :: rest =>
    match s.erase k with
    | none => none
    | some r => eraseAll r.1 rest

/-- The trie holding "testing" only. -/
def trieTesting : Option (Trie Int) := Trie.insertS Trie.new kTesting 1

/-- The trie after `insert("testing", 1)`, `insert("test", 2)`. -/
def trieTestingTest : Option (Trie Int) := trieTesting.bind (fun s => s.insertS kTest 2)

/-- The trie after `insert("a", 1)`, `erase("a")`. -/
def trieEmptied : Option (Trie Int) :=
  (Trie.insertS (Trie.new : Trie Int) kA 1).bind (fun s => s.eraseS kA)

/-- The trie after `insert("test", 1)`, `insert("testing", 2)`, `insert("te__ing", 3)`. -/
def trieScenario : Option (Trie Int) :=
  ((Trie.insertS (Trie.new : Trie Int) kTest 1).bind (fun s => s.insertS kTesting 2)).bind
    (fun s => s.insertS kTe__ing 3)

/-- The pair a `find` yields: the iterator dereferenced, `none` for `end()`. -/
def Trie.lookup (s : Trie T) (k : Key) : Option (Option (Key × T)) :=
  match s.find k with
  | none => none
  | some none => some none
  | some (some p) => (s.deref (some p)).map some

/-! ## Invariants -/

/-- The first byte of a node's own segment, `nodeKey[posNodeKeyStart]`. -/
def Node.first (n : Node T) : Nat := n.nodeKey.getD n.posNodeKeyStart 0

/-- Shape of the heap of a trie into which no key was inserted that ends inside an
existing segment: the root has the empty key; every other node has a live parent
whose full key is the node's key cut at the node's offset, a non-empty segment of
7-bit bytes, and sits in the parent's slot of its first segment byte; a table holds
only such children; no two nodes have the same full key. -/
structure WF (h : Heap T) (root : Nat) : Prop where
  root_live : ∃ r, h root = some r ∧ r.parent = none ∧ r.nodeKey = [] ∧ r.posNodeKeyStart = 0
  child : ∀ p n, h p = some n → p ≠ root →
    n.posNodeKeyStart < n.nodeKey.length ∧ (∀ b ∈ n.nodeKey, b < 128) ∧
    ∃ q pn, n.parent = some q ∧ h q = some pn ∧
      pn.nodeKey = n.nodeKey.take n.posNodeKeyStart ∧ pn.table n.first = some p
  slot : ∀ q pn i c, h q = some pn → pn.table i = some c →
    c ≠ root ∧ ∃ n, h c = some n ∧ n.parent = some q ∧ n.first = i
  inj : ∀ p q n m, h p = some n → h q = some m → n.nodeKey = m.nodeKey → p = q

/-- The invariant of the trie `s` storing exactly the keys `S`, with `L` the
addresses of its live nodes. -/
structure Inv (s : Trie T) (S : List Key) (L : List Nat) : Prop where
  wf : WF s.heap s.root
  live : ∀ p, p ∈ L ↔ s.heap p ≠ none
  nodupL : L.Nodup
  bound : ∀ p ∈ L, p < s.fresh
  count : s.numnodes + 1 = L.length
  prune : ∀ p n, s.heap p = some n → p ≠ s.root → (∀ i, n.table i = none) → n.bInUse = true
  stored : ∀ k, k ∈ S ↔ ∃ p n, s.heap p = some n ∧ n.bInUse = true ∧ n.nodeKey = k
  nodupS : S.Nodup
  size : s.nsize = S.length

/-- Every node other than the root carries a prefix of a stored key. -/
def Covered (s : Trie T) (S : List Key) : Prop :=
  ∀ p n, s.heap p = some n → p ≠ s.root → ∃ k ∈ S, n.nodeKey <+: k

/-- The state left by the `erase` that removed the last key: every node, the root
included, is destroyed, and `numnodes` is -1. -/
def Dead (s : Trie T) : Prop :=
  (∀ p, s.heap p = none) ∧ s.numnodes = -1 ∧ s.nsize = 0

/-- The invariant inside the pruning loop of `erase`, which is at the node `x`: as
`Inv`, except that `x` may be a childless node without a value. -/
structure InvAt (h : Heap T) (root : Nat) (numnodes : Int) (S : List Key) (L : List Nat)
    (x : Nat) : Prop where
  wf : WF h root
  live : ∀ p, p ∈ L ↔ h p ≠ none
  nodupL : L.Nodup
  count : numnodes + 1 = L.length
  prune : ∀ p n, h p = some n → p ≠ root → p ≠ x → (∀ i, n.table i = none) → n.bInUse = true
  stored : ∀ k, k ∈ S ↔ ∃ p n, h p = some n ∧ n.bInUse = true ∧ n.nodeKey = k

/-- The leaf that `insert` creates for `key` below the node at `par`. -/
def leafNode [Inhabited T] (key : Key) (pos : Nat) (par : Nat) (value : T) : Node T :=
  { (Node.new : Node T) with
    nodeKey := key, posNodeKeyStart := pos, parent := some par, value := value, bInUse := true }

/-- The split node that `insert` puts in the place of the node `n`. -/
def splitNode [Inhabited T] (n : Node T) (pos : Nat) : Node T :=
  { (Node.new : Node T) with
    parent := n.parent, nodeKey := n.getkey.take pos, posNodeKeyStart := n.posNodeKeyStart }

/-- The node `n` after `insert` has hung it below the split node at `par`. -/
def movedNode (n : Node T) (par pos : Nat) : Node T :=
  { n with parent := some par, posNodeKeyStart := pos }

/-- The heap after `insert` has split the edge above the node `an` at `a`, whose
parent is the node `qn` at `q`: the writes of `insert` in their order. -/
def splitHeap [Inhabited T] (h : Heap T) (fresh a q : Nat) (an qn : Node T) (key : Key)
    (v : T) : Heap T :=
  let pos := matchlen an.nodeKey key
  let an2 : Node T := movedNode an fresh pos
  let sp1 := (splitNode an pos).setTable an2.gettableindex (some a)
  ((((((h.write fresh (splitNode an pos)).write q
    (qn.setTable (splitNode an pos).gettableindex (some fresh))).write a an2).write fresh
    sp1).write (fresh + 1) (leafNode key pos fresh v)).write fresh
    (sp1.setTable (leafNode key pos fresh v).gettableindex (some (fresh + 1))))

/-! ## Further members, and runs of calls -/

/-- The member `empty()`: `return nsize != 0;`. -/
def Trie.empty (s : Trie T) : Bool := s.nsize != 0

/-- The loop `for (i = 0; i < RANGE; ++i) delete table[i];` of the node destructor,
with `del` the effect of `delete` on a node; `delete` of `NULL` does nothing.  The
first argument counts the slots still to be looked at. -/
def destroyTable (del : Heap T → Nat → Option (Heap T)) (table : Nat → Option Nat) :
    Nat → Nat → Heap T → Option (Heap T)
  | 0, _, h => some h
  | k + 1, i, h =>
    match table i with
    | none => destroyTable del table k (i + 1) h
    | some c =>
      match del h c with
      | none => none
      | some h1 => destroyTable del table k (i + 1) h1

/-- The effect of `delete` on the node at `p`: the destructor `~stringtrie_node()`
deletes every table entry, then the node itself is released. -/
def destroy (h : Heap T) : Nat → Nat → Option (Heap T)
  | 0, _ => none
  | fuel + 1, p =>
    match h p with
    | none => none
    | some n =>
      (destroyTable (fun h1 c => destroy h1 fuel c) n.table RANGE 0 h).map
        (fun h1 => h1.free p)

/-- The loop of `clear()`:
`if (root->table[i]) { delete root->table[i]; root->table[i] = NULL; }`. -/
def clearLoop (root fuel : Nat) : Nat → Nat → Heap T → Option (Heap T)
  | 0, _, h => some h
  | k + 1, i, h =>
    match h root with
    | none => none
    | some r =>
      match r.table i with
      | none => clearLoop root fuel k (i + 1) h
      | some c =>
        match destroy h fuel c with
        | none => none
        | some h1 =>
          match h1 root with
          | none => none
          | some r1 => clearLoop root fuel k (i + 1) (h1.write root (r1.setTable i none))

/-- The member `clear()`; it assigns neither `nsize` nor `numnodes`. -/
def Trie.clear (s : Trie T) : Option (Trie T) :=
  (clearLoop s.root (s.fresh + 1) RANGE 0 s.heap).map (fun h => { s with heap := h })

/-- A call of `insert`, `erase` or `operator[]`. -/
inductive Op (T : Type) where
  | insert (k : Key) (v : T)
  | erase (k : Key)
  | index (k : Key)

/-- The key a call is made with. -/
def Op.key : Op T → Key
  | .insert k _ => k
  | .erase k => k
  | .index k => k

/-- One call: the new state, and whether `insert` returned `inserted = true`,
respectively whether `erase` returned 1. -/
def Trie.step [Inhabited T] (s : Trie T) : Op T → Option (Trie T × Bool × Bool)
  | .insert k v => (s.insert k v).map (fun r => (r.1, r.2.2, false))
  | .erase k => (s.erase k).map (fun r => (r.1, false, r.2 == 1))
  | .index k => (s.index k).map (fun r => (r.1, false, false))

/-- A sequence of calls, made one after the other: the final state, the number of
`insert` calls that returned `inserted = true` and the number of `erase` calls that
returned 1. -/
def run [Inhabited T] (s : Trie T) : List (Op T) → Option (Trie T × Nat × Nat)
  | [] => some (s, 0, 0)
  | op :: rest =>
    match s.step op with
    | none => none
    | some (s1, i, e) =>
      match run s1 rest with
      | none => none
      | some (s2, ni, ne) => some (s2, ni + i.toNat, ne + e.toNat)

/-- Whether the node at an address is live and holds a value. -/
def valueAt (h : Heap T) (p : Nat) : Bool :=
  match h p with
  | some n => n.hasValue
  | none => false

/-- The number of live nodes with `hasValue() == true`; every address handed out is
below `fresh`. -/
def Trie.valueNodes (s : Trie T) : Nat := ((List.range s.fresh).filter (valueAt s.heap)).length

/-- The segment of a node: its full key from its offset on. -/
def Node.segment (n : Node T) : Key := n.nodeKey.drop n.posNodeKeyStart

/-- Whether the node has no occupied table slot. -/
def Node.childless (n : Node T) : Prop := ∀ i, i < RANGE → n.table i = none

/-- The key "a\0b". -/
def kA0B : Key := [97, 0, 98]

/-- The trie holding "a" only. -/
def trieA : Option (Trie Int) := Trie.insertS Trie.new kA 1

/-- The trie after `insert("a\0b", 1)`, `insert("a", 2)`. -/
def trieA0BA : Option (Trie Int) :=
  (Trie.insertS (Trie.new : Trie Int) kA0B 1).bind (fun s => s.insertS kA 2)

/-- The allocator's bookkeeping: the root and every parent pointer of a live node are
addresses handed out before, and no node lives at an address not yet handed out. -/
structure Alloc (s : Trie T) : Prop where
  root : s.root < s.fresh
  dead : ∀ p, s.fresh ≤ p → s.heap p = none
  parent : ∀ p n q, s.heap p = some n → n.parent = some q → q < s.fresh

/-- Whether a call is a call of `operator[]`. -/
def Op.isIndex : Op T → Bool
  | .index _ => true
  | _ => false

/-- What holds of the state after any sequence of calls, whatever the keys: the
allocator's bookkeeping, `nsize` is the number of live nodes holding a value, the
root (while it lives) has the empty key and no parent, and every childless node
other than the root holds a value. -/
structure Basic (s : Trie T) : Prop where
  alloc : Alloc s
  size : s.nsize = s.valueNodes
  rootKey : ∀ r, s.heap s.root = some r → r.nodeKey = [] ∧ r.parent = none
  prune : ∀ p n, s.heap p = some n → p ≠ s.root → n.childless → n.bInUse = true

/-- The root, while it lives, holds no value. -/
def RootPlain (s : Trie T) : Prop := ∀ r, s.heap s.root = some r → r.bInUse = false

/-- The calls `insert("a", 1)`, `insert("b", 2)`, `erase("a")`, `insert("b", 3)`. -/
def opsAB : List (Op Int) := [.insert kA 1, .insert kB 2, .erase kA, .insert kB 3]

/-- The calls `insert("testing", 1)`, `operator[]("te__ing")`, `insert("test", 2)`,
`erase("testing")`. -/
def opsTest : List (Op Int) :=
  [.insert kTesting 1, .index kTe__ing, .insert kTest 2, .erase kTesting]

/-- Shape of the heap after calls with 7-bit keys, while the root lives.  The root has
the empty key.  Every other node has an offset within its key, a key of 7-bit bytes,
and a live parent whose full key is the node's key cut at the node's offset (`link`).
A table holds only live nodes whose parent is the table's node, each in the slot of
its index (`slot`).  A node with an empty segment holds a value and sits in slot 0 of
a parent that has a non-empty segment (`ghost`).  The slot that a node's index names
in its parent's table holds the node itself or a node with an empty segment
(`held`). -/
structure Shape (h : Heap T) (root : Nat) : Prop where
  root_live : ∃ r, h root = some r ∧ r.nodeKey = [] ∧ r.posNodeKeyStart = 0 ∧ r.parent = none
  link : ∀ p n, h p = some n → p ≠ root →
    n.posNodeKeyStart ≤ n.nodeKey.length ∧ (∀ b ∈ n.nodeKey, b < 128) ∧
    ∃ q qn, n.parent = some q ∧ h q = some qn ∧
      qn.nodeKey = n.nodeKey.take n.posNodeKeyStart
  slot : ∀ q qn i c, h q = some qn → qn.table i = some c →
    c ≠ root ∧ ∃ cn, h c = some cn ∧ cn.parent = some q ∧ cn.gettableindex = i
  ghost : ∀ p n, h p = some n → p ≠ root → n.posNodeKeyStart = n.nodeKey.length →
    n.bInUse = true ∧ ∃ q qn, n.parent = some q ∧ h q = some qn ∧ qn.table 0 = some p ∧
      qn.posNodeKeyStart < qn.nodeKey.length
  held : ∀ p n q qn, h p = some n → p ≠ root → n.parent = some q → h q = some qn →
    qn.table n.gettableindex = some p ∨
    ∃ g gn, qn.table n.gettableindex = some g ∧ h g = some gn ∧
      gn.posNodeKeyStart = gn.nodeKey.length

/-- The nodes `up` lead from the node `x` upward to the node `top`: each node is
registered in the table of its parent, which is the next one. -/
def Chain (h : Heap T) (top : Nat) : Nat → List Nat → Prop
  | x, [] => x = top
  | x, q :: rest =>
    (∃ xn qn, h x = some xn ∧ xn.parent = some q ∧ h q = some qn ∧
      qn.table xn.gettableindex = some x) ∧ Chain h top q rest

/-- The nodes `l` lead from the node `p` downward to the node `x`: each node sits in
a slot of the table of the one before. -/
def IsPath (h : Heap T) : Nat → List Nat → Nat → Prop
  | p, [], x => x = p
  | p, c :: rest, x =>
    (∃ pn i, h p = some pn ∧ i < RANGE ∧ pn.table i = some c) ∧ IsPath h c rest x

/-- The segments of the listed nodes, one after the other. -/
def segmentsOf (h : Heap T) (l : List Nat) : Key :=
  (l.map fun p => match h p with
    | some n => n.segment
    | none => []).flatten

/-- The calls `insert("a\0b", 1)`, `insert("a", 2)`, `insert("test", 3)`,
`insert("testing", 4)`, `erase("test")`. -/
def opsA0B : List (Op Int) :=
  [.insert kA0B 1, .insert kA 2, .insert kTest 3, .insert kTesting 4, .erase kTest]

/-- The calls `insert("a\x80", 1)`, `insert("a\x81", 2)`, `insert("a\0", 3)`,
`erase("a\0")`, with the bytes 128 and 129. -/
def opsHigh : List (Op Int) :=
  [.insert [97, 128] 1, .insert [97, 129] 2, .insert [97, 0] 3, .erase [97, 0]]

/-- How the heap `h` inside the loop of `erase` relates to the heap `h0` the loop
started with: no node has come to life; a node still live has kept its parent and
its index; and a slot that was occupied and is empty now, or belongs to a node
destroyed by now, is the slot of a destroyed node whose parent is the slot's node. -/
def Pruned (h0 h : Heap T) : Prop :=
  (∀ p, h0 p = none → h p = none) ∧
  ∀ p n, h0 p = some n →
    (h p = none → ∀ i, i < RANGE → n.table i ≠ none →
      ∃ y yn, h0 y = some yn ∧ h y = none ∧ yn.parent = some p ∧ yn.gettableindex = i) ∧
    (∀ n2, h p = some n2 → n2.parent = n.parent ∧ n2.gettableindex = n.gettableindex ∧
      ∀ i, i < RANGE → n.table i ≠ none → n2.table i = none →
        ∃ y yn, h0 y = some yn ∧ h y = none ∧ yn.parent = some p ∧ yn.gettableindex = i)

/-- The key "test\0x". -/
def kTest0X : Key := [116, 101, 115, 116, 0, 120]

/-- The member `_find(key, pos)` of the node at `self` together with the reads of
`table[key[pos]]` that the call makes, in their order: for each read the node whose
table is read, the position `pos` and the index `key[pos]`.  This is `_find` with the
reads recorded; like `_find` it is undefined at a destroyed node, at an index
outside the table and without fuel. -/
def findReads (h : Heap T) :
    Nat → Nat → Key → Nat → Option (Option Nat × List (Nat × Nat × Nat))
  | 0, _, _, _ => none
  | fuel + 1, self, key, pos =>
    match h self with
    | none => none
    | some n =>
      let m := matchlen (n.nodeKey.drop n.posNodeKeyStart) (key.drop pos)
      let posPartialKey := n.posNodeKeyStart + m
      let pos := pos + m
      if pos = key.length ∧ posPartialKey = n.nodeKey.length then some (some self, [])
      else if posPartialKey < n.nodeKey.length then some (none, [])
      else
        match n.tableAt (key.getD pos 0) with
        | none => none
        | some none => some (none, [(self, pos, key.getD pos 0)])
        | some (some t) =>
          (findReads h fuel t key pos).map fun r => (r.1, (self, pos, key.getD pos 0) :: r.2)

/-- The member `_findpartial(key, pos)` of the node at `self` together with the reads
of `table[key[pos]]` that the call makes, recorded as by `findReads`. -/
def findpartialReads (h : Heap T) :
    Nat → Nat → Key → Nat → Option (Nat × List (Nat × Nat × Nat))
  | 0, _, _, _ => none
  | fuel + 1, self, key, pos =>
    match h self with
    | none => none
    | some n =>
      let m := matchlen (n.nodeKey.drop n.posNodeKeyStart) (key.drop pos)
      let posPartialKey := n.posNodeKeyStart + m
      let pos := pos + m
      if pos = key.length ∧ posPartialKey = n.nodeKey.length then some (self, [])
      else if posPartialKey < n.nodeKey.length then some (self, [])
      else
        match n.tableAt (key.getD pos 0) with
        | none => none
        | some none => some (self, [(self, pos, key.getD pos 0)])
        | some (some t) =>
          (findpartialReads h fuel t key pos).map fun r =>
            (r.1, (self, pos, key.getD pos 0) :: r.2)

/-- The calls `insert("testing", 1)`, `insert("test", 2)`, `insert("te__ing", 3)`,
`erase("testing")`. -/
def opsSplit : List (Op Int) :=
  [.insert kTesting 1, .insert kTest 2, .insert kTe__ing 3, .erase kTesting]

/-- The table of a node with an empty segment, other than the root, is occupied in
slot 0 at most. -/
def GhostSlot (h : Heap T) (root : Nat) : Prop :=
  ∀ p n i c, h p = some n → p ≠ root → n.posNodeKeyStart = n.nodeKey.length →
    n.table i = some c → i = 0

/-- The trie after `insert("test", 1)`, `insert("te__ing", 2)`. -/
def trieTestTe : Option (Trie Int) :=
  (Trie.insertS (Trie.new : Trie Int) kTest 1).bind (fun s => s.insertS kTe__ing 2)

/-- The key "te". -/
def kTe : Key := [116, 101]

/-- The calls `insert("test", 1)`, `insert("te__ing", 2)`. -/
def opsTestTe : List (Op Int) := [.insert kTest 1, .insert kTe__ing 2]

/-- The trie after `insert("a\x80b", 1)`, `insert("a\x80c", 2)`, `insert("a\x81", 3)`,
with the bytes 128 and 129. -/
def trieHigh : Option (Trie Int) :=
  insertAll Trie.new [([97, 128, 98], 1), ([97, 128, 99], 2), ([97, 129], 3)]

/-- The trie after `insert("ab\0c", 1)`, `insert("ab\0d", 2)`, `insert("ab", 3)`. -/
def trieDetached : Option (Trie Int) :=
  insertAll Trie.new [([97, 98, 0, 99], 1), ([97, 98, 0, 100], 2), ([97, 98], 3)]

/-- The order in which the walk of `next` meets two nodes, read off the nodes: the
key of the first is smaller in lexicographic byte order, or the keys are equal and
the first has the smaller offset (a node and the leaf with an empty segment below
it). -/
def Node.before (n m : Node T) : Prop :=
  List.Lex (fun a b : Nat => a < b) n.nodeKey m.nodeKey ∨
    (n.nodeKey = m.nodeKey ∧ n.posNodeKeyStart < m.posNodeKeyStart)

instance Node.decBefore (n m : Node T) : Decidable (n.before m) := by
  unfold Node.before
  infer_instance

/-- The length of a node's key plus its offset; it falls from a node to its parent. -/
def Node.weight (n : Node T) : Nat := n.nodeKey.length + n.posNodeKeyStart

/-- The number of live nodes at the addresses below `N` that satisfy `P`. -/
def countLive (h : Heap T) (N : Nat) (P : Node T → Bool) : Nat :=
  ((List.range N).filter fun q =>
    match h q with
    | some m => P m
    | none => false).length

/-- What calls with distinct keys free of the byte 0 keep, `S` being the keys inserted
so far: no key of a node has the byte 0, and a node with an empty segment has a key
that was inserted and a parent that holds no value. -/
structure Tidy (h : Heap T) (root : Nat) (S : List Key) : Prop where
  bytes : ∀ p n, h p = some n → ∀ b ∈ n.nodeKey, b ≠ 0
  ghostKey : ∀ g gn, h g = some gn → g ≠ root →
    gn.posNodeKeyStart = gn.nodeKey.length → gn.nodeKey ∈ S
  ghostPar : ∀ g gn q qn, h g = some gn → g ≠ root →
    gn.posNodeKeyStart = gn.nodeKey.length → gn.parent = some q → h q = some qn →
    qn.bInUse = false

/-- The keys of the calls of `insert` in a sequence of calls, in their order. -/
def insertedKeys : List (Op T) → List Key
  | [] => []
  | .insert k _ :: rest => k :: insertedKeys rest
  | _ :: rest => insertedKeys rest
/-- The calls `insert("testing", 1)`, `insert("b", 2)`, `insert("test", 3)`,
`insert("a", 4)`, `insert("te__ing", 5)`, `erase("b")`. -/
def opsOrder : List (Op Int) :=
  [.insert kTesting 1, .insert kB 2, .insert kTest 3, .insert kA 4, .insert kTe__ing 5,
    .erase kB]

/-- The calls `insert("a", 1)`, `insert("testing", 2)`, `insert("te__ing", 3)`,
`erase("testing")`. -/
def opsPrune : List (Op Int) :=
  [.insert kA 1, .insert kTesting 2, .insert kTe__ing 3, .erase kTesting]

/-! ## The comparison loop -/

theorem matchlen_le_left (a b : Key) : matchlen a b ≤ a.length := by
  induction a generalizing b with
  | nil => simp [matchlen]
  | cons x a ih =>
    cases b with
    | nil => simp [matchlen]
    | cons y b =>
      simp only [matchlen]
      split
      · omega
      · have := ih b
        simp only [List.length_cons]
        omega

theorem matchlen_le_right (a b : Key) : matchlen a b ≤ b.length := by
  induction a generalizing b with
  | nil => simp [matchlen]
  | cons x a ih =>
    cases b with
    | nil => simp [matchlen]
    | cons y b =>
      simp only [matchlen]
      split
      · omega
      · have := ih b
        simp only [List.length_cons]
        omega

theorem matchlen_take (a b : Key) : a.take (matchlen a b) = b.take (matchlen a b) := by
  induction a generalizing b with
  | nil => simp [matchlen]
  | cons x a ih =>
    cases b with
    | nil => simp [matchlen]
    | cons y b =>
      simp only [matchlen]
      split
      · simp
      · rename_i hxy
        have hxy' : x = y := by simpa using hxy
        simp [hxy', ih b]

theorem matchlen_getD_ne (a b : Key) (h1 : matchlen a b < a.length)
    (h2 : matchlen a b < b.length) :
    a.getD (matchlen a b) 0 ≠ b.getD (matchlen a b) 0 := by
  induction a generalizing b with
  | nil => simp at h1
  | cons x a ih =>
    cases b with
    | nil => simp at h2
    | cons y b =>
      simp only [matchlen] at h1 h2 ⊢
      split
      · rename_i hxy
        simpa using hxy
      · rename_i hxy
        rw [if_neg hxy] at h1 h2
        simp only [List.length_cons, Nat.add_lt_add_iff_right] at h1 h2
        simpa using ih b h1 h2

theorem matchlen_of_take_eq (a b : Key) (i : Nat) (hi : i ≤ a.length) (hj : i ≤ b.length)
    (h : a.take i = b.take i) :
    matchlen a b = i + matchlen (a.drop i) (b.drop i) := by
  induction i generalizing a b with
  | zero => simp
  | succ i ih =>
    cases a with
    | nil => simp at hi
    | cons x a =>
      cases b with
      | nil => simp at hj
      | cons y b =>
        simp only [List.take_succ_cons, List.cons.injEq] at h
        simp only [List.length_cons, Nat.add_le_add_iff_right] at hi hj
        simp only [matchlen, List.drop_succ_cons]
        have hxy : ¬ (x ≠ y) := by simp [h.1]
        rw [if_neg hxy, ih a b hi hj h.2]
        omega

theorem matchlen_prefix_length (a b : Key) (h : a <+: b) : matchlen a b = a.length := by
  obtain ⟨t, rfl⟩ := h
  induction a with
  | nil => simp [matchlen]
  | cons x a ih => simp [matchlen, ih]

theorem prefix_of_matchlen_eq (a b : Key) (h : matchlen a b = a.length) : a <+: b := by
  have := matchlen_take a b
  rw [h, List.take_length] at this
  rw [this]
  exact List.take_prefix _ _

theorem matchlen_self (a : Key) : matchlen a a = a.length :=
  matchlen_prefix_length a a (List.prefix_refl a)

/-! ## The heap and well-formed nodes -/

@[simp] theorem Heap.write_same (h : Heap T) (p : Nat) (n : Node T) : h.write p n p = some n := by
  simp [Heap.write]

theorem Heap.write_other (h : Heap T) (p q : Nat) (n : Node T) (hq : q ≠ p) :
    h.write p n q = h q := by
  simp [Heap.write, hq]

@[simp] theorem Heap.free_same (h : Heap T) (p : Nat) : h.free p p = none := by
  simp [Heap.free]

theorem Heap.free_other (h : Heap T) (p q : Nat) (hq : q ≠ p) : h.free p q = h q := by
  simp [Heap.free, hq]

theorem and_mask (x : Nat) (hx : x < 128) : x &&& RANGE_MASK = x := by
  have : RANGE_MASK = 2 ^ 7 - 1 := by decide
  rw [this, Nat.and_pow_two_sub_one_eq_mod]
  exact Nat.mod_eq_of_lt hx

theorem getD_mem_or (k : Key) (i : Nat) (hi : i < k.length) : k.getD i 0 ∈ k := by
  rw [List.getD_eq_getElem _ _ hi]
  exact List.getElem_mem hi

theorem WF.ks_le {h : Heap T} {root : Nat} (hw : WF h root) {p : Nat} {n : Node T}
    (hp : h p = some n) : n.posNodeKeyStart ≤ n.nodeKey.length := by
  by_cases hr : p = root
  · obtain ⟨r, hr1, _, hr3, hr4⟩ := hw.root_live
    subst hr
    rw [hp] at hr1
    cases hr1
    simp [hr3, hr4]
  · exact Nat.le_of_lt (hw.child p n hp hr).1

theorem WF.first_lt {h : Heap T} {root : Nat} (hw : WF h root) {p : Nat} {n : Node T}
    (hp : h p = some n) (hr : p ≠ root) : n.first < 128 := by
  obtain ⟨h1, h2, _⟩ := hw.child p n hp hr
  exact h2 _ (getD_mem_or _ _ h1)

theorem WF.index_eq {h : Heap T} {root : Nat} (hw : WF h root) {p : Nat} {n : Node T}
    (hp : h p = some n) (hr : p ≠ root) : n.gettableindex = n.first :=
  and_mask _ (hw.first_lt hp hr)

/-- Length of the parent's key. -/
theorem WF.parent_len {h : Heap T} {root : Nat} (hw : WF h root) {p q : Nat} {n pn : Node T}
    (hp : h p = some n) (hr : p ≠ root) (hq : n.parent = some q) (hqn : h q = some pn) :
    pn.nodeKey = n.nodeKey.take n.posNodeKeyStart ∧ pn.nodeKey.length = n.posNodeKeyStart ∧
      pn.table n.first = some p := by
  obtain ⟨h1, _, q', pn', hq', hqn', hk, ht⟩ := hw.child p n hp hr
  rw [hq] at hq'
  cases hq'
  rw [hqn] at hqn'
  cases hqn'
  refine ⟨hk, ?_, ht⟩
  rw [hk, List.length_take]
  omega

/-! ## The two searches -/

theorem take_of_take_succ {a b : Key} {i j : Nat} (h : a.take j = b.take j) (hij : i ≤ j) :
    a.take i = b.take i := by
  have := congrArg (List.take i) h
  simpa [List.take_take, Nat.min_eq_left hij] using this

theorem getD_of_take_succ {a b : Key} {i : Nat} (h : a.take (i + 1) = b.take (i + 1)) :
    a.getD i 0 = b.getD i 0 := by
  have := congrArg (fun l => l.getD i 0) h
  simpa [List.getD_eq_getElem?_getD, List.getElem?_take] using this

theorem length_of_take_succ {a b : Key} {i : Nat} (h : a.take (i + 1) = b.take (i + 1))
    (hi : i < a.length) : i < b.length := by
  have := congrArg List.length h
  simp only [List.length_take] at this
  omega

/-- The comparison loop at a node whose whole key is a prefix of the search key. -/
theorem matchlen_segment {a key : Key} {i : Nat} (hi : i ≤ a.length) (h : a <+: key) :
    i + matchlen (a.drop i) (key.drop i) = a.length := by
  have h1 : a.take i = key.take i := by
    obtain ⟨t, rfl⟩ := h
    rw [List.take_append_of_le_length hi]
  have h2 := matchlen_of_take_eq a key i hi (le_trans hi h.length_le) h1
  rw [← h2]
  exact matchlen_prefix_length a key h

theorem prefix_of_take_eq {a key : Key} {i : Nat} (h : a = key.take i) : a <+: key := by
  rw [h]; exact List.take_prefix _ _

/-- One level of descent of `_find`: from the parent to the child on the key's path. -/
theorem find_step {h : Heap T} {root : Nat} (hw : WF h root) {p q : Nat} {n qn : Node T}
    (hp : h p = some n) (hr : p ≠ root) (hq : n.parent = some q) (hqn : h q = some qn)
    (key : Key)
    (hkey : n.nodeKey.take (n.posNodeKeyStart + 1) = key.take (n.posNodeKeyStart + 1))
    (f : Nat) :
    _find h (f + 1) q key qn.posNodeKeyStart = _find h f p key n.posNodeKeyStart := by
  obtain ⟨hk, hlen, ht⟩ := hw.parent_len hp hr hq hqn
  have hlt := (hw.child p n hp hr).1
  have hkl := length_of_take_succ hkey hlt
  have hpre : qn.nodeKey <+: key := by
    rw [hk, take_of_take_succ hkey (Nat.le_succ _)]
    exact List.take_prefix _ _
  have hm := matchlen_segment (hw.ks_le hqn) hpre
  have hfirst : key.getD n.posNodeKeyStart 0 = n.first := (getD_of_take_succ hkey).symm
  have hf128 := hw.first_lt hp hr
  simp only [_find, hqn, hm, hlen]
  rw [if_neg (by omega), if_neg (by omega), hfirst]
  simp [Node.tableAt, hf128, RANGE, ht]

/-- One level of descent of `_findpartial`. -/
theorem findpartial_step {h : Heap T} {root : Nat} (hw : WF h root) {p q : Nat}
    {n qn : Node T}
    (hp : h p = some n) (hr : p ≠ root) (hq : n.parent = some q) (hqn : h q = some qn)
    (key : Key)
    (hkey : n.nodeKey.take (n.posNodeKeyStart + 1) = key.take (n.posNodeKeyStart + 1))
    (f : Nat) :
    _findpartial h (f + 1) q key qn.posNodeKeyStart
      = _findpartial h f p key n.posNodeKeyStart := by
  obtain ⟨hk, hlen, ht⟩ := hw.parent_len hp hr hq hqn
  have hlt := (hw.child p n hp hr).1
  have hkl := length_of_take_succ hkey hlt
  have hpre : qn.nodeKey <+: key := by
    rw [hk, take_of_take_succ hkey (Nat.le_succ _)]
    exact List.take_prefix _ _
  have hm := matchlen_segment (hw.ks_le hqn) hpre
  have hfirst : key.getD n.posNodeKeyStart 0 = n.first := (getD_of_take_succ hkey).symm
  have hf128 := hw.first_lt hp hr
  simp only [ _findpartial, hqn, hm, hlen]
  rw [if_neg (by omega), if_neg (by omega), hfirst]
  simp [Node.tableAt, hf128, RANGE, ht]

theorem find_mono {h : Heap T} {key : Key} :
    ∀ (f f' : Nat) (p pos : Nat) (r : Option Nat), _find h f p key pos = some r → f ≤ f' →
      _find h f' p key pos = some r := by
  intro f
  induction f with
  | zero => intro f' p pos r hr; simp [_find] at hr
  | succ f ih =>
    intro f' p pos r hr hle
    obtain ⟨g, rfl⟩ : ∃ g, f' = g + 1 := ⟨f' - 1, by omega⟩
    simp only [_find] at hr ⊢
    cases hn : h p with
    | none => simp [hn] at hr
    | some n =>
      simp only [hn] at hr ⊢
      split
      · rename_i hc; rw [if_pos hc] at hr; exact hr
      · rename_i hc
        rw [if_neg hc] at hr
        split
        · rename_i hc2; rw [if_pos hc2] at hr; exact hr
        · rename_i hc2
          rw [if_neg hc2] at hr
          cases ht : n.tableAt (key.getD (pos + matchlen (List.drop n.posNodeKeyStart n.nodeKey) (List.drop pos key)) 0) with
          | none => simp only [ht] at hr; cases hr
          | some o =>
            cases o with
            | none => simp only [ht] at hr ⊢; exact hr
            | some t =>
              simp only [ht] at hr ⊢
              exact ih g t _ r hr (by omega)

theorem findpartial_mono {h : Heap T} {key : Key} :
    ∀ (f f' : Nat) (p pos : Nat) (r : Nat), _findpartial h f p key pos = some r → f ≤ f' →
      _findpartial h f' p key pos = some r := by
  intro f
  induction f with
  | zero => intro f' p pos r hr; simp [ _findpartial] at hr
  | succ f ih =>
    intro f' p pos r hr hle
    obtain ⟨g, rfl⟩ : ∃ g, f' = g + 1 := ⟨f' - 1, by omega⟩
    simp only [ _findpartial] at hr ⊢
    cases hn : h p with
    | none => simp [hn] at hr
    | some n =>
      simp only [hn] at hr ⊢
      split
      · rename_i hc; rw [if_pos hc] at hr; exact hr
      · rename_i hc
        rw [if_neg hc] at hr
        split
        · rename_i hc2; rw [if_pos hc2] at hr; exact hr
        · rename_i hc2
          rw [if_neg hc2] at hr
          cases ht : n.tableAt (key.getD (pos + matchlen (List.drop n.posNodeKeyStart n.nodeKey) (List.drop pos key)) 0) with
          | none => simp only [ht] at hr; cases hr
          | some o =>
            cases o with
            | none => simp only [ht] at hr ⊢; exact hr
            | some t =>
              simp only [ht] at hr ⊢
              exact ih g t _ r hr (by omega)

theorem WF.root_rec {h : Heap T} {root : Nat} (hw : WF h root) {n : Node T}
    (hn : h root = some n) : n.parent = none ∧ n.nodeKey = [] ∧ n.posNodeKeyStart = 0 := by
  obtain ⟨r, hr1, hr2, hr3, hr4⟩ := hw.root_live
  rw [hn] at hr1
  cases hr1
  exact ⟨hr2, hr3, hr4⟩

/-- A search that passes through a node passes through all its ancestors. -/
theorem find_chain {h : Heap T} {root : Nat} (hw : WF h root) (key : Key) :
    ∀ (k : Nat) (p : Nat) (n : Node T), h p = some n → p ≠ root → n.posNodeKeyStart = k →
      n.nodeKey.take (n.posNodeKeyStart + 1) = key.take (n.posNodeKeyStart + 1) →
      ∀ (f : Nat) (r : Option Nat), _find h f p key n.posNodeKeyStart = some r →
        _find h (f + n.posNodeKeyStart + 1) root key 0 = some r := by
  intro k
  induction k using Nat.strong_induction_on with
  | _ k ih =>
    intro p n hp hr hk hkey f r hres
    obtain ⟨hlt, _, q, qn, hq, hqn, hqk, _⟩ := hw.child p n hp hr
    have hstep := find_step hw hp hr hq hqn key hkey f
    rw [hres] at hstep
    by_cases hqr : q = root
    · subst hqr
      rw [(hw.root_rec hqn).2.2] at hstep
      exact find_mono _ _ _ _ _ hstep (by omega)
    · have hqlen : qn.nodeKey.length = n.posNodeKeyStart := (hw.parent_len hp hr hq hqn).2.1
      have hqlt := (hw.child q qn hqn hqr).1
      have hkey' : qn.nodeKey.take (qn.posNodeKeyStart + 1)
          = key.take (qn.posNodeKeyStart + 1) := by
        rw [hqk, List.take_take, Nat.min_eq_left (by omega)]
        exact take_of_take_succ hkey (by omega)
      have := ih qn.posNodeKeyStart (by omega) q qn hqn hqr rfl hkey' (f + 1) r hstep
      exact find_mono _ _ _ _ _ this (by omega)

theorem findpartial_chain {h : Heap T} {root : Nat} (hw : WF h root) (key : Key) :
    ∀ (k : Nat) (p : Nat) (n : Node T), h p = some n → p ≠ root → n.posNodeKeyStart = k →
      n.nodeKey.take (n.posNodeKeyStart + 1) = key.take (n.posNodeKeyStart + 1) →
      ∀ (f : Nat) (r : Nat), _findpartial h f p key n.posNodeKeyStart = some r →
        _findpartial h (f + n.posNodeKeyStart + 1) root key 0 = some r := by
  intro k
  induction k using Nat.strong_induction_on with
  | _ k ih =>
    intro p n hp hr hk hkey f r hres
    obtain ⟨hlt, _, q, qn, hq, hqn, hqk, _⟩ := hw.child p n hp hr
    have hstep := findpartial_step hw hp hr hq hqn key hkey f
    rw [hres] at hstep
    by_cases hqr : q = root
    · subst hqr
      rw [(hw.root_rec hqn).2.2] at hstep
      exact findpartial_mono _ _ _ _ _ hstep (by omega)
    · have hqlen : qn.nodeKey.length = n.posNodeKeyStart := (hw.parent_len hp hr hq hqn).2.1
      have hqlt := (hw.child q qn hqn hqr).1
      have hkey' : qn.nodeKey.take (qn.posNodeKeyStart + 1)
          = key.take (qn.posNodeKeyStart + 1) := by
        rw [hqk, List.take_take, Nat.min_eq_left (by omega)]
        exact take_of_take_succ hkey (by omega)
      have := ih qn.posNodeKeyStart (by omega) q qn hqn hqr rfl hkey' (f + 1) r hstep
      exact findpartial_mono _ _ _ _ _ this (by omega)

/-- The node returned by `_findpartial`, started at a node on the key's path. -/
theorem findpartial_post {h : Heap T} {root : Nat} (hw : WF h root) (key : Key)
    (hb : ∀ b ∈ key, b < 128) :
    ∀ (f : Nat) (p : Nat) (n : Node T), h p = some n →
      n.nodeKey.take n.posNodeKeyStart = key.take n.posNodeKeyStart →
      n.posNodeKeyStart ≤ key.length →
      key.length - n.nodeKey.length + 1 ≤ f →
      ∃ a an, _findpartial h f p key n.posNodeKeyStart = some a ∧ h a = some an ∧
        an.nodeKey.take an.posNodeKeyStart = key.take an.posNodeKeyStart ∧
        an.posNodeKeyStart ≤ key.length ∧
        (a = p ∨ n.nodeKey.length ≤ an.posNodeKeyStart) ∧
        (matchlen an.nodeKey key = an.nodeKey.length → an.nodeKey.length < key.length →
          an.table (key.getD an.nodeKey.length 0) = none) ∧
        (a ≠ p → an.posNodeKeyStart < key.length ∧
          key.getD an.posNodeKeyStart 0 = an.first) := by
  intro f
  induction f with
  | zero => intro p n _ _ _ hf; omega
  | succ f ih =>
    intro p n hp hpath hks hf
    have hksn := hw.ks_le hp
    have hM := matchlen_of_take_eq n.nodeKey key n.posNodeKeyStart hksn hks hpath
    have hMl := matchlen_le_left n.nodeKey key
    have hMr := matchlen_le_right n.nodeKey key
    simp only [ _findpartial, hp, ← hM]
    by_cases c1 : matchlen n.nodeKey key = key.length ∧ matchlen n.nodeKey key = n.nodeKey.length
    · rw [if_pos c1]
      refine ⟨p, n, rfl, hp, hpath, hks, Or.inl rfl, ?_, fun hne => absurd rfl hne⟩
      intro _ hlt
      omega
    · rw [if_neg c1]
      by_cases c2 : matchlen n.nodeKey key < n.nodeKey.length
      · rw [if_pos c2]
        refine ⟨p, n, rfl, hp, hpath, hks, Or.inl rfl, ?_, fun hne => absurd rfl hne⟩
        intro heq _
        omega
      · rw [if_neg c2]
        have hMeq : matchlen n.nodeKey key = n.nodeKey.length := by omega
        have hlt : n.nodeKey.length < key.length := by omega
        have hbyte : key.getD n.nodeKey.length 0 < 128 := hb _ (getD_mem_or _ _ hlt)
        rw [hMeq]
        have htab : n.tableAt (key.getD n.nodeKey.length 0)
            = some (n.table (key.getD n.nodeKey.length 0)) := by
          simp only [Node.tableAt, RANGE]
          rw [if_pos hbyte]
        rw [htab]
        cases hc : n.table (key.getD n.nodeKey.length 0) with
        | none =>
          refine ⟨p, n, rfl, hp, hpath, hks, Or.inl rfl, ?_, fun hne => absurd rfl hne⟩
          intro _ _
          exact hc
        | some c =>
          obtain ⟨hcr, cn, hcn, hcp, hcf⟩ := hw.slot p n _ c hp hc
          obtain ⟨hck, hclen, _⟩ := hw.parent_len hcn hcr hcp hp
          have hclt := (hw.child c cn hcn hcr).1
          have hnpre : n.nodeKey <+: key := prefix_of_matchlen_eq _ _ hMeq
          have hcpath : cn.nodeKey.take cn.posNodeKeyStart = key.take cn.posNodeKeyStart := by
            rw [← hck, ← hclen]
            exact List.prefix_iff_eq_take.mp hnpre
          obtain ⟨a, an, hres, han, h1, h2, h3, h4, h5⟩ :=
            ih c cn hcn hcpath (by omega) (by omega)
          rw [← hclen] at hres
          refine ⟨a, an, hres, han, h1, h2, Or.inr ?_, h4, fun _ => ?_⟩
          · rcases h3 with h3 | h3
            · subst h3
              rw [hcn] at han
              cases han
              omega
            · omega
          · by_cases hac : a = c
            · subst hac
              rw [hcn] at han
              cases han
              refine ⟨by omega, ?_⟩
              rw [← hclen, hcf]
            · exact h5 hac

theorem prefix_take_eq {a key : Key} (h : a <+: key) {i : Nat} (hi : i ≤ a.length) :
    a.take i = key.take i := by
  obtain ⟨t, rfl⟩ := h
  rw [List.take_append_of_le_length hi]

theorem matchlen_drop_pos {a b : Key} {i : Nat} (ha : i < a.length) (hb : i < b.length)
    (h : a.getD i 0 = b.getD i 0) : 1 ≤ matchlen (a.drop i) (b.drop i) := by
  rw [List.drop_eq_getElem_cons ha, List.drop_eq_getElem_cons hb]
  rw [List.getD_eq_getElem _ _ ha, List.getD_eq_getElem _ _ hb] at h
  simp [matchlen, h]

/-- The anchor node that `insert` obtains from `_findpartial`. -/
theorem anchor_exists {h : Heap T} {root : Nat} (hw : WF h root) (key : Key)
    (hb : ∀ b ∈ key, b < 128) :
    ∃ a an, _findpartial h (fuelOf key) root key 0 = some a ∧ h a = some an ∧
      an.posNodeKeyStart ≤ matchlen an.nodeKey key ∧
      (matchlen an.nodeKey key = an.nodeKey.length → an.nodeKey.length < key.length →
        an.table (key.getD an.nodeKey.length 0) = none) ∧
      (a ≠ root → an.posNodeKeyStart < matchlen an.nodeKey key) ∧
      (∀ pm mn, h pm = some mn → pm ≠ root → mn.nodeKey <+: key →
        a = pm ∨ mn.nodeKey.length ≤ an.posNodeKeyStart) := by
  obtain ⟨r, hr, hrp, hrk, hrs⟩ := hw.root_live
  obtain ⟨a, an, hres, han, h1, h2, _, h4, h5⟩ :=
    findpartial_post hw key hb (fuelOf key) root r hr (by simp [hrs]) (by simp [hrs])
      (by simp [hrk, fuelOf]; omega)
  rw [hrs] at hres
  have hksa := hw.ks_le han
  have hM := matchlen_of_take_eq an.nodeKey key an.posNodeKeyStart hksa h2 h1
  refine ⟨a, an, hres, han, by omega, h4, ?_, ?_⟩
  · intro hne
    obtain ⟨h6, h7⟩ := h5 hne
    have hlt := (hw.child a an han hne).1
    have := matchlen_drop_pos hlt h6 h7.symm
    omega
  · intro pm mn hpm hpr hpre
    have hlt := (hw.child pm mn hpm hpr).1
    have hlen := hpre.length_le
    obtain ⟨r', rn', hres', hrn', _, _, h3', _, _⟩ :=
      findpartial_post hw key hb (key.length + 1) pm mn hpm
        (prefix_take_eq hpre (Nat.le_of_lt hlt)) (by omega) (by omega)
    have hc := findpartial_chain hw key _ pm mn hpm hpr rfl
      (prefix_take_eq hpre hlt) _ _ hres'
    have hc' := findpartial_mono _ (fuelOf key) _ _ _ hc (by simp only [fuelOf]; omega)
    rw [hres] at hc'
    cases hc'
    rw [han] at hrn'
    cases hrn'
    exact h3'

/-- A node whose full key is the search key is the node `_find` returns. -/
theorem find_complete {h : Heap T} {root : Nat} (hw : WF h root) {pm : Nat} {mn : Node T}
    (hpm : h pm = some mn) :
    _find h (fuelOf mn.nodeKey) root mn.nodeKey 0 = some (some pm) := by
  have hks := hw.ks_le hpm
  have hbase : _find h 1 pm mn.nodeKey mn.posNodeKeyStart = some (some pm) := by
    have := matchlen_segment hks (List.prefix_refl mn.nodeKey)
    simp only [_find, hpm, this]
    simp
  by_cases hr : pm = root
  · subst hr
    rw [(hw.root_rec hpm).2.2] at hbase
    exact find_mono _ _ _ _ _ hbase (by simp [fuelOf])
  · have hc := find_chain hw mn.nodeKey _ pm mn hpm hr rfl rfl _ _ hbase
    exact find_mono _ _ _ _ _ hc (by simp only [fuelOf]; omega)

/-! ## Insertion keeps the invariant -/

theorem ne_of_live_of_dead {h : Heap T} {p c : Nat} {n : Node T} (hp : h p = some n)
    (hc : h c = none) : p ≠ c := by
  intro e; subst e; rw [hp] at hc; cases hc

/-- Grafting a new leaf under the anchor keeps the heap well formed. -/
theorem WF_graft {h : Heap T} {root a c : Nat} {an : Node T} (hw : WF h root)
    (ha : h a = some an) (hc : h c = none) (key : Key) (hb : ∀ b ∈ key, b < 128)
    (hpre : an.nodeKey <+: key) (hlt : an.nodeKey.length < key.length)
    (hfree : an.table (key.getD an.nodeKey.length 0) = none)
    (hnokey : ∀ p n, h p = some n → n.nodeKey ≠ key)
    (child : Node T) (hck : child.nodeKey = key)
    (hcs : child.posNodeKeyStart = an.nodeKey.length) (hcp : child.parent = some a)
    (hct : ∀ i, child.table i = none) :
    WF ((h.write c child).write a (an.setTable child.gettableindex (some c))) root := by
  have hac : a ≠ c := ne_of_live_of_dead ha hc
  have hfirst : child.first = key.getD an.nodeKey.length 0 := by
    simp [Node.first, hck, hcs]
  have hf128 : child.first < 128 := by
    rw [hfirst]; exact hb _ (getD_mem_or _ _ hlt)
  have hidx : child.gettableindex = child.first := and_mask _ hf128
  rw [hidx]
  obtain ⟨r, hr, hrp, hrk, hrs⟩ := hw.root_live
  have hrc : root ≠ c := ne_of_live_of_dead hr hc
  -- the new heap, pointwise
  have hnew : ∀ x, ((h.write c child).write a (an.setTable child.first (some c))) x
      = if x = a then some (an.setTable child.first (some c))
        else if x = c then some child else h x := by
    intro x; simp only [Heap.write]
  -- every old node is still there with the same key, offset and parent
  have hold : ∀ x n, h x = some n → ∃ n',
      ((h.write c child).write a (an.setTable child.first (some c))) x = some n' ∧
      n'.nodeKey = n.nodeKey ∧ n'.posNodeKeyStart = n.posNodeKeyStart ∧
      n'.parent = n.parent ∧ n'.first = n.first ∧
      (∀ i, i ≠ child.first → n'.table i = n.table i) ∧ (x ≠ a → n' = n) := by
    intro x n hx
    rw [hnew]
    by_cases hxa : x = a
    · subst hxa
      rw [ha] at hx; cases hx
      exact ⟨an.setTable child.first (some c), by simp, rfl, rfl, rfl, rfl,
        fun i hi => by simp [Node.setTable, hi], fun hne => absurd rfl hne⟩
    · have hxc : x ≠ c := ne_of_live_of_dead hx hc
      exact ⟨n, by simp [hxa, hxc, hx], rfl, rfl, rfl, rfl, fun _ _ => rfl, fun _ => rfl⟩
  constructor
  · obtain ⟨r', hr', h1, h2, h3, _⟩ := hold root r hr
    exact ⟨r', hr', by rw [h3, hrp], by rw [h1, hrk], by rw [h2, hrs]⟩
  · intro p n hp hpr
    rw [hnew] at hp
    by_cases hpc : p = c
    · subst hpc
      simp only [if_neg (Ne.symm hac), if_true] at hp
      cases hp
      refine ⟨by rw [hcs, hck]; exact hlt, by rw [hck]; exact hb, a,
        an.setTable child.first (some p), hcp, by rw [hnew]; simp, ?_, ?_⟩
      · show an.nodeKey = _
        rw [hcs, hck]
        exact List.prefix_iff_eq_take.mp hpre
      · simp [Node.setTable]
    · have hpold : ∃ n0, h p = some n0 ∧ n.nodeKey = n0.nodeKey ∧
          n.posNodeKeyStart = n0.posNodeKeyStart ∧ n.parent = n0.parent ∧ n.first = n0.first := by
        by_cases hpa : p = a
        · subst hpa
          simp only [if_true] at hp
          cases hp
          exact ⟨an, ha, rfl, rfl, rfl, rfl⟩
        · simp only [if_neg hpa, if_neg hpc] at hp
          exact ⟨n, hp, rfl, rfl, rfl, rfl⟩
      obtain ⟨n0, hp0, e1, e2, e3, e4⟩ := hpold
      obtain ⟨h1, h2, q, qn, hq, hqn, hqk, hqt⟩ := hw.child p n0 hp0 hpr
      obtain ⟨qn', hqn', f1, f2, f3, f4, f5, f6⟩ := hold q qn hqn
      refine ⟨by rw [e1, e2]; exact h1, by rw [e1]; exact h2, q, qn', by rw [e3]; exact hq, hqn',
        by rw [f1, e1, e2]; exact hqk, ?_⟩
      rw [e4]
      by_cases hqa : q = a
      · subst hqa
        rw [ha] at hqn; cases hqn
        have hne : n0.first ≠ child.first := by
          intro e
          rw [e, hfirst, hfree] at hqt
          cases hqt
        rw [f5 _ hne]; exact hqt
      · rw [f6 hqa]; exact hqt
  · intro q pn i x hq hpx
    rw [hnew] at hq
    by_cases hqa : q = a
    · subst hqa
      simp only [if_true] at hq
      cases hq
      by_cases hi : i = child.first
      · subst hi
        simp only [Node.setTable, if_true] at hpx
        cases hpx
        exact ⟨Ne.symm hrc, child, by rw [hnew]; simp [Ne.symm hac], hcp, rfl⟩
      · simp only [Node.setTable, if_neg hi] at hpx
        obtain ⟨hxr, n, hx, hxp, hxf⟩ := hw.slot q an i x ha hpx
        obtain ⟨n', hn', _, _, g3, g4, _, _⟩ := hold x n hx
        exact ⟨hxr, n', hn', by rw [g3]; exact hxp, by rw [g4]; exact hxf⟩
    · by_cases hqc : q = c
      · subst hqc
        simp only [if_neg hqa, if_true] at hq
        cases hq
        rw [hct] at hpx; cases hpx
      · simp only [if_neg hqa, if_neg hqc] at hq
        obtain ⟨hxr, n, hx, hxp, hxf⟩ := hw.slot q pn i x hq hpx
        obtain ⟨n', hn', _, _, g3, g4, _, _⟩ := hold x n hx
        exact ⟨hxr, n', hn', by rw [g3]; exact hxp, by rw [g4]; exact hxf⟩
  · intro p q n m hp hq hnm
    have key_of : ∀ x y, ((h.write c child).write a (an.setTable child.first (some c))) x
        = some y → (x = c ∧ y.nodeKey = key) ∨ (x ≠ c ∧ ∃ y0, h x = some y0 ∧ y0.nodeKey = y.nodeKey) := by
      intro x y hx
      rw [hnew] at hx
      by_cases hxa : x = a
      · subst hxa
        simp only [if_true] at hx
        cases hx
        exact Or.inr ⟨hac, an, ha, rfl⟩
      · by_cases hxc : x = c
        · subst hxc
          simp only [if_neg hxa, if_true] at hx
          cases hx
          exact Or.inl ⟨rfl, hck⟩
        · simp only [if_neg hxa, if_neg hxc] at hx
          exact Or.inr ⟨hxc, y, hx, rfl⟩
    rcases key_of p n hp with ⟨e1, e2⟩ | ⟨e1, n0, e2, e3⟩ <;>
      rcases key_of q m hq with ⟨g1, g2⟩ | ⟨g1, m0, g2, g3⟩
    · rw [e1, g1]
    · exact absurd (by rw [g3, ← hnm, e2]) (hnokey q m0 g2)
    · exact absurd (by rw [e3, hnm, g2]) (hnokey p n0 e2)
    · exact hw.inj p q n0 m0 e2 g2 (by rw [e3, g3, hnm])

theorem getD_take_lt (l : Key) {i j : Nat} (h : i < j) : (l.take j).getD i 0 = l.getD i 0 := by
  simp [List.getD_eq_getElem?_getD, List.getElem?_take, h]

/-- Rewriting the value and the in-use flag of a node keeps the heap well formed. -/
theorem WF_reflag {h : Heap T} {root p : Nat} {n n' : Node T} (hw : WF h root)
    (hp : h p = some n) (h1 : n'.parent = n.parent) (h2 : n'.table = n.table)
    (h3 : n'.nodeKey = n.nodeKey) (h4 : n'.posNodeKeyStart = n.posNodeKeyStart) :
    WF (h.write p n') root := by
  have hf : n'.first = n.first := by simp [Node.first, h3, h4]
  have hold : ∀ x y, h x = some y → ∃ y', (h.write p n') x = some y' ∧
      y'.parent = y.parent ∧ y'.table = y.table ∧ y'.nodeKey = y.nodeKey ∧
      y'.posNodeKeyStart = y.posNodeKeyStart ∧ y'.first = y.first := by
    intro x y hx
    by_cases hxp : x = p
    · subst hxp
      rw [hp] at hx; cases hx
      exact ⟨n', by simp, h1, h2, h3, h4, hf⟩
    · exact ⟨y, by rw [Heap.write_other _ _ _ _ hxp]; exact hx, rfl, rfl, rfl, rfl, rfl⟩
  have hnew : ∀ x y', (h.write p n') x = some y' → ∃ y, h x = some y ∧
      y'.parent = y.parent ∧ y'.table = y.table ∧ y'.nodeKey = y.nodeKey ∧
      y'.posNodeKeyStart = y.posNodeKeyStart ∧ y'.first = y.first := by
    intro x y' hx
    by_cases hxp : x = p
    · subst hxp
      simp only [Heap.write_same] at hx; cases hx
      exact ⟨n, hp, h1, h2, h3, h4, hf⟩
    · rw [Heap.write_other _ _ _ _ hxp] at hx
      exact ⟨y', hx, rfl, rfl, rfl, rfl, rfl⟩
  constructor
  · obtain ⟨r, hr, a1, a2, a3⟩ := hw.root_live
    obtain ⟨r', hr', b1, _, b3, b4, _⟩ := hold root r hr
    exact ⟨r', hr', by rw [b1, a1], by rw [b3, a2], by rw [b4, a3]⟩
  · intro x y' hx hxr
    obtain ⟨y, hy, b1, b2, b3, b4, b5⟩ := hnew x y' hx
    obtain ⟨c1, c2, q, qn, hq, hqn, hqk, hqt⟩ := hw.child x y hy hxr
    obtain ⟨qn', hqn', d1, d2, d3, d4, d5⟩ := hold q qn hqn
    exact ⟨by rw [b3, b4]; exact c1, by rw [b3]; exact c2, q, qn', by rw [b1]; exact hq, hqn',
      by rw [d3, b3, b4]; exact hqk, by rw [d2, b5]; exact hqt⟩
  · intro q qn' i x hq hx
    obtain ⟨qn, hqn, b1, b2, b3, b4, b5⟩ := hnew q qn' hq
    rw [b2] at hx
    obtain ⟨c1, y, hy, c2, c3⟩ := hw.slot q qn i x hqn hx
    obtain ⟨y', hy', d1, d2, d3, d4, d5⟩ := hold x y hy
    exact ⟨c1, y', hy', by rw [d1]; exact c2, by rw [d5]; exact c3⟩
  · intro x1 x2 y1' y2' hx1 hx2 he
    obtain ⟨y1, hy1, _, _, b3, _, _⟩ := hnew x1 y1' hx1
    obtain ⟨y2, hy2, _, _, c3, _, _⟩ := hnew x2 y2' hx2
    exact hw.inj x1 x2 y1 y2 hy1 hy2 (by rw [← b3, ← c3, he])

/-- Splitting the anchor's edge keeps the heap well formed. -/
theorem WF_split {h h' : Heap T} {root a q sp lf : Nat} {an qn : Node T}
    (SP LF an2 qn2 : Node T) (hw : WF h root) (ha : h a = some an) (har : a ≠ root) (haq : an.parent = some q)
    (hq : h q = some qn) (hsp : h sp = none) (hlf : h lf = none) (hsl : sp ≠ lf)
    (key : Key) (hb : ∀ b ∈ key, b < 128) (pos : Nat)
    (h1 : an.posNodeKeyStart < pos) (h2 : pos < an.nodeKey.length) (h3 : pos < key.length)
    (htk : an.nodeKey.take pos = key.take pos)
    (hne : an.nodeKey.getD pos 0 ≠ key.getD pos 0)
    (hnokey : ∀ p n, h p = some n → n.nodeKey ≠ key)
    (hnosplit : ∀ p n, h p = some n → n.nodeKey ≠ an.nodeKey.take pos)
    (sp1 : SP.parent = some q) (sp2 : SP.nodeKey = an.nodeKey.take pos)
    (sp3 : SP.posNodeKeyStart = an.posNodeKeyStart)
    (sp4 : ∀ i, SP.table i = if i = LF.first then some lf
      else if i = an2.first then some a else none)
    (lf1 : LF.parent = some sp) (lf2 : LF.nodeKey = key) (lf3 : LF.posNodeKeyStart = pos)
    (lf4 : ∀ i, LF.table i = none)
    (a1 : an2.parent = some sp) (a2 : an2.nodeKey = an.nodeKey) (a3 : an2.posNodeKeyStart = pos)
    (a4 : an2.table = an.table)
    (q1 : qn2.parent = qn.parent) (q2 : qn2.nodeKey = qn.nodeKey)
    (q3 : qn2.posNodeKeyStart = qn.posNodeKeyStart)
    (q4 : ∀ i, qn2.table i = if i = SP.first then some sp else qn.table i)
    (hnew : ∀ x, h' x = if x = sp then some SP else if x = lf then some LF
      else if x = a then some an2 else if x = q then some qn2 else h x) :
    WF h' root := by
  obtain ⟨hqk, hqlen, hqt⟩ := hw.parent_len ha har haq hq
  obtain ⟨_, hab, _⟩ := hw.child a an ha har
  have hasp : a ≠ sp := ne_of_live_of_dead ha hsp
  have half : a ≠ lf := ne_of_live_of_dead ha hlf
  have hqsp : q ≠ sp := ne_of_live_of_dead hq hsp
  have hqlf : q ≠ lf := ne_of_live_of_dead hq hlf
  have hqa : q ≠ a := by
    intro e; subst e
    rw [ha] at hq; cases hq
    omega
  obtain ⟨r, hr, hrp, hrk, hrs⟩ := hw.root_live
  have hrsp : root ≠ sp := ne_of_live_of_dead hr hsp
  have hrlf : root ≠ lf := ne_of_live_of_dead hr hlf
  have fSP : SP.first = an.first := by
    simp only [Node.first, sp2, sp3]
    exact getD_take_lt _ h1
  have fLF : LF.first = key.getD pos 0 := by simp only [Node.first, lf2, lf3]
  have fA : an2.first = an.nodeKey.getD pos 0 := by simp only [Node.first, a2, a3]
  have fne : an2.first ≠ LF.first := by rw [fA, fLF]; exact hne
  have fq : qn2.first = qn.first := by simp only [Node.first, q2, q3]
  have hSP : h' sp = some SP := by rw [hnew]; simp
  have hLF : h' lf = some LF := by rw [hnew]; simp [Ne.symm hsl]
  have hA : h' a = some an2 := by rw [hnew]; simp [hasp, half]
  have hQ : h' q = some qn2 := by rw [hnew]; simp [hqsp, hqlf, hqa]
  -- the old nodes other than the anchor, seen in the new heap
  have hold : ∀ x y0, h x = some y0 → x ≠ a → ∃ y, h' x = some y ∧
      y.nodeKey = y0.nodeKey ∧ y.posNodeKeyStart = y0.posNodeKeyStart ∧
      y.parent = y0.parent ∧ y.first = y0.first ∧
      (∀ i, ¬ (x = q ∧ i = an.first) → y.table i = y0.table i) := by
    intro x y0 hx hxa
    have hxsp : x ≠ sp := ne_of_live_of_dead hx hsp
    have hxlf : x ≠ lf := ne_of_live_of_dead hx hlf
    by_cases hxq : x = q
    · subst hxq
      rw [hq] at hx; cases hx
      refine ⟨qn2, hQ, q2, q3, q1, fq, ?_⟩
      intro i hi
      rw [q4, fSP, if_neg (fun e => hi ⟨rfl, e⟩)]
    · exact ⟨y0, by rw [hnew]; simp [hxsp, hxlf, hxa, hxq, hx], rfl, rfl, rfl, rfl,
        fun _ _ => rfl⟩
  -- the nodes of the new heap
  have hview : ∀ x y, h' x = some y →
      (x = sp ∧ y = SP) ∨ (x = lf ∧ y = LF) ∨ (x = a ∧ y = an2) ∨
      (x ≠ a ∧ ∃ y0, h x = some y0 ∧ y.nodeKey = y0.nodeKey ∧
        y.posNodeKeyStart = y0.posNodeKeyStart ∧ y.parent = y0.parent ∧
        y.first = y0.first ∧
        (∀ i c, y.table i = some c → (x = q ∧ i = an.first ∧ c = sp) ∨
          (y0.table i = some c ∧ ¬ (x = q ∧ i = an.first)))) := by
    intro x y hx
    rw [hnew] at hx
    by_cases c1 : x = sp
    · subst c1; simp only [if_true] at hx; cases hx; exact Or.inl ⟨rfl, rfl⟩
    · by_cases c2 : x = lf
      · subst c2; simp only [if_neg c1, if_true] at hx; cases hx
        exact Or.inr (Or.inl ⟨rfl, rfl⟩)
      · by_cases c3 : x = a
        · subst c3; simp only [if_neg c1, if_neg c2, if_true] at hx; cases hx
          exact Or.inr (Or.inr (Or.inl ⟨rfl, rfl⟩))
        · refine Or.inr (Or.inr (Or.inr ⟨c3, ?_⟩))
          by_cases c4 : x = q
          · subst c4
            simp only [if_neg c1, if_neg c2, if_neg c3, if_true] at hx; cases hx
            refine ⟨qn, hq, q2, q3, q1, fq, ?_⟩
            intro i c hic
            rw [q4, fSP] at hic
            by_cases hi : i = an.first
            · rw [if_pos hi] at hic; cases hic
              exact Or.inl ⟨rfl, hi, rfl⟩
            · rw [if_neg hi] at hic
              exact Or.inr ⟨hic, fun e => hi e.2⟩
          · simp only [if_neg c1, if_neg c2, if_neg c3, if_neg c4] at hx
            exact ⟨y, hx, rfl, rfl, rfl, rfl, fun i c hic => Or.inr ⟨hic, fun e => c4 e.1⟩⟩
  constructor
  · obtain ⟨r', hr', b1, b2, b3, _, _⟩ := hold root r hr (Ne.symm har)
    exact ⟨r', hr', by rw [b3, hrp], by rw [b1, hrk], by rw [b2, hrs]⟩
  · intro p n hp hpr
    rcases hview p n hp with ⟨e1, e2⟩ | ⟨e1, e2⟩ | ⟨e1, e2⟩ | ⟨e1, y0, e2, e3, e4, e5, e6, _⟩
    · subst e1; subst e2
      refine ⟨?_, ?_, q, qn2, sp1, hQ, ?_, ?_⟩
      · rw [sp2, sp3, List.length_take]; omega
      · intro b hbm
        rw [sp2] at hbm
        exact hab b (List.mem_of_mem_take hbm)
      · rw [q2, sp2, sp3, List.take_take, Nat.min_eq_left (Nat.le_of_lt h1)]
        exact hqk
      · rw [q4]; simp
    · subst e1; subst e2
      refine ⟨by rw [lf2, lf3]; exact h3, by rw [lf2]; exact hb, sp, SP, lf1, hSP, ?_, ?_⟩
      · rw [sp2, lf2, lf3]; exact htk
      · rw [sp4]; simp
    · subst e1; subst e2
      refine ⟨by rw [a2, a3]; exact h2, by rw [a2]; exact hab, sp, SP, a1, hSP, ?_, ?_⟩
      · rw [sp2, a2, a3]
      · rw [sp4, if_neg fne]; simp
    · obtain ⟨c1, c2, q', qn', hq', hqn', hqk', hqt'⟩ := hw.child p y0 e2 hpr
      rw [e3, e4, e5, e6]
      refine ⟨c1, c2, ?_⟩
      by_cases hq'a : q' = a
      · subst hq'a
        rw [ha] at hqn'; cases hqn'
        exact ⟨q', an2, hq', hA, by rw [a2]; exact hqk', by rw [a4]; exact hqt'⟩
      · obtain ⟨y, hy, d1, d2, d3, d4, d5⟩ := hold q' qn' hqn' hq'a
        refine ⟨q', y, hq', hy, by rw [d1]; exact hqk', ?_⟩
        rw [d5]
        · exact hqt'
        · rintro ⟨g1, g2⟩
          subst g1
          rw [hq] at hqn'; cases hqn'
          rw [g2, hqt] at hqt'
          cases hqt'
          exact e1 rfl
  · intro q0 pn i x hq0 hix
    rcases hview q0 pn hq0 with ⟨e1, e2⟩ | ⟨e1, e2⟩ | ⟨e1, e2⟩ | ⟨e1, y0, e2, e3, e4, e5, e6, e7⟩
    · subst e1; subst e2
      rw [sp4] at hix
      by_cases c1 : i = LF.first
      · rw [if_pos c1] at hix; cases hix
        exact ⟨Ne.symm hrlf, LF, hLF, lf1, c1.symm⟩
      · rw [if_neg c1] at hix
        by_cases c2 : i = an2.first
        · rw [if_pos c2] at hix; cases hix
          exact ⟨har, an2, hA, a1, c2.symm⟩
        · rw [if_neg c2] at hix; cases hix
    · subst e1; subst e2
      rw [lf4] at hix; cases hix
    · subst e1; subst e2
      rw [a4] at hix
      obtain ⟨c1, nx, hx, c2, c3⟩ := hw.slot q0 an i x ha hix
      have hxa : x ≠ q0 := by
        intro e; subst e
        rw [ha] at hx; cases hx
        rw [haq] at c2; cases c2
        exact hqa rfl
      obtain ⟨y, hy, d1, d2, d3, d4, _⟩ := hold x nx hx hxa
      exact ⟨c1, y, hy, by rw [d3]; exact c2, by rw [d4]; exact c3⟩
    · rcases e7 i x hix with ⟨g1, g2, g3⟩ | ⟨g1, g2⟩
      · subst g1; subst g3
        exact ⟨Ne.symm hrsp, SP, hSP, sp1, by rw [fSP, g2]⟩
      · obtain ⟨c1, nx, hx, c2, c3⟩ := hw.slot q0 y0 i x e2 g1
        have hxa : x ≠ a := by
          intro e; subst e
          rw [ha] at hx; cases hx
          rw [haq] at c2; cases c2
          exact g2 ⟨rfl, c3.symm⟩
        obtain ⟨y, hy, d1, d2, d3, d4, _⟩ := hold x nx hx hxa
        exact ⟨c1, y, hy, by rw [d3]; exact c2, by rw [d4]; exact c3⟩
  · intro p1 p2 n1 n2 hp1 hp2 he
    have key_of : ∀ x y, h' x = some y →
        (x = sp ∧ y.nodeKey = an.nodeKey.take pos) ∨ (x = lf ∧ y.nodeKey = key) ∨
        (x ≠ sp ∧ x ≠ lf ∧ ∃ y0, h x = some y0 ∧ y0.nodeKey = y.nodeKey) := by
      intro x y hx
      rcases hview x y hx with ⟨e1, e2⟩ | ⟨e1, e2⟩ | ⟨e1, e2⟩ | ⟨e1, y0, e2, e3, _⟩
      · exact Or.inl ⟨e1, by rw [e2, sp2]⟩
      · exact Or.inr (Or.inl ⟨e1, by rw [e2, lf2]⟩)
      · exact Or.inr (Or.inr ⟨by rw [e1]; exact hasp, by rw [e1]; exact half, an,
          by rw [e1]; exact ha, by rw [e2, a2]⟩)
      · exact Or.inr (Or.inr ⟨ne_of_live_of_dead e2 hsp, ne_of_live_of_dead e2 hlf, y0, e2,
          e3.symm⟩)
    have hkne : an.nodeKey.take pos ≠ key := by
      intro e
      have := congrArg List.length e
      rw [List.length_take] at this
      omega
    rcases key_of p1 n1 hp1 with ⟨e1, e2⟩ | ⟨e1, e2⟩ | ⟨e1, e1', y1, e2, e3⟩ <;>
      rcases key_of p2 n2 hp2 with ⟨g1, g2⟩ | ⟨g1, g2⟩ | ⟨g1, g1', y2, g2, g3⟩
    · rw [e1, g1]
    · exact absurd (by rw [← e2, he, g2]) hkne
    · exact absurd (by rw [g3, ← he, e2]) (hnosplit p2 y2 g2)
    · exact absurd (by rw [← g2, ← he, e2]) hkne
    · rw [e1, g1]
    · exact absurd (by rw [g3, ← he, e2]) (hnokey p2 y2 g2)
    · exact absurd (by rw [e3, he, g2]) (hnosplit p1 y1 e2)
    · exact absurd (by rw [e3, he, g2]) (hnokey p1 y1 e2)
    · exact hw.inj p1 p2 y1 y2 e2 g2 (by rw [e3, g3, he])

theorem insert_mark_eq [Inhabited T] {s : Trie T} {key : Key} {a : Nat} {an : Node T}
    (v : T) (hf : _findpartial s.heap (fuelOf key) s.root key 0 = some a)
    (ha : s.heap a = some an) (hk : an.nodeKey = key) (hu : an.bInUse = false) :
    s.insert key v = some ({ s with
      nsize := s.nsize + 1,
      heap := s.heap.write a (an.setvalue v) }, some a, true) := by
  simp [Trie.insert, hf, ha, Node.getkey, hk, hu]

theorem insert_graft_eq [Inhabited T] {s : Trie T} {key : Key} {a : Nat} {an : Node T}
    (v : T) (hf : _findpartial s.heap (fuelOf key) s.root key 0 = some a)
    (ha : s.heap a = some an) (hk : an.nodeKey ≠ key)
    (hm : matchlen an.nodeKey key = an.nodeKey.length) (hfr : s.heap s.fresh = none) :
    s.insert key v = some ({ s with
      nsize := s.nsize + 1, numnodes := s.numnodes + 1, fresh := s.fresh + 1,
      heap := (s.heap.write s.fresh (leafNode key an.nodeKey.length a v)).write a
        (an.setTable (leafNode key an.nodeKey.length a v).gettableindex (some s.fresh)) },
      some a, true) := by
  have hne : a ≠ s.fresh := ne_of_live_of_dead ha hfr
  simp [Trie.insert, hf, ha, Node.getkey, hk, substrlength, hm, addchild, Heap.write, hne,
    leafNode]

theorem insert_split_eq [Inhabited T] {s : Trie T} {key : Key} {a q : Nat}
    {an qn : Node T}
    (v : T) (hf : _findpartial s.heap (fuelOf key) s.root key 0 = some a)
    (ha : s.heap a = some an) (hk : an.nodeKey ≠ key)
    (hm : matchlen an.nodeKey key ≠ an.nodeKey.length) (hfr : s.heap s.fresh = none)
    (hfr1 : s.heap (s.fresh + 1) = none) (hq : an.parent = some q)
    (hqn : s.heap q = some qn) :
    s.insert key v = some ({ s with
      nsize := s.nsize + 1, numnodes := s.numnodes + 2, fresh := s.fresh + 2,
      heap := splitHeap s.heap s.fresh a q an qn key v }, some (s.fresh + 1), true) := by
  have h1 : a ≠ s.fresh := ne_of_live_of_dead ha hfr
  have h2 : a ≠ s.fresh + 1 := ne_of_live_of_dead ha hfr1
  have h3 : q ≠ s.fresh := ne_of_live_of_dead hqn hfr
  have h4 : q ≠ s.fresh + 1 := ne_of_live_of_dead hqn hfr1
  simp [Trie.insert, hf, ha, Node.getkey, hk, substrlength, hm, addchild, Heap.write, h1, h2,
    h3, h4, hq, hqn, Ne.symm h1, Ne.symm h2, Ne.symm h3, Ne.symm h4,
    leafNode, splitNode, splitHeap, movedNode]

theorem splitHeap_apply [Inhabited T] (h : Heap T) (fresh a q : Nat) (an qn : Node T)
    (key : Key) (v : T) (x : Nat) :
    splitHeap h fresh a q an qn key v x =
      if x = fresh then
        some (((splitNode an (matchlen an.nodeKey key)).setTable
          (movedNode an fresh (matchlen an.nodeKey key)).gettableindex
          (some a)).setTable
          (leafNode key (matchlen an.nodeKey key) fresh v).gettableindex
          (some (fresh + 1)))
      else if x = fresh + 1 then some (leafNode key (matchlen an.nodeKey key) fresh v)
      else if x = a then
        some (movedNode an fresh (matchlen an.nodeKey key))
      else if x = q then
        some (qn.setTable (splitNode an (matchlen an.nodeKey key)).gettableindex (some fresh))
      else h x := by
  simp only [splitHeap, Heap.write]
  split_ifs <;> rfl

theorem Inv.fresh_dead {s : Trie T} {S : List Key} {L : List Nat} (hi : Inv s S L)
    {x : Nat} (hx : s.fresh ≤ x) : s.heap x = none := by
  by_contra hne
  have := hi.bound x ((hi.live x).mpr hne)
  omega

theorem Inv.mem_live {s : Trie T} {S : List Key} {L : List Nat} (hi : Inv s S L)
    {x : Nat} {n : Node T} (hx : s.heap x = some n) : x ∈ L :=
  (hi.live x).mpr (by rw [hx]; simp)

/-- Marking the anchor keeps the invariant. -/
theorem inv_mark {s : Trie T} {S : List Key} {L : List Nat} (hi : Inv s S L)
    (hc : Covered s S) {a : Nat} {an : Node T} (ha : s.heap a = some an) (v : T)
    (hu : an.bInUse = false) (hk : an.nodeKey ∉ S) :
    Inv { s with nsize := s.nsize + 1, heap := s.heap.write a (an.setvalue v) }
        (an.nodeKey :: S) L ∧
      Covered { s with nsize := s.nsize + 1, heap := s.heap.write a (an.setvalue v) }
        (an.nodeKey :: S) := by
  refine ⟨⟨WF_reflag hi.wf ha rfl rfl rfl rfl, ?_, hi.nodupL, hi.bound, hi.count, ?_, ?_,
    List.nodup_cons.mpr ⟨hk, hi.nodupS⟩, ?_⟩, ?_⟩
  · intro p
    rw [hi.live]
    show _ ↔ s.heap.write a (an.setvalue v) p ≠ none
    by_cases hpa : p = a
    · subst hpa; simp [ha]
    · rw [Heap.write_other _ _ _ _ hpa]
  · intro p n hp hpr ht
    change s.heap.write a (an.setvalue v) p = some n at hp
    by_cases hpa : p = a
    · subst hpa
      rw [Heap.write_same] at hp; cases hp
      rfl
    · rw [Heap.write_other _ _ _ _ hpa] at hp
      exact hi.prune p n hp hpr ht
  · intro k
    show _ ↔ ∃ p n, s.heap.write a (an.setvalue v) p = some n ∧ _
    constructor
    · intro hk'
      rcases List.mem_cons.mp hk' with rfl | hk'
      · exact ⟨a, an.setvalue v, Heap.write_same _ _ _, rfl, rfl⟩
      · obtain ⟨p, n, hp, hb, hn⟩ := (hi.stored k).mp hk'
        have hpa : p ≠ a := by
          intro e; subst e
          rw [ha] at hp; cases hp
          rw [hu] at hb; cases hb
        exact ⟨p, n, by rw [Heap.write_other _ _ _ _ hpa]; exact hp, hb, hn⟩
    · rintro ⟨p, n, hp, hb, hn⟩
      by_cases hpa : p = a
      · subst hpa
        rw [Heap.write_same] at hp; cases hp
        rw [← hn]
        exact List.mem_cons_self _ _
      · rw [Heap.write_other _ _ _ _ hpa] at hp
        exact List.mem_cons_of_mem _ ((hi.stored k).mpr ⟨p, n, hp, hb, hn⟩)
  · show s.nsize + 1 = (an.nodeKey :: S).length
    rw [List.length_cons, hi.size]
  · intro p n hp hpr
    change s.heap.write a (an.setvalue v) p = some n at hp
    by_cases hpa : p = a
    · subst hpa
      rw [Heap.write_same] at hp; cases hp
      exact ⟨an.nodeKey, List.mem_cons_self _ _, List.prefix_refl _⟩
    · rw [Heap.write_other _ _ _ _ hpa] at hp
      obtain ⟨k, hk1, hk2⟩ := hc p n hp hpr
      exact ⟨k, List.mem_cons_of_mem _ hk1, hk2⟩

/-- Grafting a leaf for the key keeps the invariant. -/
theorem inv_graft [Inhabited T] {s : Trie T} {S : List Key} {L : List Nat} (hi : Inv s S L)
    (hc : Covered s S) {a : Nat} {an : Node T} (ha : s.heap a = some an) (v : T)
    (key : Key) (hb : ∀ b ∈ key, b < 128)
    (hpre : an.nodeKey <+: key) (hlt : an.nodeKey.length < key.length)
    (hfree : an.table (key.getD an.nodeKey.length 0) = none)
    (hnokey : ∀ p n, s.heap p = some n → n.nodeKey ≠ key) (hk : key ∉ S) :
    Inv { s with
          nsize := s.nsize + 1, numnodes := s.numnodes + 1, fresh := s.fresh + 1,
          heap := (s.heap.write s.fresh (leafNode key an.nodeKey.length a v)).write a
            (an.setTable (leafNode key an.nodeKey.length a v).gettableindex (some s.fresh)) }
        (key :: S) (s.fresh :: L) ∧
      Covered { s with
          nsize := s.nsize + 1, numnodes := s.numnodes + 1, fresh := s.fresh + 1,
          heap := (s.heap.write s.fresh (leafNode key an.nodeKey.length a v)).write a
            (an.setTable (leafNode key an.nodeKey.length a v).gettableindex (some s.fresh)) }
        (key :: S) := by
  have hfr : s.heap s.fresh = none := hi.fresh_dead (Nat.le_refl _)
  have haf : a ≠ s.fresh := ne_of_live_of_dead ha hfr
  have hfL : s.fresh ∉ L := fun hm => absurd (hi.bound _ hm) (Nat.lt_irrefl _)
  have hnew : ∀ x, ((s.heap.write s.fresh (leafNode key an.nodeKey.length a v)).write a
      (an.setTable (leafNode key an.nodeKey.length a v).gettableindex (some s.fresh))) x
      = if x = a then
          some (an.setTable (leafNode key an.nodeKey.length a v).gettableindex (some s.fresh))
        else if x = s.fresh then some (leafNode key an.nodeKey.length a v) else s.heap x := by
    intro x; simp only [Heap.write]
  refine ⟨⟨WF_graft hi.wf ha hfr key hb hpre hlt hfree hnokey _ rfl rfl rfl (fun _ => rfl),
    ?_, List.nodup_cons.mpr ⟨hfL, hi.nodupL⟩, ?_, ?_, ?_, ?_,
    List.nodup_cons.mpr ⟨hk, hi.nodupS⟩, ?_⟩, ?_⟩
  · intro p
    show _ ↔ ((s.heap.write s.fresh _).write a _) p ≠ none
    rw [hnew, List.mem_cons, hi.live]
    by_cases hpa : p = a
    · subst hpa; simp [ha]
    · by_cases hpf : p = s.fresh
      · subst hpf; simp [hpa]
      · simp [hpa, hpf]
  · intro p hp
    show p < s.fresh + 1
    rcases List.mem_cons.mp hp with rfl | hp
    · omega
    · have := hi.bound p hp; omega
  · show s.numnodes + 1 + 1 = ((s.fresh :: L).length : Int)
    rw [List.length_cons]
    have := hi.count
    push_cast
    omega
  · intro p n hp hpr ht
    change ((s.heap.write s.fresh _).write a _) p = some n at hp
    rw [hnew] at hp
    by_cases hpa : p = a
    · subst hpa
      simp only [if_true] at hp; cases hp
      have := ht (leafNode key an.nodeKey.length p v).gettableindex
      simp [Node.setTable] at this
    · by_cases hpf : p = s.fresh
      · subst hpf
        simp only [if_neg hpa, if_true] at hp; cases hp
        rfl
      · simp only [if_neg hpa, if_neg hpf] at hp
        exact hi.prune p n hp hpr ht
  · intro k
    show _ ↔ ∃ p n, ((s.heap.write s.fresh _).write a _) p = some n ∧ _
    constructor
    · intro hk'
      rcases List.mem_cons.mp hk' with rfl | hk'
      · exact ⟨s.fresh, leafNode k an.nodeKey.length a v,
          by rw [hnew]; simp [Ne.symm haf], rfl, rfl⟩
      · obtain ⟨p, n, hp, hb', hn⟩ := (hi.stored k).mp hk'
        by_cases hpa : p = a
        · subst hpa
          rw [ha] at hp; cases hp
          exact ⟨p, an.setTable (leafNode key an.nodeKey.length p v).gettableindex
            (some s.fresh), by rw [hnew]; simp, hb', hn⟩
        · have hpf : p ≠ s.fresh := ne_of_live_of_dead hp hfr
          exact ⟨p, n, by rw [hnew]; simp [hpa, hpf, hp], hb', hn⟩
    · rintro ⟨p, n, hp, hb', hn⟩
      rw [hnew] at hp
      by_cases hpa : p = a
      · subst hpa
        simp only [if_true] at hp; cases hp
        exact List.mem_cons_of_mem _ ((hi.stored k).mpr ⟨p, an, ha, hb', hn⟩)
      · by_cases hpf : p = s.fresh
        · subst hpf
          simp only [if_neg hpa, if_true] at hp; cases hp
          rw [← hn]
          exact List.mem_cons_self _ _
        · simp only [if_neg hpa, if_neg hpf] at hp
          exact List.mem_cons_of_mem _ ((hi.stored k).mpr ⟨p, n, hp, hb', hn⟩)
  · show s.nsize + 1 = (key :: S).length
    rw [List.length_cons, hi.size]
  · intro p n hp hpr
    change ((s.heap.write s.fresh _).write a _) p = some n at hp
    rw [hnew] at hp
    by_cases hpa : p = a
    · subst hpa
      simp only [if_true] at hp; cases hp
      obtain ⟨k, hk1, hk2⟩ := hc p an ha hpr
      exact ⟨k, List.mem_cons_of_mem _ hk1, hk2⟩
    · by_cases hpf : p = s.fresh
      · subst hpf
        simp only [if_neg hpa, if_true] at hp; cases hp
        exact ⟨key, List.mem_cons_self _ _, List.prefix_refl _⟩
      · simp only [if_neg hpa, if_neg hpf] at hp
        obtain ⟨k, hk1, hk2⟩ := hc p n hp hpr
        exact ⟨k, List.mem_cons_of_mem _ hk1, hk2⟩

/-- Splitting an edge for the key keeps the invariant. -/
theorem inv_split [Inhabited T] {s : Trie T} {S : List Key} {L : List Nat} (hi : Inv s S L)
    (hc : Covered s S) {a q : Nat} {an qn : Node T} (ha : s.heap a = some an)
    (har : a ≠ s.root) (haq : an.parent = some q) (hq : s.heap q = some qn) (v : T)
    (key : Key) (hb : ∀ b ∈ key, b < 128)
    (h1 : an.posNodeKeyStart < matchlen an.nodeKey key)
    (h2 : matchlen an.nodeKey key < an.nodeKey.length)
    (h3 : matchlen an.nodeKey key < key.length)
    (hnokey : ∀ p n, s.heap p = some n → n.nodeKey ≠ key)
    (hnosplit : ∀ p n, s.heap p = some n → n.nodeKey ≠ an.nodeKey.take (matchlen an.nodeKey key))
    (hk : key ∉ S) :
    Inv { s with
          nsize := s.nsize + 1, numnodes := s.numnodes + 2, fresh := s.fresh + 2,
          heap := splitHeap s.heap s.fresh a q an qn key v }
        (key :: S) ((s.fresh + 1) :: s.fresh :: L) ∧
      Covered { s with
          nsize := s.nsize + 1, numnodes := s.numnodes + 2, fresh := s.fresh + 2,
          heap := splitHeap s.heap s.fresh a q an qn key v }
        (key :: S) := by
  have hfr : s.heap s.fresh = none := hi.fresh_dead (Nat.le_refl _)
  have hfr1 : s.heap (s.fresh + 1) = none := hi.fresh_dead (Nat.le_succ _)
  have haf : a ≠ s.fresh := ne_of_live_of_dead ha hfr
  have haf1 : a ≠ s.fresh + 1 := ne_of_live_of_dead ha hfr1
  have hqf : q ≠ s.fresh := ne_of_live_of_dead hq hfr
  have hqf1 : q ≠ s.fresh + 1 := ne_of_live_of_dead hq hfr1
  have hff : s.fresh ≠ s.fresh + 1 := by omega
  have hfL : s.fresh ∉ L := fun hm => absurd (hi.bound _ hm) (Nat.lt_irrefl _)
  have hfL1 : s.fresh + 1 ∉ L := fun hm => by have := hi.bound _ hm; omega
  obtain ⟨_, hab, _⟩ := hi.wf.child a an ha har
  have hqa : q ≠ a := by
    intro e; subst e
    have := (hi.wf.parent_len ha har haq ha).2.1
    omega
  have hnew := splitHeap_apply s.heap s.fresh a q an qn key v
  -- the table slots of the three nodes hung below the split node
  have iLF : (leafNode key (matchlen an.nodeKey key) s.fresh v).gettableindex
      = (leafNode key (matchlen an.nodeKey key) s.fresh v).first :=
    and_mask _ (hb _ (getD_mem_or _ _ h3))
  have iA : (movedNode an s.fresh (matchlen an.nodeKey key)).gettableindex
      = (movedNode an s.fresh (matchlen an.nodeKey key)).first :=
    and_mask _ (hab _ (getD_mem_or _ _ h2))
  have fSP : (splitNode an (matchlen an.nodeKey key)).first = an.first := by
    simp only [Node.first, splitNode, Node.getkey]
    exact getD_take_lt _ h1
  have iSP : (splitNode an (matchlen an.nodeKey key)).gettableindex
      = (splitNode an (matchlen an.nodeKey key)).first := by
    refine and_mask _ ?_
    show (splitNode an (matchlen an.nodeKey key)).first < 128
    rw [fSP]
    exact hi.wf.first_lt ha har
  have hwf : WF (splitHeap s.heap s.fresh a q an qn key v) s.root := by
    refine WF_split
      (((splitNode an (matchlen an.nodeKey key)).setTable
          (movedNode an s.fresh (matchlen an.nodeKey key)).gettableindex
          (some a)).setTable
          (leafNode key (matchlen an.nodeKey key) s.fresh v).gettableindex
          (some (s.fresh + 1)))
      (leafNode key (matchlen an.nodeKey key) s.fresh v)
      (movedNode an s.fresh (matchlen an.nodeKey key))
      (qn.setTable (splitNode an (matchlen an.nodeKey key)).gettableindex (some s.fresh))
      hi.wf ha har haq hq hfr hfr1 hff key hb (matchlen an.nodeKey key) h1 h2 h3
      (matchlen_take _ _) (matchlen_getD_ne _ _ h2 h3) hnokey hnosplit
      ?_ rfl rfl ?_ rfl rfl rfl (fun _ => rfl) rfl rfl rfl rfl rfl rfl rfl ?_ hnew
    · exact haq
    · intro i
      rw [iLF, iA]
      simp only [Node.setTable, splitNode, Node.new]
    · intro i
      rw [iSP]
      simp only [Node.setTable]
      rfl
  refine ⟨⟨hwf, ?_, ?_, ?_, ?_, ?_, ?_, List.nodup_cons.mpr ⟨hk, hi.nodupS⟩, ?_⟩, ?_⟩
  · intro p
    show _ ↔ splitHeap s.heap s.fresh a q an qn key v p ≠ none
    rw [hnew, List.mem_cons, List.mem_cons, hi.live]
    by_cases c1 : p = s.fresh
    · subst c1; simp
    · by_cases c2 : p = s.fresh + 1
      · subst c2; simp
      · by_cases c3 : p = a
        · subst c3; simp [c1, c2, ha]
        · by_cases c4 : p = q
          · subst c4; simp [c1, c2, c3, hq]
          · simp [c1, c2, c3, c4]
  · refine List.nodup_cons.mpr ⟨?_, List.nodup_cons.mpr ⟨hfL, hi.nodupL⟩⟩
    intro hm
    rcases List.mem_cons.mp hm with e | e
    · omega
    · exact hfL1 e
  · intro p hp
    show p < s.fresh + 2
    rcases List.mem_cons.mp hp with rfl | hp
    · omega
    · rcases List.mem_cons.mp hp with rfl | hp
      · omega
      · have := hi.bound p hp; omega
  · show s.numnodes + 2 + 1 = (((s.fresh + 1) :: s.fresh :: L).length : Int)
    rw [List.length_cons, List.length_cons]
    have := hi.count
    push_cast
    omega
  · intro p n hp hpr ht
    change splitHeap s.heap s.fresh a q an qn key v p = some n at hp
    rw [hnew] at hp
    by_cases c1 : p = s.fresh
    · subst c1
      simp only [if_true] at hp; cases hp
      have := ht (leafNode key (matchlen an.nodeKey key) s.fresh v).gettableindex
      simp [Node.setTable] at this
    · by_cases c2 : p = s.fresh + 1
      · subst c2
        simp only [if_neg c1, if_true] at hp; cases hp
        rfl
      · by_cases c3 : p = a
        · subst c3
          simp only [if_neg c1, if_neg c2, if_true] at hp; cases hp
          exact hi.prune p an ha hpr ht
        · by_cases c4 : p = q
          · subst c4
            simp only [if_neg c1, if_neg c2, if_neg c3, if_true] at hp; cases hp
            have := ht (splitNode an (matchlen an.nodeKey key)).gettableindex
            simp [Node.setTable] at this
          · simp only [if_neg c1, if_neg c2, if_neg c3, if_neg c4] at hp
            exact hi.prune p n hp hpr ht
  · intro k
    show _ ↔ ∃ p n, splitHeap s.heap s.fresh a q an qn key v p = some n ∧ _
    constructor
    · intro hk'
      rcases List.mem_cons.mp hk' with rfl | hk'
      · exact ⟨s.fresh + 1, leafNode k (matchlen an.nodeKey k) s.fresh v,
          by rw [hnew]; simp, rfl, rfl⟩
      · obtain ⟨p, n, hp, hb', hn⟩ := (hi.stored k).mp hk'
        have c1 : p ≠ s.fresh := ne_of_live_of_dead hp hfr
        have c2 : p ≠ s.fresh + 1 := ne_of_live_of_dead hp hfr1
        by_cases c3 : p = a
        · subst c3
          rw [ha] at hp; cases hp
          exact ⟨p, movedNode an s.fresh (matchlen an.nodeKey key),
            by rw [hnew]; simp [c1, c2], hb', hn⟩
        · by_cases c4 : p = q
          · subst c4
            rw [hq] at hp; cases hp
            exact ⟨p, qn.setTable (splitNode an (matchlen an.nodeKey key)).gettableindex
              (some s.fresh), by rw [hnew]; simp [c1, c2, c3], hb', hn⟩
          · exact ⟨p, n, by rw [hnew]; simp [c1, c2, c3, c4, hp], hb', hn⟩
    · rintro ⟨p, n, hp, hb', hn⟩
      rw [hnew] at hp
      by_cases c1 : p = s.fresh
      · subst c1
        simp only [if_true] at hp; cases hp
        simp [Node.setTable, splitNode, Node.new] at hb'
      · by_cases c2 : p = s.fresh + 1
        · subst c2
          simp only [if_neg c1, if_true] at hp; cases hp
          rw [← hn]
          exact List.mem_cons_self _ _
        · by_cases c3 : p = a
          · subst c3
            simp only [if_neg c1, if_neg c2, if_true] at hp; cases hp
            exact List.mem_cons_of_mem _ ((hi.stored k).mpr ⟨p, an, ha, hb', hn⟩)
          · by_cases c4 : p = q
            · subst c4
              simp only [if_neg c1, if_neg c2, if_neg c3, if_true] at hp; cases hp
              exact List.mem_cons_of_mem _ ((hi.stored k).mpr ⟨p, qn, hq, hb', hn⟩)
            · simp only [if_neg c1, if_neg c2, if_neg c3, if_neg c4] at hp
              exact List.mem_cons_of_mem _ ((hi.stored k).mpr ⟨p, n, hp, hb', hn⟩)
  · show s.nsize + 1 = (key :: S).length
    rw [List.length_cons, hi.size]
  · intro p n hp hpr
    change splitHeap s.heap s.fresh a q an qn key v p = some n at hp
    rw [hnew] at hp
    obtain ⟨ka, hka1, hka2⟩ := hc a an ha har
    by_cases c1 : p = s.fresh
    · subst c1
      simp only [if_true] at hp; cases hp
      exact ⟨ka, List.mem_cons_of_mem _ hka1, (List.take_prefix _ _).trans hka2⟩
    · by_cases c2 : p = s.fresh + 1
      · subst c2
        simp only [if_neg c1, if_true] at hp; cases hp
        exact ⟨key, List.mem_cons_self _ _, List.prefix_refl _⟩
      · by_cases c3 : p = a
        · subst c3
          simp only [if_neg c1, if_neg c2, if_true] at hp; cases hp
          exact ⟨ka, List.mem_cons_of_mem _ hka1, hka2⟩
        · by_cases c4 : p = q
          · subst c4
            simp only [if_neg c1, if_neg c2, if_neg c3, if_true] at hp; cases hp
            obtain ⟨k, hk1, hk2⟩ := hc p qn hq hpr
            exact ⟨k, List.mem_cons_of_mem _ hk1, hk2⟩
          · simp only [if_neg c1, if_neg c2, if_neg c3, if_neg c4] at hp
            obtain ⟨k, hk1, hk2⟩ := hc p n hp hpr
            exact ⟨k, List.mem_cons_of_mem _ hk1, hk2⟩

theorem prefix_of_matchlen_eq_right (a b : Key) (h : matchlen a b = b.length) : b <+: a := by
  have := matchlen_take a b
  rw [h, List.take_length] at this
  rw [← this]
  exact List.take_prefix _ _

/-- An insertion of a 7-bit key that is a prefix of no stored key succeeds and keeps
the invariant. -/
theorem insert_inv [Inhabited T] {s : Trie T} {S : List Key} {L : List Nat} (hi : Inv s S L)
    (hc : Covered s S) (key : Key) (v : T) (hb : ∀ b ∈ key, b < 128)
    (hsafe : ∀ k ∈ S, ¬ key <+: k) :
    ∃ s' L' it, s.insert key v = some (s', it, true) ∧ Inv s' (key :: S) L' ∧
      Covered s' (key :: S) := by
  obtain ⟨a, an, hf, ha, hA, hB, hC, hD⟩ := anchor_exists hi.wf key hb
  have hkS : key ∉ S := fun h => hsafe key h (List.prefix_refl _)
  by_cases hk : an.nodeKey = key
  · have hu : an.bInUse = false := by
      cases hbu : an.bInUse with
      | false => rfl
      | true => exact absurd ((hi.stored key).mpr ⟨a, an, ha, hbu, hk⟩) hkS
    have h1 := insert_mark_eq v hf ha hk hu
    have h2 := inv_mark hi hc ha v hu (by rw [hk]; exact hkS)
    rw [hk] at h2
    exact ⟨_, _, _, h1, h2.1, h2.2⟩
  · have hMl := matchlen_le_left an.nodeKey key
    have hMr := matchlen_le_right an.nodeKey key
    have hM : matchlen an.nodeKey key < key.length := by
      by_contra hcon
      have hpre : key <+: an.nodeKey := prefix_of_matchlen_eq_right _ _ (by omega)
      by_cases har : a = s.root
      · subst har
        have := (hi.wf.root_rec ha).2.1
        rw [this] at hpre hk
        exact hk (List.prefix_nil.mp hpre).symm
      · obtain ⟨k, hk1, hk2⟩ := hc a an ha har
        exact hsafe k hk1 (hpre.trans hk2)
    have hnokey : ∀ p n, s.heap p = some n → n.nodeKey ≠ key := by
      intro p n hp e
      by_cases hpr : p = s.root
      · subst hpr
        have := (hi.wf.root_rec hp).2.1
        rw [e] at this
        rw [this] at hM
        simp at hM
      · rcases hD p n hp hpr (by rw [e]) with h | h
        · subst h
          rw [ha] at hp; cases hp
          exact hk e
        · rw [e] at h
          omega
    have hfr : s.heap s.fresh = none := hi.fresh_dead (Nat.le_refl _)
    have hfr1 : s.heap (s.fresh + 1) = none := hi.fresh_dead (Nat.le_succ _)
    by_cases hm : matchlen an.nodeKey key = an.nodeKey.length
    · have hpre := prefix_of_matchlen_eq _ _ hm
      have hlt : an.nodeKey.length < key.length := by omega
      have h1 := insert_graft_eq v hf ha hk hm hfr
      have h2 := inv_graft hi hc ha v key hb hpre hlt (hB hm hlt) hnokey hkS
      exact ⟨_, _, _, h1, h2.1, h2.2⟩
    · have h2 : matchlen an.nodeKey key < an.nodeKey.length := by omega
      have har : a ≠ s.root := by
        intro e; subst e
        have := (hi.wf.root_rec ha).2.1
        rw [this] at h2
        simp at h2
      have h1 := hC har
      obtain ⟨_, _, q, qn, haq, hq, _, _⟩ := hi.wf.child a an ha har
      have hnosplit : ∀ p n, s.heap p = some n →
          n.nodeKey ≠ an.nodeKey.take (matchlen an.nodeKey key) := by
        intro p n hp e
        have hlen : n.nodeKey.length = matchlen an.nodeKey key := by
          rw [e, List.length_take]; omega
        have hpr : p ≠ s.root := by
          intro e'; subst e'
          have := (hi.wf.root_rec hp).2.1
          rw [this] at hlen
          simp at hlen
          omega
        have hpre : n.nodeKey <+: key := by
          rw [e, matchlen_take]
          exact List.take_prefix _ _
        rcases hD p n hp hpr hpre with h | h
        · subst h
          rw [ha] at hp; cases hp
          omega
        · omega
      have e1 := insert_split_eq v hf ha hk hm hfr hfr1 haq hq
      have e2 := inv_split hi hc ha har haq hq v key hb h1 h2 hM hnokey hnosplit hkS
      exact ⟨_, _, _, e1, e2.1, e2.2⟩

/-! ## Erasure keeps the invariant -/

theorem scanTable_le (table : Nat → Option Nat) :
    ∀ (k i : Nat), scanTable table k i ≤ i + k := by
  intro k
  induction k with
  | zero => intro i; simp [scanTable]
  | succ k ih =>
    intro i
    simp only [scanTable]
    split
    · omega
    · have := ih (i + 1); omega

theorem scanTable_eq_iff (table : Nat → Option Nat) :
    ∀ (k i : Nat), scanTable table k i = i + k ↔ ∀ j, i ≤ j → j < i + k → table j = none := by
  intro k
  induction k with
  | zero => intro i; simp [scanTable]; intro j h1 h2; omega
  | succ k ih =>
    intro i
    simp only [scanTable]
    split
    · rename_i hs
      constructor
      · intro h; omega
      · intro h
        have := h i (Nat.le_refl _) (by omega)
        rw [this] at hs
        simp at hs
    · rename_i hs
      have hi : table i = none := by
        cases ht : table i with
        | none => rfl
        | some c => rw [ht] at hs; simp at hs
      rw [show i + (k + 1) = (i + 1) + k by omega, ih (i + 1)]
      constructor
      · intro h j h1 h2
        by_cases hj : j = i
        · rw [hj]; exact hi
        · exact h j (by omega) h2
      · intro h j h1 h2
        exact h j (by omega) h2

/-- In a well-formed heap the scan of `erase` finds no child exactly when the table
is empty. -/
theorem scan_childless {h : Heap T} {root : Nat} (hw : WF h root) {x : Nat} {xn : Node T}
    (hx : h x = some xn) :
    RANGE = scanTable xn.table RANGE 0 ↔ ∀ i, xn.table i = none := by
  have := scanTable_eq_iff xn.table RANGE 0
  rw [Nat.zero_add] at this
  rw [eq_comm, this]
  constructor
  · intro hall i
    by_cases hi : i < RANGE
    · exact hall i (Nat.zero_le _) hi
    · cases ht : xn.table i with
      | none => rfl
      | some c =>
        obtain ⟨hcr, cn, hcn, _, hcf⟩ := hw.slot x xn i c hx ht
        have := hw.first_lt hcn hcr
        rw [hcf] at this
        exact absurd this hi
  · intro hall j _ _
    exact hall j

/-- If the root has no child, no other node is alive. -/
theorem only_root {h : Heap T} {root : Nat} (hw : WF h root) {r : Node T}
    (hr : h root = some r) (hch : ∀ i, r.table i = none) :
    ∀ p, p ≠ root → h p = none := by
  have key : ∀ (k : Nat) (p : Nat) (n : Node T), h p = some n → p ≠ root →
      n.nodeKey.length = k → False := by
    intro k
    induction k using Nat.strong_induction_on with
    | _ k ih =>
      intro p n hp hpr hk
      obtain ⟨hlt, _, q, qn, hq, hqn, _, hqt⟩ := hw.child p n hp hpr
      have hqr : q ≠ root := by
        intro e; subst e
        rw [hr] at hqn; cases hqn
        rw [hch] at hqt; cases hqt
      have hlen := (hw.parent_len hp hpr hq hqn).2.1
      exact ih qn.nodeKey.length (by omega) q qn hqn hqr rfl
  intro p hpr
  cases hp : h p with
  | none => rfl
  | some n => exact absurd rfl (fun (e : n.nodeKey.length = n.nodeKey.length) => key _ p n hp hpr e)

/-- Unlinking and destroying a childless node keeps the heap well formed. -/
theorem WF_unlink {h : Heap T} {root x q : Nat} {xn qn : Node T} (hw : WF h root)
    (hx : h x = some xn) (hxr : x ≠ root) (hxq : xn.parent = some q) (hq : h q = some qn)
    (hch : ∀ i, xn.table i = none) :
    WF ((h.write q (qn.setTable xn.gettableindex none)).free x) root := by
  rw [hw.index_eq hx hxr]
  obtain ⟨_, _, hqt⟩ := hw.parent_len hx hxr hxq hq
  have hqx : q ≠ x := by
    intro e; subst e
    rw [hx] at hq; cases hq
    rw [hch] at hqt; cases hqt
  have hnew : ∀ p, ((h.write q (qn.setTable xn.first none)).free x) p
      = if p = x then none else if p = q then some (qn.setTable xn.first none) else h p := by
    intro p; simp only [Heap.free, Heap.write]
  have hold : ∀ p n, h p = some n → p ≠ x → ∃ n',
      ((h.write q (qn.setTable xn.first none)).free x) p = some n' ∧
      n'.nodeKey = n.nodeKey ∧ n'.posNodeKeyStart = n.posNodeKeyStart ∧
      n'.parent = n.parent ∧ n'.first = n.first ∧
      (∀ i, ¬ (p = q ∧ i = xn.first) → n'.table i = n.table i) := by
    intro p n hp hpx
    by_cases hpq : p = q
    · subst hpq
      rw [hq] at hp; cases hp
      refine ⟨qn.setTable xn.first none, by rw [hnew]; simp [hpx], rfl, rfl, rfl, rfl, ?_⟩
      intro i hi
      simp only [Node.setTable]
      rw [if_neg (fun e => hi ⟨rfl, e⟩)]
    · exact ⟨n, by rw [hnew]; simp [hpx, hpq, hp], rfl, rfl, rfl, rfl, fun _ _ => rfl⟩
  have hview : ∀ p n', ((h.write q (qn.setTable xn.first none)).free x) p = some n' →
      p ≠ x ∧ ∃ n, h p = some n ∧ n'.nodeKey = n.nodeKey ∧
        n'.posNodeKeyStart = n.posNodeKeyStart ∧ n'.parent = n.parent ∧ n'.first = n.first ∧
        (∀ i c, n'.table i = some c → n.table i = some c ∧ ¬ (p = q ∧ i = xn.first)) := by
    intro p n' hp
    rw [hnew] at hp
    by_cases hpx : p = x
    · rw [if_pos hpx] at hp; cases hp
    · rw [if_neg hpx] at hp
      refine ⟨hpx, ?_⟩
      by_cases hpq : p = q
      · subst hpq
        rw [if_pos rfl] at hp; cases hp
        refine ⟨qn, hq, rfl, rfl, rfl, rfl, ?_⟩
        intro i c hic
        simp only [Node.setTable] at hic
        by_cases hi : i = xn.first
        · rw [if_pos hi] at hic; cases hic
        · rw [if_neg hi] at hic
          exact ⟨hic, fun e => hi e.2⟩
      · rw [if_neg hpq] at hp
        exact ⟨n', hp, rfl, rfl, rfl, rfl, fun i c hic => ⟨hic, fun e => hpq e.1⟩⟩
  constructor
  · obtain ⟨r, hr, a1, a2, a3⟩ := hw.root_live
    obtain ⟨r', hr', b1, b2, b3, _, _⟩ := hold root r hr (Ne.symm hxr)
    exact ⟨r', hr', by rw [b3, a1], by rw [b1, a2], by rw [b2, a3]⟩
  · intro p n' hp hpr
    obtain ⟨hpx, n, hn, e1, e2, e3, e4, _⟩ := hview p n' hp
    obtain ⟨c1, c2, q', qn', hq', hqn', hqk', hqt'⟩ := hw.child p n hn hpr
    have hq'x : q' ≠ x := by
      intro e; subst e
      rw [hx] at hqn'; cases hqn'
      rw [hch] at hqt'; cases hqt'
    obtain ⟨y, hy, d1, d2, d3, d4, d5⟩ := hold q' qn' hqn' hq'x
    rw [e1, e2, e3, e4]
    refine ⟨c1, c2, q', y, hq', hy, by rw [d1]; exact hqk', ?_⟩
    rw [d5]
    · exact hqt'
    · rintro ⟨g1, g2⟩
      subst g1
      rw [hq] at hqn'; cases hqn'
      rw [g2, hqt] at hqt'
      cases hqt'
      exact hpx rfl
  · intro q0 pn i c hq0 hic
    obtain ⟨hq0x, n, hn, e1, e2, e3, e4, e5⟩ := hview q0 pn hq0
    obtain ⟨g1, g2⟩ := e5 i c hic
    obtain ⟨c1, nc, hc, c2, c3⟩ := hw.slot q0 n i c hn g1
    have hcx : c ≠ x := by
      intro e; subst e
      rw [hx] at hc; cases hc
      rw [hxq] at c2; cases c2
      exact g2 ⟨rfl, c3.symm⟩
    obtain ⟨y, hy, d1, d2, d3, d4, _⟩ := hold c nc hc hcx
    exact ⟨c1, y, hy, by rw [d3]; exact c2, by rw [d4]; exact c3⟩
  · intro p1 p2 n1 n2 hp1 hp2 he
    obtain ⟨_, m1, hm1, e1, _⟩ := hview p1 n1 hp1
    obtain ⟨_, m2, hm2, g1, _⟩ := hview p2 n2 hp2
    exact hw.inj p1 p2 m1 m2 hm1 hm2 (by rw [← e1, ← g1, he])

theorem length_eq_one_of_only {L : List Nat} {r : Nat} (hnd : L.Nodup)
    (h : ∀ p, p ∈ L ↔ p = r) : L.length = 1 := by
  have hperm : L.Perm [r] := by
    rw [List.perm_ext_iff_of_nodup hnd (List.nodup_singleton r)]
    intro a
    rw [h a, List.mem_singleton]
  simpa using hperm.length_eq

/-- The pruning loop of `erase`: started at a live node `x` with enough fuel, it ends
either in a heap that satisfies the invariant everywhere, or with every node
destroyed and `numnodes` at -1. -/
theorem eraseLoop_spec {root : Nat} {S : List Key} :
    ∀ (fuel : Nat) (h : Heap T) (nn : Int) (L : List Nat) (x : Nat) (xn : Node T),
      InvAt h root nn S L x → h x = some xn → xn.nodeKey.length + 1 ≤ fuel →
      ∃ h' nn', eraseLoop fuel h nn (some x) = some (h', nn') ∧
        ((∃ L', L' ⊆ L ∧ InvAt h' root nn' S L' root) ∨
          ((∀ p, h' p = none) ∧ nn' = -1 ∧ S = [])) := by
  intro fuel
  induction fuel with
  | zero => intro h nn L x xn _ _ hf; omega
  | succ fuel ih =>
    intro h nn L x xn hi hx hf
    have hscan := scan_childless hi.wf hx
    simp only [eraseLoop, hx]
    by_cases hc : RANGE = scanTable xn.table RANGE 0 ∧ xn.bInUse = false
    · rw [if_pos hc]
      have hch := hscan.mp hc.1
      by_cases hxr : x = root
      · subst hxr
        have hpar := (hi.wf.root_rec hx).1
        have hdead := only_root hi.wf hx hch
        simp only [hpar, eraseLoop]
        refine ⟨_, _, rfl, Or.inr ⟨?_, ?_, ?_⟩⟩
        · intro p
          by_cases hp : p = x
          · subst hp; simp
          · rw [Heap.free_other _ _ _ hp]; exact hdead p hp
        · have hlen : L.length = 1 := by
            refine length_eq_one_of_only hi.nodupL (r := x) ?_
            intro p
            rw [hi.live]
            constructor
            · intro hne
              by_contra hp
              exact hne (hdead p hp)
            · intro hp
              rw [hp, hx]; simp
          have := hi.count
          rw [hlen] at this
          push_cast at this
          omega
        · rw [List.eq_nil_iff_forall_not_mem]
          intro k hk
          obtain ⟨p, n, hp, hb, _⟩ := (hi.stored k).mp hk
          by_cases hpx : p = x
          · subst hpx
            rw [hx] at hp; cases hp
            rw [hc.2] at hb; cases hb
          · rw [hdead p hpx] at hp; cases hp
      · obtain ⟨hlt, _, q, qn, hxq, hq, _, hqt⟩ := hi.wf.child x xn hx hxr
        obtain ⟨_, hqlen, _⟩ := hi.wf.parent_len hx hxr hxq hq
        have hqx : q ≠ x := by
          intro e; subst e
          rw [hx] at hq; cases hq
          rw [hch] at hqt; cases hqt
        simp only [hxq, hq]
        have hwf2 := WF_unlink hi.wf hx hxr hxq hq hch
        have hnew : ∀ p, ((h.write q (qn.setTable xn.gettableindex none)).free x) p
            = if p = x then none
              else if p = q then some (qn.setTable xn.gettableindex none) else h p := by
          intro p; simp only [Heap.free, Heap.write]
        have hxL : x ∈ L := (hi.live x).mpr (by rw [hx]; simp)
        have hi2 : InvAt ((h.write q (qn.setTable xn.gettableindex none)).free x) root
            (nn - 1) S (L.erase x) q := by
          refine ⟨hwf2, ?_, hi.nodupL.erase x, ?_, ?_, ?_⟩
          · intro p
            rw [hi.nodupL.mem_erase_iff, hi.live, hnew]
            by_cases hpx : p = x
            · simp [hpx]
            · by_cases hpq : p = q
              · subst hpq; simp [hpx, hq]
              · simp [hpx, hpq]
          · rw [List.length_erase_of_mem hxL]
            have := hi.count
            have hpos : 0 < L.length := List.length_pos_of_mem hxL
            omega
          · intro p n hp hpr hpq ht
            rw [hnew] at hp
            by_cases hpx : p = x
            · rw [if_pos hpx] at hp; cases hp
            · rw [if_neg hpx, if_neg hpq] at hp
              exact hi.prune p n hp hpr hpx ht
          · intro k
            rw [hi.stored k]
            constructor
            · rintro ⟨p, n, hp, hb, hn⟩
              have hpx : p ≠ x := by
                intro e; subst e
                rw [hx] at hp; cases hp
                rw [hc.2] at hb; cases hb
              by_cases hpq : p = q
              · subst hpq
                rw [hq] at hp; cases hp
                exact ⟨p, qn.setTable xn.gettableindex none, by rw [hnew]; simp [hpx], hb, hn⟩
              · exact ⟨p, n, by rw [hnew]; simp [hpx, hpq, hp], hb, hn⟩
            · rintro ⟨p, n, hp, hb, hn⟩
              rw [hnew] at hp
              by_cases hpx : p = x
              · rw [if_pos hpx] at hp; cases hp
              · rw [if_neg hpx] at hp
                by_cases hpq : p = q
                · subst hpq
                  rw [if_pos rfl] at hp; cases hp
                  exact ⟨p, qn, hq, hb, hn⟩
                · rw [if_neg hpq] at hp
                  exact ⟨p, n, hp, hb, hn⟩
        have hq2 : ((h.write q (qn.setTable xn.gettableindex none)).free x) q
            = some (qn.setTable xn.gettableindex none) := by
          rw [hnew]; simp [hqx]
        obtain ⟨h', nn', hres, hfin⟩ := ih _ (nn - 1) (L.erase x) q _ hi2 hq2
          (by show qn.nodeKey.length + 1 ≤ fuel; omega)
        refine ⟨h', nn', hres, ?_⟩
        rcases hfin with ⟨L', hL', hI'⟩ | hd
        · exact Or.inl ⟨L', fun p hp => List.mem_of_mem_erase (hL' hp), hI'⟩
        · exact Or.inr hd
    · rw [if_neg hc]
      refine ⟨h, nn, rfl, Or.inl ⟨L, fun _ hp => hp, hi.wf, hi.live, hi.nodupL, hi.count, ?_,
        hi.stored⟩⟩
      intro p n hp hpr _ ht
      by_cases hpx : p = x
      · subst hpx
        rw [hx] at hp; cases hp
        cases hb : xn.bInUse with
        | true => rfl
        | false => exact absurd ⟨hscan.mpr ht, hb⟩ hc
      · exact hi.prune p n hp hpr hpx ht

/-- Erasing a stored key returns 1 and either keeps the invariant for the remaining
keys or, when no key remains, leaves the state in which every node is destroyed. -/
theorem erase_inv {s : Trie T} {S : List Key} {L : List Nat} (hi : Inv s S L) (k : Key)
    (hk : k ∈ S) :
    ∃ s', s.erase k = some (s', 1) ∧
      ((∃ L', Inv s' (S.erase k) L') ∨ (Dead s' ∧ S.erase k = [])) := by
  obtain ⟨pm, mn, hpm, hbu, hmk⟩ := (hi.stored k).mp hk
  have hfind : s.find k = some (some pm) := by
    have := find_complete hi.wf hpm
    rw [hmk] at this
    simp [Trie.find, this, hpm, Node.hasValue, hbu]
  have hi2 : InvAt (s.heap.write pm { mn with bInUse := false }) s.root s.numnodes
      (S.erase k) L pm := by
    refine ⟨WF_reflag hi.wf hpm rfl rfl rfl rfl, ?_, hi.nodupL, hi.count, ?_, ?_⟩
    · intro p
      rw [hi.live]
      by_cases hp : p = pm
      · subst hp; simp [hpm]
      · rw [Heap.write_other _ _ _ _ hp]
    · intro p n hp hpr hpx ht
      rw [Heap.write_other _ _ _ _ hpx] at hp
      exact hi.prune p n hp hpr ht
    · intro k'
      rw [hi.nodupS.mem_erase_iff, hi.stored k']
      constructor
      · rintro ⟨hne, p, n, hp, hb, hn⟩
        have hpx : p ≠ pm := by
          intro e; subst e
          rw [hpm] at hp; cases hp
          exact hne (hn.symm.trans hmk)
        exact ⟨p, n, by rw [Heap.write_other _ _ _ _ hpx]; exact hp, hb, hn⟩
      · rintro ⟨p, n, hp, hb, hn⟩
        by_cases hpx : p = pm
        · subst hpx
          rw [Heap.write_same] at hp; cases hp
          cases hb
        · rw [Heap.write_other _ _ _ _ hpx] at hp
          refine ⟨?_, p, n, hp, hb, hn⟩
          intro e
          exact hpx (hi.wf.inj p pm n mn hp hpm (by rw [hn, e, hmk]))
  obtain ⟨h', nn', hres, hfin⟩ := eraseLoop_spec (fuelOf k) _ s.numnodes L pm
    { mn with bInUse := false } hi2 (Heap.write_same _ _ _)
    (by show mn.nodeKey.length + 1 ≤ fuelOf k; rw [hmk]; simp only [fuelOf]; omega)
  refine ⟨{ s with heap := h', numnodes := nn', nsize := s.nsize - 1 }, ?_, ?_⟩
  · simp [Trie.erase, hfind, hpm, hres]
  · have hsize : s.nsize - 1 = (S.erase k).length := by
      rw [List.length_erase_of_mem hk, hi.size]
    rcases hfin with ⟨L', hL', hI'⟩ | ⟨hd1, hd2, hd3⟩
    · refine Or.inl ⟨L', hI'.wf, hI'.live, hI'.nodupL, fun p hp => hi.bound p (hL' hp),
        hI'.count, ?_, hI'.stored, hi.nodupS.erase k, hsize⟩
      intro p n hp hpr ht
      exact hI'.prune p n hp hpr hpr ht
    · refine Or.inr ⟨⟨hd1, hd2, ?_⟩, hd3⟩
      show s.nsize - 1 = 0
      rw [hsize, hd3]
      rfl

/-- A new trie satisfies the invariant with no key stored. -/
theorem inv_new [Inhabited T] : Inv (Trie.new : Trie T) [] [0] ∧ Covered (Trie.new : Trie T) [] := by
  have hnew : ∀ p, (Trie.new : Trie T).heap p = if p = 0 then some Node.new else none := by
    intro p; simp [Trie.new, Heap.write]
  have hroot : (Trie.new : Trie T).root = 0 := rfl
  refine ⟨⟨⟨⟨Node.new, by rw [hnew]; simp [hroot], rfl, rfl, rfl⟩, ?_, ?_, ?_⟩, ?_,
    List.nodup_singleton 0, ?_, rfl, ?_, ?_, List.nodup_nil, rfl⟩, ?_⟩
  · intro p n hp hpr
    rw [hnew, if_neg (by rw [hroot] at hpr; exact hpr)] at hp
    cases hp
  · intro q pn i c hq hc
    rw [hnew] at hq
    by_cases hq0 : q = 0
    · rw [if_pos hq0] at hq; cases hq
      cases hc
    · rw [if_neg hq0] at hq; cases hq
  · intro p q n m hp hq _
    rw [hnew] at hp hq
    by_cases hp0 : p = 0
    · by_cases hq0 : q = 0
      · rw [hp0, hq0]
      · rw [if_neg hq0] at hq; cases hq
    · rw [if_neg hp0] at hp; cases hp
  · intro p
    rw [hnew, List.mem_singleton]
    by_cases hp0 : p = 0
    · simp [hp0]
    · simp [hp0]
  · intro p hp
    rw [List.mem_singleton] at hp
    rw [hp]
    show 0 < 1
    omega
  · intro p n hp hpr
    rw [hnew, if_neg (by rw [hroot] at hpr; exact hpr)] at hp
    cases hp
  · intro k
    constructor
    · intro h; cases h
    · rintro ⟨p, n, hp, hb, _⟩
      rw [hnew] at hp
      by_cases hp0 : p = 0
      · rw [if_pos hp0] at hp; cases hp
        cases hb
      · rw [if_neg hp0] at hp; cases hp
  · intro p n hp hpr
    rw [hnew, if_neg (by rw [hroot] at hpr; exact hpr)] at hp
    cases hp

/-- Inserting a list of 7-bit keys, none of them a prefix of a key stored or inserted
before it, succeeds and stores them all. -/
theorem insertAll_inv [Inhabited T] :
    ∀ (kvs : List (Key × T)) (s : Trie T) (S : List Key) (L : List Nat),
      Inv s S L → Covered s S →
      (∀ kv ∈ kvs, ∀ b ∈ kv.1, b < 128) →
      (kvs.map Prod.fst).Pairwise (fun k1 k2 => ¬ k2 <+: k1) →
      (∀ kv ∈ kvs, ∀ k ∈ S, ¬ kv.1 <+: k) →
      ∃ s' L', insertAll s kvs = some s' ∧ Inv s' ((kvs.map Prod.fst).reverse ++ S) L' := by
  intro kvs
  induction kvs with
  | nil =>
    intro s S L hi _ _ _ _
    exact ⟨s, L, rfl, by simpa using hi⟩
  | cons kv rest ih =>
    intro s S L hi hc hb hp hs
    obtain ⟨s1, L1, it, h1, hi1, hc1⟩ := insert_inv hi hc kv.1 kv.2
      (hb kv (List.mem_cons_self _ _)) (hs kv (List.mem_cons_self _ _))
    rw [List.map_cons, List.pairwise_cons] at hp
    obtain ⟨s', L', h2, hi2⟩ := ih s1 (kv.1 :: S) L1 hi1 hc1
      (fun kv' hkv' => hb kv' (List.mem_cons_of_mem _ hkv')) hp.2
      (by
        intro kv' hkv' k hk
        rcases List.mem_cons.mp hk with rfl | hk
        · exact hp.1 kv'.1 (List.mem_map_of_mem _ hkv')
        · exact hs kv' (List.mem_cons_of_mem _ hkv') k hk)
    refine ⟨s', L', ?_, ?_⟩
    · simp only [insertAll, h1]
      exact h2
    · simpa [List.reverse_cons, List.append_assoc] using hi2

theorem Inv.perm {s : Trie T} {S S' : List Key} {L : List Nat} (hi : Inv s S L)
    (hp : S.Perm S') : Inv s S' L :=
  ⟨hi.wf, hi.live, hi.nodupL, hi.bound, hi.count, hi.prune,
    fun k => by rw [← hp.mem_iff]; exact hi.stored k,
    hp.nodup_iff.mp hi.nodupS, by rw [← hp.length_eq]; exact hi.size⟩

theorem keyLength_bounded (h : Heap T) :
    ∀ (L : List Nat), ∃ B, ∀ p ∈ L, ∀ n, h p = some n → n.nodeKey.length ≤ B := by
  intro L
  induction L with
  | nil => exact ⟨0, fun p hp => by cases hp⟩
  | cons x L ih =>
    obtain ⟨B, hB⟩ := ih
    cases hx : h x with
    | none =>
      refine ⟨B, fun p hp n hn => ?_⟩
      rcases List.mem_cons.mp hp with rfl | hp
      · rw [hx] at hn; cases hn
      · exact hB p hp n hn
    | some xn =>
      refine ⟨max B xn.nodeKey.length, fun p hp n hn => ?_⟩
      rcases List.mem_cons.mp hp with rfl | hp
      · rw [hx] at hn; cases hn
        exact Nat.le_max_right _ _
      · exact le_trans (hB p hp n hn) (Nat.le_max_left _ _)

/-- When no key is stored, the root is the only node. -/
theorem no_nodes_of_no_keys {s : Trie T} {L : List Nat} (hi : Inv s [] L) :
    ∀ p, p ≠ s.root → s.heap p = none := by
  intro p hpr
  cases hp : s.heap p with
  | none => rfl
  | some n =>
    exfalso
    have grow : ∀ j : Nat, ∃ p n, s.heap p = some n ∧ p ≠ s.root ∧ j ≤ n.nodeKey.length := by
      intro j
      induction j with
      | zero => exact ⟨p, n, hp, hpr, Nat.zero_le _⟩
      | succ j ih =>
        obtain ⟨p1, n1, hp1, hpr1, hlen⟩ := ih
        have hnv : n1.bInUse ≠ true := by
          intro hb
          have := (hi.stored n1.nodeKey).mpr ⟨p1, n1, hp1, hb, rfl⟩
          cases this
        have hch : ¬ ∀ i, n1.table i = none := fun hall => hnv (hi.prune p1 n1 hp1 hpr1 hall)
        obtain ⟨i, hi1⟩ := not_forall.mp hch
        cases hc : n1.table i with
        | none => exact absurd hc hi1
        | some c =>
          obtain ⟨hcr, cn, hcn, hcp, _⟩ := hi.wf.slot p1 n1 i c hp1 hc
          have hl := (hi.wf.parent_len hcn hcr hcp hp1).2.1
          have hlt := (hi.wf.child c cn hcn hcr).1
          exact ⟨c, cn, hcn, hcr, by omega⟩
    obtain ⟨B, hB⟩ := keyLength_bounded s.heap L
    obtain ⟨p2, n2, hp2, _, hlen⟩ := grow (B + 1)
    have := hB p2 (hi.mem_live hp2) n2 hp2
    omega

/-- Erasing all the stored keys, in any order, leaves no key, no node but possibly
the root, and a node count of at most 0. -/
theorem eraseAll_final :
    ∀ (es : List Key) (s : Trie T) (L : List Nat), Inv s es L →
      ∃ s', eraseAll s es = some s' ∧ s'.size = 0 ∧ s'.getnumnodes ≤ 0 ∧
        ∀ p, p ≠ s'.root → s'.heap p = none := by
  intro es
  induction es with
  | nil =>
    intro s L hi
    have hdead := no_nodes_of_no_keys hi
    refine ⟨s, rfl, hi.size, ?_, hdead⟩
    obtain ⟨r, hr, _⟩ := hi.wf.root_live
    have hlen : L.length = 1 := by
      refine length_eq_one_of_only hi.nodupL (r := s.root) ?_
      intro p
      rw [hi.live]
      constructor
      · intro hne
        by_contra hp
        exact hne (hdead p hp)
      · intro hp
        rw [hp, hr]; simp
    have := hi.count
    rw [hlen] at this
    show s.numnodes ≤ 0
    push_cast at this
    omega
  | cons k es ih =>
    intro s L hi
    obtain ⟨s1, h1, hfin⟩ := erase_inv hi k (List.mem_cons_self _ _)
    rw [List.erase_cons_head] at hfin
    rcases hfin with ⟨L', hi'⟩ | ⟨⟨hd1, hd2, hd3⟩, hnil⟩
    · obtain ⟨s', h2, hres⟩ := ih s1 L' hi'
      exact ⟨s', by simp only [eraseAll, h1]; exact h2, hres⟩
    · subst hnil
      refine ⟨s1, by simp only [eraseAll, h1], hd3, ?_, fun p _ => hd1 p⟩
      show s1.numnodes ≤ 0
      rw [hd2]
      decide

/-! ## The claims settled by evaluating the code -/

set_option maxRecDepth 1000000

/-- C1, the code at the failing input: `insert("testing", 1)` and then
`insert("test", 2)` both report `inserted = true` and `size()` is 2, yet
`find("test")` returns `end()`; "testing" is still found with its value. -/
theorem C1_prefix_key_is_lost :
    (trieTesting.bind fun s => (s.insert kTest 2).map fun r => r.2.2) = some true ∧
    trieTestingTest.map Trie.size = some 2 ∧
    (trieTestingTest.bind fun s => s.find kTest) = some none ∧
    (trieTestingTest.bind fun s => s.lookup kTesting) = some (some (kTesting, 1)) := by
  decide

/-- C2, the code at the failing input: with "testing" stored, `insert("test", 2)`
followed by `insert("test", 3)`: the second call also returns `inserted = true`,
`size()` grows from 2 to 3, and the value then found for "test" is 3. -/
theorem C2_second_insert_succeeds :
    trieTestingTest.map Trie.size = some 2 ∧
    (trieTestingTest.bind fun s => (s.insert kTest 3).map fun r => r.2.2) = some true ∧
    (trieTestingTest.bind fun s => (s.insert kTest 3).map fun r => r.1.size) = some 3 ∧
    (trieTestingTest.bind fun s => (s.insert kTest 3).bind fun r => r.1.lookup kTest)
      = some (some (kTest, 3)) := by
  decide

/-- C3, the code at the failing inputs: after `insert("testing", 1)`,
`insert("test", 2)` the call `erase("test")` returns 0 and `size()` stays 2; and after
`insert("a", 1)` the call `erase("a")` returns 1 with `size()` 0 but destroys the
root, so that the following `find("a")` reads a destroyed node. -/
theorem C3_erase_misses_key_and_destroys_root :
    (trieTestingTest.bind fun s => (s.erase kTest).map fun r => (r.2, r.1.size)) = some (0, 2) ∧
    ((Trie.insertS (Trie.new : Trie Int) kA 1).bind fun s =>
        (s.erase kA).map fun r => (r.2, r.1.size)) = some (1, 0) ∧
    (trieEmptied.map fun s => (s.heap s.root).isNone) = some true ∧
    (trieEmptied.bind fun s => s.find kA) = none := by
  decide

/-- C4, the code at the failing input: after `insert("testing", 1)`,
`insert("test", 2)` the call `erase("testing")` returns 1, and `find("test")` returns
`end()` after it (as it did before it): the other key of the set is not found. -/
theorem C4_other_key_not_found_after_erase :
    (trieTestingTest.bind fun s => (s.erase kTesting).map fun r => r.2) = some 1 ∧
    (trieTestingTest.bind fun s => s.lookup kTest) = some none ∧
    (trieTestingTest.bind fun s => (s.erase kTesting).bind fun r => r.1.lookup kTest)
      = some none := by
  decide

/-- C5, the code at the failing input: after `insert("a", 1)`, `erase("a")` the root
node is destroyed, and `find("b")` for the never inserted key "b" reads the destroyed
root instead of returning `end()`. -/
theorem C5_find_after_root_destroyed :
    (trieEmptied.map fun s => (s.heap s.root).isNone) = some true ∧
    (trieEmptied.bind fun s => s.find kB) = none := by
  decide

/-- C7, the code at the failing inputs: on a new trie `begin()` reads through the
null pointer that `next(root)` returns; and after `insert("", 1)`, `insert("a", 2)`
the walk from `begin()` yields "a" only, although the root holds the value of "". -/
theorem C7_begin_fails_and_skips_root :
    (Trie.new : Trie Int).next (some 0) = some none ∧
    (Trie.new : Trie Int).begin = none ∧
    ((insertAll (Trie.new : Trie Int) [([], 1), (kA, 2)]).bind fun s => s.keys) = some [kA] ∧
    ((insertAll (Trie.new : Trie Int) [([], 1), (kA, 2)]).bind fun s => s.lookup [])
      = some (some ([], 1)) := by
  decide

/-- C8, the code at the failing input: with "testing" stored, `operator[]("test")`
inserts "test", its second `find("test")` returns `end()`, and the operator
dereferences that iterator. -/
theorem C8_index_dereferences_end :
    (trieTesting.bind fun s => s.find kTest) = some none ∧
    (trieTesting.bind fun s => (s.insert kTest default).bind fun r => r.1.find kTest)
      = some none ∧
    (trieTesting.bind fun s => (s.index kTest).map fun r => r.2) = none := by
  decide

/-- C10: after `insert("test", 1)`, `insert("testing", 2)`, `insert("te__ing", 3)` each
key is found with its own value and `size()` is 3; the root's slot 't' holds node 3,
a valueless node with full key "te" and segment "te" under the root; the node found
for "test" is node 1, registered in slot 's' of node 3, with parent 3 and segment
"st"; the node found for "testing" is node 2, registered in slot 'i' of node 1, with
parent 1. -/
theorem C10_prefix_split_scenario :
    (trieScenario.bind fun s => s.lookup kTest) = some (some (kTest, 1)) ∧
    (trieScenario.bind fun s => s.lookup kTesting) = some (some (kTesting, 2)) ∧
    (trieScenario.bind fun s => s.lookup kTe__ing) = some (some (kTe__ing, 3)) ∧
    trieScenario.map Trie.size = some 3 ∧
    (trieScenario.bind fun s => (s.heap s.root).bind fun r => r.table 116) = some 3 ∧
    (trieScenario.bind fun s => (s.heap 3).map fun n =>
        (n.hasValue, n.getkey, n.getkey.drop n.posNodeKeyStart, n.parent))
      = some (false, [116, 101], [116, 101], some 0) ∧
    (trieScenario.bind fun s => s.find kTest) = some (some 1) ∧
    (trieScenario.bind fun s => (s.heap 3).bind fun n => n.table 115) = some 1 ∧
    (trieScenario.bind fun s => (s.heap 1).map fun n =>
        (n.parent, n.getkey.drop n.posNodeKeyStart)) = some (some 3, [115, 116]) ∧
    (trieScenario.bind fun s => s.find kTesting) = some (some 2) ∧
    (trieScenario.bind fun s => (s.heap 1).bind fun n => n.table 105) = some 2 ∧
    (trieScenario.bind fun s => (s.heap 2).map fun n => n.parent) = some (some 1) := by
  refine ⟨?_, ?_, ?_, ?_, ?_, ?_, ?_, ?_, ?_, ?_, ?_, ?_⟩ <;> decide

/-- C6: whenever `find(k)` returns `end()`, `erase(k)` returns 0 and the trie is the
same as before: the heap of nodes, `numnodes` and `nsize` are untouched. -/
theorem C6_erase_absent_is_noop (s : Trie T) (k : Key) (h : s.find k = some none) :
    s.erase k = some (s, 0) := by
  simp [Trie.erase, h]

/-- C6 at a concrete input: "a" is not found in a new trie, and erasing it changes
nothing. -/
theorem C6_erase_absent_is_noop_witness :
    (Trie.new : Trie Int).find kA = some none ∧
    (Trie.new : Trie Int).erase kA = some (Trie.new, 0) :=
  ⟨by decide, C6_erase_absent_is_noop Trie.new kA (by decide)⟩


/-- C9, the code at the failing inputs: on a new trie `getnumnodes()` returns 0, for
it does not count the root; after `insert("a", 1)`, `erase("a")` the root is destroyed
and `getnumnodes()` returns -1, with `size()` 0; the same holds after "test",
"testing", "te__ing" are inserted and then erased in the reverse order; and after
`insert("testing", 1)`, `insert("test", 2)`, `erase("test")`, `erase("testing")`
`getnumnodes()` returns 2 and `size()` 1. -/
theorem C9_node_count_after_full_erase_is_not_one :
    (Trie.new : Trie Int).getnumnodes = 0 ∧
    ((insertAll (Trie.new : Trie Int) [(kA, 1)]).bind fun s =>
        (eraseAll s [kA]).map fun r => (r.getnumnodes, r.size, (r.heap r.root).isNone))
      = some (-1, 0, true) ∧
    ¬ ((insertAll (Trie.new : Trie Int) [(kA, 1)]).bind fun s =>
        (eraseAll s [kA]).map fun r => r.getnumnodes) = some 1 ∧
    ((insertAll (Trie.new : Trie Int) [(kTest, 1), (kTesting, 2), (kTe__ing, 3)]).bind
        fun s => (eraseAll s [kTe__ing, kTesting, kTest]).map fun r =>
          (r.getnumnodes, r.size, (r.heap r.root).isNone))
      = some (-1, 0, true) ∧
    ((insertAll (Trie.new : Trie Int) [(kTesting, 1), (kTest, 2)]).bind fun s =>
        (eraseAll s [kTest, kTesting]).map fun r => (r.getnumnodes, r.size)) = some (2, 1) := by
  refine ⟨?_, ?_, ?_, ?_, ?_⟩ <;> decide

/-- Keys with bytes in 0..127 are inserted into a new trie in an order in which no
key is a prefix of a key inserted before it (so they are pairwise distinct), and then
all erased, in any order.  Every call is defined, all keys are stored after the
inserts, and after the erases `size()` is 0, every node other than the root is
destroyed, and `getnumnodes()`, which does not count the root, is at most 0; whether
the root is left is not said here. -/
theorem full_erase_leaves_no_key_and_no_node [Inhabited T] (kvs : List (Key × T))
    (es : List Key) (hb : ∀ kv ∈ kvs, ∀ b ∈ kv.1, b < 128)
    (hp : (kvs.map Prod.fst).Pairwise (fun k1 k2 => ¬ k2 <+: k1))
    (he : es.Perm (kvs.map Prod.fst)) :
    ∃ s s', insertAll Trie.new kvs = some s ∧ s.size = kvs.length ∧
      eraseAll s es = some s' ∧ s'.size = 0 ∧ s'.getnumnodes ≤ 0 ∧
      ∀ p, p ≠ s'.root → s'.heap p = none := by
  obtain ⟨s, L, h1, hi⟩ := insertAll_inv kvs Trie.new [] [0] inv_new.1 inv_new.2 hb hp
    (fun _ _ k hk => by cases hk)
  have hi' : Inv s es L := hi.perm (by
    rw [List.append_nil]
    exact (List.reverse_perm _).trans he.symm)
  obtain ⟨s', h2, hres⟩ := eraseAll_final es s L hi'
  refine ⟨s, s', h1, ?_, h2, hres⟩
  show s.nsize = kvs.length
  rw [hi.size]
  simp

/-- The full erase at a concrete input: "test", "testing", "te__ing" inserted in this
order and erased in the reverse order. -/
theorem full_erase_example :
    (∀ kv ∈ [(kTest, (1 : Int)), (kTesting, 2), (kTe__ing, 3)], ∀ b ∈ kv.1, b < 128) ∧
    ([(kTest, (1 : Int)), (kTesting, 2), (kTe__ing, 3)].map Prod.fst).Pairwise
      (fun k1 k2 => ¬ k2 <+: k1) ∧
    ∃ s s', insertAll Trie.new [(kTest, (1 : Int)), (kTesting, 2), (kTe__ing, 3)] = some s ∧
      s.size = [(kTest, (1 : Int)), (kTesting, 2), (kTe__ing, 3)].length ∧
      eraseAll s [kTe__ing, kTesting, kTest] = some s' ∧ s'.size = 0 ∧
      s'.getnumnodes ≤ 0 ∧ ∀ p, p ≠ s'.root → s'.heap p = none :=
  ⟨by decide, by decide,
    full_erase_leaves_no_key_and_no_node [(kTest, (1 : Int)), (kTesting, 2), (kTe__ing, 3)]
      [kTe__ing, kTesting, kTest] (by decide) (by decide)
      (List.reverse_perm [kTest, kTesting, kTe__ing])⟩

/-! ## Further claims settled by evaluating the code -/

/-- C11, the code at the failing input: after `insert("a", 1)` the root is live and
holds node 1 in slot 'a'; `erase("a")` returns 1, and its loop, which has no test for
the root, goes on from node 1 to the root and destroys it too: no node is live
afterwards and `getnumnodes()` is -1. -/
theorem C11_erase_of_last_key_destroys_root :
    (trieA.map fun s => (s.heap s.root).isSome) = some true ∧
    (trieA.bind fun s => (s.heap s.root).bind fun r => r.table 97) = some 1 ∧
    (trieA.bind fun s => (s.erase kA).map fun r => r.2) = some 1 ∧
    (trieA.bind fun s => (s.erase kA).map fun r => (r.1.heap r.1.root).isNone) = some true ∧
    (trieA.bind fun s => (s.erase kA).map fun r => (r.1.heap 1).isNone) = some true ∧
    (trieA.bind fun s => (s.erase kA).map fun r => r.1.getnumnodes) = some (-1) := by
  refine ⟨?_, ?_, ?_, ?_, ?_, ?_⟩ <;> decide

/-- C14, the code at the failing inputs: on a new trie `insert("a", 1)` grafts node 1
for "a" below the root and returns the handle of the root, whose pair is ("", 0); and
with "test" stored in node 1, `insert("testing", 2)` grafts node 2 and returns the
handle of node 1, whose pair is ("test", 1). -/
theorem C14_graft_returns_handle_of_parent :
    ((Trie.new : Trie Int).insert kA 1).map (fun r => (r.2.1, r.2.2)) = some (some 0, true) ∧
    (((Trie.new : Trie Int).insert kA 1).map fun r => r.1.deref r.2.1) = some (some ([], 0)) ∧
    (((Trie.new : Trie Int).insert kA 1).map fun r => r.1.deref (some 1))
      = some (some (kA, 1)) ∧
    ((Trie.insertS (Trie.new : Trie Int) kTest 1).bind fun s =>
        (s.insert kTesting 2).map fun r => (r.2.1, r.2.2, r.1.deref r.2.1))
      = some (some 1, true, some (kTest, 1)) := by
  refine ⟨?_, ?_, ?_, ?_⟩ <;> decide

/-- C15, the code at the failing inputs: on a new trie `size()` is 0 and `empty()`
returns false; after `insert("a", 1)` `size()` is 1 and `empty()` returns true. -/
theorem C15_empty_is_inverted :
    (Trie.new : Trie Int).size = 0 ∧ (Trie.new : Trie Int).empty = false ∧
    trieA.map Trie.size = some 1 ∧ trieA.map Trie.empty = some true := by
  refine ⟨?_, ?_, ?_, ?_⟩ <;> decide

/-- C16, the code at the failing input: after `insert("a", 1)`, `clear()` destroys
node 1 and `find("a")` returns `end()`, but `size()` is still 1 and `getnumnodes()`
is still 1, while no live node holds a value. -/
theorem C16_clear_keeps_size_and_node_count :
    (trieA.bind fun s => s.clear.map fun r => (r.heap 1).isNone) = some true ∧
    (trieA.bind fun s => s.clear.bind fun r => r.find kA) = some none ∧
    (trieA.bind fun s => s.clear.map Trie.size) = some 1 ∧
    (trieA.bind fun s => s.clear.map Trie.getnumnodes) = some 1 ∧
    (trieA.bind fun s => s.clear.map Trie.valueNodes) = some 0 := by
  refine ⟨?_, ?_, ?_, ?_, ?_⟩ <;> decide

/-- C17, the code at the failing input: with "testing" stored, the partial descent
for "test" returns node 1, whose full key is "testing", of which "test" is a proper
prefix; `insert("test", 2)` creates a split node and a leaf, and `getnumnodes()` grows
from 1 to 3. -/
theorem C17_prefix_key_creates_split_node :
    (trieTesting.bind fun s => _findpartial s.heap (fuelOf kTest) s.root kTest 0) = some 1 ∧
    (trieTesting.bind fun s => (s.heap 1).map Node.getkey) = some kTesting ∧
    kTest <+: kTesting ∧ kTest ≠ kTesting ∧
    trieTesting.map Trie.getnumnodes = some 1 ∧
    (trieTesting.bind fun s => (s.insert kTest 2).map fun r => (r.2.2, r.1.getnumnodes))
      = some (true, 3) ∧
    (trieTestingTest.bind fun s => (s.heap 2).map fun n => (n.hasValue, n.getkey))
      = some (false, kTest) := by
  refine ⟨?_, ?_, ?_, ?_, ?_, ?_, ?_⟩ <;> decide

/-- C18, the code at the failing inputs: after `insert("testing", 1)`,
`insert("test", 2)` node 3, the leaf made for "test", has parent 2 and an empty
segment (its offset 4 is the length of its key) and sits in slot 0; and after
`insert("a\0b", 1)`, `insert("a", 2)` node 1, which holds "a\0b", has parent 2 and
the segment "\0b", but slot 0 of node 2 holds node 3 and node 1 is in no slot. -/
theorem C18_leaf_with_empty_segment :
    (trieTestingTest.bind fun s => (s.heap 3).map fun n =>
        (n.parent, n.getkey, n.posNodeKeyStart, n.segment)) = some (some 2, kTest, 4, []) ∧
    (trieTestingTest.bind fun s => (s.heap 2).bind fun n => n.table 0) = some 3 ∧
    (trieA0BA.bind fun s => (s.heap 1).map fun n => (n.parent, n.segment, n.gettableindex))
      = some (some 2, [0, 98], 0) ∧
    (trieA0BA.bind fun s => (s.heap 2).bind fun n => n.table 0) = some 3 ∧
    (trieA0BA.map fun s => (List.range s.fresh).all fun p => (List.range RANGE).all fun i =>
        ((s.heap p).bind fun n => n.table i) != some 1) = some true := by
  refine ⟨?_, ?_, ?_, ?_, ?_⟩ <;> decide

/-! ## The calls, case by case -/

theorem Alloc.lt {s : Trie T} (ha : Alloc s) {p : Nat} {n : Node T} (hp : s.heap p = some n) :
    p < s.fresh := by
  by_contra hlt
  rw [ha.dead p (by omega)] at hp
  cases hp

/-- What `find` returns is a live node that `_find` reached and that holds a value. -/
theorem find_cases {s : Trie T} {k : Key} {m : Nat} (h : s.find k = some (some m)) :
    ∃ mn, _find s.heap (fuelOf k) s.root k 0 = some (some m) ∧ s.heap m = some mn ∧
      mn.bInUse = true := by
  unfold Trie.find at h
  split at h
  · cases h
  · cases h
  · rename_i p hp
    split at h
    · cases h
    · rename_i n hn
      split at h
      · cases h
      · rename_i hv
        injection h with h
        injection h with h
        subst h
        refine ⟨n, hp, hn, ?_⟩
        simpa [Node.hasValue] using hv

/-- The two ways in which `erase` returns. -/
theorem erase_cases {s s' : Trie T} {k : Key} {c : Nat} (h : s.erase k = some (s', c)) :
    (s.find k = some none ∧ s' = s ∧ c = 0) ∨
    ∃ m mn h1 nn, s.find k = some (some m) ∧ s.heap m = some mn ∧
      eraseLoop (fuelOf k) (s.heap.write m { mn with bInUse := false }) s.numnodes (some m)
        = some (h1, nn) ∧
      s' = { s with heap := h1, numnodes := nn, nsize := s.nsize - 1 } ∧ c = 1 := by
  unfold Trie.erase at h
  split at h
  · cases h
  · rename_i hf
    injection h with h
    injection h with h1 h2
    exact Or.inl ⟨hf, h1.symm, h2.symm⟩
  · rename_i m hf
    split at h
    · cases h
    · rename_i mn hm
      cases hl : eraseLoop (fuelOf k) (s.heap.write m { mn with bInUse := false }) s.numnodes
          (some m) with
      | none => simp [hl] at h
      | some r =>
        obtain ⟨h1, nn⟩ := r
        simp only [hl, Option.some.injEq, Prod.mk.injEq] at h
        exact Or.inr ⟨m, mn, h1, nn, hf, hm, hl, h.1.symm, h.2.symm⟩

/-- The four ways in which `insert` returns: the key is stored already, an existing
node is marked, a leaf is grafted below the anchor, or the edge above the anchor is
split. -/
theorem insert_cases [Inhabited T] {s s' : Trie T} {key : Key} {v : T} {it : Option Nat}
    {b : Bool} (hal : Alloc s) (h : s.insert key v = some (s', it, b)) :
    ∃ a an, _findpartial s.heap (fuelOf key) s.root key 0 = some a ∧ s.heap a = some an ∧
      ((an.nodeKey = key ∧ an.bInUse = true ∧ b = false ∧
          s' = { s with nsize := s.nsize + 1 - 1 }) ∨
       (an.nodeKey = key ∧ an.bInUse = false ∧ b = true ∧
          s' = { s with nsize := s.nsize + 1, heap := s.heap.write a (an.setvalue v) }) ∨
       (an.nodeKey ≠ key ∧ matchlen an.nodeKey key = an.nodeKey.length ∧ b = true ∧
          s' = { s with
            nsize := s.nsize + 1, numnodes := s.numnodes + 1, fresh := s.fresh + 1,
            heap := (s.heap.write s.fresh (leafNode key an.nodeKey.length a v)).write a
              (an.setTable (leafNode key an.nodeKey.length a v).gettableindex
                (some s.fresh)) }) ∨
       (an.nodeKey ≠ key ∧ matchlen an.nodeKey key ≠ an.nodeKey.length ∧ b = true ∧
          ∃ q qn, an.parent = some q ∧ s.heap q = some qn ∧
            s' = { s with
              nsize := s.nsize + 1, numnodes := s.numnodes + 2, fresh := s.fresh + 2,
              heap := splitHeap s.heap s.fresh a q an qn key v })) := by
  have hfr : s.heap s.fresh = none := hal.dead _ (Nat.le_refl _)
  have hfr1 : s.heap (s.fresh + 1) = none := hal.dead _ (by omega)
  cases hf : _findpartial s.heap (fuelOf key) s.root key 0 with
  | none => simp [Trie.insert, hf] at h
  | some a =>
    cases ha : s.heap a with
    | none => simp [Trie.insert, hf, ha] at h
    | some an =>
      refine ⟨a, an, rfl, ha, ?_⟩
      by_cases hk : an.nodeKey = key
      · cases hu : an.bInUse with
        | true =>
          left
          simp [Trie.insert, hf, ha, Node.getkey, hk, hu] at h
          exact ⟨hk, rfl, h.2.2, h.1.symm⟩
        | false =>
          right; left
          rw [insert_mark_eq v hf ha hk hu] at h
          simp only [Option.some.injEq, Prod.mk.injEq] at h
          exact ⟨hk, rfl, h.2.2.symm, h.1.symm⟩
      · by_cases hm : matchlen an.nodeKey key = an.nodeKey.length
        · right; right; left
          rw [insert_graft_eq v hf ha hk hm hfr] at h
          simp only [Option.some.injEq, Prod.mk.injEq] at h
          exact ⟨hk, hm, h.2.2.symm, h.1.symm⟩
        · right; right; right
          cases hq : an.parent with
          | none => simp [Trie.insert, hf, ha, Node.getkey, hk, substrlength, hm, hq] at h
          | some q =>
            have hql : q < s.fresh := hal.parent a an q ha hq
            cases hqn : s.heap q with
            | none =>
              have h3 : q ≠ s.fresh := by omega
              simp [Trie.insert, hf, ha, Node.getkey, hk, substrlength, hm, hq, addchild,
                Heap.write, h3, hqn] at h
            | some qn =>
              rw [insert_split_eq v hf ha hk hm hfr hfr1 hq hqn] at h
              simp only [Option.some.injEq, Prod.mk.injEq] at h
              exact ⟨hk, hm, h.2.2.symm, q, qn, rfl, hqn, h.1.symm⟩

/-- The two ways in which `operator[]` returns: the key was found, or it was not found
and `insert` was called. -/
theorem index_cases [Inhabited T] {s s' : Trie T} {k : Key} {i : Nat}
    (h : s.index k = some (s', i)) :
    s' = s ∨ ∃ it b, s.insert k default = some (s', it, b) := by
  unfold Trie.index at h
  split at h
  · cases h
  · injection h with h
    injection h with h1 h2
    exact Or.inl h1.symm
  · split at h
    · cases h
    · rename_i s1 it b hins
      split at h
      · cases h
      · cases h
      · injection h with h
        injection h with h1 h2
        subst h1
        exact Or.inr ⟨it, b, hins⟩

/-- The scan of `erase` ends at `RANGE` exactly when no slot is occupied. -/
theorem scan_eq_range (n : Node T) :
    RANGE = scanTable n.table RANGE 0 ↔ n.childless := by
  have h := scanTable_eq_iff n.table RANGE 0
  simp only [Nat.zero_add] at h
  constructor
  · intro he i hi
    exact (h.mp he.symm) i (Nat.zero_le _) hi
  · intro hc
    exact (h.mpr (fun j _ hj => hc j hj)).symm

/-- Induction along the loop of `erase`: a property `P` of the heap and the node the
loop is at, kept by each removal, yields `Q` for the heap the loop ends with. -/
theorem eraseLoop_induct (P : Heap T → Nat → Prop) (Q : Heap T → Prop)
    (stop : ∀ h x xn, P h x → h x = some xn → ¬ (xn.childless ∧ xn.bInUse = false) → Q h)
    (top : ∀ h x xn, P h x → h x = some xn → xn.childless → xn.bInUse = false →
      xn.parent = none → Q (h.free x))
    (up : ∀ h x xn par pn, P h x → h x = some xn → xn.childless → xn.bInUse = false →
      xn.parent = some par → h par = some pn →
      P ((h.write par (pn.setTable xn.gettableindex none)).free x) par) :
    ∀ (fuel : Nat) (h : Heap T) (nn : Int) (x : Nat) (h' : Heap T) (nn' : Int),
      P h x → eraseLoop fuel h nn (some x) = some (h', nn') → Q h' := by
  intro fuel
  induction fuel with
  | zero =>
    intro h nn x h' nn' _ he
    simp [eraseLoop] at he
  | succ fuel ih =>
    intro h nn x h' nn' hP he
    cases hx : h x with
    | none => simp [eraseLoop, hx] at he
    | some xn =>
      simp only [eraseLoop, hx] at he
      by_cases hc0 : RANGE = scanTable xn.table RANGE 0 ∧ xn.bInUse = false
      · rw [if_pos hc0] at he
        have hc : xn.childless ∧ xn.bInUse = false := ⟨(scan_eq_range xn).mp hc0.1, hc0.2⟩
        cases hpar : xn.parent with
        | none =>
          simp only [hpar] at he
          cases fuel with
          | zero =>
            simp only [eraseLoop, Option.some.injEq, Prod.mk.injEq] at he
            rw [← he.1]
            exact top h x xn hP hx hc.1 hc.2 hpar
          | succ fuel =>
            simp only [eraseLoop, Option.some.injEq, Prod.mk.injEq] at he
            rw [← he.1]
            exact top h x xn hP hx hc.1 hc.2 hpar
        | some par =>
          simp only [hpar] at he
          cases hpn : h par with
          | none => simp [hpn] at he
          | some pn =>
            simp only [hpn] at he
            exact ih _ _ par h' nn' (up h x xn par pn hP hx hc.1 hc.2 hpar hpn) he
      · rw [if_neg hc0] at he
        simp only [Option.some.injEq, Prod.mk.injEq] at he
        rw [← he.1]
        exact stop h x xn hP hx (fun hc => hc0 ⟨(scan_eq_range xn).mpr hc.1, hc.2⟩)

/-! ## What every sequence of calls keeps -/

theorem count_congr (f g : Nat → Bool) (N : Nat) (h : ∀ q, q < N → g q = f q) :
    ((List.range N).filter g).length = ((List.range N).filter f).length := by
  have : (List.range N).filter g = (List.range N).filter f := by
    apply List.filter_congr
    intro q hq
    exact h q (List.mem_range.mp hq)
  rw [this]

theorem count_succ (g : Nat → Bool) (N : Nat) :
    ((List.range (N + 1)).filter g).length
      = ((List.range N).filter g).length + (if g N then 1 else 0) := by
  rw [List.range_succ, List.filter_append, List.length_append]
  cases hg : g N <;> simp [List.filter, hg]

theorem count_set (f g : Nat → Bool) (p : Nat) (hf : f p = false) (hg : g p = true) :
    ∀ N, (∀ q, q < N → q ≠ p → g q = f q) →
      ((List.range N).filter g).length
        = ((List.range N).filter f).length + (if p < N then 1 else 0) := by
  intro N
  induction N with
  | zero => intro _; simp
  | succ N ih =>
    intro h
    rw [count_succ, count_succ, ih (fun q hq hne => h q (by omega) hne)]
    by_cases hp : p = N
    · subst hp
      rw [hf, hg]
      simp
    · rw [h N (by omega) (Ne.symm hp)]
      by_cases hlt : p < N
      · rw [if_pos hlt, if_pos (show p < N + 1 by omega)]
        omega
      · rw [if_neg hlt, if_neg (show ¬ p < N + 1 by omega)]
        omega

theorem count_unset (f g : Nat → Bool) (p N : Nat) (hf : f p = true) (hg : g p = false)
    (h : ∀ q, q < N → q ≠ p → g q = f q) :
    ((List.range N).filter g).length + (if p < N then 1 else 0)
      = ((List.range N).filter f).length :=
  (count_set g f p hg hf N (fun q hq hne => (h q hq hne).symm)).symm

theorem valueAt_free (h : Heap T) (x p : Nat) :
    valueAt (h.free x) p = if p = x then false else valueAt h p := by
  simp only [valueAt, Heap.free]
  by_cases hpx : p = x
  · simp [hpx]
  · simp [hpx]

theorem valueAt_write (h : Heap T) (q : Nat) (n : Node T) (p : Nat) :
    valueAt (h.write q n) p = if p = q then n.bInUse else valueAt h p := by
  simp only [valueAt, Heap.write]
  by_cases hpx : p = q
  · simp [hpx, Node.hasValue]
  · simp [hpx]

theorem valueAt_of_live {h : Heap T} {p : Nat} {n : Node T} (hp : h p = some n) :
    valueAt h p = n.bInUse := by
  simp [valueAt, hp, Node.hasValue]

theorem gettableindex_lt (n : Node T) : n.gettableindex < RANGE := by
  have h : n.gettableindex ≤ RANGE_MASK := Nat.and_le_right
  simp only [RANGE_MASK] at h
  simp only [RANGE]
  omega

theorem not_childless_setTable (n : Node T) (i c : Nat) (hi : i < RANGE) :
    ¬ (n.setTable i (some c)).childless := by
  intro h
  have := h i hi
  simp [Node.setTable] at this

/-- The loop of `erase` keeps the allocator's bookkeeping, the value flag at every
address, and the root's key; and it ends with every childless node other than the
root holding a value, when this held before of every node but the one it starts
at. -/
theorem eraseLoop_basic (h0 : Heap T) (root fresh : Nat) :
    ∀ (fuel : Nat) (h : Heap T) (nn : Int) (x : Nat) (h' : Heap T) (nn' : Int),
      ((∀ p, fresh ≤ p → h p = none) ∧
        (∀ p n q, h p = some n → n.parent = some q → q < fresh) ∧
        (∀ p, valueAt h p = valueAt h0 p) ∧
        (∀ r, h root = some r → r.nodeKey = [] ∧ r.parent = none) ∧
        (∀ p n, h p = some n → p ≠ root → p ≠ x → n.childless → n.bInUse = true)) →
      eraseLoop fuel h nn (some x) = some (h', nn') →
      ((∀ p, fresh ≤ p → h' p = none) ∧
        (∀ p n q, h' p = some n → n.parent = some q → q < fresh) ∧
        (∀ p, valueAt h' p = valueAt h0 p) ∧
        (∀ r, h' root = some r → r.nodeKey = [] ∧ r.parent = none) ∧
        (∀ p n, h' p = some n → p ≠ root → n.childless → n.bInUse = true)) := by
  apply eraseLoop_induct
    (fun h x => (∀ p, fresh ≤ p → h p = none) ∧
        (∀ p n q, h p = some n → n.parent = some q → q < fresh) ∧
        (∀ p, valueAt h p = valueAt h0 p) ∧
        (∀ r, h root = some r → r.nodeKey = [] ∧ r.parent = none) ∧
        (∀ p n, h p = some n → p ≠ root → p ≠ x → n.childless → n.bInUse = true))
    (fun h' => (∀ p, fresh ≤ p → h' p = none) ∧
        (∀ p n q, h' p = some n → n.parent = some q → q < fresh) ∧
        (∀ p, valueAt h' p = valueAt h0 p) ∧
        (∀ r, h' root = some r → r.nodeKey = [] ∧ r.parent = none) ∧
        (∀ p n, h' p = some n → p ≠ root → n.childless → n.bInUse = true))
  · rintro h x xn ⟨h1, h2, h3, h4, h5⟩ hx hc
    refine ⟨h1, h2, h3, h4, ?_⟩
    intro p n hp hr hcl
    by_cases hpx : p = x
    · subst hpx
      rw [hx] at hp
      cases hp
      cases hb : xn.bInUse with
      | true => rfl
      | false => exact absurd ⟨hcl, hb⟩ hc
    · exact h5 p n hp hr hpx hcl
  · rintro h x xn ⟨h1, h2, h3, h4, h5⟩ hx hcl hb _
    refine ⟨?_, ?_, ?_, ?_, ?_⟩
    · intro p hp
      simp only [Heap.free]
      split
      · rfl
      · exact h1 p hp
    · intro p n q hp hq
      simp only [Heap.free] at hp
      split at hp
      · cases hp
      · exact h2 p n q hp hq
    · intro p
      rw [← h3 p, valueAt_free]
      split
      · rename_i hpx
        rw [hpx, valueAt_of_live hx, hb]
      · rfl
    · intro r hr
      simp only [Heap.free] at hr
      split at hr
      · cases hr
      · exact h4 r hr
    · intro p n hp hr hc
      simp only [Heap.free] at hp
      split at hp
      · cases hp
      · rename_i hpx
        exact h5 p n hp hr hpx hc
  · rintro h x xn par pn ⟨h1, h2, h3, h4, h5⟩ hx hcl hb hpar hpn
    refine ⟨?_, ?_, ?_, ?_, ?_⟩
    · intro p hp
      have hne : p ≠ par := by
        intro he
        subst he
        rw [h1 p hp] at hpn
        cases hpn
      simp only [Heap.free, Heap.write, if_neg hne]
      split
      · rfl
      · exact h1 p hp
    · intro p n q hp hq
      simp only [Heap.free, Heap.write] at hp
      split at hp
      · cases hp
      · split at hp
        · rename_i hpp
          subst hpp
          injection hp with hp
          subst hp
          exact h2 p pn q hpn hq
        · exact h2 p n q hp hq
    · intro p
      rw [← h3 p, valueAt_free, valueAt_write]
      split
      · rename_i hpx
        rw [hpx, valueAt_of_live hx, hb]
      · split
        · rename_i hpp
          rw [hpp, valueAt_of_live hpn]
          rfl
        · rfl
    · intro r hr
      simp only [Heap.free, Heap.write] at hr
      split at hr
      · cases hr
      · split at hr
        · rename_i hpp
          injection hr with hr
          subst hr
          rw [hpp] at h4
          exact h4 pn hpn
        · exact h4 r hr
    · intro p n hp hr hpp hc
      simp only [Heap.free, Heap.write] at hp
      split at hp
      · cases hp
      · rename_i hpx
        exact h5 p n hp hr hpx hc

theorem graftHeap_apply (h : Heap T) (fresh a : Nat) (lf an2 : Node T) (x : Nat) :
    ((h.write fresh lf).write a an2) x
      = if x = a then some an2 else if x = fresh then some lf else h x := by
  simp only [Heap.write]

/-- Marking an existing node keeps the basic invariant. -/
theorem basic_mark {s : Trie T} (hb : Basic s) {a : Nat} {an : Node T} (v : T)
    (ha : s.heap a = some an) (hu : an.bInUse = false) :
    Basic { s with nsize := s.nsize + 1, heap := s.heap.write a (an.setvalue v) } := by
  have hal := hb.alloc.lt ha
  refine ⟨⟨hb.alloc.root, ?_, ?_⟩, ?_, ?_, ?_⟩
  · intro p hp
    have hne : p ≠ a := by
      have : s.fresh ≤ p := hp
      omega
    simp only [Heap.write, if_neg hne]
    exact hb.alloc.dead p hp
  · intro p n q hp hq
    simp only [Heap.write] at hp
    split at hp
    · rename_i hpa
      injection hp with hp
      subst hp
      exact hb.alloc.parent a an q ha hq
    · exact hb.alloc.parent p n q hp hq
  · show s.nsize + 1 = ((List.range s.fresh).filter
      (valueAt (s.heap.write a (an.setvalue v)))).length
    rw [count_set (valueAt s.heap) (valueAt (s.heap.write a (an.setvalue v))) a
      (by rw [valueAt_of_live ha, hu]) (by rw [valueAt_write, if_pos rfl]; rfl) s.fresh
      (fun q _ hne => by rw [valueAt_write, if_neg hne]), if_pos hal]
    rw [hb.size]
    rfl
  · intro r hr
    simp only [Heap.write] at hr
    split at hr
    · rename_i hra
      injection hr with hr
      subst hr
      have := hb.rootKey an (by rw [← ha]; exact congrArg s.heap hra)
      exact this
    · exact hb.rootKey r hr
  · intro p n hp hr hc
    simp only [Heap.write] at hp
    split at hp
    · injection hp with hp
      subst hp
      rfl
    · exact hb.prune p n hp hr hc

/-- Grafting a leaf below the anchor keeps the basic invariant. -/
theorem basic_graft [Inhabited T] {s : Trie T} (hb : Basic s) {a : Nat} {an : Node T}
    (key : Key) (v : T) (ha : s.heap a = some an) :
    Basic { s with
      nsize := s.nsize + 1, numnodes := s.numnodes + 1, fresh := s.fresh + 1,
      heap := (s.heap.write s.fresh (leafNode key an.nodeKey.length a v)).write a
        (an.setTable (leafNode key an.nodeKey.length a v).gettableindex (some s.fresh)) } := by
  have hal := hb.alloc.lt ha
  have hroot := hb.alloc.root
  refine ⟨⟨?_, ?_, ?_⟩, ?_, ?_, ?_⟩
  · show s.root < s.fresh + 1
    omega
  · intro p hp
    have hp : s.fresh + 1 ≤ p := hp
    show ((s.heap.write s.fresh _).write a _) p = none
    rw [graftHeap_apply, if_neg (by omega), if_neg (by omega)]
    exact hb.alloc.dead p (by omega)
  · intro p n q hp hq
    show q < s.fresh + 1
    have hp : ((s.heap.write s.fresh _).write a _) p = some n := hp
    rw [graftHeap_apply] at hp
    split at hp
    · injection hp with hp
      subst hp
      have := hb.alloc.parent a an q ha hq
      omega
    · split at hp
      · injection hp with hp
        subst hp
        simp only [leafNode, Option.some.injEq] at hq
        omega
      · have := hb.alloc.parent p n q hp hq
        omega
  · show s.nsize + 1 = ((List.range (s.fresh + 1)).filter (valueAt
      ((s.heap.write s.fresh (leafNode key an.nodeKey.length a v)).write a
        (an.setTable (leafNode key an.nodeKey.length a v).gettableindex (some s.fresh))))).length
    rw [count_succ, count_congr (valueAt s.heap) _ s.fresh, ← Trie.valueNodes, ← hb.size]
    · have : valueAt ((s.heap.write s.fresh (leafNode key an.nodeKey.length a v)).write a
          (an.setTable (leafNode key an.nodeKey.length a v).gettableindex (some s.fresh)))
          s.fresh = true := by
        rw [valueAt_write, if_neg (by omega), valueAt_write, if_pos rfl]
        rfl
      rw [this]
      rfl
    · intro q hq
      rw [valueAt_write, valueAt_write, if_neg (show q ≠ s.fresh by omega)]
      split
      · rename_i hqa
        rw [hqa, valueAt_of_live ha]
        rfl
      · rfl
  · intro r hr
    have hr : ((s.heap.write s.fresh _).write a _) s.root = some r := hr
    rw [graftHeap_apply] at hr
    split at hr
    · rename_i hra
      injection hr with hr
      subst hr
      exact hb.rootKey an (by rw [hra]; exact ha)
    · rw [if_neg (by omega)] at hr
      exact hb.rootKey r hr
  · intro p n hp hr hc
    have hp : ((s.heap.write s.fresh _).write a _) p = some n := hp
    rw [graftHeap_apply] at hp
    split at hp
    · injection hp with hp
      subst hp
      exact absurd hc (not_childless_setTable an _ _ (gettableindex_lt _))
    · split at hp
      · injection hp with hp
        subst hp
        rfl
      · exact hb.prune p n hp hr hc

theorem valueAt_split [Inhabited T] (h : Heap T) (fresh a q : Nat) (an qn : Node T)
    (key : Key) (v : T) (x : Nat) :
    valueAt (splitHeap h fresh a q an qn key v) x =
      if x = fresh then false
      else if x = fresh + 1 then true
      else if x = a then an.bInUse
      else if x = q then qn.bInUse
      else valueAt h x := by
  unfold valueAt
  rw [splitHeap_apply]
  split_ifs <;> rfl

/-- Splitting the edge above the anchor keeps the basic invariant. -/
theorem basic_split [Inhabited T] {s : Trie T} (hb : Basic s) {a q : Nat} {an qn : Node T}
    (key : Key) (v : T) (ha : s.heap a = some an) (hq : an.parent = some q)
    (hqn : s.heap q = some qn) :
    Basic { s with
      nsize := s.nsize + 1, numnodes := s.numnodes + 2, fresh := s.fresh + 2,
      heap := splitHeap s.heap s.fresh a q an qn key v } := by
  have hal := hb.alloc.lt ha
  have hql := hb.alloc.lt hqn
  have hroot := hb.alloc.root
  have hra : a ≠ s.root := by
    intro he
    have := (hb.rootKey an (by rw [← he]; exact ha)).2
    rw [this] at hq
    cases hq
  refine ⟨⟨?_, ?_, ?_⟩, ?_, ?_, ?_⟩
  · show s.root < s.fresh + 2
    omega
  · intro p hp
    have hp : s.fresh + 2 ≤ p := hp
    show splitHeap s.heap s.fresh a q an qn key v p = none
    rw [splitHeap_apply, if_neg (by omega), if_neg (by omega), if_neg (by omega),
      if_neg (by omega)]
    exact hb.alloc.dead p (by omega)
  · intro p n r hp hr
    show r < s.fresh + 2
    have hp : splitHeap s.heap s.fresh a q an qn key v p = some n := hp
    rw [splitHeap_apply] at hp
    split at hp
    · injection hp with hp
      subst hp
      simp only [Node.setTable, splitNode] at hr
      have := hb.alloc.parent a an r ha hr
      omega
    · split at hp
      · injection hp with hp
        subst hp
        simp only [leafNode, Option.some.injEq] at hr
        omega
      · split at hp
        · injection hp with hp
          subst hp
          simp only [movedNode, Option.some.injEq] at hr
          omega
        · split at hp
          · injection hp with hp
            subst hp
            have := hb.alloc.parent q qn r hqn hr
            omega
          · have := hb.alloc.parent p n r hp hr
            omega
  · show s.nsize + 1 = ((List.range (s.fresh + 1 + 1)).filter (valueAt
      (splitHeap s.heap s.fresh a q an qn key v))).length
    rw [count_succ, count_succ, count_congr (valueAt s.heap) _ s.fresh, ← Trie.valueNodes,
      ← hb.size]
    · have h1 : valueAt (splitHeap s.heap s.fresh a q an qn key v) s.fresh = false := by
        rw [valueAt_split, if_pos rfl]
      have h2 : valueAt (splitHeap s.heap s.fresh a q an qn key v) (s.fresh + 1) = true := by
        rw [valueAt_split, if_neg (by omega), if_pos rfl]
      rw [h1, h2]
      rfl
    · intro x hx
      rw [valueAt_split, if_neg (show x ≠ s.fresh by omega),
        if_neg (show x ≠ s.fresh + 1 by omega)]
      split
      · rename_i hxa
        rw [hxa, valueAt_of_live ha]
      · split
        · rename_i hxq
          rw [hxq, valueAt_of_live hqn]
        · rfl
  · intro r hr
    have hr : splitHeap s.heap s.fresh a q an qn key v s.root = some r := hr
    rw [splitHeap_apply, if_neg (by omega), if_neg (by omega), if_neg (Ne.symm hra)] at hr
    split at hr
    · rename_i hrq
      injection hr with hr
      subst hr
      exact hb.rootKey qn (by rw [hrq]; exact hqn)
    · exact hb.rootKey r hr
  · intro p n hp hr hc
    have hp : splitHeap s.heap s.fresh a q an qn key v p = some n := hp
    rw [splitHeap_apply] at hp
    split at hp
    · injection hp with hp
      subst hp
      exact absurd hc (not_childless_setTable _ _ _ (gettableindex_lt _))
    · split at hp
      · injection hp with hp
        subst hp
        rfl
      · split at hp
        · rename_i hpa
          injection hp with hp
          subst hp
          exact hb.prune a an ha hra hc
        · split at hp
          · injection hp with hp
            subst hp
            exact absurd hc (not_childless_setTable _ _ _ (gettableindex_lt _))
          · exact hb.prune p n hp hr hc

/-- Every `insert` that returns keeps the basic invariant; `nsize` grows by one
exactly when it returns `inserted = true`; and with a non-empty key a root that
holds no value still holds none. -/
theorem insert_basic [Inhabited T] {s s' : Trie T} {key : Key} {v : T} {it : Option Nat}
    {b : Bool} (hb : Basic s) (h : s.insert key v = some (s', it, b)) :
    Basic s' ∧ s'.nsize = s.nsize + b.toNat ∧ s'.root = s.root ∧
      (key ≠ [] → RootPlain s → RootPlain s') := by
  obtain ⟨a, an, _, ha, hcase⟩ := insert_cases hb.alloc h
  have hal := hb.alloc.lt ha
  have hroot := hb.alloc.root
  rcases hcase with ⟨_, _, hbf, hs⟩ | ⟨hk, hu, hbt, hs⟩ | ⟨_, _, hbt, hs⟩ |
    ⟨_, _, hbt, q, qn, hq, hqn, hs⟩
  · subst hs hbf
    refine ⟨⟨hb.alloc, ?_, hb.rootKey, hb.prune⟩, by simp, rfl, fun _ hp => hp⟩
    show s.nsize + 1 - 1 = s.valueNodes
    rw [Nat.add_sub_cancel]
    exact hb.size
  · subst hs hbt
    refine ⟨basic_mark hb v ha hu, rfl, rfl, ?_⟩
    intro hne hp r hr
    have hr : (s.heap.write a (an.setvalue v)) s.root = some r := hr
    simp only [Heap.write] at hr
    split at hr
    · rename_i hra
      have := (hb.rootKey an (by rw [hra]; exact ha)).1
      rw [hk] at this
      exact absurd this hne
    · exact hp r hr
  · subst hs hbt
    refine ⟨basic_graft hb key v ha, rfl, rfl, ?_⟩
    intro _ hp r hr
    have hr : ((s.heap.write s.fresh _).write a _) s.root = some r := hr
    rw [graftHeap_apply] at hr
    split at hr
    · rename_i hra
      injection hr with hr
      subst hr
      exact hp an (by rw [hra]; exact ha)
    · rw [if_neg (by omega)] at hr
      exact hp r hr
  · subst hs hbt
    have hql := hb.alloc.lt hqn
    have hra : a ≠ s.root := by
      intro he
      have := (hb.rootKey an (by rw [← he]; exact ha)).2
      rw [this] at hq
      cases hq
    refine ⟨basic_split hb key v ha hq hqn, rfl, rfl, ?_⟩
    intro _ hp r hr
    have hr : splitHeap s.heap s.fresh a q an qn key v s.root = some r := hr
    rw [splitHeap_apply, if_neg (by omega), if_neg (by omega), if_neg (Ne.symm hra)] at hr
    split at hr
    · rename_i hrq
      injection hr with hr
      subst hr
      exact hp qn (by rw [hrq]; exact hqn)
    · exact hp r hr

/-- Every `erase` that returns keeps the basic invariant; it returns 0 or 1, and
`nsize` falls by what it returns; a root that holds no value still holds none; and
every node other than the one found keeps its value flag. -/
theorem erase_basic {s s' : Trie T} {k : Key} {c : Nat} (hb : Basic s)
    (h : s.erase k = some (s', c)) :
    Basic s' ∧ s'.nsize + c = s.nsize ∧ (c = 0 ∨ c = 1) ∧ s'.root = s.root ∧
      (RootPlain s → RootPlain s') ∧
      (∀ p, s.find k ≠ some (some p) → valueAt s'.heap p = valueAt s.heap p) := by
  rcases erase_cases h with ⟨_, hs, hc⟩ | ⟨m, mn, h1, nn, hf, hm, hl, hs, hc⟩
  · subst hs hc
    exact ⟨hb, rfl, Or.inl rfl, rfl, fun hp => hp, fun _ _ => rfl⟩
  · subst hs hc
    obtain ⟨mn', _, hm', hv⟩ := find_cases hf
    rw [hm] at hm'
    cases hm'
    have hml := hb.alloc.lt hm
    have hpre := eraseLoop_basic (s.heap.write m { mn with bInUse := false }) s.root s.fresh
      (fuelOf k) (s.heap.write m { mn with bInUse := false }) s.numnodes m h1 nn
      ⟨?_, ?_, fun _ => rfl, ?_, ?_⟩ hl
    · obtain ⟨e1, e2, e3, e4, e5⟩ := hpre
      have hval : ∀ p, valueAt h1 p = if p = m then false else valueAt s.heap p := by
        intro p
        rw [e3 p, valueAt_write]
      have hcount := count_unset (valueAt s.heap) (valueAt h1) m s.fresh
        (by rw [valueAt_of_live hm, hv]) (by rw [hval, if_pos rfl])
        (fun q _ hne => by rw [hval, if_neg hne])
      rw [if_pos hml] at hcount
      have hsz : s.nsize = ((List.range s.fresh).filter (valueAt s.heap)).length := hb.size
      refine ⟨⟨⟨hb.alloc.root, e1, e2⟩, ?_, e4, e5⟩, ?_, Or.inr rfl, rfl, ?_, ?_⟩
      · show s.nsize - 1 = ((List.range s.fresh).filter (valueAt h1)).length
        omega
      · show s.nsize - 1 + 1 = s.nsize
        omega
      · intro hp r hr
        have hr : h1 s.root = some r := hr
        have h2 := hval s.root
        rw [valueAt_of_live hr] at h2
        rw [h2]
        split
        · rfl
        · cases hr0 : s.heap s.root with
          | none => simp [valueAt, hr0]
          | some r0 => rw [valueAt_of_live hr0]; exact hp r0 hr0
      · intro p hp
        show valueAt h1 p = valueAt s.heap p
        rw [hval, if_neg]
        intro he
        rw [he] at hp
        exact hp hf
    · intro p hp
      have hne : p ≠ m := by omega
      simp only [Heap.write, if_neg hne]
      exact hb.alloc.dead p hp
    · intro p n q hp hq
      simp only [Heap.write] at hp
      split at hp
      · injection hp with hp
        subst hp
        exact hb.alloc.parent m mn q hm hq
      · exact hb.alloc.parent p n q hp hq
    · intro r hr
      simp only [Heap.write] at hr
      split at hr
      · rename_i hrm
        injection hr with hr
        subst hr
        exact hb.rootKey mn (by rw [hrm]; exact hm)
      · exact hb.rootKey r hr
    · intro p n hp hr hpm hc
      simp only [Heap.write, if_neg hpm] at hp
      exact hb.prune p n hp hr hc

/-- Every `operator[]` that returns keeps the basic invariant and, with a non-empty
key, a root without a value. -/
theorem index_basic [Inhabited T] {s s' : Trie T} {k : Key} {i : Nat} (hb : Basic s)
    (h : s.index k = some (s', i)) :
    Basic s' ∧ s'.root = s.root ∧ (k ≠ [] → RootPlain s → RootPlain s') := by
  rcases index_cases h with hs | ⟨it, b, hins⟩
  · subst hs
    exact ⟨hb, rfl, fun _ hp => hp⟩
  · obtain ⟨h1, _, h3, h4⟩ := insert_basic hb hins
    exact ⟨h1, h3, h4⟩

/-- Every call that returns keeps the basic invariant; a call of `insert` or `erase`
changes `nsize` by what it returns; with a non-empty key a root that holds no value
still holds none. -/
theorem step_basic [Inhabited T] {s s' : Trie T} {op : Op T} {i e : Bool} (hb : Basic s)
    (h : s.step op = some (s', i, e)) :
    Basic s' ∧ s'.root = s.root ∧
      (op.isIndex = false → s'.nsize + e.toNat = s.nsize + i.toNat) ∧
      (op.key ≠ [] → RootPlain s → RootPlain s') := by
  cases op with
  | insert k v =>
    simp only [Trie.step, Option.map_eq_some', Prod.mk.injEq] at h
    obtain ⟨⟨s1, it, b⟩, hins, h1, h2, h3⟩ := h
    subst h1 h2 h3
    obtain ⟨g1, g2, g3, g4⟩ := insert_basic hb hins
    exact ⟨g1, g3, fun _ => by simpa using g2, g4⟩
  | erase k =>
    simp only [Trie.step, Option.map_eq_some', Prod.mk.injEq] at h
    obtain ⟨⟨s1, c⟩, hers, h1, h2, h3⟩ := h
    subst h1 h2 h3
    obtain ⟨g1, g2, g3, g4, g5, _⟩ := erase_basic hb hers
    refine ⟨g1, g4, fun _ => ?_, fun _ => g5⟩
    rcases g3 with g3 | g3 <;> subst g3 <;> simpa using g2
  | index k =>
    simp only [Trie.step, Option.map_eq_some', Prod.mk.injEq] at h
    obtain ⟨⟨s1, j⟩, hidx, h1, h2, h3⟩ := h
    subst h1 h2 h3
    obtain ⟨g1, g2, g3⟩ := index_basic hb hidx
    exact ⟨g1, g2, fun hi => by simp [Op.isIndex] at hi, g3⟩

/-- A new trie satisfies the basic invariant, and its root holds no value. -/
theorem basic_new [Inhabited T] : Basic (Trie.new : Trie T) ∧ RootPlain (Trie.new : Trie T) := by
  refine ⟨⟨⟨by simp [Trie.new], ?_, ?_⟩, ?_, ?_, ?_⟩, ?_⟩
  · intro p hp
    have hp : 1 ≤ p := hp
    simp only [Trie.new, Heap.write]
    rw [if_neg (by omega)]
  · intro p n q hp hq
    simp only [Trie.new, Heap.write] at hp
    split at hp
    · injection hp with hp
      subst hp
      simp [Node.new] at hq
    · cases hp
  · simp [Trie.new, Trie.valueNodes, valueAt, Heap.write, Node.new, Node.hasValue,
      List.range_succ]
  · intro r hr
    simp only [Trie.new, Heap.write, if_pos] at hr
    injection hr with hr
    subst hr
    exact ⟨rfl, rfl⟩
  · intro p n hp hr
    simp only [Trie.new, Heap.write] at hp hr
    rw [if_neg hr] at hp
    cases hp
  · intro r hr
    simp only [Trie.new, Heap.write, if_pos] at hr
    injection hr with hr
    subst hr
    rfl

/-- A sequence of calls that returns keeps the basic invariant; when it has no call
of `operator[]`, `nsize` changes by the number of successful `insert` calls less the
number of successful `erase` calls; when all its keys are non-empty, a root that
holds no value still holds none. -/
theorem run_basic [Inhabited T] :
    ∀ (ops : List (Op T)) (s s' : Trie T) (i e : Nat), Basic s →
      run s ops = some (s', i, e) →
      Basic s' ∧ s'.root = s.root ∧
        ((∀ op ∈ ops, op.isIndex = false) → s'.nsize + e = s.nsize + i) ∧
        ((∀ op ∈ ops, op.key ≠ []) → RootPlain s → RootPlain s') := by
  intro ops
  induction ops with
  | nil =>
    intro s s' i e hb h
    simp only [run, Option.some.injEq, Prod.mk.injEq] at h
    obtain ⟨h1, h2, h3⟩ := h
    subst h1 h2 h3
    exact ⟨hb, rfl, fun _ => rfl, fun _ hp => hp⟩
  | cons op rest ih =>
    intro s s' i e hb h
    cases hst : s.step op with
    | none => simp [run, hst] at h
    | some r1 =>
      obtain ⟨s1, i1, e1⟩ := r1
      cases hr : run s1 rest with
      | none => simp [run, hst, hr] at h
      | some r2 =>
        obtain ⟨s2, ni, ne⟩ := r2
        simp only [run, hst, hr, Option.some.injEq, Prod.mk.injEq] at h
        obtain ⟨h1, h2, h3⟩ := h
        subst h1 h2 h3
        obtain ⟨g1, g2, g3, g4⟩ := step_basic hb hst
        obtain ⟨k1, k2, k3, k4⟩ := ih s1 s2 ni ne g1 hr
        refine ⟨k1, k2.trans g2, ?_, ?_⟩
        · intro hall
          have a1 := g3 (hall op (List.mem_cons_self _ _))
          have a2 := k3 (fun o ho => hall o (List.mem_cons_of_mem _ ho))
          omega
        · intro hall hp
          exact k4 (fun o ho => hall o (List.mem_cons_of_mem _ ho))
            (g4 (hall op (List.mem_cons_self _ _)) hp)

/-! ## Claims about every sequence of calls -/

/-- C12, the claim as stated fails: on a new trie `insert("", 1)` returns
`inserted = true` and leaves the root with `hasValue() == true`, and so does
`operator[]("")`; `find("")` then returns the root. -/
theorem C12_empty_key_is_stored_at_root :
    ((Trie.new : Trie Int).insert [] 1).map (fun r => r.2.2) = some true ∧
    (((Trie.new : Trie Int).insert [] 1).bind fun r =>
        (r.1.heap r.1.root).map Node.hasValue) = some true ∧
    (((Trie.new : Trie Int).index []).bind fun r =>
        (r.1.heap r.1.root).map Node.hasValue) = some true ∧
    (((Trie.new : Trie Int).insert [] 1).bind fun r => r.1.find []) = some (some 0) := by
  refine ⟨?_, ?_, ?_, ?_⟩ <;> decide

/-- C12, amended: in every state reached from a new trie by calls of `insert`,
`operator[]` and `erase` with arbitrary keys, the root node, unless it has been
destroyed, has the empty full key; and when all the keys are non-empty it has
`hasValue() == false`. -/
theorem C12_root_key_empty_and_no_value_for_nonempty_keys [Inhabited T]
    (ops : List (Op T)) (s : Trie T) (i e : Nat) (r : Node T)
    (h : run Trie.new ops = some (s, i, e)) (hr : s.heap s.root = some r) :
    r.getkey = [] ∧ ((∀ op ∈ ops, op.key ≠ []) → r.hasValue = false) := by
  obtain ⟨g1, _, _, g4⟩ := run_basic ops Trie.new s i e basic_new.1 h
  exact ⟨(g1.rootKey r hr).1, fun hall => g4 hall basic_new.2 r hr⟩

/-- C12, amended, at a concrete input: after `insert("testing", 1)`,
`operator[]("te__ing")`, `insert("test", 2)`, `erase("testing")` the root is live,
has the empty key and holds no value. -/
theorem C12_root_witness :
    ∃ x r, run Trie.new opsTest = some x ∧ x.1.heap x.1.root = some r ∧
      r.getkey = [] ∧ ((∀ op ∈ opsTest, op.key ≠ []) → r.hasValue = false) ∧
      (∀ op ∈ opsTest, op.key ≠ []) :=
  ⟨(run Trie.new opsTest).get (by decide),
    (((run Trie.new opsTest).get (by decide)).1.heap 0).get (by decide),
    (Option.some_get _).symm, (Option.some_get _).symm,
    (C12_root_key_empty_and_no_value_for_nonempty_keys opsTest _ _ _ _
      (Option.some_get (by decide)).symm (Option.some_get (by decide)).symm).1,
    (C12_root_key_empty_and_no_value_for_nonempty_keys opsTest _ _ _ _
      (Option.some_get (by decide)).symm (Option.some_get (by decide)).symm).2,
    by decide⟩

/-- C13: in every state reached from a new trie by calls of `insert` and `erase`,
`size()` is the number of live nodes with `hasValue() == true`, and `size()` plus the
number of `erase` calls that returned 1 is the number of `insert` calls that returned
`inserted = true`. -/
theorem C13_size_is_number_of_value_nodes [Inhabited T] (ops : List (Op T)) (s : Trie T)
    (i e : Nat) (hops : ∀ op ∈ ops, op.isIndex = false)
    (h : run Trie.new ops = some (s, i, e)) :
    s.size = s.valueNodes ∧ s.size + e = i := by
  obtain ⟨g1, _, g3, _⟩ := run_basic ops Trie.new s i e basic_new.1 h
  refine ⟨g1.size, ?_⟩
  have := g3 hops
  simpa [Trie.size, Trie.new] using this

/-- C13 at a concrete input: after `insert("a", 1)`, `insert("b", 2)`, `erase("a")`,
`insert("b", 3)` two `insert` calls and one `erase` call have succeeded and `size()`
is 1. -/
theorem C13_size_witness :
    ∃ x, (∀ op ∈ opsAB, op.isIndex = false) ∧ run Trie.new opsAB = some x ∧
      x.2.1 = 2 ∧ x.2.2 = 1 ∧ x.1.size = 1 ∧
      x.1.size = x.1.valueNodes ∧ x.1.size + x.2.2 = x.2.1 :=
  ⟨(run Trie.new opsAB).get (by decide), by decide, (Option.some_get _).symm,
    by decide, by decide, by decide,
    C13_size_is_number_of_value_nodes opsAB _ _ _ (by decide)
      (Option.some_get (by decide)).symm⟩

/-! ## The shape of the heap under 7-bit keys -/

theorem matchlen_eq_both {a b : Key} (h1 : matchlen a b = a.length)
    (h2 : matchlen a b = b.length) : a = b := by
  have hp := prefix_of_matchlen_eq a b h1
  exact List.IsPrefix.eq_of_length hp (by omega)

theorem Shape.offset_le {h : Heap T} {root : Nat} (hs : Shape h root) {p : Nat} {n : Node T}
    (hp : h p = some n) : n.posNodeKeyStart ≤ n.nodeKey.length := by
  by_cases hr : p = root
  · obtain ⟨r, h1, h2, h3, _⟩ := hs.root_live
    rw [hr, h1] at hp
    cases hp
    omega
  · exact (hs.link p n hp hr).1

theorem Shape.ne_root {h : Heap T} {root : Nat} (hs : Shape h root) {p q : Nat} {n : Node T}
    (hp : h p = some n) (hq : n.parent = some q) : p ≠ root := by
  intro he
  obtain ⟨r, h1, _, _, h4⟩ := hs.root_live
  rw [he, h1] at hp
  cases hp
  rw [h4] at hq
  cases hq

/-- The parent's key is the child's key up to the child's offset. -/
theorem Shape.parent_key {h : Heap T} {root : Nat} (hs : Shape h root) {p q : Nat}
    {n qn : Node T} (hp : h p = some n) (hq : n.parent = some q) (hqn : h q = some qn) :
    qn.nodeKey = n.nodeKey.take n.posNodeKeyStart ∧ n.posNodeKeyStart = qn.nodeKey.length := by
  obtain ⟨h1, _, q', qn', h3, h4, h5⟩ := hs.link p n hp (hs.ne_root hp hq)
  rw [hq] at h3
  injection h3 with h3
  subst h3
  rw [hqn] at h4
  injection h4 with h4
  subst h4
  refine ⟨h5, ?_⟩
  rw [h5, List.length_take]
  omega

/-- The index of a node with a non-empty segment is the first byte of the segment. -/
theorem Shape.index_first {h : Heap T} {root : Nat} (hs : Shape h root) {p : Nat}
    {n : Node T} (hp : h p = some n) (hr : p ≠ root) : n.gettableindex = n.first := by
  have hb := (hs.link p n hp hr).2.1
  unfold Node.gettableindex Node.first
  apply and_mask
  by_cases hi : n.posNodeKeyStart < n.nodeKey.length
  · exact hb _ (getD_mem_or _ _ hi)
  · rw [List.getD_eq_default _ _ (by omega)]
    decide

/-- What the partial descent returns, in a heap of the shape: the anchor is live and
agrees with the key up to its offset; when the whole of the anchor's key is matched
and the key goes on, the slot of the key's next byte is free; and an anchor below
the start node is registered in its parent's table, the key goes on beyond its
offset, and a non-empty segment of it begins with the key's byte there. -/
theorem findpartial_shape {h : Heap T} {root : Nat} (hs : Shape h root) (key : Key) :
    ∀ (f : Nat) (p : Nat) (n : Node T), h p = some n →
      n.nodeKey.take n.posNodeKeyStart = key.take n.posNodeKeyStart →
      n.posNodeKeyStart ≤ key.length →
      ∀ a, _findpartial h f p key n.posNodeKeyStart = some a →
      ∃ an, h a = some an ∧
        an.nodeKey.take an.posNodeKeyStart = key.take an.posNodeKeyStart ∧
        an.posNodeKeyStart ≤ key.length ∧
        (matchlen an.nodeKey key = an.nodeKey.length → an.nodeKey.length < key.length →
          an.table (key.getD an.nodeKey.length 0) = none ∧
          key.getD an.nodeKey.length 0 < 128) ∧
        (a ≠ p → a ≠ root ∧ an.posNodeKeyStart < key.length ∧
          (an.posNodeKeyStart < an.nodeKey.length →
            key.getD an.posNodeKeyStart 0 = an.first) ∧
          ∃ q qn, an.parent = some q ∧ h q = some qn ∧
            qn.table an.gettableindex = some a) := by
  intro f
  induction f with
  | zero =>
    intro p n _ _ _ a hf
    simp [ _findpartial] at hf
  | succ f ih =>
    intro p n hp hpath hks a hf
    have hksn := hs.offset_le hp
    have hM := matchlen_of_take_eq n.nodeKey key n.posNodeKeyStart hksn hks hpath
    have hMl := matchlen_le_left n.nodeKey key
    have hMr := matchlen_le_right n.nodeKey key
    simp only [ _findpartial, hp, ← hM] at hf
    by_cases c1 : matchlen n.nodeKey key = key.length ∧ matchlen n.nodeKey key = n.nodeKey.length
    · rw [if_pos c1] at hf
      injection hf with hf
      subst hf
      refine ⟨n, hp, hpath, hks, ?_, fun hne => absurd rfl hne⟩
      intro _ hlt
      omega
    · rw [if_neg c1] at hf
      by_cases c2 : matchlen n.nodeKey key < n.nodeKey.length
      · rw [if_pos c2] at hf
        injection hf with hf
        subst hf
        refine ⟨n, hp, hpath, hks, ?_, fun hne => absurd rfl hne⟩
        intro heq _
        omega
      · rw [if_neg c2] at hf
        have hMeq : matchlen n.nodeKey key = n.nodeKey.length := by omega
        have hlt : n.nodeKey.length < key.length := by omega
        rw [hMeq] at hf
        by_cases hbyte : key.getD n.nodeKey.length 0 < 128
        · have htab : n.tableAt (key.getD n.nodeKey.length 0)
              = some (n.table (key.getD n.nodeKey.length 0)) := by
            simp only [Node.tableAt, RANGE]
            rw [if_pos hbyte]
          rw [htab] at hf
          cases hc : n.table (key.getD n.nodeKey.length 0) with
          | none =>
            rw [hc] at hf
            injection hf with hf
            subst hf
            refine ⟨n, hp, hpath, hks, ?_, fun hne => absurd rfl hne⟩
            intro _ _
            exact ⟨hc, hbyte⟩
          | some c =>
            rw [hc] at hf
            obtain ⟨hcr, cn, hcn, hcp, hci⟩ := hs.slot p n _ c hp hc
            obtain ⟨hck, hclen⟩ := hs.parent_key hcn hcp hp
            have hnpre : n.nodeKey <+: key := prefix_of_matchlen_eq _ _ hMeq
            have hcpath : cn.nodeKey.take cn.posNodeKeyStart
                = key.take cn.posNodeKeyStart := by
              rw [← hck, hclen]
              exact List.prefix_iff_eq_take.mp hnpre
            rw [← hclen] at hf
            obtain ⟨an, han, h1, h2, h4, h5⟩ := ih c cn hcn hcpath (by omega) a hf
            refine ⟨an, han, h1, h2, h4, fun _ => ?_⟩
            by_cases hac : a = c
            · subst hac
              rw [hcn] at han
              cases han
              refine ⟨hcr, by omega, ?_, p, n, hcp, hp, ?_⟩
              · intro _
                rw [← hs.index_first hcn hcr, hci, hclen]
              · rw [hci]
                exact hc
            · exact h5 hac
        · have htab : n.tableAt (key.getD n.nodeKey.length 0) = none := by
            simp only [Node.tableAt, RANGE]
            rw [if_neg hbyte]
          rw [htab] at hf
          cases hf

theorem Chain.snoc {h : Heap T} {c p : Nat} {cn pn : Node T} (hc : h c = some cn)
    (hcp : cn.parent = some p) (hp : h p = some pn)
    (hreg : pn.table cn.gettableindex = some c) :
    ∀ (up : List Nat) (x : Nat), Chain h c x up → Chain h p x (up ++ [p]) := by
  intro up
  induction up with
  | nil =>
    intro x hx
    simp only [Chain] at hx
    subst hx
    exact ⟨⟨cn, pn, hc, hcp, hp, hreg⟩, rfl⟩
  | cons q rest ih =>
    intro x hx
    exact ⟨hx.1, ih q hx.2⟩

/-- What `_find` returns, in a heap of the shape: a live node whose key is the key
looked for, at the lower end of a chain of registered nodes that leads up to the
start node; below the start node it has a non-empty segment. -/
theorem find_shape {h : Heap T} {root : Nat} (hs : Shape h root) (key : Key) :
    ∀ (f : Nat) (p : Nat) (n : Node T), h p = some n →
      n.nodeKey.take n.posNodeKeyStart = key.take n.posNodeKeyStart →
      n.posNodeKeyStart ≤ key.length →
      ∀ m, _find h f p key n.posNodeKeyStart = some (some m) →
      ∃ mn up, h m = some mn ∧ mn.nodeKey = key ∧ Chain h p m up ∧
        (m ≠ p → mn.posNodeKeyStart < mn.nodeKey.length) := by
  intro f
  induction f with
  | zero =>
    intro p n _ _ _ m hf
    simp [ _find] at hf
  | succ f ih =>
    intro p n hp hpath hks m hf
    have hksn := hs.offset_le hp
    have hM := matchlen_of_take_eq n.nodeKey key n.posNodeKeyStart hksn hks hpath
    have hMl := matchlen_le_left n.nodeKey key
    have hMr := matchlen_le_right n.nodeKey key
    simp only [ _find, hp, ← hM] at hf
    by_cases c1 : matchlen n.nodeKey key = key.length ∧ matchlen n.nodeKey key = n.nodeKey.length
    · rw [if_pos c1] at hf
      injection hf with hf
      injection hf with hf
      subst hf
      exact ⟨n, [], hp, matchlen_eq_both c1.2 c1.1, rfl, fun hne => absurd rfl hne⟩
    · rw [if_neg c1] at hf
      by_cases c2 : matchlen n.nodeKey key < n.nodeKey.length
      · rw [if_pos c2] at hf
        cases hf
      · rw [if_neg c2] at hf
        have hMeq : matchlen n.nodeKey key = n.nodeKey.length := by omega
        have hlt : n.nodeKey.length < key.length := by omega
        rw [hMeq] at hf
        by_cases hbyte : key.getD n.nodeKey.length 0 < 128
        · have htab : n.tableAt (key.getD n.nodeKey.length 0)
              = some (n.table (key.getD n.nodeKey.length 0)) := by
            simp only [Node.tableAt, RANGE]
            rw [if_pos hbyte]
          rw [htab] at hf
          cases hc : n.table (key.getD n.nodeKey.length 0) with
          | none =>
            rw [hc] at hf
            cases hf
          | some c =>
            rw [hc] at hf
            obtain ⟨hcr, cn, hcn, hcp, hci⟩ := hs.slot p n _ c hp hc
            obtain ⟨hck, hclen⟩ := hs.parent_key hcn hcp hp
            have hnpre : n.nodeKey <+: key := prefix_of_matchlen_eq _ _ hMeq
            have hcpath : cn.nodeKey.take cn.posNodeKeyStart
                = key.take cn.posNodeKeyStart := by
              rw [← hck, hclen]
              exact List.prefix_iff_eq_take.mp hnpre
            rw [← hclen] at hf
            obtain ⟨mn, up, hm, hmk, hch, hne⟩ := ih c cn hcn hcpath (by omega) m hf
            refine ⟨mn, up ++ [p], hm, hmk, ?_, fun _ => ?_⟩
            · exact Chain.snoc hcn hcp hp (by rw [hci]; exact hc) up m hch
            · by_cases hmc : m = c
              · subst hmc
                rw [hcn] at hm
                cases hm
                rw [hmk]
                omega
              · exact hne hmc
        · have htab : n.tableAt (key.getD n.nodeKey.length 0) = none := by
            simp only [Node.tableAt, RANGE]
            rw [if_neg hbyte]
          rw [htab] at hf
          cases hf

/-- Replacing the value and the flag of a node keeps the shape, provided that a node
with an empty segment other than the root keeps a value. -/
theorem Shape.reflag {h : Heap T} {root a : Nat} {an an2 : Node T} (hs : Shape h root)
    (ha : h a = some an) (h1 : an2.parent = an.parent) (h2 : an2.table = an.table)
    (h3 : an2.nodeKey = an.nodeKey) (h4 : an2.posNodeKeyStart = an.posNodeKeyStart)
    (h5 : a ≠ root → an.posNodeKeyStart = an.nodeKey.length → an2.bInUse = true) :
    Shape (h.write a an2) root := by
  have hi : an2.gettableindex = an.gettableindex := by simp [Node.gettableindex, h3, h4]
  have hold : ∀ x y, h x = some y → ∃ y2, (h.write a an2) x = some y2 ∧
      y2.parent = y.parent ∧ y2.table = y.table ∧ y2.nodeKey = y.nodeKey ∧
      y2.posNodeKeyStart = y.posNodeKeyStart ∧ y2.gettableindex = y.gettableindex := by
    intro x y hx
    by_cases hxa : x = a
    · subst hxa
      rw [ha] at hx; cases hx
      exact ⟨an2, by simp, h1, h2, h3, h4, hi⟩
    · exact ⟨y, by rw [Heap.write_other _ _ _ _ hxa]; exact hx, rfl, rfl, rfl, rfl, rfl⟩
  have hnew : ∀ x y2, (h.write a an2) x = some y2 → ∃ y, h x = some y ∧
      y2.parent = y.parent ∧ y2.table = y.table ∧ y2.nodeKey = y.nodeKey ∧
      y2.posNodeKeyStart = y.posNodeKeyStart ∧ y2.gettableindex = y.gettableindex ∧
      (x ≠ a → y2 = y) := by
    intro x y2 hx
    by_cases hxa : x = a
    · subst hxa
      simp only [Heap.write_same] at hx; cases hx
      exact ⟨an, ha, h1, h2, h3, h4, hi, fun hne => absurd rfl hne⟩
    · rw [Heap.write_other _ _ _ _ hxa] at hx
      exact ⟨y2, hx, rfl, rfl, rfl, rfl, rfl, fun _ => rfl⟩
  constructor
  · obtain ⟨r, hr, a1, a2, a3⟩ := hs.root_live
    obtain ⟨r2, hr2, b1, _, b3, b4, _⟩ := hold root r hr
    exact ⟨r2, hr2, by rw [b3, a1], by rw [b4, a2], by rw [b1, a3]⟩
  · intro x y2 hx hxr
    obtain ⟨y, hy, b1, b2, b3, b4, b5, _⟩ := hnew x y2 hx
    obtain ⟨c1, c2, q, qn, hq, hqn, hqk⟩ := hs.link x y hy hxr
    obtain ⟨qn2, hqn2, d1, d2, d3, d4, d5⟩ := hold q qn hqn
    exact ⟨by rw [b3, b4]; exact c1, by rw [b3]; exact c2, q, qn2, by rw [b1]; exact hq, hqn2,
      by rw [d3, b3, b4]; exact hqk⟩
  · intro q qn2 i x hq hx
    obtain ⟨qn, hqn, b1, b2, b3, b4, b5, _⟩ := hnew q qn2 hq
    rw [b2] at hx
    obtain ⟨c1, y, hy, c2, c3⟩ := hs.slot q qn i x hqn hx
    obtain ⟨y2, hy2, d1, d2, d3, d4, d5⟩ := hold x y hy
    exact ⟨c1, y2, hy2, by rw [d1]; exact c2, by rw [d5]; exact c3⟩
  · intro x y2 hx hxr hg
    obtain ⟨y, hy, b1, b2, b3, b4, b5, b6⟩ := hnew x y2 hx
    rw [b3, b4] at hg
    obtain ⟨c1, q, qn, hq, hqn, hq0, hqk⟩ := hs.ghost x y hy hxr hg
    obtain ⟨qn2, hqn2, d1, d2, d3, d4, d5⟩ := hold q qn hqn
    refine ⟨?_, q, qn2, by rw [b1]; exact hq, hqn2, by rw [d2]; exact hq0,
      by rw [d3, d4]; exact hqk⟩
    by_cases hxa : x = a
    · subst hxa
      rw [ha] at hy; cases hy
      simp only [Heap.write_same] at hx; cases hx
      exact h5 hxr hg
    · rw [b6 hxa]
      exact c1
  · intro x y2 q qn2 hx hxr hq hqn2
    obtain ⟨y, hy, b1, b2, b3, b4, b5, _⟩ := hnew x y2 hx
    obtain ⟨qn, hqn, e1, e2, e3, e4, e5, _⟩ := hnew q qn2 hqn2
    rw [b1] at hq
    rw [b5, e2]
    rcases hs.held x y q qn hy hxr hq hqn with c | ⟨g, gn, c1, c2, c3⟩
    · exact Or.inl c
    · obtain ⟨gn2, hgn2, d1, d2, d3, d4, d5⟩ := hold g gn c2
      exact Or.inr ⟨g, gn2, c1, hgn2, by rw [d3, d4]; exact c3⟩

/-- Grafting a leaf for `key` below the anchor, into the free slot of the key's next
byte, keeps the shape. -/
theorem Shape.graft [Inhabited T] {h : Heap T} {root a fresh : Nat} {an : Node T}
    {key : Key} (v : T) (hs : Shape h root) (ha : h a = some an) (hfr : h fresh = none)
    (hfroot : fresh ≠ root) (hpre : an.nodeKey <+: key)
    (hlt : an.nodeKey.length < key.length) (hb : ∀ b ∈ key, b < 128)
    (hfree : an.table (key.getD an.nodeKey.length 0) = none) :
    Shape ((h.write fresh (leafNode key an.nodeKey.length a v)).write a
      (an.setTable (leafNode key an.nodeKey.length a v).gettableindex (some fresh))) root := by
  have hidx : (leafNode key an.nodeKey.length a v).gettableindex
      = key.getD an.nodeKey.length 0 := by
    unfold Node.gettableindex
    exact and_mask _ (hb _ (getD_mem_or _ _ hlt))
  have haf : a ≠ fresh := ne_of_live_of_dead ha hfr
  rw [hidx]
  have hold : ∀ x y, h x = some y → ∃ y2,
      ((h.write fresh (leafNode key an.nodeKey.length a v)).write a
        (an.setTable (key.getD an.nodeKey.length 0) (some fresh))) x = some y2 ∧
      y2.parent = y.parent ∧ y2.nodeKey = y.nodeKey ∧
      y2.posNodeKeyStart = y.posNodeKeyStart ∧ y2.bInUse = y.bInUse ∧
      y2.gettableindex = y.gettableindex ∧
      (∀ i c, y.table i = some c → y2.table i = some c) := by
    intro x y hx
    rw [graftHeap_apply]
    by_cases hxa : x = a
    · subst hxa
      rw [ha] at hx; cases hx
      rw [if_pos rfl]
      refine ⟨_, rfl, rfl, rfl, rfl, rfl, rfl, ?_⟩
      intro i c hic
      simp only [Node.setTable]
      rw [if_neg]
      · exact hic
      · intro he
        rw [he, hfree] at hic
        cases hic
    · have hxf : x ≠ fresh := ne_of_live_of_dead hx hfr
      rw [if_neg hxa, if_neg hxf]
      exact ⟨y, hx, rfl, rfl, rfl, rfl, rfl, fun _ _ hic => hic⟩
  have hnew : ∀ x y2, ((h.write fresh (leafNode key an.nodeKey.length a v)).write a
        (an.setTable (key.getD an.nodeKey.length 0) (some fresh))) x = some y2 →
      (x = fresh ∧ y2 = leafNode key an.nodeKey.length a v) ∨
      (x ≠ fresh ∧ ∃ y, h x = some y ∧ y2.parent = y.parent ∧ y2.nodeKey = y.nodeKey ∧
        y2.posNodeKeyStart = y.posNodeKeyStart ∧ y2.bInUse = y.bInUse ∧
        y2.gettableindex = y.gettableindex ∧
        (∀ i c, y2.table i = some c → y.table i = some c ∨
          (x = a ∧ i = key.getD an.nodeKey.length 0 ∧ c = fresh))) := by
    intro x y2 hx
    rw [graftHeap_apply] at hx
    by_cases hxa : x = a
    · subst hxa
      rw [if_pos rfl] at hx
      injection hx with hx
      subst hx
      refine Or.inr ⟨haf, an, ha, rfl, rfl, rfl, rfl, rfl, ?_⟩
      intro i c hic
      simp only [Node.setTable] at hic
      split at hic
      · rename_i hi
        injection hic with hic
        exact Or.inr ⟨rfl, hi, hic.symm⟩
      · exact Or.inl hic
    · rw [if_neg hxa] at hx
      by_cases hxf : x = fresh
      · rw [if_pos hxf] at hx
        injection hx with hx
        exact Or.inl ⟨hxf, hx.symm⟩
      · rw [if_neg hxf] at hx
        exact Or.inr ⟨hxf, y2, hx, rfl, rfl, rfl, rfl, rfl, fun _ _ hic => Or.inl hic⟩
  have hleaf : ((h.write fresh (leafNode key an.nodeKey.length a v)).write a
        (an.setTable (key.getD an.nodeKey.length 0) (some fresh))) fresh
      = some (leafNode key an.nodeKey.length a v) := by
    rw [graftHeap_apply, if_neg (Ne.symm haf), if_pos rfl]
  constructor
  · obtain ⟨r, hr, a1, a2, a3⟩ := hs.root_live
    obtain ⟨r2, hr2, b1, b2, b3, _⟩ := hold root r hr
    exact ⟨r2, hr2, by rw [b2, a1], by rw [b3, a2], by rw [b1, a3]⟩
  · intro x y2 hx hxr
    rcases hnew x y2 hx with ⟨hxf, hy⟩ | ⟨hxf, y, hy, b1, b2, b3, b4, b5, b6⟩
    · subst hy
      obtain ⟨an2, han2, d1, d2, d3, d4, d5, d6⟩ := hold a an ha
      refine ⟨?_, hb, a, an2, rfl, han2, ?_⟩
      · show an.nodeKey.length ≤ key.length
        omega
      · rw [d2]
        exact List.prefix_iff_eq_take.mp hpre
    · obtain ⟨c1, c2, q, qn, hq, hqn, hqk⟩ := hs.link x y hy hxr
      obtain ⟨qn2, hqn2, d1, d2, d3, d4, d5, d6⟩ := hold q qn hqn
      exact ⟨by rw [b2, b3]; exact c1, by rw [b2]; exact c2, q, qn2, by rw [b1]; exact hq,
        hqn2, by rw [d2, b2, b3]; exact hqk⟩
  · intro q qn2 i c hq hc
    rcases hnew q qn2 hq with ⟨hqf, hy⟩ | ⟨hqf, qn, hqn, b1, b2, b3, b4, b5, b6⟩
    · subst hy
      simp [leafNode, Node.new] at hc
    · rcases b6 i c hc with hc1 | ⟨hqa, hi, hcf⟩
      · obtain ⟨c1, y, hy, c2, c3⟩ := hs.slot q qn i c hqn hc1
        obtain ⟨y2, hy2, d1, d2, d3, d4, d5, d6⟩ := hold c y hy
        exact ⟨c1, y2, hy2, by rw [d1]; exact c2, by rw [d5]; exact c3⟩
      · subst hcf hqa
        exact ⟨hfroot, _, hleaf, rfl, by rw [hidx, hi]⟩
  · intro x y2 hx hxr hg
    rcases hnew x y2 hx with ⟨hxf, hy⟩ | ⟨hxf, y, hy, b1, b2, b3, b4, b5, b6⟩
    · subst hy
      have hg : an.nodeKey.length = key.length := hg
      omega
    · rw [b2, b3] at hg
      obtain ⟨c1, q, qn, hq, hqn, hq0, hqk⟩ := hs.ghost x y hy hxr hg
      obtain ⟨qn2, hqn2, d1, d2, d3, d4, d5, d6⟩ := hold q qn hqn
      exact ⟨by rw [b4]; exact c1, q, qn2, by rw [b1]; exact hq, hqn2, d6 0 x hq0,
        by rw [d2, d3]; exact hqk⟩
  · intro x y2 q qn2 hx hxr hq hqn2
    rcases hnew x y2 hx with ⟨hxf, hy⟩ | ⟨hxf, y, hy, b1, b2, b3, b4, b5, b6⟩
    · subst hy
      have hqa : a = q := by
        simp only [leafNode, Option.some.injEq] at hq
        exact hq
      subst hqa
      rw [graftHeap_apply, if_pos rfl] at hqn2
      injection hqn2 with hqn2
      subst hqn2
      left
      rw [hidx, hxf]
      simp [Node.setTable]
    · rw [b1] at hq
      obtain ⟨_, _, q', qn, hq', hqn, _⟩ := hs.link x y hy hxr
      rw [hq] at hq'
      injection hq' with hq'
      subst hq'
      obtain ⟨qn3, hqn3, d1, d2, d3, d4, d5, d6⟩ := hold q qn hqn
      rw [hqn2] at hqn3
      injection hqn3 with hqn3
      subst hqn3
      rw [b5]
      rcases hs.held x y q qn hy hxr hq hqn with c | ⟨g, gn, c1, c2, c3⟩
      · exact Or.inl (d6 _ _ c)
      · obtain ⟨gn2, hgn2, e1, e2, e3, e4, e5, e6⟩ := hold g gn c2
        exact Or.inr ⟨g, gn2, d6 _ _ c1, hgn2, by rw [e2, e3]; exact c3⟩

theorem splitNode_index [Inhabited T] (an : Node T) {pos : Nat}
    (h : an.posNodeKeyStart < pos) : (splitNode an pos).gettableindex = an.gettableindex := by
  simp only [Node.gettableindex, splitNode, Node.getkey]
  rw [getD_take_lt _ h]

/-- Splitting the edge above the anchor, at a position inside the anchor's segment,
keeps the shape. -/
theorem Shape.split [Inhabited T] {h : Heap T} {root a q fresh : Nat} {an qn : Node T}
    {key : Key} (v : T) (hs : Shape h root) (ha : h a = some an) (hq : an.parent = some q)
    (hqn : h q = some qn) (hfr : h fresh = none) (hfr1 : h (fresh + 1) = none)
    (hfroot : fresh ≠ root) (hfroot1 : fresh + 1 ≠ root) (hb : ∀ b ∈ key, b < 128)
    (hks : an.posNodeKeyStart < matchlen an.nodeKey key)
    (hpos : matchlen an.nodeKey key < an.nodeKey.length)
    (hreg : qn.table an.gettableindex = some a) :
    Shape (splitHeap h fresh a q an qn key v) root := by
  have hposk := matchlen_le_right an.nodeKey key
  have htake := matchlen_take an.nodeKey key
  have har : a ≠ root := hs.ne_root ha hq
  obtain ⟨hak, hab, _⟩ := hs.link a an ha har
  obtain ⟨hqk, hqlen⟩ := hs.parent_key ha hq hqn
  have haf : a ≠ fresh := ne_of_live_of_dead ha hfr
  have haf1 : a ≠ fresh + 1 := ne_of_live_of_dead ha hfr1
  have hqf : q ≠ fresh := ne_of_live_of_dead hqn hfr
  have hqf1 : q ≠ fresh + 1 := ne_of_live_of_dead hqn hfr1
  have haq : a ≠ q := by
    intro he
    subst he
    rw [ha] at hqn
    cases hqn
    omega
  have hisp := splitNode_index an hks
  obtain ⟨pos, hpd⟩ : ∃ pos, pos = matchlen an.nodeKey key := ⟨_, rfl⟩
  rw [← hpd] at hks hpos hposk htake hisp
  -- the four nodes written
  have e0 : ∀ x, splitHeap h fresh a q an qn key v x =
      if x = fresh then
        some (((splitNode an pos).setTable (movedNode an fresh pos).gettableindex
          (some a)).setTable (leafNode key pos fresh v).gettableindex (some (fresh + 1)))
      else if x = fresh + 1 then some (leafNode key pos fresh v)
      else if x = a then some (movedNode an fresh pos)
      else if x = q then some (qn.setTable (splitNode an pos).gettableindex (some fresh))
      else h x := by
    intro x
    rw [splitHeap_apply, ← hpd]
  have eF := e0 fresh
  rw [if_pos rfl] at eF
  have eL := e0 (fresh + 1)
  rw [if_neg (by omega), if_pos rfl] at eL
  have eA := e0 a
  rw [if_neg haf, if_neg haf1, if_pos rfl] at eA
  have eQ := e0 q
  rw [if_neg hqf, if_neg hqf1, if_neg (Ne.symm haq), if_pos rfl, hisp] at eQ
  have hold : ∀ x y, h x = some y → ∃ y2, splitHeap h fresh a q an qn key v x = some y2 ∧
      y2.nodeKey = y.nodeKey ∧ y2.bInUse = y.bInUse ∧
      (x ≠ a → y2.parent = y.parent ∧ y2.posNodeKeyStart = y.posNodeKeyStart ∧
        y2.gettableindex = y.gettableindex) ∧
      (x = a → y2.posNodeKeyStart = pos) ∧
      (∀ i c, y.table i = some c → ¬ (x = q ∧ i = an.gettableindex) →
        y2.table i = some c) := by
    intro x y hx
    have hxf : x ≠ fresh := ne_of_live_of_dead hx hfr
    have hxf1 : x ≠ fresh + 1 := ne_of_live_of_dead hx hfr1
    by_cases hxa : x = a
    · subst hxa
      rw [ha] at hx; cases hx
      exact ⟨_, eA, rfl, rfl, fun hne => absurd rfl hne, fun _ => rfl, fun _ _ hic _ => hic⟩
    · by_cases hxq : x = q
      · subst hxq
        rw [hqn] at hx; cases hx
        refine ⟨_, eQ, rfl, rfl, fun _ => ⟨rfl, rfl, rfl⟩, fun he => absurd he hxa, ?_⟩
        intro i c hic hne
        simp only [Node.setTable]
        rw [if_neg (fun he => hne ⟨rfl, he⟩)]
        exact hic
      · refine ⟨y, ?_, rfl, rfl, fun _ => ⟨rfl, rfl, rfl⟩, fun he => absurd he hxa,
          fun _ _ hic _ => hic⟩
        rw [e0, if_neg hxf, if_neg hxf1, if_neg hxa, if_neg hxq]
        exact hx
  have hnew : ∀ x y2, splitHeap h fresh a q an qn key v x = some y2 →
      x = fresh ∨ x = fresh + 1 ∨ x = a ∨
      (x ≠ fresh ∧ x ≠ fresh + 1 ∧ x ≠ a ∧ ∃ y, h x = some y ∧ y2.parent = y.parent ∧
        y2.nodeKey = y.nodeKey ∧ y2.posNodeKeyStart = y.posNodeKeyStart ∧
        y2.bInUse = y.bInUse ∧ y2.gettableindex = y.gettableindex ∧
        (∀ i c, y2.table i = some c → (y.table i = some c ∧ ¬ (x = q ∧ i = an.gettableindex))
          ∨ (x = q ∧ i = an.gettableindex ∧ c = fresh))) := by
    intro x y2 hx
    by_cases hxf : x = fresh
    · exact Or.inl hxf
    · by_cases hxf1 : x = fresh + 1
      · exact Or.inr (Or.inl hxf1)
      · by_cases hxa : x = a
        · exact Or.inr (Or.inr (Or.inl hxa))
        · refine Or.inr (Or.inr (Or.inr ⟨hxf, hxf1, hxa, ?_⟩))
          by_cases hxq : x = q
          · subst hxq
            rw [eQ] at hx
            injection hx with hx
            subst hx
            refine ⟨qn, hqn, rfl, rfl, rfl, rfl, rfl, ?_⟩
            intro i c hic
            simp only [Node.setTable] at hic
            split at hic
            · rename_i hi
              injection hic with hic
              exact Or.inr ⟨rfl, hi, hic.symm⟩
            · rename_i hi
              exact Or.inl ⟨hic, fun hh => hi hh.2⟩
          · rw [e0, if_neg hxf, if_neg hxf1, if_neg hxa, if_neg hxq] at hx
            exact ⟨y2, hx, rfl, rfl, rfl, rfl, rfl,
              fun _ _ hic => Or.inl ⟨hic, fun hh => hxq hh.1⟩⟩
  have hLF0 : pos = key.length → (leafNode key pos fresh v).gettableindex = 0 := by
    intro he
    simp only [Node.gettableindex, leafNode]
    rw [List.getD_eq_default _ _ (by omega)]
    rfl
  have hdiff : pos < key.length →
      (movedNode an fresh pos).gettableindex ≠ (leafNode key pos fresh v).gettableindex := by
    intro hlt he
    simp only [Node.gettableindex, leafNode, movedNode] at he
    rw [and_mask _ (hab _ (getD_mem_or _ _ hpos)), and_mask _ (hb _ (getD_mem_or _ _ hlt))] at he
    rw [hpd] at he hpos hlt
    exact matchlen_getD_ne an.nodeKey key hpos hlt he
  constructor
  · obtain ⟨r, hr, a1, a2, a3⟩ := hs.root_live
    obtain ⟨r2, hr2, b1, b2, b3, _⟩ := hold root r hr
    obtain ⟨b4, b5, _⟩ := b3 (Ne.symm har)
    exact ⟨r2, hr2, by rw [b1, a1], by rw [b5, a2], by rw [b4, a3]⟩
  · -- link
    intro x y2 hx hxr
    rcases hnew x y2 hx with hxf | hxf | hxf | ⟨_, _, hxa, y, hy, b1, b2, b3, b4, b5, b6⟩
    · subst hxf
      rw [eF] at hx
      injection hx with hx
      subst hx
      obtain ⟨qn2, hqn2, d1, _, d3, _⟩ := hold q qn hqn
      refine ⟨?_, ?_, q, qn2, hq, hqn2, ?_⟩
      · show an.posNodeKeyStart ≤ (an.nodeKey.take pos).length
        rw [List.length_take]
        omega
      · intro b hbm
        exact hab b (List.mem_of_mem_take hbm)
      · show qn2.nodeKey = (an.nodeKey.take pos).take an.posNodeKeyStart
        rw [d1, hqk, List.take_take, Nat.min_eq_left (by omega)]
    · subst hxf
      rw [eL] at hx
      injection hx with hx
      subst hx
      refine ⟨hposk, hb, fresh, _, rfl, eF, ?_⟩
      show an.nodeKey.take pos = key.take pos
      exact htake
    · subst hxf
      rw [eA] at hx
      injection hx with hx
      subst hx
      exact ⟨by show pos ≤ an.nodeKey.length; omega, hab, fresh, _, rfl, eF, rfl⟩
    · obtain ⟨c1, c2, q2, q2n, hq2, hq2n, hq2k⟩ := hs.link x y hy hxr
      obtain ⟨q2n2, hq2n2, d1, _⟩ := hold q2 q2n hq2n
      exact ⟨by rw [b2, b3]; exact c1, by rw [b2]; exact c2, q2, q2n2, by rw [b1]; exact hq2,
        hq2n2, by rw [d1, b2, b3]; exact hq2k⟩
  · -- slot
    intro q0 qn2 i c hq0 hc
    have hfin : ∀ y, h c = some y → c ≠ a → y.parent = some q0 → y.gettableindex = i →
        ∃ cn, splitHeap h fresh a q an qn key v c = some cn ∧ cn.parent = some q0 ∧
          cn.gettableindex = i := by
      intro y hy hca c2 c3
      obtain ⟨y2, hy2, _, _, d3, _⟩ := hold c y hy
      obtain ⟨d4, _, d6⟩ := d3 hca
      exact ⟨y2, hy2, by rw [d4]; exact c2, by rw [d6]; exact c3⟩
    rcases hnew q0 qn2 hq0 with hxf | hxf | hxf | ⟨_, _, hxa, y, hy, b1, b2, b3, b4, b5, b6⟩
    · subst hxf
      rw [eF] at hq0
      injection hq0 with hq0
      subst hq0
      simp only [Node.setTable] at hc
      split at hc
      · rename_i hi
        injection hc with hc
        subst hc
        exact ⟨hfroot1, _, eL, rfl, hi.symm⟩
      · split at hc
        · rename_i hi
          injection hc with hc
          subst hc
          exact ⟨har, _, eA, rfl, hi.symm⟩
        · simp [splitNode, Node.new] at hc
    · subst hxf
      rw [eL] at hq0
      injection hq0 with hq0
      subst hq0
      simp [leafNode, Node.new] at hc
    · subst hxf
      rw [eA] at hq0
      injection hq0 with hq0
      subst hq0
      have hc : an.table i = some c := hc
      obtain ⟨c1, y, hy, c2, c3⟩ := hs.slot q0 an i c ha hc
      have hca : c ≠ q0 := by
        intro he
        subst he
        rw [ha] at hy
        cases hy
        rw [hq] at c2
        injection c2 with c2
        exact haq c2.symm
      exact ⟨c1, hfin y hy hca c2 c3⟩
    · rcases b6 i c hc with ⟨hc1, hne⟩ | ⟨hq0q, hi, hcf⟩
      · obtain ⟨c1, cn, hcn, c2, c3⟩ := hs.slot q0 y i c hy hc1
        have hca : c ≠ a := by
          intro he
          subst he
          rw [ha] at hcn
          cases hcn
          rw [hq] at c2
          injection c2 with c2
          exact hne ⟨c2.symm, c3.symm⟩
        exact ⟨c1, hfin cn hcn hca c2 c3⟩
      · subst hcf hq0q
        refine ⟨hfroot, _, eF, hq, ?_⟩
        show (splitNode an pos).gettableindex = i
        rw [hisp, hi]
  · -- ghost
    intro x y2 hx hxr hg
    rcases hnew x y2 hx with hxf | hxf | hxf | ⟨_, _, hxa, y, hy, b1, b2, b3, b4, b5, b6⟩
    · subst hxf
      rw [eF] at hx
      injection hx with hx
      subst hx
      have hg : an.posNodeKeyStart = (an.nodeKey.take pos).length := hg
      rw [List.length_take] at hg
      omega
    · subst hxf
      rw [eL] at hx
      injection hx with hx
      subst hx
      have hg : pos = key.length := hg
      refine ⟨rfl, fresh, _, rfl, eF, ?_, ?_⟩
      · simp only [Node.setTable]
        rw [if_pos (hLF0 hg).symm]
      · show an.posNodeKeyStart < (an.nodeKey.take pos).length
        rw [List.length_take]
        omega
    · subst hxf
      rw [eA] at hx
      injection hx with hx
      subst hx
      have hg : pos = an.nodeKey.length := hg
      omega
    · rw [b2, b3] at hg
      obtain ⟨c1, q2, q2n, hq2, hq2n, hq20, hq2k⟩ := hs.ghost x y hy hxr hg
      obtain ⟨q2n2, hq2n2, d1, _, d3, d4, d5⟩ := hold q2 q2n hq2n
      refine ⟨by rw [b4]; exact c1, q2, q2n2, by rw [b1]; exact hq2, hq2n2, ?_, ?_⟩
      · apply d5 0 x hq20
        rintro ⟨hq2q, hi⟩
        subst hq2q
        rw [hqn] at hq2n
        cases hq2n
        rw [← hi, hq20] at hreg
        injection hreg with hreg
        exact hxa hreg
      · rw [d1]
        by_cases hq2a : q2 = a
        · subst hq2a
          rw [ha] at hq2n
          cases hq2n
          rw [d4 rfl]
          exact hpos
        · rw [(d3 hq2a).2.1]
          exact hq2k
  · -- held
    intro x y2 q0 qn0 hx hxr hq0 hqn0
    rcases hnew x y2 hx with hxf | hxf | hxf | ⟨_, _, hxa, y, hy, b1, b2, b3, b4, b5, b6⟩
    · subst hxf
      rw [eF] at hx
      injection hx with hx
      subst hx
      have hq0 : an.parent = some q0 := hq0
      rw [hq] at hq0
      injection hq0 with hq0
      subst hq0
      rw [eQ] at hqn0
      injection hqn0 with hqn0
      subst hqn0
      left
      show (qn.setTable an.gettableindex (some x)).table (splitNode an pos).gettableindex = _
      rw [hisp]
      simp [Node.setTable]
    · subst hxf
      rw [eL] at hx
      injection hx with hx
      subst hx
      have hq0 : some fresh = some q0 := hq0
      injection hq0 with hq0
      subst hq0
      rw [eF] at hqn0
      injection hqn0 with hqn0
      subst hqn0
      left
      simp [Node.setTable]
    · subst hxf
      rw [eA] at hx
      injection hx with hx
      subst hx
      have hq0 : some fresh = some q0 := hq0
      injection hq0 with hq0
      subst hq0
      rw [eF] at hqn0
      injection hqn0 with hqn0
      subst hqn0
      by_cases hi : (movedNode an fresh pos).gettableindex
          = (leafNode key pos fresh v).gettableindex
      · right
        refine ⟨fresh + 1, _, ?_, eL, ?_⟩
        · simp only [Node.setTable]
          rw [if_pos hi]
        · show pos = key.length
          by_contra hne
          exact hdiff (by omega) hi
      · left
        simp [Node.setTable, hi]
    · rw [b1] at hq0
      obtain ⟨_, _, q2, q2n, hq2, hq2n, _⟩ := hs.link x y hy hxr
      rw [hq0] at hq2
      injection hq2 with hq2
      subst hq2
      obtain ⟨q2n2, hq2n2, d1, _, d3, d4, d5⟩ := hold q0 q2n hq2n
      rw [hqn0] at hq2n2
      injection hq2n2 with hq2n2
      subst hq2n2
      rw [b5]
      have hne : ¬ (q0 = q ∧ y.gettableindex = an.gettableindex) := by
        rintro ⟨hq0q, hi⟩
        subst hq0q
        rw [hqn] at hq2n
        cases hq2n
        rcases hs.held x y q0 qn hy hxr hq0 hqn with c | ⟨g, gn, c1, c2, c3⟩
        · rw [hi, hreg] at c
          injection c with c
          exact hxa c.symm
        · rw [hi, hreg] at c1
          injection c1 with c1
          subst c1
          rw [ha] at c2
          cases c2
          omega
      rcases hs.held x y q0 q2n hy hxr hq0 hq2n with c | ⟨g, gn, c1, c2, c3⟩
      · exact Or.inl (d5 _ _ c hne)
      · have hga : g ≠ a := by
          intro he
          subst he
          rw [ha] at c2
          cases c2
          omega
        obtain ⟨gn2, hgn2, e1, _, e3, _⟩ := hold g gn c2
        exact Or.inr ⟨g, gn2, d5 _ _ c1 hne, hgn2, by rw [e1, (e3 hga).2.1]; exact c3⟩

/-- Every `insert` of a 7-bit key that returns keeps the shape. -/
theorem insert_shape [Inhabited T] {s s' : Trie T} {key : Key} {v : T} {it : Option Nat}
    {b : Bool} (hb : Basic s) (hs : Shape s.heap s.root) (hk : ∀ c ∈ key, c < 128)
    (h : s.insert key v = some (s', it, b)) : Shape s'.heap s'.root := by
  obtain ⟨a, an, hf, ha, hcase⟩ := insert_cases hb.alloc h
  have hroot := hb.alloc.root
  have hfr : s.heap s.fresh = none := hb.alloc.dead _ (Nat.le_refl _)
  have hfr1 : s.heap (s.fresh + 1) = none := hb.alloc.dead _ (by omega)
  obtain ⟨r, hr, r1, r2, r3⟩ := hs.root_live
  have hf0 : _findpartial s.heap (fuelOf key) s.root key r.posNodeKeyStart = some a := by
    rw [r2]
    exact hf
  obtain ⟨an', ha', p1, p2, p3, p4⟩ := findpartial_shape hs key (fuelOf key) s.root r hr
    (by rw [r2]; rfl) (by rw [r2]; omega) a hf0
  rw [ha] at ha'
  cases ha'
  rcases hcase with ⟨_, _, _, hs'⟩ | ⟨_, _, _, hs'⟩ | ⟨hne, hm, _, hs'⟩ |
    ⟨hne, hm, _, q, qn, hq, hqn, hs'⟩
  · subst hs'
    exact hs
  · subst hs'
    exact hs.reflag ha rfl rfl rfl rfl (fun _ _ => rfl)
  · subst hs'
    have hpre := prefix_of_matchlen_eq _ _ hm
    have hlt : an.nodeKey.length < key.length := by
      have h1 := hpre.length_le
      rcases Nat.lt_or_ge an.nodeKey.length key.length with h2 | h2
      · exact h2
      · exact absurd (List.IsPrefix.eq_of_length hpre (by omega)) hne
    exact hs.graft v ha hfr (by omega) hpre hlt hk (p3 hm hlt).1
  · subst hs'
    have har : a ≠ s.root := hs.ne_root ha hq
    obtain ⟨_, q1, q2, q', qn', q3, q4, q5⟩ := p4 har
    rw [hq] at q3
    injection q3 with q3
    subst q3
    rw [hqn] at q4
    injection q4 with q4
    subst q4
    have hMl := matchlen_le_left an.nodeKey key
    have hks := hs.offset_le ha
    have hM := matchlen_of_take_eq an.nodeKey key an.posNodeKeyStart hks p2 p1
    have hlt : an.posNodeKeyStart < an.nodeKey.length := by omega
    have h1 := matchlen_drop_pos hlt q1 (q2 hlt).symm
    exact hs.split v ha hq hqn hfr hfr1 (by omega) (by omega) hk (by omega) (by omega) q5

/-- When the root has no occupied slot, no other node is live. -/
theorem Shape.root_alone {h : Heap T} {root : Nat} (hs : Shape h root) {r : Node T}
    (hr : h root = some r) (hch : r.childless) : ∀ p, p ≠ root → h p = none := by
  have key : ∀ (k : Nat) (p : Nat) (n : Node T), h p = some n → p ≠ root →
      n.nodeKey.length + n.posNodeKeyStart = k → False := by
    intro k
    induction k using Nat.strong_induction_on with
    | _ k ih =>
      intro p n hp hpr hk
      obtain ⟨hle, _, q, qn, hq, hqn, _⟩ := hs.link p n hp hpr
      obtain ⟨_, hqlen⟩ := hs.parent_key hp hq hqn
      have hqr : q ≠ root := by
        intro e
        subst e
        rw [hr] at hqn
        cases hqn
        rcases hs.held p n _ _ hp hpr hq hr with c | ⟨g, gn, c, _, _⟩
        · rw [hch _ (gettableindex_lt n)] at c
          cases c
        · rw [hch _ (gettableindex_lt n)] at c
          cases c
      have hqle := hs.offset_le hqn
      by_cases hg : n.posNodeKeyStart = n.nodeKey.length
      · obtain ⟨_, q', qn', hq', hqn', _, hlt⟩ := hs.ghost p n hp hpr hg
        rw [hq] at hq'
        injection hq' with hq'
        subst hq'
        rw [hqn] at hqn'
        cases hqn'
        exact ih (qn.nodeKey.length + qn.posNodeKeyStart) (by omega) q qn hqn hqr rfl
      · exact ih (qn.nodeKey.length + qn.posNodeKeyStart) (by omega) q qn hqn hqr rfl
  intro p hpr
  cases hp : h p with
  | none => rfl
  | some n => exact absurd rfl (fun _ : True = True => key _ p n hp hpr rfl)

/-- Along a chain every node above `x` has a key no longer than the offset of `x`. -/
theorem Chain.key_le {h : Heap T} {root top : Nat} (hs : Shape h root) :
    ∀ (up : List Nat) (x : Nat) (xn : Node T), Chain h top x up → h x = some xn →
      ∀ y ∈ up, ∃ yn, h y = some yn ∧ yn.nodeKey.length ≤ xn.posNodeKeyStart := by
  intro up
  induction up with
  | nil =>
    intro x xn _ _ y hy
    cases hy
  | cons q rest ih =>
    intro x xn hc hx y hy
    obtain ⟨⟨xn', qn, hx', hq, hqn, _⟩, hrest⟩ := hc
    rw [hx] at hx'
    cases hx'
    obtain ⟨_, hqlen⟩ := hs.parent_key hx hq hqn
    rcases List.mem_cons.mp hy with hy | hy
    · subst hy
      exact ⟨qn, hqn, by omega⟩
    · obtain ⟨yn, hyn, hle⟩ := ih q qn hrest hqn y hy
      have := hs.offset_le hqn
      exact ⟨yn, hyn, by omega⟩

/-- A chain stays a chain in a heap that keeps the nodes of the chain, their parents
and indices, and the table entries that point to nodes of the chain. -/
theorem Chain.transfer {h h2 : Heap T} {top : Nat} (keep : Nat → Prop)
    (hag : ∀ y yn, h y = some yn → keep y → ∃ yn2, h2 y = some yn2 ∧
      yn2.parent = yn.parent ∧ yn2.gettableindex = yn.gettableindex ∧
      ∀ i c, yn.table i = some c → keep c → yn2.table i = some c) :
    ∀ (up : List Nat) (x : Nat), Chain h top x up → keep x → (∀ y ∈ up, keep y) →
      Chain h2 top x up := by
  intro up
  induction up with
  | nil =>
    intro x hc _ _
    exact hc
  | cons q rest ih =>
    intro x hc hkx hku
    obtain ⟨⟨xn, qn, hx, hq, hqn, hreg⟩, hrest⟩ := hc
    have hkq := hku q (List.mem_cons_self _ _)
    obtain ⟨xn2, hx2, a1, a2, _⟩ := hag x xn hx hkx
    obtain ⟨qn2, hq2, _, _, b3⟩ := hag q qn hqn hkq
    refine ⟨⟨xn2, qn2, hx2, by rw [a1]; exact hq, hq2, ?_⟩,
      ih q hrest hkq (fun y hy => hku y (List.mem_cons_of_mem _ hy))⟩
    rw [a2]
    exact b3 _ _ hreg hkx

/-- What the removal of a childless node `x` keeps of the other nodes. -/
theorem unlink_agree {h : Heap T} {x par : Nat} (xn : Node T) {pn : Node T}
    (hpn : h par = some pn) (hreg : pn.table xn.gettableindex = some x) :
    ∀ y yn, h y = some yn → y ≠ x →
      ∃ yn2, ((h.write par (pn.setTable xn.gettableindex none)).free x) y = some yn2 ∧
        yn2.parent = yn.parent ∧ yn2.gettableindex = yn.gettableindex ∧
        (∀ i c, yn.table i = some c → c ≠ x → yn2.table i = some c) ∧
        yn2.nodeKey = yn.nodeKey ∧ yn2.posNodeKeyStart = yn.posNodeKeyStart ∧
        yn2.bInUse = yn.bInUse := by
  intro y yn hy hyx
  rw [Heap.free_other _ _ _ hyx]
  by_cases hyp : y = par
  · subst hyp
    rw [hpn] at hy
    cases hy
    refine ⟨_, Heap.write_same _ _ _, rfl, rfl, ?_, rfl, rfl, rfl⟩
    intro i c hic hcx
    simp only [Node.setTable]
    rw [if_neg]
    · exact hic
    · intro he
      rw [he, hreg] at hic
      injection hic with hic
      exact hcx hic.symm
  · rw [Heap.write_other _ _ _ _ hyp]
    exact ⟨yn, hy, rfl, rfl, fun _ _ hic _ => hic, rfl, rfl, rfl⟩

/-- Removing a childless node without a value that is registered in its parent's
table keeps the shape. -/
theorem Shape.unlink {h : Heap T} {root x par : Nat} {xn pn : Node T} (hs : Shape h root)
    (hx : h x = some xn) (hc : xn.childless) (hv : xn.bInUse = false)
    (hpar : xn.parent = some par) (hpn : h par = some pn)
    (hreg : pn.table xn.gettableindex = some x) :
    Shape ((h.write par (pn.setTable xn.gettableindex none)).free x) root := by
  have hxr : x ≠ root := hs.ne_root hx hpar
  have hnochild : ∀ p n, h p = some n → n.parent = some x → False := by
    intro p n hp hq
    rcases hs.held p n x xn hp (hs.ne_root hp hq) hq hx with c | ⟨g, gn, c, _, _⟩
    · rw [hc _ (gettableindex_lt n)] at c
      cases c
    · rw [hc _ (gettableindex_lt n)] at c
      cases c
  have hnoghost : xn.posNodeKeyStart ≠ xn.nodeKey.length := by
    intro hg
    have := (hs.ghost x xn hx hxr hg).1
    rw [hv] at this
    cases this
  have hold := unlink_agree xn hpn hreg
  have hnew : ∀ y yn2, ((h.write par (pn.setTable xn.gettableindex none)).free x) y
      = some yn2 → y ≠ x ∧ ∃ yn, h y = some yn ∧ yn2.parent = yn.parent ∧
        yn2.gettableindex = yn.gettableindex ∧ yn2.nodeKey = yn.nodeKey ∧
        yn2.posNodeKeyStart = yn.posNodeKeyStart ∧ yn2.bInUse = yn.bInUse ∧
        (∀ i c, yn2.table i = some c → yn.table i = some c ∧
          ¬ (y = par ∧ i = xn.gettableindex)) := by
    intro y yn2 hy
    have hyx : y ≠ x := by
      intro he
      rw [he, Heap.free_same] at hy
      cases hy
    refine ⟨hyx, ?_⟩
    rw [Heap.free_other _ _ _ hyx] at hy
    by_cases hyp : y = par
    · subst hyp
      rw [Heap.write_same] at hy
      injection hy with hy
      subst hy
      refine ⟨pn, hpn, rfl, rfl, rfl, rfl, rfl, ?_⟩
      intro i c hic
      simp only [Node.setTable] at hic
      split at hic
      · cases hic
      · rename_i hi
        exact ⟨hic, fun hh => hi hh.2⟩
    · rw [Heap.write_other _ _ _ _ hyp] at hy
      exact ⟨yn2, hy, rfl, rfl, rfl, rfl, rfl, fun _ _ hic => ⟨hic, fun hh => hyp hh.1⟩⟩
  constructor
  · obtain ⟨r, hr, a1, a2, a3⟩ := hs.root_live
    obtain ⟨r2, hr2, b1, _, _, b4, b5, _⟩ := hold root r hr (Ne.symm hxr)
    exact ⟨r2, hr2, by rw [b4, a1], by rw [b5, a2], by rw [b1, a3]⟩
  · intro p n2 hp hpr
    obtain ⟨hpx, n, hn, b1, b2, b3, b4, b5, b6⟩ := hnew p n2 hp
    obtain ⟨c1, c2, q, qn, hq, hqn, hqk⟩ := hs.link p n hn hpr
    have hqx : q ≠ x := by
      intro he
      subst he
      exact hnochild p n hn hq
    obtain ⟨qn2, hqn2, _, _, _, d4, _⟩ := hold q qn hqn hqx
    exact ⟨by rw [b3, b4]; exact c1, by rw [b3]; exact c2, q, qn2, by rw [b1]; exact hq, hqn2,
      by rw [d4, b3, b4]; exact hqk⟩
  · intro q qn2 i c hq hic
    obtain ⟨hqx, qn, hqn, b1, b2, b3, b4, b5, b6⟩ := hnew q qn2 hq
    obtain ⟨hic1, hne⟩ := b6 i c hic
    obtain ⟨c1, cn, hcn, c2, c3⟩ := hs.slot q qn i c hqn hic1
    have hcx : c ≠ x := by
      intro he
      subst he
      rw [hx] at hcn
      cases hcn
      rw [hpar] at c2
      injection c2 with c2
      exact hne ⟨c2.symm, c3.symm⟩
    obtain ⟨cn2, hcn2, d1, d2, _⟩ := hold c cn hcn hcx
    exact ⟨c1, cn2, hcn2, by rw [d1]; exact c2, by rw [d2]; exact c3⟩
  · intro p n2 hp hpr hg
    obtain ⟨hpx, n, hn, b1, b2, b3, b4, b5, b6⟩ := hnew p n2 hp
    rw [b3, b4] at hg
    obtain ⟨c1, q, qn, hq, hqn, hq0, hqk⟩ := hs.ghost p n hn hpr hg
    have hqx : q ≠ x := by
      intro he
      subst he
      exact hnochild p n hn hq
    obtain ⟨qn2, hqn2, _, _, d3, d4, d5, _⟩ := hold q qn hqn hqx
    exact ⟨by rw [b5]; exact c1, q, qn2, by rw [b1]; exact hq, hqn2, d3 0 p hq0 hpx,
      by rw [d4, d5]; exact hqk⟩
  · intro p n2 q qn2 hp hpr hq hqn2
    obtain ⟨hpx, n, hn, b1, b2, b3, b4, b5, b6⟩ := hnew p n2 hp
    rw [b1] at hq
    obtain ⟨_, _, q', qn, hq', hqn, _⟩ := hs.link p n hn hpr
    rw [hq] at hq'
    injection hq' with hq'
    subst hq'
    have hqx : q ≠ x := by
      intro he
      subst he
      exact hnochild p n hn hq
    obtain ⟨qn3, hqn3, _, _, d3, _⟩ := hold q qn hqn hqx
    rw [hqn2] at hqn3
    injection hqn3 with hqn3
    subst hqn3
    rw [b2]
    rcases hs.held p n q qn hn hpr hq hqn with c | ⟨g, gn, c1, c2, c3⟩
    · exact Or.inl (d3 _ _ c hpx)
    · have hgx : g ≠ x := by
        intro he
        subst he
        rw [hx] at c2
        cases c2
        exact hnoghost c3
      obtain ⟨gn2, hgn2, _, _, _, e4, e5, _⟩ := hold g gn c2 hgx
      exact Or.inr ⟨g, gn2, d3 _ _ c1 hgx, hgn2, by rw [e4, e5]; exact c3⟩

/-- The loop of `erase`, started in a heap of the shape at the lower end of a chain
that leads up to the root, ends with a heap of the shape or with no live node. -/
theorem eraseLoop_shape (root : Nat) :
    ∀ (fuel : Nat) (h : Heap T) (nn : Int) (x : Nat) (h' : Heap T) (nn' : Int),
      (Shape h root ∧ ∃ up, Chain h root x up) →
      eraseLoop fuel h nn (some x) = some (h', nn') →
      (Shape h' root ∨ ∀ p, h' p = none) := by
  apply eraseLoop_induct (fun h x => Shape h root ∧ ∃ up, Chain h root x up)
    (fun h' => Shape h' root ∨ ∀ p, h' p = none)
  · rintro h x xn ⟨hs, _⟩ _ _
    exact Or.inl hs
  · rintro h x xn ⟨hs, _⟩ hx hc _ hpar
    right
    have hxr : x = root := by
      by_contra hne
      obtain ⟨_, _, q, _, hq, _⟩ := hs.link x xn hx hne
      rw [hpar] at hq
      cases hq
    subst hxr
    intro p
    by_cases hp : p = x
    · rw [hp, Heap.free_same]
    · rw [Heap.free_other _ _ _ hp]
      exact hs.root_alone hx hc p hp
  · rintro h x xn par pn ⟨hs, up, hch⟩ hx hc hv hpar hpn
    have hxr : x ≠ root := hs.ne_root hx hpar
    cases up with
    | nil => exact absurd hch hxr
    | cons q rest =>
      obtain ⟨⟨xn', qn, hx', hq, hqn, hreg⟩, hrest⟩ := id hch
      rw [hx] at hx'
      cases hx'
      rw [hpar] at hq
      injection hq with hq
      subst hq
      rw [hpn] at hqn
      cases hqn
      refine ⟨hs.unlink hx hc hv hpar hpn hreg, rest, ?_⟩
      have hnoghost : xn.posNodeKeyStart ≠ xn.nodeKey.length := by
        intro hg
        have := (hs.ghost x xn hx hxr hg).1
        rw [hv] at this
        cases this
      have hle := hs.offset_le hx
      have hlen := Chain.key_le hs (par :: rest) x xn hch hx
      have hkeep : ∀ y ∈ par :: rest, y ≠ x := by
        intro y hy he
        subst he
        obtain ⟨yn, hyn, hl⟩ := hlen y hy
        rw [hx] at hyn
        cases hyn
        omega
      apply Chain.transfer (fun y => y ≠ x) ?_ rest par hrest
        (hkeep par (List.mem_cons_self _ _))
        (fun y hy => hkeep y (List.mem_cons_of_mem _ hy))
      intro y yn hy hyx
      obtain ⟨yn2, h1, h2, h3, h4, _⟩ := unlink_agree xn hpn hreg y yn hy hyx
      exact ⟨yn2, h1, h2, h3, h4⟩

/-- Every `erase` that returns, on a heap of the shape, leaves a heap of the shape or
no live node. -/
theorem erase_shape {s s' : Trie T} {k : Key} {c : Nat} (hs : Shape s.heap s.root)
    (h : s.erase k = some (s', c)) :
    Shape s'.heap s'.root ∨ ∀ p, s'.heap p = none := by
  rcases erase_cases h with ⟨_, hs', _⟩ | ⟨m, mn, h1, nn, hf, hm, hl, hs', _⟩
  · subst hs'
    exact Or.inl hs
  · subst hs'
    obtain ⟨mn', hf', hm', _⟩ := find_cases hf
    obtain ⟨r, hr, r1, r2, r3⟩ := hs.root_live
    have hf0 : _find s.heap (fuelOf k) s.root k r.posNodeKeyStart = some (some m) := by
      rw [r2]
      exact hf'
    obtain ⟨mn2, up, hm2, _, hch, hne⟩ := find_shape hs k (fuelOf k) s.root r hr
      (by rw [r2]; rfl) (by rw [r2]; omega) m hf0
    rw [hm] at hm2
    cases hm2
    have hs0 : Shape (s.heap.write m { mn with bInUse := false }) s.root := by
      apply @Shape.reflag T s.heap s.root m mn { mn with bInUse := false } hs hm rfl rfl rfl
        rfl
      intro hmr hg
      by_cases he : m = s.root
      · exact absurd he hmr
      · have := hne he
        omega
    have hch0 : Chain (s.heap.write m { mn with bInUse := false }) s.root m up := by
      apply Chain.transfer (fun _ => True) ?_ up m hch trivial (fun _ _ => trivial)
      intro y yn hy _
      by_cases hym : y = m
      · subst hym
        rw [hm] at hy
        cases hy
        exact ⟨_, Heap.write_same _ _ _, rfl, rfl, fun _ _ hic _ => hic⟩
      · exact ⟨yn, by rw [Heap.write_other _ _ _ _ hym]; exact hy, rfl, rfl,
          fun _ _ hic _ => hic⟩
    exact eraseLoop_shape s.root (fuelOf k) _ s.numnodes m h1 nn ⟨hs0, up, hch0⟩ hl

/-- Every call with a 7-bit key that returns leaves a heap of the shape or no live
node. -/
theorem step_shape [Inhabited T] {s s' : Trie T} {op : Op T} {i e : Bool} (hb : Basic s)
    (hs : Shape s.heap s.root) (hk : ∀ c ∈ op.key, c < 128)
    (h : s.step op = some (s', i, e)) :
    Shape s'.heap s'.root ∨ ∀ p, s'.heap p = none := by
  cases op with
  | insert k v =>
    simp only [Trie.step, Option.map_eq_some', Prod.mk.injEq] at h
    obtain ⟨⟨s1, it, b⟩, hins, h1, _, _⟩ := h
    subst h1
    exact Or.inl (insert_shape hb hs hk hins)
  | erase k =>
    simp only [Trie.step, Option.map_eq_some', Prod.mk.injEq] at h
    obtain ⟨⟨s1, c⟩, hers, h1, _, _⟩ := h
    subst h1
    exact erase_shape hs hers
  | index k =>
    simp only [Trie.step, Option.map_eq_some', Prod.mk.injEq] at h
    obtain ⟨⟨s1, j⟩, hidx, h1, _, _⟩ := h
    subst h1
    rcases index_cases hidx with hs' | ⟨it, b, hins⟩
    · subst hs'
      exact Or.inl hs
    · exact Or.inl (insert_shape hb hs hk hins)

/-- No call returns once the root is destroyed. -/
theorem step_dead [Inhabited T] {s : Trie T} (hd : s.heap s.root = none) (op : Op T) :
    s.step op = none := by
  have h1 : ∀ k, s.find k = none := by
    intro k
    simp [Trie.find, fuelOf, _find, hd]
  cases op with
  | insert k v => simp [Trie.step, Trie.insert, fuelOf, _findpartial, hd]
  | erase k => simp [Trie.step, Trie.erase, h1]
  | index k => simp [Trie.step, Trie.index, h1]

/-- The heap of a new trie has the shape. -/
theorem shape_new [Inhabited T] : Shape (Trie.new : Trie T).heap (Trie.new : Trie T).root := by
  have hlive : ∀ p n, (Trie.new : Trie T).heap p = some n → p = 0 ∧ n = Node.new := by
    intro p n hp
    simp only [Trie.new, Heap.write] at hp
    split at hp
    · rename_i h0
      injection hp with hp
      exact ⟨h0, hp.symm⟩
    · cases hp
  constructor
  · exact ⟨Node.new, by simp [Trie.new, Heap.write], rfl, rfl, rfl⟩
  · intro p n hp hr
    exact absurd (hlive p n hp).1 hr
  · intro q qn i c hq hc
    obtain ⟨_, h2⟩ := hlive q qn hq
    subst h2
    simp [Node.new] at hc
  · intro p n hp hr
    exact absurd (hlive p n hp).1 hr
  · intro p n q qn hp hr
    exact absurd (hlive p n hp).1 hr

/-- A sequence of calls with 7-bit keys that returns leaves a heap of the shape or no
live node. -/
theorem run_shape [Inhabited T] :
    ∀ (ops : List (Op T)) (s s' : Trie T) (i e : Nat), Basic s → Shape s.heap s.root →
      (∀ op ∈ ops, ∀ c ∈ op.key, c < 128) → run s ops = some (s', i, e) →
      Shape s'.heap s'.root ∨ ∀ p, s'.heap p = none := by
  intro ops
  induction ops with
  | nil =>
    intro s s' i e _ hs _ h
    simp only [run, Option.some.injEq, Prod.mk.injEq] at h
    obtain ⟨h1, _, _⟩ := h
    subst h1
    exact Or.inl hs
  | cons op rest ih =>
    intro s s' i e hb hs hk h
    cases hst : s.step op with
    | none => simp [run, hst] at h
    | some r1 =>
      obtain ⟨s1, i1, e1⟩ := r1
      cases hr : run s1 rest with
      | none => simp [run, hst, hr] at h
      | some r2 =>
        obtain ⟨s2, ni, ne⟩ := r2
        simp only [run, hst, hr, Option.some.injEq, Prod.mk.injEq] at h
        obtain ⟨h1, _, _⟩ := h
        subst h1
        have hb1 := (step_basic hb hst).1
        rcases step_shape hb hs (hk op (List.mem_cons_self _ _)) hst with hs1 | hd
        · exact ih s1 s2 ni ne hb1 hs1 (fun o ho => hk o (List.mem_cons_of_mem _ ho)) hr
        · cases rest with
          | nil =>
            simp only [run, Option.some.injEq, Prod.mk.injEq] at hr
            obtain ⟨h1, _, _⟩ := hr
            subst h1
            exact Or.inr hd
          | cons op2 rest2 =>
            simp [run, step_dead (hd s1.root) op2] at hr

theorem segmentsOf_cons (h : Heap T) (c : Nat) (cn : Node T) (l : List Nat)
    (hc : h c = some cn) : segmentsOf h (c :: l) = cn.segment ++ segmentsOf h l := by
  simp [segmentsOf, hc]

/-- Along a downward path of table slots the segments, appended to the key of the
node the path starts at, give the key of the node it ends at. -/
theorem path_segments {h : Heap T} {root : Nat} (hs : Shape h root) (x : Nat) (n : Node T)
    (hx : h x = some n) :
    ∀ (l : List Nat) (p : Nat) (pn : Node T), h p = some pn → IsPath h p l x →
      pn.nodeKey ++ segmentsOf h l = n.nodeKey := by
  intro l
  induction l with
  | nil =>
    intro p pn hp hpath
    simp only [IsPath] at hpath
    subst hpath
    rw [hx] at hp
    cases hp
    simp [segmentsOf]
  | cons c rest ih =>
    intro p pn hp hpath
    obtain ⟨⟨pn', i, hp', _, hic⟩, hrest⟩ := hpath
    rw [hp] at hp'
    cases hp'
    obtain ⟨_, cn, hcn, hcp, _⟩ := hs.slot p pn i c hp hic
    obtain ⟨hk, _⟩ := hs.parent_key hcn hcp hp
    rw [segmentsOf_cons h c cn rest hcn, ← List.append_assoc, hk, Node.segment,
      List.take_append_drop]
    exact ih c cn hcn hrest

/-- C19, the claim as stated fails for keys with a byte above 127: after
`insert("a\x80", 1)`, `insert("a\x81", 2)`, `insert("a\0", 3)`, `erase("a\0")` node 1,
which holds "a\x80", is live and names node 4 as its parent, and node 4 is
destroyed. -/
theorem C19_parent_destroyed_after_high_bytes :
    (∃ op ∈ opsHigh, ∃ c ∈ op.key, ¬ c < 128) ∧
    (run Trie.new opsHigh).map (fun x =>
        ((x.1.heap 1).map (fun n => (n.getkey, n.hasValue, n.parent)), (x.1.heap 4).isNone))
      = some (some ([97, 128], true, some 4), true) := by
  refine ⟨?_, ?_⟩ <;> decide

/-- C19, amended: in every state reached from a new trie by calls of `insert` and
`erase` (and of `operator[]`) with keys whose bytes are in 0..127, every node other
than the root has a live parent, the parent's full key is a prefix of the node's full
key, and the node's offset is the length of the parent's full key; along every path
of table slots from the root to a node, the segments of the nodes, one after the
other, give the node's full key.  And when `insert` splits the edge above its
anchor at the position `pos`, the split node it creates has the anchor's full key cut
at `pos` and the anchor's former offset, and the anchor is given the offset `pos` and
the split node as its parent. -/
theorem C19_segments_give_full_key [Inhabited T] (ops : List (Op T)) (s : Trie T)
    (i e : Nat) (hb : ∀ op ∈ ops, ∀ c ∈ op.key, c < 128)
    (h : run Trie.new ops = some (s, i, e)) :
    (∀ p n, s.heap p = some n → p ≠ s.root →
      ∃ q qn, n.parent = some q ∧ s.heap q = some qn ∧ qn.getkey <+: n.getkey ∧
        n.posNodeKeyStart = qn.getkey.length) ∧
    (∀ l x n, IsPath s.heap s.root l x → s.heap x = some n →
      segmentsOf s.heap (s.root :: l) = n.getkey) ∧
    (∀ key v s' it b a an, s.insert key v = some (s', it, b) →
      _findpartial s.heap (fuelOf key) s.root key 0 = some a → s.heap a = some an →
      an.getkey ≠ key → substrlength an.getkey key ≠ an.getkey.length →
      (s'.heap s.fresh).map (fun n => (n.getkey, n.posNodeKeyStart))
        = some (an.getkey.take (substrlength an.getkey key), an.posNodeKeyStart) ∧
      (s'.heap a).map (fun n => (n.getkey, n.posNodeKeyStart, n.parent))
        = some (an.getkey, substrlength an.getkey key, some s.fresh)) := by
  obtain ⟨hbas, _, _, _⟩ := run_basic ops Trie.new s i e basic_new.1 h
  have hsh := run_shape ops Trie.new s i e basic_new.1 shape_new hb h
  refine ⟨?_, ?_, ?_⟩
  · intro p n hp hpr
    rcases hsh with hs | hd
    · obtain ⟨_, _, q, qn, hq, hqn, _⟩ := hs.link p n hp hpr
      obtain ⟨hk, hlen⟩ := hs.parent_key hp hq hqn
      refine ⟨q, qn, hq, hqn, ?_, hlen⟩
      show qn.nodeKey <+: n.nodeKey
      rw [hk]
      exact List.take_prefix _ _
    · rw [hd p] at hp
      cases hp
  · intro l x n hpath hx
    rcases hsh with hs | hd
    · obtain ⟨r, hr, r1, r2, _⟩ := hs.root_live
      have := path_segments hs x n hx l s.root r hr hpath
      rw [segmentsOf_cons s.heap s.root r l hr, Node.segment, r1]
      rw [r1] at this
      simpa using this
    · rw [hd x] at hx
      cases hx
  · intro key v s' it b a an hins hf ha hne hm
    obtain ⟨a', an', hf', ha', hcase⟩ := insert_cases hbas.alloc hins
    rw [hf] at hf'
    injection hf' with hf'
    subst hf'
    rw [ha] at ha'
    injection ha' with ha'
    subst ha'
    have hal := hbas.alloc.lt ha
    rcases hcase with ⟨hk, _⟩ | ⟨hk, _⟩ | ⟨_, hm', _⟩ | ⟨_, _, _, q, qn, hq, hqn, hs'⟩
    · exact absurd hk hne
    · exact absurd hk hne
    · exact absurd hm' hm
    · subst hs'
      constructor
      · show (splitHeap s.heap s.fresh a q an qn key v s.fresh).map _ = _
        rw [splitHeap_apply, if_pos rfl]
        rfl
      · show (splitHeap s.heap s.fresh a q an qn key v a).map _ = _
        rw [splitHeap_apply, if_neg (by omega), if_neg (by omega), if_pos rfl]
        rfl

/-- C19, amended, at a concrete input: after `insert("a\0b", 1)`, `insert("a", 2)`,
`insert("test", 3)`, `insert("testing", 4)`, `erase("test")`. -/
theorem C19_segments_witness :
    ∃ x, (∀ op ∈ opsA0B, ∀ c ∈ op.key, c < 128) ∧ run Trie.new opsA0B = some x ∧
      (x.1.heap 1).map (fun n => (n.getkey, n.parent)) = some (kA0B, some 2) ∧
      (∀ p n, x.1.heap p = some n → p ≠ x.1.root →
        ∃ q qn, n.parent = some q ∧ x.1.heap q = some qn ∧ qn.getkey <+: n.getkey ∧
          n.posNodeKeyStart = qn.getkey.length) :=
  ⟨(run Trie.new opsA0B).get (by decide), by decide, (Option.some_get _).symm, by decide,
    (C19_segments_give_full_key opsA0B _ _ _ (by decide)
      (Option.some_get (by decide)).symm).1⟩

/-! ## What the loop of `erase` removes -/

/-- The loop of `erase` removes nothing when it is at a node that has a value or an
occupied slot. -/
theorem eraseLoop_stop (fuel : Nat) (h : Heap T) (nn : Int) (x : Nat) (xn : Node T)
    (hx : h x = some xn) (hs : xn.hasValue = true ∨ ¬ xn.childless) :
    eraseLoop (fuel + 1) h nn (some x) = some (h, nn) := by
  simp only [eraseLoop, hx]
  rw [if_neg]
  rintro ⟨h1, h2⟩
  rcases hs with hs | hs
  · rw [Node.hasValue, h2] at hs
    cases hs
  · exact hs ((scan_eq_range xn).mp h1)

theorem Pruned.refl (h0 : Heap T) : Pruned h0 h0 := by
  refine ⟨fun _ hp => hp, ?_⟩
  intro p n hp
  constructor
  · intro hd
    rw [hd] at hp
    cases hp
  · intro n2 hn2
    rw [hp] at hn2
    injection hn2 with hn2
    subst hn2
    exact ⟨rfl, rfl, fun i _ h1 h2 => absurd h2 h1⟩

/-- Destroying a childless node, after its slot in the parent's table is cleared,
keeps the relation to the heap the loop started with. -/
theorem Pruned.step {h0 h : Heap T} (hp : Pruned h0 h) {x : Nat} {xn : Node T}
    (hx : h x = some xn) (hc : xn.childless) (h2 : Heap T)
    (hfree : h2 x = none)
    (hother : ∀ p, p ≠ x → h p = none → h2 p = none)
    (hlive : ∀ p n, p ≠ x → h p = some n → ∃ n2, h2 p = some n2 ∧ n2.parent = n.parent ∧
      n2.gettableindex = n.gettableindex ∧
      ∀ i, n.table i ≠ none → n2.table i = none →
        xn.parent = some p ∧ xn.gettableindex = i)
    (hback : ∀ p n2, h2 p = some n2 → ∃ n, h p = some n) :
    Pruned h0 h2 := by
  obtain ⟨hp1, hp2⟩ := hp
  have hmono : ∀ y, h y = none → h2 y = none := by
    intro y hy
    by_cases hyx : y = x
    · rw [hyx]; exact hfree
    · exact hother y hyx hy
  have hx0 : ∃ x0, h0 x = some x0 := by
    cases h0x : h0 x with
    | none =>
      rw [hp1 x h0x] at hx
      cases hx
    | some x0 => exact ⟨x0, rfl⟩
  obtain ⟨x0, hx0⟩ := hx0
  obtain ⟨_, hx2⟩ := hp2 x x0 hx0
  obtain ⟨hxp, hxi, hxs⟩ := hx2 xn hx
  refine ⟨fun p h0p => hmono p (hp1 p h0p), ?_⟩
  intro p n h0p
  obtain ⟨c1, c2⟩ := hp2 p n h0p
  constructor
  · intro hd i hi hne
    cases hpp : h p with
    | none =>
      obtain ⟨y, yn, a1, a2, a3, a4⟩ := c1 hpp i hi hne
      exact ⟨y, yn, a1, hmono y a2, a3, a4⟩
    | some n1 =>
      have hpx : p = x := by
        by_contra hpx
        obtain ⟨n2, hn2, _⟩ := hlive p n1 hpx hpp
        rw [hd] at hn2
        cases hn2
      subst hpx
      rw [hx] at hpp
      cases hpp
      rw [hx0] at h0p
      cases h0p
      obtain ⟨y, yn, a1, a2, a3, a4⟩ := hxs i hi hne (hc i hi)
      exact ⟨y, yn, a1, hmono y a2, a3, a4⟩
  · intro n2 hn2
    have hpx : p ≠ x := by
      intro he
      rw [he, hfree] at hn2
      cases hn2
    obtain ⟨n1, hn1⟩ := hback p n2 hn2
    obtain ⟨n2', hn2', b1, b2, b3⟩ := hlive p n1 hpx hn1
    rw [hn2] at hn2'
    injection hn2' with hn2'
    subst hn2'
    obtain ⟨d1, d2, d3⟩ := c2 n1 hn1
    refine ⟨b1.trans d1, b2.trans d2, ?_⟩
    intro i hi hne hnone
    cases hni : n1.table i with
    | none =>
      obtain ⟨y, yn, a1, a2, a3, a4⟩ := d3 i hi hne hni
      exact ⟨y, yn, a1, hmono y a2, a3, a4⟩
    | some c =>
      obtain ⟨e1, e2⟩ := b3 i (by rw [hni]; simp) hnone
      exact ⟨x, x0, hx0, hfree, by rw [← hxp]; exact e1, by rw [← hxi]; exact e2⟩

/-- The loop of `erase` ends with a heap related in this way to the heap it started
with. -/
theorem eraseLoop_pruned (h0 : Heap T) :
    ∀ (fuel : Nat) (h : Heap T) (nn : Int) (x : Nat) (h' : Heap T) (nn' : Int),
      Pruned h0 h → eraseLoop fuel h nn (some x) = some (h', nn') → Pruned h0 h' := by
  apply eraseLoop_induct (fun h _ => Pruned h0 h) (fun h' => Pruned h0 h')
  · intro h x xn hp _ _
    exact hp
  · intro h x xn hp hx hc _ _
    apply hp.step hx hc (h.free x) (Heap.free_same _ _)
    · intro p hpx hd
      rw [Heap.free_other _ _ _ hpx]
      exact hd
    · intro p n hpx hpn
      refine ⟨n, by rw [Heap.free_other _ _ _ hpx]; exact hpn, rfl, rfl, ?_⟩
      intro i h1 h2
      exact absurd h2 h1
    · intro p n2 hp2
      by_cases hpx : p = x
      · rw [hpx, Heap.free_same] at hp2
        cases hp2
      · rw [Heap.free_other _ _ _ hpx] at hp2
        exact ⟨n2, hp2⟩
  · intro h x xn par pn hp hx hc _ hpar hpn
    apply hp.step hx hc _ (Heap.free_same _ _)
    · intro p hpx hd
      rw [Heap.free_other _ _ _ hpx]
      have hpp : p ≠ par := by
        intro he
        rw [he, hpn] at hd
        cases hd
      rw [Heap.write_other _ _ _ _ hpp]
      exact hd
    · intro p n hpx hp1
      rw [Heap.free_other _ _ _ hpx]
      by_cases hpp : p = par
      · subst hpp
        rw [hpn] at hp1
        cases hp1
        refine ⟨_, Heap.write_same _ _ _, rfl, rfl, ?_⟩
        intro i h1 h2
        refine ⟨hpar, ?_⟩
        simp only [Node.setTable] at h2
        split at h2
        · rename_i hi
          exact hi.symm
        · exact absurd h2 h1
      · rw [Heap.write_other _ _ _ _ hpp]
        exact ⟨n, hp1, rfl, rfl, fun i h1 h2 => absurd h2 h1⟩
    · intro p n2 hp2
      by_cases hpx : p = x
      · rw [hpx, Heap.free_same] at hp2
        cases hp2
      · rw [Heap.free_other _ _ _ hpx] at hp2
        by_cases hpp : p = par
        · rw [hpp]
          exact ⟨pn, hpn⟩
        · rw [Heap.write_other _ _ _ _ hpp] at hp2
          exact ⟨n2, hp2⟩

/-- Every node that an `erase` destroys had no value, unless it is the node found for
the key, and each of its occupied slots was the slot of a node which named it as
parent and which is destroyed too. -/
theorem erase_removed {s s' : Trie T} {k : Key} {c : Nat} (hb : Basic s)
    (h : s.erase k = some (s', c)) (p : Nat) (n : Node T) (hp : s.heap p = some n)
    (hd : s'.heap p = none) :
    (n.hasValue = true → s.find k = some (some p)) ∧
    ∀ i, i < RANGE → n.table i ≠ none →
      ∃ y yn, s.heap y = some yn ∧ s'.heap y = none ∧ yn.parent = some p ∧
        yn.gettableindex = i := by
  constructor
  · intro hv
    by_contra hne
    have := (erase_basic hb h).2.2.2.2.2 p hne
    rw [valueAt_of_live hp] at this
    simp only [valueAt, hd] at this
    rw [Node.hasValue] at hv
    rw [hv] at this
    cases this
  · rcases erase_cases h with ⟨_, hs', _⟩ | ⟨m, mn, h1, nn, _, hm, hl, hs', _⟩
    · subst hs'
      rw [hp] at hd
      cases hd
    · subst hs'
      have hd : h1 p = none := hd
      have hpr := eraseLoop_pruned _ (fuelOf k) _ s.numnodes m h1 nn
        (Pruned.refl (s.heap.write m { mn with bInUse := false })) hl
      have hsame : ∀ y yn, (s.heap.write m { mn with bInUse := false }) y = some yn →
          ∃ yn0, s.heap y = some yn0 ∧ yn.parent = yn0.parent ∧
            yn.gettableindex = yn0.gettableindex ∧ yn.table = yn0.table := by
        intro y yn hy
        by_cases hym : y = m
        · subst hym
          rw [Heap.write_same] at hy
          injection hy with hy
          subst hy
          exact ⟨mn, hm, rfl, rfl, rfl⟩
        · rw [Heap.write_other _ _ _ _ hym] at hy
          exact ⟨yn, hy, rfl, rfl, rfl⟩
      have hp0 : ∃ n0, (s.heap.write m { mn with bInUse := false }) p = some n0 ∧
          n0.table = n.table := by
        by_cases hpm : p = m
        · subst hpm
          rw [hm] at hp
          cases hp
          exact ⟨_, Heap.write_same _ _ _, rfl⟩
        · exact ⟨n, by rw [Heap.write_other _ _ _ _ hpm]; exact hp, rfl⟩
      obtain ⟨n0, hn0, ht⟩ := hp0
      intro i hi hne
      obtain ⟨y, yn, a1, a2, a3, a4⟩ := (hpr.2 p n0 hn0).1 hd i hi (by rw [ht]; exact hne)
      obtain ⟨yn0, b1, b2, b3, _⟩ := hsame y yn a1
      exact ⟨y, yn0, b1, a2, by rw [← b2]; exact a3, by rw [← b3]; exact a4⟩

/-! ## Claims about `begin()` and the partial descent, settled by evaluating the code -/

/-- C24, the code at the failing inputs: on a new trie `next(root)` returns `NULL` and
`begin()` dereferences it in `pNode->hasValue()`; and after `insert("a", 1)`,
`erase("a")`, when `size()` is 0 again, `begin()` calls `next` on the destroyed root.
With "a" stored, `begin()` is the handle of node 1, which holds "a". -/
theorem C24_begin_on_trie_without_keys :
    (Trie.new : Trie Int).size = 0 ∧
    (Trie.new : Trie Int).next (some (Trie.new : Trie Int).root) = some none ∧
    (Trie.new : Trie Int).begin = none ∧
    trieEmptied.map Trie.size = some 0 ∧
    (trieEmptied.map fun s => (s.heap s.root).isNone) = some true ∧
    (trieEmptied.bind fun s => s.begin) = none ∧
    (trieA.bind fun s => s.begin) = some (some 1) ∧
    (trieA.bind fun s => (s.heap 1).map fun n => (n.getkey, n.hasValue)) = some (kA, true) := by
  refine ⟨?_, ?_, ?_, ?_, ?_, ?_, ?_, ?_⟩ <;> decide

/-- C25, the code at the failing inputs: after `insert("a", 1)`, `erase("a")` the root
is destroyed and `root->_findpartial("a", 0)` reads the destroyed node; and after
`insert("testing", 1)`, `insert("test", 2)` the partial descent for "test\0x" returns
node 3, which is not the root: its full key is "test", its offset is 4, and the common
prefix of its full key and "test\0x" has length 4, not more. -/
theorem C25_descent_reads_destroyed_root :
    (trieEmptied.map fun s => (s.heap s.root).isNone) = some true ∧
    (trieEmptied.map fun s => _findpartial s.heap (fuelOf kA) s.root kA 0) = some none ∧
    (trieTestingTest.bind fun s => _findpartial s.heap (fuelOf kTest0X) s.root kTest0X 0)
      = some 3 ∧
    (trieTestingTest.map fun s => decide (s.root = 3)) = some false ∧
    (trieTestingTest.bind fun s => (s.heap 3).map fun n =>
        (n.getkey, n.posNodeKeyStart, substrlength n.getkey kTest0X)) = some (kTest, 4, 4) := by
  refine ⟨?_, ?_, ?_, ?_, ?_⟩ <;> decide

/-- Whenever `_find` returns a node, `_findpartial`, called with the same arguments,
returns the same node. -/
theorem findpartial_of_find (h : Heap T) (key : Key) :
    ∀ (fuel self pos n : Nat), _find h fuel self key pos = some (some n) →
      _findpartial h fuel self key pos = some n := by
  intro fuel
  induction fuel with
  | zero =>
    intro self pos n hf
    simp [ _find] at hf
  | succ fuel ih =>
    intro self pos n hf
    cases hs : h self with
    | none => simp [ _find, hs] at hf
    | some sn =>
      simp only [ _find, hs] at hf
      simp only [ _findpartial, hs]
      split at hf
      · rename_i hc
        rw [if_pos hc]
        simpa using hf
      · rename_i hc
        rw [if_neg hc]
        split at hf
        · cases hf
        · rename_i hc2
          rw [if_neg hc2]
          split at hf
          · cases hf
          · cases hf
          · exact ih _ _ n hf

/-! ## The table reads of the two searches -/

/-- In a heap of the shape the partial descent for a 7-bit key returns a node, given
fuel for two nodes for each byte of the key that the node it starts at has not
matched. -/
theorem findpartial_defined {h : Heap T} {root : Nat} (hs : Shape h root) (key : Key)
    (hk : ∀ c ∈ key, c < 128) :
    ∀ (f : Nat) (p : Nat) (n : Node T), h p = some n →
      n.nodeKey.take n.posNodeKeyStart = key.take n.posNodeKeyStart →
      n.posNodeKeyStart ≤ key.length →
      2 * (key.length - n.nodeKey.length)
        + (if n.posNodeKeyStart < n.nodeKey.length then 1 else 0) + 1 ≤ f →
      ∃ a, _findpartial h f p key n.posNodeKeyStart = some a := by
  intro f
  induction f with
  | zero =>
    intro p n _ _ _ hf
    omega
  | succ f ih =>
    intro p n hp hpath hks hf
    have hksn := hs.offset_le hp
    have hM := matchlen_of_take_eq n.nodeKey key n.posNodeKeyStart hksn hks hpath
    have hMl := matchlen_le_left n.nodeKey key
    have hMr := matchlen_le_right n.nodeKey key
    simp only [ _findpartial, hp, ← hM]
    by_cases c1 : matchlen n.nodeKey key = key.length ∧ matchlen n.nodeKey key = n.nodeKey.length
    · rw [if_pos c1]
      exact ⟨p, rfl⟩
    · rw [if_neg c1]
      by_cases c2 : matchlen n.nodeKey key < n.nodeKey.length
      · rw [if_pos c2]
        exact ⟨p, rfl⟩
      · rw [if_neg c2]
        have hMeq : matchlen n.nodeKey key = n.nodeKey.length := by omega
        have hlt : n.nodeKey.length < key.length := by omega
        have hbyte : key.getD n.nodeKey.length 0 < 128 := hk _ (getD_mem_or _ _ hlt)
        rw [hMeq]
        have htab : n.tableAt (key.getD n.nodeKey.length 0)
            = some (n.table (key.getD n.nodeKey.length 0)) := by
          simp only [Node.tableAt, RANGE]
          rw [if_pos hbyte]
        rw [htab]
        cases hc : n.table (key.getD n.nodeKey.length 0) with
        | none => exact ⟨p, rfl⟩
        | some c =>
          obtain ⟨hcr, cn, hcn, hcp, hci⟩ := hs.slot p n _ c hp hc
          obtain ⟨hck, hclen⟩ := hs.parent_key hcn hcp hp
          have hcle := hs.offset_le hcn
          have hnpre : n.nodeKey <+: key := prefix_of_matchlen_eq _ _ hMeq
          have hcpath : cn.nodeKey.take cn.posNodeKeyStart
              = key.take cn.posNodeKeyStart := by
            rw [← hck, hclen]
            exact List.prefix_iff_eq_take.mp hnpre
          have hfuel : 2 * (key.length - cn.nodeKey.length)
              + (if cn.posNodeKeyStart < cn.nodeKey.length then 1 else 0) + 1 ≤ f := by
            by_cases hg : cn.posNodeKeyStart < cn.nodeKey.length
            · rw [if_pos hg]
              split at hf <;> omega
            · rw [if_neg hg]
              obtain ⟨_, q, qn, hq, hqn, _, hql⟩ := hs.ghost c cn hcn hcr (by omega)
              rw [hcp] at hq
              injection hq with hq
              subst hq
              rw [hp] at hqn
              injection hqn with hqn
              subst hqn
              rw [if_pos hql] at hf
              omega
          obtain ⟨a, ha⟩ := ih c cn hcn hcpath (by omega) hfuel
          rw [← hclen]
          exact ⟨a, ha⟩

/-- Whenever `_findpartial` returns, `_find`, called with the same arguments, returns
too. -/
theorem find_of_findpartial (h : Heap T) (key : Key) :
    ∀ (fuel self pos a : Nat), _findpartial h fuel self key pos = some a →
      ∃ r, _find h fuel self key pos = some r := by
  intro fuel
  induction fuel with
  | zero =>
    intro self pos a hf
    simp [ _findpartial] at hf
  | succ fuel ih =>
    intro self pos a hf
    cases hs : h self with
    | none => simp [ _findpartial, hs] at hf
    | some sn =>
      simp only [ _findpartial, hs] at hf
      simp only [ _find, hs]
      split at hf
      · rename_i hc
        rw [if_pos hc]
        exact ⟨_, rfl⟩
      · rename_i hc
        rw [if_neg hc]
        split at hf
        · rename_i hc2
          rw [if_pos hc2]
          exact ⟨_, rfl⟩
        · rename_i hc2
          rw [if_neg hc2]
          split at hf
          · cases hf
          · exact ⟨_, rfl⟩
          · exact ih _ _ a hf

/-- The restart index of `next` and the index at which a scan ends are at most
`RANGE`. -/
theorem scanTable_range (table : Nat → Option Nat) (j : Nat) (hj : j ≤ RANGE) :
    scanTable table (RANGE - j) j ≤ RANGE := by
  have := scanTable_le table (RANGE - j) j
  omega

/-! ## Marking a node that the root leads to -/

/-- An anchor below the node at which the partial descent starts was reached through
the slot of its index: the key's byte at the anchor's offset is the anchor's
index. -/
theorem findpartial_slot {h : Heap T} {root : Nat} (hs : Shape h root) (key : Key) :
    ∀ (f : Nat) (p : Nat) (n : Node T), h p = some n →
      n.nodeKey.take n.posNodeKeyStart = key.take n.posNodeKeyStart →
      n.posNodeKeyStart ≤ key.length →
      ∀ a an, _findpartial h f p key n.posNodeKeyStart = some a → h a = some an → a ≠ p →
        key.getD an.posNodeKeyStart 0 = an.gettableindex := by
  intro f
  induction f with
  | zero =>
    intro p n _ _ _ a an hf
    simp [ _findpartial] at hf
  | succ f ih =>
    intro p n hp hpath hks a an hf han hap
    have hksn := hs.offset_le hp
    have hM := matchlen_of_take_eq n.nodeKey key n.posNodeKeyStart hksn hks hpath
    have hMl := matchlen_le_left n.nodeKey key
    have hMr := matchlen_le_right n.nodeKey key
    simp only [ _findpartial, hp, ← hM] at hf
    by_cases c1 : matchlen n.nodeKey key = key.length ∧ matchlen n.nodeKey key = n.nodeKey.length
    · rw [if_pos c1] at hf
      injection hf with hf
      exact absurd hf.symm hap
    · rw [if_neg c1] at hf
      by_cases c2 : matchlen n.nodeKey key < n.nodeKey.length
      · rw [if_pos c2] at hf
        injection hf with hf
        exact absurd hf.symm hap
      · rw [if_neg c2] at hf
        have hMeq : matchlen n.nodeKey key = n.nodeKey.length := by omega
        have hlt : n.nodeKey.length < key.length := by omega
        rw [hMeq] at hf
        by_cases hbyte : key.getD n.nodeKey.length 0 < 128
        · have htab : n.tableAt (key.getD n.nodeKey.length 0)
              = some (n.table (key.getD n.nodeKey.length 0)) := by
            simp only [Node.tableAt, RANGE]
            rw [if_pos hbyte]
          rw [htab] at hf
          cases hc : n.table (key.getD n.nodeKey.length 0) with
          | none =>
            rw [hc] at hf
            injection hf with hf
            exact absurd hf.symm hap
          | some c =>
            rw [hc] at hf
            obtain ⟨hcr, cn, hcn, hcp, hci⟩ := hs.slot p n _ c hp hc
            obtain ⟨hck, hclen⟩ := hs.parent_key hcn hcp hp
            have hnpre : n.nodeKey <+: key := prefix_of_matchlen_eq _ _ hMeq
            have hcpath : cn.nodeKey.take cn.posNodeKeyStart
                = key.take cn.posNodeKeyStart := by
              rw [← hck, hclen]
              exact List.prefix_iff_eq_take.mp hnpre
            rw [← hclen] at hf
            by_cases hac : a = c
            · subst hac
              rw [hcn] at han
              injection han with han
              subst han
              rw [hci, hclen]
            · exact ih c cn hcn hcpath (by omega) a an hf han hac
        · have htab : n.tableAt (key.getD n.nodeKey.length 0) = none := by
            simp only [Node.tableAt, RANGE]
            rw [if_neg hbyte]
          rw [htab] at hf
          cases hf

theorem ghost_index (n : Node T) (hg : n.posNodeKeyStart = n.nodeKey.length) :
    n.gettableindex = 0 := by
  unfold Node.gettableindex
  rw [List.getD_eq_default _ _ (by omega)]
  rfl

/-- Every `insert` of a 7-bit key that returns keeps the tables of the nodes with an
empty segment within slot 0. -/
theorem insert_ghostSlot [Inhabited T] {s s' : Trie T} {key : Key} {v : T}
    {it : Option Nat} {b : Bool} (hb : Basic s) (hs : Shape s.heap s.root)
    (hg : GhostSlot s.heap s.root) (hk : ∀ c ∈ key, c < 128)
    (h : s.insert key v = some (s', it, b)) : GhostSlot s'.heap s'.root := by
  obtain ⟨a, an, hf, ha, hcase⟩ := insert_cases hb.alloc h
  have hfr : s.heap s.fresh = none := hb.alloc.dead _ (Nat.le_refl _)
  have hfr1 : s.heap (s.fresh + 1) = none := hb.alloc.dead _ (by omega)
  obtain ⟨r, hr, r1, r2, r3⟩ := hs.root_live
  have hf0 : _findpartial s.heap (fuelOf key) s.root key r.posNodeKeyStart = some a := by
    rw [r2]
    exact hf
  obtain ⟨an', ha', p1, p2, p3, p4⟩ := findpartial_shape hs key (fuelOf key) s.root r hr
    (by rw [r2]; rfl) (by rw [r2]; omega) a hf0
  rw [ha] at ha'
  cases ha'
  have hslot := findpartial_slot hs key (fuelOf key) s.root r hr (by rw [r2]; rfl)
    (by rw [r2]; omega) a an hf0 ha
  rcases hcase with ⟨_, _, _, hs'⟩ | ⟨_, _, _, hs'⟩ | ⟨hne, hm, _, hs'⟩ |
    ⟨hne, hm, _, q, qn, hq, hqn, hs'⟩
  · subst hs'
    exact hg
  · subst hs'
    intro p n i c hp hpr hgh hic
    have hp : (s.heap.write a (an.setvalue v)) p = some n := hp
    simp only [Heap.write] at hp
    split at hp
    · rename_i hpa
      injection hp with hp
      subst hp
      subst hpa
      exact hg p an i c ha hpr hgh hic
    · exact hg p n i c hp hpr hgh hic
  · subst hs'
    have hpre := prefix_of_matchlen_eq _ _ hm
    have hlt : an.nodeKey.length < key.length := by
      have h1 := hpre.length_le
      rcases Nat.lt_or_ge an.nodeKey.length key.length with h2 | h2
      · exact h2
      · exact absurd (List.IsPrefix.eq_of_length hpre (by omega)) hne
    have hidx : (leafNode key an.nodeKey.length a v).gettableindex
        = key.getD an.nodeKey.length 0 := by
      unfold Node.gettableindex
      exact and_mask _ (hk _ (getD_mem_or _ _ hlt))
    intro p n i c hp hpr hgh hic
    have hp : ((s.heap.write s.fresh _).write a _) p = some n := hp
    rw [graftHeap_apply] at hp
    split at hp
    · rename_i hpa
      injection hp with hp
      subst hp
      subst hpa
      have hgh : an.posNodeKeyStart = an.nodeKey.length := hgh
      simp only [Node.setTable] at hic
      split at hic
      · rename_i hi
        rw [hi, hidx, ← hgh, hslot hpr]
        exact ghost_index an hgh
      · exact hg p an i c ha hpr hgh hic
    · split at hp
      · injection hp with hp
        subst hp
        simp [leafNode, Node.new] at hic
      · exact hg p n i c hp hpr hgh hic
  · subst hs'
    have har : a ≠ s.root := hs.ne_root ha hq
    obtain ⟨_, q1, q2, q', qn', q3, q4, q5⟩ := p4 har
    rw [hq] at q3
    injection q3 with q3
    subst q3
    rw [hqn] at q4
    injection q4 with q4
    subst q4
    have hMl := matchlen_le_left an.nodeKey key
    have hks := hs.offset_le ha
    have hM := matchlen_of_take_eq an.nodeKey key an.posNodeKeyStart hks p2 p1
    have hlt : an.posNodeKeyStart < an.nodeKey.length := by omega
    have h1 := matchlen_drop_pos hlt q1 (q2 hlt).symm
    have hksp : an.posNodeKeyStart < matchlen an.nodeKey key := by omega
    intro p n i c hp hpr hgh hic
    have hp : splitHeap s.heap s.fresh a q an qn key v p = some n := hp
    rw [splitHeap_apply] at hp
    split at hp
    · injection hp with hp
      subst hp
      have hgh : an.posNodeKeyStart = (an.nodeKey.take (matchlen an.nodeKey key)).length := hgh
      rw [List.length_take] at hgh
      omega
    · split at hp
      · injection hp with hp
        subst hp
        simp [leafNode, Node.new] at hic
      · split at hp
        · injection hp with hp
          subst hp
          have hgh : matchlen an.nodeKey key = an.nodeKey.length := hgh
          exact absurd hgh hm
        · split at hp
          · rename_i hpq
            injection hp with hp
            subst hp
            subst hpq
            have hgh : qn.posNodeKeyStart = qn.nodeKey.length := hgh
            simp only [Node.setTable] at hic
            split at hic
            · rename_i hi
              rw [hi, splitNode_index an hksp]
              exact hg p qn _ a hqn hpr hgh q5
            · exact hg p qn i c hqn hpr hgh hic
          · exact hg p n i c hp hpr hgh hic

/-- The loop of `erase` keeps the tables of the nodes with an empty segment within
slot 0. -/
theorem eraseLoop_ghostSlot (root : Nat) :
    ∀ (fuel : Nat) (h : Heap T) (nn : Int) (x : Nat) (h' : Heap T) (nn' : Int),
      GhostSlot h root → eraseLoop fuel h nn (some x) = some (h', nn') →
      GhostSlot h' root := by
  apply eraseLoop_induct (fun h _ => GhostSlot h root) (fun h' => GhostSlot h' root)
  · intro h x xn hg _ _
    exact hg
  · intro h x xn hg _ _ _ _ p n i c hp hpr hgh hic
    simp only [Heap.free] at hp
    split at hp
    · cases hp
    · exact hg p n i c hp hpr hgh hic
  · intro h x xn par pn hg _ _ _ _ hpn p n i c hp hpr hgh hic
    simp only [Heap.free] at hp
    split at hp
    · cases hp
    · simp only [Heap.write] at hp
      split at hp
      · rename_i hpp
        injection hp with hp
        subst hp
        subst hpp
        simp only [Node.setTable] at hic
        split at hic
        · cases hic
        · exact hg p pn i c hpn hpr hgh hic
      · exact hg p n i c hp hpr hgh hic

/-- Every `erase` that returns keeps the tables of the nodes with an empty segment
within slot 0. -/
theorem erase_ghostSlot {s s' : Trie T} {k : Key} {c : Nat} (hg : GhostSlot s.heap s.root)
    (h : s.erase k = some (s', c)) : GhostSlot s'.heap s'.root := by
  rcases erase_cases h with ⟨_, hs', _⟩ | ⟨m, mn, h1, nn, _, hm, hl, hs', _⟩
  · subst hs'
    exact hg
  · subst hs'
    apply eraseLoop_ghostSlot s.root (fuelOf k) _ s.numnodes m h1 nn ?_ hl
    intro p n i c hp hpr hgh hic
    simp only [Heap.write] at hp
    split at hp
    · rename_i hpm
      injection hp with hp
      subst hp
      subst hpm
      exact hg p mn i c hm hpr hgh hic
    · exact hg p n i c hp hpr hgh hic

/-- A sequence of calls with 7-bit keys that returns leaves no live node, or a heap
of the shape in which the tables of the nodes with an empty segment are within
slot 0. -/
theorem run_ghostSlot [Inhabited T] :
    ∀ (ops : List (Op T)) (s s' : Trie T) (i e : Nat), Basic s → Shape s.heap s.root →
      GhostSlot s.heap s.root →
      (∀ op ∈ ops, ∀ c ∈ op.key, c < 128) → run s ops = some (s', i, e) →
      (Shape s'.heap s'.root ∧ GhostSlot s'.heap s'.root) ∨ ∀ p, s'.heap p = none := by
  intro ops
  induction ops with
  | nil =>
    intro s s' i e _ hs hg _ h
    simp only [run, Option.some.injEq, Prod.mk.injEq] at h
    obtain ⟨h1, _, _⟩ := h
    subst h1
    exact Or.inl ⟨hs, hg⟩
  | cons op rest ih =>
    intro s s' i e hb hs hg hk h
    cases hst : s.step op with
    | none => simp [run, hst] at h
    | some r1 =>
      obtain ⟨s1, i1, e1⟩ := r1
      cases hr : run s1 rest with
      | none => simp [run, hst, hr] at h
      | some r2 =>
        obtain ⟨s2, ni, ne⟩ := r2
        simp only [run, hst, hr, Option.some.injEq, Prod.mk.injEq] at h
        obtain ⟨h1, _, _⟩ := h
        subst h1
        have hb1 := (step_basic hb hst).1
        have hk1 := hk op (List.mem_cons_self _ _)
        have hg1 : GhostSlot s1.heap s1.root := by
          cases op with
          | insert k v =>
            simp only [Trie.step, Option.map_eq_some', Prod.mk.injEq] at hst
            obtain ⟨⟨s0, it, b⟩, hins, h1, _, _⟩ := hst
            subst h1
            exact insert_ghostSlot hb hs hg hk1 hins
          | erase k =>
            simp only [Trie.step, Option.map_eq_some', Prod.mk.injEq] at hst
            obtain ⟨⟨s0, c⟩, hers, h1, _, _⟩ := hst
            subst h1
            exact erase_ghostSlot hg hers
          | index k =>
            simp only [Trie.step, Option.map_eq_some', Prod.mk.injEq] at hst
            obtain ⟨⟨s0, j⟩, hidx, h1, _, _⟩ := hst
            subst h1
            rcases index_cases hidx with hs' | ⟨it, b, hins⟩
            · subst hs'
              exact hg
            · exact insert_ghostSlot hb hs hg hk1 hins
        rcases step_shape hb hs hk1 hst with hs1 | hd
        · exact ih s1 s2 ni ne hb1 hs1 hg1 (fun o ho => hk o (List.mem_cons_of_mem _ ho)) hr
        · cases rest with
          | nil =>
            simp only [run, Option.some.injEq, Prod.mk.injEq] at hr
            obtain ⟨h1, _, _⟩ := hr
            subst h1
            exact Or.inr hd
          | cons op2 rest2 =>
            simp [run, step_dead (hd s1.root) op2] at hr

theorem ghostSlot_new [Inhabited T] :
    GhostSlot (Trie.new : Trie T).heap (Trie.new : Trie T).root := by
  intro p n i c hp hpr
  simp only [Trie.new, Heap.write] at hp hpr
  rw [if_neg hpr] at hp
  cases hp

theorem getD_within {a key : Key} (h : a <+: key) {i : Nat} (hi : i < a.length) :
    key.getD i 0 = a.getD i 0 :=
  (getD_of_take_succ (prefix_take_eq h (show i + 1 ≤ a.length by omega))).symm

/-- A node with a non-empty segment to which table slots lead from the node at `p` is
what `_find` returns for its key, started at `p`, given fuel for two nodes for each
byte of the key that `p` has not matched. -/
theorem find_path {h : Heap T} {root : Nat} (hs : Shape h root) (hg : GhostSlot h root)
    (x : Nat) (xn : Node T) (hx : h x = some xn)
    (hxg : xn.posNodeKeyStart < xn.nodeKey.length) :
    ∀ (l : List Nat) (p : Nat) (pn : Node T) (f : Nat), h p = some pn → IsPath h p l x →
      2 * (xn.nodeKey.length - pn.nodeKey.length)
        + (if pn.posNodeKeyStart < pn.nodeKey.length then 1 else 0) + 1 ≤ f →
      _find h f p xn.nodeKey pn.posNodeKeyStart = some (some x) := by
  intro l
  induction l with
  | nil =>
    intro p pn f hp hpath hf
    simp only [IsPath] at hpath
    subst hpath
    rw [hx] at hp
    injection hp with hp
    subst hp
    cases f with
    | zero => omega
    | succ f =>
      have hseg := matchlen_segment (Nat.le_of_lt hxg) (List.prefix_refl xn.nodeKey)
      simp only [ _find, hx]
      rw [Nat.add_comm] at hseg
      have h1 : xn.posNodeKeyStart + matchlen (List.drop xn.posNodeKeyStart xn.nodeKey)
          (List.drop xn.posNodeKeyStart xn.nodeKey) = xn.nodeKey.length := by omega
      rw [if_pos ⟨h1, h1⟩]
  | cons c rest ih =>
    intro p pn f hp hpath hf
    obtain ⟨⟨pn', i, hp', hi, hic⟩, hrest⟩ := hpath
    rw [hp] at hp'
    injection hp' with hp'
    subst hp'
    obtain ⟨hcr, cn, hcn, hcp, hci⟩ := hs.slot p pn i c hp hic
    obtain ⟨hck, hclen⟩ := hs.parent_key hcn hcp hp
    have hcle := hs.offset_le hcn
    have hple := hs.offset_le hp
    have hcseg := path_segments hs x xn hx rest c cn hcn hrest
    have hcpre : cn.nodeKey <+: xn.nodeKey := ⟨_, hcseg⟩
    have hppre : pn.nodeKey <+: xn.nodeKey := by
      rw [hck]
      exact (List.take_prefix _ _).trans hcpre
    have hclen2 := hcpre.length_le
    -- the key goes on beyond the key of `p`, and its next byte is the slot of `c`
    have hnext : pn.nodeKey.length < xn.nodeKey.length ∧
        xn.nodeKey.getD pn.nodeKey.length 0 = i := by
      by_cases hcg : cn.posNodeKeyStart < cn.nodeKey.length
      · refine ⟨by omega, ?_⟩
        rw [← hclen, getD_within hcpre hcg, ← hci, hs.index_first hcn hcr]
        rfl
      · have hcg2 : cn.posNodeKeyStart = cn.nodeKey.length := by omega
        cases rest with
        | nil =>
          simp only [IsPath] at hrest
          subst hrest
          rw [hx] at hcn
          injection hcn with hcn
          subst hcn
          omega
        | cons d rest2 =>
          obtain ⟨⟨cn', j, hc', hj, hjd⟩, hrest2⟩ := hrest
          rw [hcn] at hc'
          injection hc' with hc'
          subst hc'
          obtain ⟨hdr, dn, hdn, hdp, hdi⟩ := hs.slot c cn j d hcn hjd
          obtain ⟨hdk, hdlen⟩ := hs.parent_key hdn hdp hcn
          have hdle := hs.offset_le hdn
          have hdg : dn.posNodeKeyStart < dn.nodeKey.length := by
            by_contra hne
            obtain ⟨_, q, qn, hq, hqn, _, hql⟩ := hs.ghost d dn hdn hdr (by omega)
            rw [hdp] at hq
            injection hq with hq
            subst hq
            rw [hcn] at hqn
            injection hqn with hqn
            subst hqn
            omega
          have hdseg := path_segments hs x xn hx rest2 d dn hdn hrest2
          have hdpre : dn.nodeKey <+: xn.nodeKey := ⟨_, hdseg⟩
          have hdlen2 := hdpre.length_le
          have hj0 : j = 0 := hg c cn j d hcn hcr hcg2 hjd
          refine ⟨by omega, ?_⟩
          have e1 : pn.nodeKey.length = dn.posNodeKeyStart := by omega
          rw [e1, getD_within hdpre hdg, ← hci, ghost_index cn hcg2]
          have := hs.index_first hdn hdr
          rw [hdi, hj0] at this
          exact this.symm
    obtain ⟨hlt, hbyte⟩ := hnext
    cases f with
    | zero => omega
    | succ f =>
      have hseg := matchlen_segment hple hppre
      simp only [ _find, hp]
      have h1 : pn.posNodeKeyStart + matchlen (List.drop pn.posNodeKeyStart pn.nodeKey)
          (List.drop pn.posNodeKeyStart xn.nodeKey) = pn.nodeKey.length := hseg
      rw [h1]
      rw [if_neg (by omega), if_neg (by omega), hbyte]
      have htab : pn.tableAt i = some (pn.table i) := by
        simp only [Node.tableAt]
        rw [if_pos hi]
      rw [htab, hic]
      have hfuel : 2 * (xn.nodeKey.length - cn.nodeKey.length)
          + (if cn.posNodeKeyStart < cn.nodeKey.length then 1 else 0) + 1 ≤ f := by
        by_cases hcg : cn.posNodeKeyStart < cn.nodeKey.length
        · rw [if_pos hcg]
          split at hf <;> omega
        · rw [if_neg hcg]
          obtain ⟨_, q, qn, hq, hqn, _, hql⟩ := hs.ghost c cn hcn hcr (by omega)
          rw [hcp] at hq
          injection hq with hq
          subst hq
          rw [hp] at hqn
          injection hqn with hqn
          subst hqn
          rw [if_pos hql] at hf
          omega
      have := ih c cn f hcn hrest hfuel
      rw [hclen] at this
      exact this

/-- What `_find` returns does not depend on the values and the flags of the nodes. -/
theorem find_reflag {h : Heap T} {a : Nat} {an an2 : Node T} (ha : h a = some an)
    (h2 : an2.table = an.table) (h3 : an2.nodeKey = an.nodeKey)
    (h4 : an2.posNodeKeyStart = an.posNodeKeyStart) (key : Key) :
    ∀ (fuel self pos : Nat),
      _find (h.write a an2) fuel self key pos = _find h fuel self key pos := by
  intro fuel
  induction fuel with
  | zero =>
    intro self pos
    rfl
  | succ fuel ih =>
    intro self pos
    by_cases hsa : self = a
    · subst hsa
      simp only [ _find, Heap.write_same, ha, h3, h4, Node.tableAt, h2, ih]
    · simp only [ _find, Heap.write_other _ _ _ _ hsa, ih]

/-- C21, the claim as stated fails.  With a byte above 127: after `insert("a\x80b", 1)`,
`insert("a\x80c", 2)`, `insert("a\x81", 3)` node 2 is a valueless node with full key
"a\x80", parent 4 and two children, and `insert("a\x80", 9)` reads slot 128 of the
table of node 4.  And by the leaf with an empty segment: after `insert("ab\0c", 1)`,
`insert("ab\0d", 2)`, `insert("ab", 3)` node 2 is a valueless node with full key
"ab\0" and two children, which is in no slot any more; `insert("ab\0", 9)` creates
node 6 (`getnumnodes()` goes from 5 to 6), node 2 stays without a value, and
`find("ab\0")` returns node 6. -/
theorem C21_branch_node_not_marked :
    (trieHigh.bind fun s => (s.heap 2).map fun n =>
        (n.getkey, n.hasValue, n.parent, n.table 98, n.table 99))
      = some ([97, 128], false, some 4, some 1, some 3) ∧
    (trieHigh.map fun s => (s.insert [97, 128] 9).isNone) = some true ∧
    (trieHigh.bind fun s => (s.heap 4).map fun n => (n.tableAt 128).isNone) = some true ∧
    (trieDetached.bind fun s => (s.heap 2).map fun n =>
        (n.getkey, n.hasValue, n.parent, n.table 99, n.table 100))
      = some ([97, 98, 0], false, some 4, some 1, some 3) ∧
    (trieDetached.bind fun s => (s.heap 4).map fun n => n.table 0) = some (some 5) ∧
    trieDetached.map Trie.getnumnodes = some 5 ∧
    (trieDetached.bind fun s => (s.insert [97, 98, 0] 9).map fun r =>
        (r.2.2, r.1.getnumnodes, (r.1.heap 2).map Node.hasValue, r.1.find [97, 98, 0]))
      = some (true, 6, some false, some (some 6)) := by
  refine ⟨?_, ?_, ?_, ?_, ?_, ?_, ?_⟩ <;> decide

/-- C21, amended: in every state reached from a new trie by calls of `insert`,
`erase` and `operator[]` with keys whose bytes are in 0..127, for every valueless
node `x` other than the root to which table slots lead from the root, with full key
`k`: `insert(k, v)` returns `inserted = true` with the handle of `x`, creates no
node (`getnumnodes()` is unchanged), gives `x` the value `v` and `hasValue() == true`,
increases `size()` by 1, and afterwards `find(k)` returns `x`. -/
theorem C21_insert_marks_branch_node [Inhabited T] (ops : List (Op T)) (s : Trie T)
    (i e : Nat) (x : Nat) (xn : Node T) (l : List Nat) (v : T)
    (hb : ∀ op ∈ ops, ∀ c ∈ op.key, c < 128) (h : run Trie.new ops = some (s, i, e))
    (hx : s.heap x = some xn) (hxr : x ≠ s.root) (hv : xn.hasValue = false)
    (hpath : IsPath s.heap s.root l x) :
    ∃ s', s.insert xn.getkey v = some (s', some x, true) ∧
      s'.getnumnodes = s.getnumnodes ∧ s'.size = s.size + 1 ∧
      (s'.heap x).map (fun n => (n.getvalue, n.hasValue)) = some (v, true) ∧
      s'.find xn.getkey = some (some x) := by
  have hv : xn.bInUse = false := hv
  rcases run_ghostSlot ops Trie.new s i e basic_new.1 shape_new ghostSlot_new hb h with
    ⟨hs, hg⟩ | hd
  · obtain ⟨r, hr, r1, r2, _⟩ := hs.root_live
    have hxle := hs.offset_le hx
    have hxg : xn.posNodeKeyStart < xn.nodeKey.length := by
      by_contra hne
      have := (hs.ghost x xn hx hxr (by omega)).1
      rw [hv] at this
      cases this
    have hfind := find_path hs hg x xn hx hxg l s.root r (fuelOf xn.nodeKey) hr hpath
      (by rw [r1, r2]; simp [fuelOf])
    rw [r2] at hfind
    have hfp := findpartial_of_find _ _ _ _ _ _ hfind
    refine ⟨_, insert_mark_eq v hfp hx rfl hv, rfl, rfl, ?_, ?_⟩
    · show ((s.heap.write x (xn.setvalue v)) x).map _ = _
      rw [Heap.write_same]
      rfl
    · have hf2 : _find (s.heap.write x (xn.setvalue v)) (fuelOf xn.nodeKey) s.root
          xn.nodeKey 0 = some (some x) := by
        rw [@find_reflag T s.heap x xn (xn.setvalue v) hx rfl rfl rfl]
        exact hfind
      show Trie.find { s with nsize := s.nsize + 1, heap := s.heap.write x (xn.setvalue v) }
        xn.nodeKey = _
      simp only [Trie.find, hf2, Heap.write_same]
      rfl
  · rw [hd x] at hx
    cases hx

/-- C21, amended, at the input of the claim: after `insert("test", 1)`,
`insert("te__ing", 2)` node 2 is the valueless split node with full key "te", in slot
't' of the root, and `insert("te", 9)` marks it. -/
theorem C21_insert_marks_witness :
    ∃ x xn, (∀ op ∈ opsTestTe, ∀ c ∈ op.key, c < 128) ∧ run Trie.new opsTestTe = some x ∧
      x.1.heap 2 = some xn ∧ xn.getkey = kTe ∧ xn.hasValue = false ∧
      IsPath x.1.heap x.1.root [2] 2 ∧
      ∃ s', x.1.insert xn.getkey 9 = some (s', some 2, true) ∧
        s'.getnumnodes = x.1.getnumnodes ∧ s'.size = x.1.size + 1 ∧
        (s'.heap 2).map (fun n => (n.getvalue, n.hasValue)) = some (9, true) ∧
        s'.find xn.getkey = some (some 2) :=
  ⟨(run Trie.new opsTestTe).get (by decide),
    (((run Trie.new opsTestTe).get (by decide)).1.heap 2).get (by decide),
    by decide, (Option.some_get _).symm, (Option.some_get _).symm, by decide, by decide,
    ⟨⟨(((run Trie.new opsTestTe).get (by decide)).1.heap 0).get (by decide), 116,
      (Option.some_get _).symm, by decide, by decide⟩, rfl⟩,
    C21_insert_marks_branch_node opsTestTe _ _ _ 2 _ [2] 9 (by decide)
      (Option.some_get (by decide)).symm (Option.some_get (by decide)).symm (by decide)
      (by decide)
      ⟨⟨(((run Trie.new opsTestTe).get (by decide)).1.heap 0).get (by decide), 116,
        (Option.some_get _).symm, by decide, by decide⟩, rfl⟩⟩

/-! ## The order of the walk of `next` -/

theorem count_lt (f g : Nat → Bool) (p : Nat) (hfg : ∀ q, f q = true → g q = true)
    (hf : f p = false) (hg : g p = true) :
    ∀ N, ((List.range N).filter f).length ≤ ((List.range N).filter g).length ∧
      (p < N → ((List.range N).filter f).length < ((List.range N).filter g).length) := by
  intro N
  induction N with
  | zero => simp
  | succ N ih =>
    rw [count_succ, count_succ]
    by_cases hN : p = N
    · subst hN
      rw [hf, hg]
      simp only [if_true, Bool.false_eq_true, if_false]
      omega
    · have h1 : (if f N then 1 else 0) ≤ (if g N then 1 else 0) := by
        cases hfN : f N with
        | true => simp [hfg N hfN]
        | false => simp
      constructor
      · omega
      · intro hp
        have := ih.2 (by omega)
        omega

theorem countLive_lt {h : Heap T} {N : Nat} (P Q : Node T → Bool) {x : Nat} {xn : Node T}
    (hx : h x = some xn) (hxN : x < N) (hPQ : ∀ m, P m = true → Q m = true)
    (hP : P xn = false) (hQ : Q xn = true) : countLive h N P < countLive h N Q := by
  unfold countLive
  apply (count_lt _ _ x ?_ ?_ ?_ N).2 hxN
  · intro q hq
    cases hq2 : h q with
    | none => simp [hq2] at hq
    | some m =>
      simp only [hq2] at hq ⊢
      exact hPQ m hq
  · simp only [hx]
    exact hP
  · simp only [hx]
    exact hQ

theorem countLive_le (h : Heap T) (N : Nat) (P : Node T → Bool) : countLive h N P ≤ N := by
  unfold countLive
  have := List.length_filter_le (fun q =>
    match h q with
    | some m => P m
    | none => false) (List.range N)
  rw [List.length_range] at this
  exact this

theorem lex_of_extends {a b : Key} (h : a <+: b) (hne : a ≠ b) :
    List.Lex (fun x y : Nat => x < y) a b := by
  obtain ⟨t, rfl⟩ := h
  induction a with
  | nil =>
    cases t with
    | nil => exact absurd rfl hne
    | cons y t => exact List.Lex.nil
  | cons x a ih =>
    apply List.Lex.cons
    apply ih
    intro he
    apply hne
    simp only [List.cons_append]
    rw [← he]

theorem lex_of_byte {p a b : Key} (ha : p <+: a) (hb : p <+: b)
    (hlt : a.getD p.length 0 < b.getD p.length 0) :
    List.Lex (fun x y : Nat => x < y) a b := by
  obtain ⟨a2, rfl⟩ := ha
  obtain ⟨b2, rfl⟩ := hb
  induction p with
  | nil =>
    simp only [List.nil_append, List.length_nil] at hlt ⊢
    cases b2 with
    | nil => simp at hlt
    | cons y b2 =>
      cases a2 with
      | nil => exact List.Lex.nil
      | cons x a2 =>
        apply List.Lex.rel
        simpa using hlt
  | cons x p ih =>
    apply List.Lex.cons
    apply ih
    simpa using hlt

theorem lex_trans : ∀ {a b c : Key}, List.Lex (fun x y : Nat => x < y) a b →
    List.Lex (fun x y : Nat => x < y) b c → List.Lex (fun x y : Nat => x < y) a c := by
  intro a
  induction a with
  | nil =>
    intro b c h1 h2
    cases h1
    cases h2
    · exact List.Lex.nil
    · exact List.Lex.nil
  | cons x a ih =>
    intro b c h1 h2
    cases h1 with
    | cons h1 =>
      cases h2 with
      | cons h2 => exact List.Lex.cons (ih h1 h2)
      | rel h2 => exact List.Lex.rel h2
    | rel h1 =>
      cases h2 with
      | cons h2 => exact List.Lex.rel h1
      | rel h2 => exact List.Lex.rel (Nat.lt_trans h1 h2)

theorem lex_irrefl : ∀ (a : Key), ¬ List.Lex (fun x y : Nat => x < y) a a := by
  intro a
  induction a with
  | nil =>
    intro h
    cases h
  | cons x a ih =>
    intro h
    cases h with
    | cons h => exact ih h
    | rel h => exact Nat.lt_irrefl _ h

theorem before_trans {a b c : Node T} (h1 : a.before b) (h2 : b.before c) : a.before c := by
  unfold Node.before at *
  rcases h1 with h1 | ⟨h1, h1o⟩
  · rcases h2 with h2 | ⟨h2, _⟩
    · exact Or.inl (lex_trans h1 h2)
    · rw [← h2]
      exact Or.inl h1
  · rcases h2 with h2 | ⟨h2, h2o⟩
    · rw [h1]
      exact Or.inl h2
    · exact Or.inr ⟨h1.trans h2, by omega⟩

theorem before_irrefl (a : Node T) : ¬ a.before a := by
  unfold Node.before
  rintro (h | ⟨_, h⟩)
  · exact lex_irrefl _ h
  · omega

theorem scanTable_found (table : Nat → Option Nat) :
    ∀ (k i : Nat), scanTable table k i < i + k →
      i ≤ scanTable table k i ∧ ∃ c, table (scanTable table k i) = some c := by
  intro k
  induction k with
  | zero =>
    intro i h
    simp [scanTable] at h
  | succ k ih =>
    intro i h
    simp only [scanTable] at h ⊢
    split
    · rename_i hs
      refine ⟨Nat.le_refl _, ?_⟩
      cases ht : table i with
      | none => rw [ht] at hs; simp at hs
      | some c => exact ⟨c, rfl⟩
    · rename_i hs
      rw [if_neg hs] at h
      have := ih (i + 1) (by omega)
      exact ⟨by omega, this.2⟩

/-- In a heap of the shape whose keys have no byte 0, the parent of a node is the
root or has a non-empty segment. -/
theorem nonghost_parent {h : Heap T} {root : Nat} (hs : Shape h root)
    (hg : GhostSlot h root) (hbytes : ∀ p n, h p = some n → ∀ b ∈ n.nodeKey, b ≠ 0)
    {p q : Nat} {n qn : Node T} (hp : h p = some n) (hpar : n.parent = some q)
    (hq : h q = some qn) : q = root ∨ qn.posNodeKeyStart < qn.nodeKey.length := by
  by_cases hqr : q = root
  · exact Or.inl hqr
  · right
    by_contra hcon
    have hqo := hs.offset_le hq
    have hqg : qn.posNodeKeyStart = qn.nodeKey.length := by omega
    have hpr := hs.ne_root hp hpar
    by_cases hpg : n.posNodeKeyStart = n.nodeKey.length
    · obtain ⟨_, q2, qn2, h1, h2, _, h4⟩ := hs.ghost p n hp hpr hpg
      rw [hpar] at h1
      injection h1 with h1
      subst h1
      rw [hq] at h2
      injection h2 with h2
      subst h2
      omega
    · have hpo := hs.offset_le hp
      have hidx : n.gettableindex = 0 := by
        rcases hs.held p n q qn hp hpr hpar hq with h1 | ⟨g, gn, h1, _, _⟩
        · exact hg q qn _ p hq hqr hqg h1
        · exact hg q qn _ g hq hqr hqg h1
      rw [hs.index_first hp hpr] at hidx
      unfold Node.first at hidx
      exact hbytes p n hp _ (getD_mem_or _ _ (by omega)) hidx

theorem weight_parent {h : Heap T} {root : Nat} (hs : Shape h root) {p q : Nat}
    {n qn : Node T} (hp : h p = some n) (hpar : n.parent = some q) (hq : h q = some qn) :
    qn.weight < n.weight := by
  obtain ⟨_, hlen⟩ := hs.parent_key hp hpar hq
  have hpo := hs.offset_le hp
  have hqo := hs.offset_le hq
  have hpr := hs.ne_root hp hpar
  unfold Node.weight
  by_cases hpg : n.posNodeKeyStart = n.nodeKey.length
  · obtain ⟨_, q2, qn2, h1, h2, _, h4⟩ := hs.ghost p n hp hpr hpg
    rw [hpar] at h1
    injection h1 with h1
    subst h1
    rw [hq] at h2
    injection h2 with h2
    subst h2
    omega
  · omega

/-- The upward part of `next`: at a node whose key is a prefix of `K`, with the scan
of its table restarting above the byte of `K` that follows this prefix, the loop
returns, and a node it returns has a key greater than `K`. -/
theorem nextLoop_climb {h : Heap T} {root N : Nat} (hs : Shape h root)
    (hg : GhostSlot h root) (hbytes : ∀ p n, h p = some n → ∀ b ∈ n.nodeKey, b ≠ 0)
    (hdead : ∀ p, N ≤ p → h p = none) (K : Key) :
    ∀ (f pn : Nat) (n : Node T) (t : Nat), h pn = some n →
      countLive h N (fun m => decide (m.weight < n.weight)) < f →
      (pn = root ∨ n.posNodeKeyStart < n.nodeKey.length) →
      n.nodeKey <+: K → K.getD n.nodeKey.length 0 < t → t ≤ RANGE →
      ∃ r, nextLoop h f (some pn) t = some r ∧
        ∀ q, r = some q → q ≠ root ∧ ∃ qn, h q = some qn ∧
          List.Lex (fun a b : Nat => a < b) K qn.nodeKey := by
  intro f
  induction f with
  | zero =>
    intro pn n t _ hf
    omega
  | succ f ih =>
    intro pn n t hpn hf hng hpre hbyte ht
    simp only [nextLoop, hpn]
    have hle := scanTable_le n.table (RANGE - t) t
    by_cases hi : scanTable n.table (RANGE - t) t < RANGE
    · rw [if_pos hi]
      refine ⟨_, rfl, ?_⟩
      obtain ⟨hti, c, hc⟩ := scanTable_found n.table (RANGE - t) t (by omega)
      intro q hq
      rw [hc] at hq
      injection hq with hq
      subst hq
      obtain ⟨hcr, cn, hcn, hcp, hci⟩ := hs.slot pn n _ c hpn hc
      refine ⟨hcr, cn, hcn, ?_⟩
      obtain ⟨hck, hclen⟩ := hs.parent_key hcn hcp hpn
      have hco := hs.offset_le hcn
      have hcg : cn.posNodeKeyStart < cn.nodeKey.length := by
        by_contra hcon
        have := ghost_index cn (by omega)
        omega
      apply @lex_of_byte n.nodeKey K cn.nodeKey hpre
      · rw [hck]
        exact List.take_prefix _ _
      · have h1 := hs.index_first hcn hcr
        unfold Node.first at h1
        rw [← hclen] at hbyte
        rw [← hclen, ← h1, hci]
        omega
    · rw [if_neg hi]
      cases hpar : n.parent with
      | none => exact ⟨none, rfl, fun q hq => by cases hq⟩
      | some par =>
        simp only []
        have hpr := hs.ne_root hpn hpar
        obtain ⟨_, _, q2, parn, h1, hparn, _⟩ := hs.link pn n hpn hpr
        rw [hpar] at h1
        injection h1 with h1
        subst h1
        obtain ⟨hck, hclen⟩ := hs.parent_key hpn hpar hparn
        have hw := weight_parent hs hpn hpar hparn
        have hparN : par < N := by
          by_contra hcon
          rw [hdead par (by omega)] at hparn
          cases hparn
        have hcount := countLive_lt (fun m => decide (m.weight < parn.weight))
          (fun m => decide (m.weight < n.weight)) hparn hparN
          (fun m hm => by
            simp only [decide_eq_true_eq] at hm ⊢
            omega)
          (by simp) (by simpa using hw)
        have hng2 : n.posNodeKeyStart < n.nodeKey.length := by
          rcases hng with hng | hng
          · exact absurd hng hpr
          · exact hng
        apply ih par parn (n.gettableindex + 1) hparn (by omega)
          (nonghost_parent hs hg hbytes hpn hpar hparn)
        · rw [hck]
          exact (List.take_prefix _ _).trans hpre
        · have h1 := hs.index_first hpn hpr
          unfold Node.first at h1
          rw [h1, ← hclen, getD_within hpre hng2]
          omega
        · have := gettableindex_lt n
          omega

/-- One step of the walk: `next` returns with fuel for the nodes of smaller weight;
it returns a node when the table has one; and a node it returns is not the root, is
live and has a greater key, or is the leaf with an empty segment below the node the
step starts from. -/
theorem next_spec {h : Heap T} {root N : Nat} (hs : Shape h root)
    (hg : GhostSlot h root) (hbytes : ∀ p n, h p = some n → ∀ b ∈ n.nodeKey, b ≠ 0)
    (hdead : ∀ p, N ≤ p → h p = none) {p : Nat} {n : Node T} (hp : h p = some n)
    (f : Nat) (hf : countLive h N (fun m => decide (m.weight < n.weight)) < f) :
    ∃ r, nextLoop h f (some p) 0 = some r ∧ (¬ n.childless → r ≠ none) ∧
      ∀ q, r = some q → q ≠ root ∧ ∃ qn, h q = some qn ∧
        (List.Lex (fun a b : Nat => a < b) n.nodeKey qn.nodeKey ∨
          (qn.nodeKey = n.nodeKey ∧ qn.posNodeKeyStart = qn.nodeKey.length ∧
            qn.parent = some p)) := by
  cases f with
  | zero => omega
  | succ f =>
    simp only [nextLoop, hp, Nat.sub_zero]
    have hle := scanTable_le n.table RANGE 0
    by_cases hi : scanTable n.table RANGE 0 < RANGE
    · rw [if_pos hi]
      obtain ⟨_, c, hc⟩ := scanTable_found n.table RANGE 0 (by omega)
      refine ⟨_, rfl, fun _ => by rw [hc]; simp, ?_⟩
      intro q hq
      rw [hc] at hq
      injection hq with hq
      subst hq
      obtain ⟨hcr, cn, hcn, hcp, hci⟩ := hs.slot p n _ c hp hc
      refine ⟨hcr, cn, hcn, ?_⟩
      obtain ⟨hck, hclen⟩ := hs.parent_key hcn hcp hp
      have hco := hs.offset_le hcn
      by_cases hcg : cn.posNodeKeyStart = cn.nodeKey.length
      · right
        refine ⟨?_, hcg, hcp⟩
        rw [hck, hcg, List.take_length]
      · left
        apply lex_of_extends
        · rw [hck]
          exact List.take_prefix _ _
        · intro he
          rw [he] at hclen
          exact hcg hclen
    · rw [if_neg hi]
      have hch : n.childless := (scan_eq_range n).mp (by omega)
      cases hpar : n.parent with
      | none => exact ⟨none, rfl, fun hc => absurd hch hc, fun q hq => by cases hq⟩
      | some par =>
        simp only []
        have hpr := hs.ne_root hp hpar
        obtain ⟨_, _, q2, parn, h1, hparn, _⟩ := hs.link p n hp hpr
        rw [hpar] at h1
        injection h1 with h1
        subst h1
        obtain ⟨hck, hclen⟩ := hs.parent_key hp hpar hparn
        have hw := weight_parent hs hp hpar hparn
        have hparN : par < N := by
          by_contra hcon
          rw [hdead par (by omega)] at hparn
          cases hparn
        have hcount := countLive_lt (fun m => decide (m.weight < parn.weight))
          (fun m => decide (m.weight < n.weight)) hparn hparN
          (fun m hm => by
            simp only [decide_eq_true_eq] at hm ⊢
            omega)
          (by simp) (by simpa using hw)
        obtain ⟨r, hr, hrq⟩ := nextLoop_climb hs hg hbytes hdead n.nodeKey f par parn
          (n.gettableindex + 1) hparn (by omega)
          (nonghost_parent hs hg hbytes hp hpar hparn)
          (by rw [hck]; exact List.take_prefix _ _)
          (by
            have h1 := hs.index_first hp hpr
            unfold Node.first at h1
            rw [h1, ← hclen]
            omega)
          (by have := gettableindex_lt n; omega)
        refine ⟨r, hr, fun hc => absurd hch hc, ?_⟩
        intro q hq
        obtain ⟨h1, qn, h2, h3⟩ := hrq q hq
        exact ⟨h1, qn, h2, Or.inl h3⟩

/-- One step of the walk on a state: `next` returns; it returns a node when the table
has one; a node it returns is not the root, is live and comes later in the order of
the walk, with a greater key when the node the step starts from holds a value. -/
theorem next_step {s : Trie T} {S : List Key} (hal : Alloc s) (hs : Shape s.heap s.root)
    (hg : GhostSlot s.heap s.root) (ht : Tidy s.heap s.root S) {p : Nat} {n : Node T}
    (hp : s.heap p = some n) :
    ∃ r, s.next (some p) = some r ∧ (¬ n.childless → r ≠ none) ∧
      ∀ q, r = some q → q ≠ s.root ∧ ∃ qn, s.heap q = some qn ∧ n.before qn ∧
        (n.bInUse = true → List.Lex (fun a b : Nat => a < b) n.nodeKey qn.nodeKey) := by
  obtain ⟨r, hr, hc, hq⟩ := next_spec hs hg ht.bytes hal.dead hp (s.fresh + 1)
    (Nat.lt_succ_of_le (countLive_le _ _ _))
  refine ⟨r, hr, hc, ?_⟩
  intro q hrq
  obtain ⟨hqr, qn, hqn, hcase⟩ := hq q hrq
  refine ⟨hqr, qn, hqn, ?_⟩
  rcases hcase with hlex | ⟨hk, hgh, hpar⟩
  · exact ⟨Or.inl hlex, fun _ => hlex⟩
  · obtain ⟨_, q2, qn2, h1, h2, _, h4⟩ := hs.ghost q qn hqn hqr hgh
    rw [hpar] at h1
    injection h1 with h1
    subst h1
    rw [hp] at h2
    injection h2 with h2
    subst h2
    refine ⟨Or.inr ⟨hk.symm, ?_⟩, ?_⟩
    · rw [hgh, hk]
      exact h4
    · intro hv
      have := ht.ghostPar q qn p n hqn hqr hgh hpar hp
      rw [hv] at this
      cases this

theorem before_count {s : Trie T} (hal : Alloc s) {n : Node T} {q : Nat} {qn : Node T}
    (hqn : s.heap q = some qn) (hb : n.before qn) :
    countLive s.heap s.fresh (fun m => decide (qn.before m))
      < countLive s.heap s.fresh (fun m => decide (n.before m)) := by
  have hqN : q < s.fresh := by
    by_contra hcon
    rw [hal.dead q (by omega)] at hqn
    cases hqn
  apply countLive_lt _ _ hqn hqN
  · intro m hm
    simp only [decide_eq_true_eq] at hm ⊢
    exact before_trans hb hm
  · simpa using before_irrefl qn
  · simpa using hb

/-- The loop of `operator++` returns, given fuel for the nodes that come later in the
walk; a node it returns is not the root, is live, holds a value, and its key is the
key of the node the loop starts from or a greater one. -/
theorem skipLoop_spec {s : Trie T} {S : List Key} (hal : Alloc s)
    (hs : Shape s.heap s.root) (hg : GhostSlot s.heap s.root) (ht : Tidy s.heap s.root S) :
    ∀ (f p : Nat) (n : Node T), s.heap p = some n → p ≠ s.root →
      countLive s.heap s.fresh (fun m => decide (n.before m)) < f →
      ∃ r, skipLoop s f (some p) = some r ∧
        ∀ q, r = some q → q ≠ s.root ∧ ∃ qn, s.heap q = some qn ∧ qn.bInUse = true ∧
          (qn.nodeKey = n.nodeKey ∨
            List.Lex (fun a b : Nat => a < b) n.nodeKey qn.nodeKey) := by
  intro f
  induction f with
  | zero =>
    intro p n _ _ hf
    omega
  | succ f ih =>
    intro p n hp hpr hf
    simp only [skipLoop, hp]
    cases hv : n.hasValue with
    | true =>
      simp only [Bool.true_eq_false, if_false]
      refine ⟨_, rfl, ?_⟩
      intro q hq
      injection hq with hq
      subst hq
      exact ⟨hpr, n, hp, hv, Or.inl rfl⟩
    | false =>
      simp only [if_true]
      obtain ⟨r0, hr0, _, hq0⟩ := next_step hal hs hg ht hp
      rw [hr0]
      cases r0 with
      | none =>
        refine ⟨none, ?_, fun q hq => by cases hq⟩
        cases f <;> rfl
      | some q0 =>
        obtain ⟨hq0r, qn0, hqn0, hbef, _⟩ := hq0 q0 rfl
        have hcount := before_count hal hqn0 hbef
        obtain ⟨r, hr, hrq⟩ := ih q0 qn0 hqn0 hq0r (by omega)
        refine ⟨r, hr, ?_⟩
        intro q hq
        obtain ⟨h1, qn, h2, h3, h4⟩ := hrq q hq
        refine ⟨h1, qn, h2, h3, ?_⟩
        unfold Node.before at hbef
        rcases hbef with hb | ⟨hb, _⟩
        · rcases h4 with h4 | h4
          · rw [h4]
            exact Or.inr hb
          · exact Or.inr (lex_trans hb h4)
        · rw [hb]
          exact h4

/-- The iterator's `operator++` on a node that holds a value returns, and a node it
returns is not the root, is live, holds a value and has a greater key. -/
theorem increment_spec {s : Trie T} {S : List Key} (hal : Alloc s)
    (hs : Shape s.heap s.root) (hg : GhostSlot s.heap s.root) (ht : Tidy s.heap s.root S)
    {p : Nat} {n : Node T} (hp : s.heap p = some n) (hv : n.bInUse = true) :
    ∃ r, s.increment (some p) = some r ∧
      ∀ q, r = some q → q ≠ s.root ∧ ∃ qn, s.heap q = some qn ∧ qn.bInUse = true ∧
        List.Lex (fun a b : Nat => a < b) n.nodeKey qn.nodeKey := by
  obtain ⟨r0, hr0, _, hq0⟩ := next_step hal hs hg ht hp
  simp only [Trie.increment, hr0]
  cases r0 with
  | none => exact ⟨none, rfl, fun q hq => by cases hq⟩
  | some q0 =>
    obtain ⟨hq0r, qn0, hqn0, _, hlex⟩ := hq0 q0 rfl
    obtain ⟨r, hr, hrq⟩ := skipLoop_spec hal hs hg ht (s.fresh + 1) q0 qn0 hqn0 hq0r
      (Nat.lt_succ_of_le (countLive_le _ _ _))
    refine ⟨r, hr, ?_⟩
    intro q hq
    obtain ⟨h1, qn, h2, h3, h4⟩ := hrq q hq
    refine ⟨h1, qn, h2, h3, ?_⟩
    rcases h4 with h4 | h4
    · rw [h4]
      exact hlex hv
    · exact lex_trans (hlex hv) h4

/-- The loop that steps an iterator to `end()` returns, given fuel for the nodes that
come later in the walk, and the keys it collects are strictly increasing, beginning
with the key of the node the loop starts from. -/
theorem collectKeys_spec {s : Trie T} {S : List Key} (hal : Alloc s)
    (hs : Shape s.heap s.root) (hg : GhostSlot s.heap s.root) (ht : Tidy s.heap s.root S) :
    ∀ (f p : Nat) (n : Node T), s.heap p = some n → n.bInUse = true →
      countLive s.heap s.fresh (fun m => decide (n.before m)) < f →
      ∃ ks, collectKeys s f (some p) = some ks ∧
        ks.Pairwise (List.Lex (fun a b : Nat => a < b)) ∧ ks ≠ [] ∧
        ∀ k ∈ ks, k = n.nodeKey ∨ List.Lex (fun a b : Nat => a < b) n.nodeKey k := by
  intro f
  induction f with
  | zero =>
    intro p n _ _ hf
    omega
  | succ f ih =>
    intro p n hp hv hf
    obtain ⟨r, hr, hrq⟩ := increment_spec hal hs hg ht hp hv
    simp only [collectKeys, Trie.deref, hp, hr]
    cases r with
    | none =>
      refine ⟨[n.nodeKey], ?_, List.pairwise_singleton _ _, by simp, ?_⟩
      · cases f <;> rfl
      · intro k hk
        simp only [List.mem_singleton] at hk
        exact Or.inl hk
    | some q =>
      obtain ⟨_, qn, hqn, hqv, hlex⟩ := hrq q rfl
      have hcount := before_count hal hqn (Or.inl hlex : n.before qn)
      obtain ⟨ks, hks, hpw, _, hall⟩ := ih q qn hqn hqv (by omega)
      refine ⟨n.nodeKey :: ks, ?_, ?_, by simp, ?_⟩
      · rw [hks]
        rfl
      · rw [List.pairwise_cons]
        refine ⟨?_, hpw⟩
        intro k hk
        rcases hall k hk with h1 | h1
        · rw [h1]
          exact hlex
        · exact lex_trans hlex h1
      · intro k hk
        rcases List.mem_cons.mp hk with h1 | h1
        · exact Or.inl h1
        · right
          rcases hall k h1 with h2 | h2
          · rw [h2]
            exact hlex
          · exact lex_trans hlex h2

/-- While a node other than the root lives, the table of the root is not empty. -/
theorem root_has_child {h : Heap T} {root : Nat} (hs : Shape h root) {r : Node T}
    (hr : h root = some r) :
    ∀ (w x : Nat) (xn : Node T), xn.weight ≤ w → h x = some xn → x ≠ root →
      ¬ r.childless := by
  intro w
  induction w with
  | zero =>
    intro x xn hw hx hxr
    obtain ⟨_, _, q, qn, hpar, hq, _⟩ := hs.link x xn hx hxr
    have := weight_parent hs hx hpar hq
    omega
  | succ w ih =>
    intro x xn hw hx hxr
    obtain ⟨_, _, q, qn, hpar, hq, _⟩ := hs.link x xn hx hxr
    have hwp := weight_parent hs hx hpar hq
    by_cases hqr : q = root
    · subst hqr
      rw [hr] at hq
      injection hq with hq
      subst hq
      intro hch
      have hnone := hch xn.gettableindex (gettableindex_lt xn)
      rcases hs.held x xn q r hx hxr hpar hr with h1 | ⟨g, gn, h1, _, _⟩
      · rw [h1] at hnone
        cases hnone
      · rw [h1] at hnone
        cases hnone
    · exact ih q qn (by omega) hq hqr

/-- The loop of `begin()` returns a node that holds a value, given fuel for the nodes
that come later in the walk. -/
theorem beginLoop_spec {s : Trie T} {S : List Key} (hb : Basic s)
    (hs : Shape s.heap s.root) (hg : GhostSlot s.heap s.root) (ht : Tidy s.heap s.root S) :
    ∀ (f p : Nat) (n : Node T), s.heap p = some n → p ≠ s.root →
      countLive s.heap s.fresh (fun m => decide (n.before m)) < f →
      ∃ q qn, beginLoop s f (some p) = some (some q) ∧ s.heap q = some qn ∧
        qn.bInUse = true := by
  intro f
  induction f with
  | zero =>
    intro p n _ _ hf
    omega
  | succ f ih =>
    intro p n hp hpr hf
    simp only [beginLoop, hp]
    cases hv : n.hasValue with
    | true =>
      simp only [Bool.true_eq_false, if_false]
      exact ⟨p, n, rfl, hp, hv⟩
    | false =>
      simp only [if_true]
      obtain ⟨r0, hr0, hch, hq0⟩ := next_step hb.alloc hs hg ht hp
      rw [hr0]
      have hnc : ¬ n.childless := by
        intro hc
        have := hb.prune p n hp hpr hc
        have hv : n.bInUse = false := hv
        rw [hv] at this
        cases this
      cases r0 with
      | none => exact absurd rfl (hch hnc)
      | some q0 =>
        obtain ⟨hq0r, qn0, hqn0, hbef, _⟩ := hq0 q0 rfl
        have hcount := before_count hb.alloc hqn0 hbef
        exact ih q0 qn0 hqn0 hq0r (by omega)

/-- In a state that stores a key, reached in the way the invariants describe, the loop
of `iteratortest` from `begin()` to `end()` returns, and the keys it produces are
strictly increasing in lexicographic byte order. -/
theorem keys_sorted {s : Trie T} {S : List Key} (hb : Basic s) (hrp : RootPlain s)
    (hs : Shape s.heap s.root) (hg : GhostSlot s.heap s.root) (ht : Tidy s.heap s.root S)
    (hsz : s.nsize ≠ 0) :
    ∃ ks, s.keys = some ks ∧ ks.Pairwise (List.Lex (fun a b : Nat => a < b)) ∧ ks ≠ [] := by
  obtain ⟨r, hr, _, _, _⟩ := hs.root_live
  have hex : ∃ x xn, s.heap x = some xn ∧ xn.bInUse = true := by
    have h1 := hb.size
    unfold Trie.valueNodes at h1
    have h2 : 0 < ((List.range s.fresh).filter (valueAt s.heap)).length := by omega
    obtain ⟨x, hx⟩ := List.exists_mem_of_length_pos h2
    have h3 := (List.mem_filter.mp hx).2
    unfold valueAt at h3
    cases hxn : s.heap x with
    | none => simp [hxn] at h3
    | some xn =>
      simp only [hxn] at h3
      exact ⟨x, xn, hxn, h3⟩
  obtain ⟨x, xn, hx, hxv⟩ := hex
  have hxr : x ≠ s.root := by
    intro he
    rw [he, hr] at hx
    injection hx with hx
    subst hx
    rw [hrp r hr] at hxv
    cases hxv
  have hnc := root_has_child hs hr xn.weight x xn (Nat.le_refl _) hx hxr
  obtain ⟨r0, hr0, hch, hq0⟩ := next_step hb.alloc hs hg ht hr
  cases r0 with
  | none => exact absurd rfl (hch hnc)
  | some q0 =>
    obtain ⟨hq0r, qn0, hqn0, _, _⟩ := hq0 q0 rfl
    obtain ⟨q, qn, hbeg, hqn, hqv⟩ := beginLoop_spec hb hs hg ht (s.fresh + 1) q0 qn0 hqn0
      hq0r (Nat.lt_succ_of_le (countLive_le _ _ _))
    obtain ⟨ks, hks, hpw, hne, _⟩ := collectKeys_spec hb.alloc hs hg ht (s.fresh + 1) q qn
      hqn hqv (Nat.lt_succ_of_le (countLive_le _ _ _))
    refine ⟨ks, ?_, hpw, hne⟩
    simp only [Trie.keys, Trie.begin, hr0, hbeg]
    exact hks

/-! ## Calls with distinct keys free of the byte 0 -/

theorem Tidy.widen {h : Heap T} {root : Nat} {S S2 : List Key} (ht : Tidy h root S)
    (hsub : ∀ k ∈ S, k ∈ S2) : Tidy h root S2 :=
  ⟨ht.bytes, fun g gn h1 h2 h3 => hsub _ (ht.ghostKey g gn h1 h2 h3), ht.ghostPar⟩

/-- A heap whose nodes are nodes of a tidy heap with the same key, offset and parent,
and of which only nodes with a key not inserted before have gained a value, is
tidy. -/
theorem Tidy.of_old {h h2 : Heap T} {root : Nat} {S : List Key} (hs : Shape h root)
    (ht : Tidy h root S)
    (hold : ∀ p n2, h2 p = some n2 → ∃ n, h p = some n ∧ n2.nodeKey = n.nodeKey ∧
      n2.posNodeKeyStart = n.posNodeKeyStart ∧ n2.parent = n.parent ∧
      (n2.bInUse = true → n.bInUse = true ∨ n.nodeKey ∉ S)) :
    Tidy h2 root S := by
  refine ⟨?_, ?_, ?_⟩
  · intro p n2 hp b hb
    obtain ⟨n, hn, hk, _⟩ := hold p n2 hp
    rw [hk] at hb
    exact ht.bytes p n hn b hb
  · intro g gn2 hg hgr hgh
    obtain ⟨gn, hgn, hk, ho, _⟩ := hold g gn2 hg
    rw [hk]
    exact ht.ghostKey g gn hgn hgr (by rw [← ho, ← hk]; exact hgh)
  · intro g gn2 q qn2 hg hgr hgh hpar hq
    obtain ⟨gn, hgn, hk, ho, hp, _⟩ := hold g gn2 hg
    obtain ⟨qn, hqn, hqk, _, _, hqv⟩ := hold q qn2 hq
    have hgh0 : gn.posNodeKeyStart = gn.nodeKey.length := by
      rw [← ho, ← hk]
      exact hgh
    have hpar0 : gn.parent = some q := by
      rw [← hp]
      exact hpar
    have hf := ht.ghostPar g gn q qn hgn hgr hgh0 hpar0 hqn
    cases hv : qn2.bInUse with
    | false => rfl
    | true =>
      rcases hqv hv with h1 | h1
      · rw [hf] at h1
        cases h1
      · exfalso
        apply h1
        obtain ⟨hpk, _⟩ := hs.parent_key hgn hpar0 hqn
        rw [hpk, hgh0, List.take_length]
        exact ht.ghostKey g gn hgn hgr hgh0

/-- Every `insert` of a new key of bytes in 1..127 that returns keeps the heap tidy. -/
theorem insert_tidy [Inhabited T] {s s' : Trie T} {key : Key} {v : T}
    {it : Option Nat} {b : Bool} {S : List Key} (hb : Basic s) (hs : Shape s.heap s.root)
    (ht : Tidy s.heap s.root S) (hk : ∀ c ∈ key, c ≠ 0 ∧ c < 128) (hnew : key ∉ S)
    (h : s.insert key v = some (s', it, b)) : Tidy s'.heap s'.root (key :: S) := by
  obtain ⟨a, an, hf, ha, hcase⟩ := insert_cases hb.alloc h
  have hfr : s.heap s.fresh = none := hb.alloc.dead _ (Nat.le_refl _)
  have hfr1 : s.heap (s.fresh + 1) = none := hb.alloc.dead _ (by omega)
  obtain ⟨r, hr, r1, r2, r3⟩ := hs.root_live
  have hf0 : _findpartial s.heap (fuelOf key) s.root key r.posNodeKeyStart = some a := by
    rw [r2]
    exact hf
  obtain ⟨an2, ha2, p1, p2, p3, p4⟩ := findpartial_shape hs key (fuelOf key) s.root r hr
    (by rw [r2]; rfl) (by rw [r2]; omega) a hf0
  rw [ha] at ha2
  cases ha2
  have hmono : ∀ k ∈ S, k ∈ key :: S := fun k hk => List.mem_cons_of_mem _ hk
  rcases hcase with ⟨_, _, _, hs'⟩ | ⟨hkey, _, _, hs'⟩ | ⟨hne, hm, _, hs'⟩ |
    ⟨hne, hm, _, q, qn, hq, hqn, hs'⟩
  · subst hs'
    exact ht.widen hmono
  · subst hs'
    apply Tidy.widen ?_ hmono
    apply Tidy.of_old hs ht
    intro p n2 hp
    have hp : (s.heap.write a (an.setvalue v)) p = some n2 := hp
    simp only [Heap.write] at hp
    split at hp
    · rename_i hpa
      injection hp with hp
      subst hp
      subst hpa
      refine ⟨an, ha, rfl, rfl, rfl, fun _ => Or.inr ?_⟩
      rw [hkey]
      exact hnew
    · exact ⟨n2, hp, rfl, rfl, rfl, fun hv => Or.inl hv⟩
  · subst hs'
    have hpre := prefix_of_matchlen_eq _ _ hm
    have hlt : an.nodeKey.length < key.length := by
      have h1 := hpre.length_le
      rcases Nat.lt_or_ge an.nodeKey.length key.length with h2 | h2
      · exact h2
      · exact absurd (List.IsPrefix.eq_of_length hpre (by omega)) hne
    have hold : ∀ p n2, ((s.heap.write s.fresh (leafNode key an.nodeKey.length a v)).write a
        (an.setTable (leafNode key an.nodeKey.length a v).gettableindex (some s.fresh))) p
          = some n2 → p ≠ s.fresh →
        ∃ n, s.heap p = some n ∧ n2.nodeKey = n.nodeKey ∧
          n2.posNodeKeyStart = n.posNodeKeyStart ∧ n2.parent = n.parent ∧
          n2.bInUse = n.bInUse := by
      intro p n2 hp hpf
      rw [graftHeap_apply] at hp
      split at hp
      · rename_i hpa
        injection hp with hp
        subst hp
        subst hpa
        exact ⟨an, ha, rfl, rfl, rfl, rfl⟩
      · exact ⟨n2, hp, rfl, rfl, rfl, rfl⟩
    have hleaf : ∀ n2, ((s.heap.write s.fresh (leafNode key an.nodeKey.length a v)).write a
        (an.setTable (leafNode key an.nodeKey.length a v).gettableindex (some s.fresh)))
          s.fresh = some n2 → n2 = leafNode key an.nodeKey.length a v := by
      intro n2 hp
      rw [graftHeap_apply] at hp
      split at hp
      · rename_i hpa
        rw [← hpa, hfr] at ha
        cases ha
      · rw [if_pos rfl] at hp
        injection hp with hp
        exact hp.symm
    refine ⟨?_, ?_, ?_⟩
    · intro p n2 hp c hc
      by_cases hpf : p = s.fresh
      · subst hpf
        rw [hleaf n2 hp] at hc
        exact (hk c hc).1
      · obtain ⟨n, hn, h1, _⟩ := hold p n2 hp hpf
        rw [h1] at hc
        exact ht.bytes p n hn c hc
    · intro g gn2 hg hgr hgh
      by_cases hgf : g = s.fresh
      · subst hgf
        rw [hleaf gn2 hg] at hgh
        simp only [leafNode] at hgh
        omega
      · obtain ⟨gn, hgn, h1, h2, _⟩ := hold g gn2 hg hgf
        rw [h1]
        exact hmono _ (ht.ghostKey g gn hgn hgr (by rw [← h2, ← h1]; exact hgh))
    · intro g gn2 q qn2 hg hgr hgh hpar hq
      by_cases hgf : g = s.fresh
      · subst hgf
        rw [hleaf gn2 hg] at hgh
        simp only [leafNode] at hgh
        omega
      · obtain ⟨gn, hgn, h1, h2, h3, _⟩ := hold g gn2 hg hgf
        have hgh0 : gn.posNodeKeyStart = gn.nodeKey.length := by
          rw [← h2, ← h1]
          exact hgh
        have hpar0 : gn.parent = some q := by
          rw [← h3]
          exact hpar
        obtain ⟨_, _, q0, qn0, h4, h5, _⟩ := hs.link g gn hgn hgr
        rw [hpar0] at h4
        injection h4 with h4
        subst h4
        have hqf : q ≠ s.fresh := by
          intro he
          rw [he, hfr] at h5
          cases h5
        obtain ⟨qn, hqn, _, _, _, h6⟩ := hold q qn2 hq hqf
        rw [h6]
        exact ht.ghostPar g gn q qn hgn hgr hgh0 hpar0 hqn
  · subst hs'
    have har : a ≠ s.root := hs.ne_root ha hq
    obtain ⟨_, q1, q2, q', qn', q3, q4, q5⟩ := p4 har
    rw [hq] at q3
    injection q3 with q3
    subst q3
    rw [hqn] at q4
    injection q4 with q4
    subst q4
    have hMl := matchlen_le_left an.nodeKey key
    have hks := hs.offset_le ha
    have hM := matchlen_of_take_eq an.nodeKey key an.posNodeKeyStart hks p2 p1
    have hlt : an.posNodeKeyStart < an.nodeKey.length := by omega
    have h1 := matchlen_drop_pos hlt q1 (q2 hlt).symm
    have hksp : an.posNodeKeyStart < matchlen an.nodeKey key := by omega
    have haf : a ≠ s.fresh := by
      intro he
      rw [he, hfr] at ha
      cases ha
    have haf1 : a ≠ s.fresh + 1 := by
      intro he
      rw [he, hfr1] at ha
      cases ha
    have hqf : q ≠ s.fresh := by
      intro he
      rw [he, hfr] at hqn
      cases hqn
    have hqf1 : q ≠ s.fresh + 1 := by
      intro he
      rw [he, hfr1] at hqn
      cases hqn
    have hold : ∀ p n2, splitHeap s.heap s.fresh a q an qn key v p = some n2 →
        p ≠ s.fresh → p ≠ s.fresh + 1 →
        ∃ n, s.heap p = some n ∧ n2.nodeKey = n.nodeKey ∧ n2.bInUse = n.bInUse ∧
          (p = a → n2.posNodeKeyStart < n2.nodeKey.length) ∧
          (p ≠ a → n2.posNodeKeyStart = n.posNodeKeyStart ∧ n2.parent = n.parent) := by
      intro p n2 hp hpf hpf1
      rw [splitHeap_apply, if_neg hpf, if_neg hpf1] at hp
      split at hp
      · rename_i hpa
        injection hp with hp
        subst hp
        subst hpa
        refine ⟨an, ha, rfl, rfl, fun _ => ?_, fun hne => absurd rfl hne⟩
        show matchlen an.nodeKey key < an.nodeKey.length
        omega
      · rename_i hpa
        split at hp
        · rename_i hpq
          injection hp with hp
          subst hp
          subst hpq
          exact ⟨qn, hqn, rfl, rfl, fun he => absurd he hpa, fun _ => ⟨rfl, rfl⟩⟩
        · exact ⟨n2, hp, rfl, rfl, fun he => absurd he hpa, fun _ => ⟨rfl, rfl⟩⟩
    have hsp : ∀ n2, splitHeap s.heap s.fresh a q an qn key v s.fresh = some n2 →
        n2.nodeKey = an.nodeKey.take (matchlen an.nodeKey key) ∧
          n2.posNodeKeyStart = an.posNodeKeyStart ∧ n2.bInUse = false := by
      intro n2 hp
      rw [splitHeap_apply, if_pos rfl] at hp
      injection hp with hp
      subst hp
      exact ⟨rfl, rfl, rfl⟩
    have hleaf : ∀ n2, splitHeap s.heap s.fresh a q an qn key v (s.fresh + 1) = some n2 →
        n2 = leafNode key (matchlen an.nodeKey key) s.fresh v := by
      intro n2 hp
      rw [splitHeap_apply, if_neg (by omega), if_pos rfl] at hp
      injection hp with hp
      exact hp.symm
    refine ⟨?_, ?_, ?_⟩
    · intro p n2 hp c hc
      by_cases hpf : p = s.fresh
      · subst hpf
        rw [(hsp n2 hp).1] at hc
        exact ht.bytes a an ha c (List.mem_of_mem_take hc)
      · by_cases hpf1 : p = s.fresh + 1
        · subst hpf1
          rw [hleaf n2 hp] at hc
          exact (hk c hc).1
        · obtain ⟨n, hn, h1, _⟩ := hold p n2 hp hpf hpf1
          rw [h1] at hc
          exact ht.bytes p n hn c hc
    · intro g gn2 hg hgr hgh
      by_cases hgf : g = s.fresh
      · subst hgf
        obtain ⟨e1, e2, _⟩ := hsp gn2 hg
        rw [e1, e2, List.length_take] at hgh
        omega
      · by_cases hgf1 : g = s.fresh + 1
        · subst hgf1
          rw [hleaf gn2 hg]
          exact List.mem_cons_self _ _
        · obtain ⟨gn, hgn, e1, _, e3, e4⟩ := hold g gn2 hg hgf hgf1
          by_cases hga : g = a
          · have := e3 hga
            omega
          · rw [e1]
            exact hmono _ (ht.ghostKey g gn hgn hgr
              (by rw [← (e4 hga).1, ← e1]; exact hgh))
    · intro g gn2 p pn2 hg hgr hgh hpar hp
      by_cases hgf : g = s.fresh
      · subst hgf
        obtain ⟨e1, e2, _⟩ := hsp gn2 hg
        rw [e1, e2, List.length_take] at hgh
        omega
      · by_cases hgf1 : g = s.fresh + 1
        · subst hgf1
          rw [hleaf gn2 hg] at hpar
          simp only [leafNode] at hpar
          injection hpar with hpar
          subst hpar
          exact (hsp pn2 hp).2.2
        · obtain ⟨gn, hgn, e1, _, e3, e4⟩ := hold g gn2 hg hgf hgf1
          by_cases hga : g = a
          · have := e3 hga
            omega
          · have hgh0 : gn.posNodeKeyStart = gn.nodeKey.length := by
              rw [← (e4 hga).1, ← e1]
              exact hgh
            have hpar0 : gn.parent = some p := by
              rw [← (e4 hga).2]
              exact hpar
            obtain ⟨_, _, p0, pn0, h4, h5, _⟩ := hs.link g gn hgn hgr
            rw [hpar0] at h4
            injection h4 with h4
            subst h4
            have hpf : p ≠ s.fresh := by
              intro he
              rw [he, hfr] at h5
              cases h5
            have hpf1 : p ≠ s.fresh + 1 := by
              intro he
              rw [he, hfr1] at h5
              cases h5
            obtain ⟨pn, hpn, _, e5, _, _⟩ := hold p pn2 hp hpf hpf1
            rw [e5]
            exact ht.ghostPar g gn p pn hgn hgr hgh0 hpar0 hpn

/-- A heap whose nodes are nodes of a tidy heap with the same key, offset and parent,
none of which has gained a value, is tidy. -/
theorem Tidy.of_sub {h h2 : Heap T} {root : Nat} {S : List Key} (ht : Tidy h root S)
    (hold : ∀ p n2, h2 p = some n2 → ∃ n, h p = some n ∧ n2.nodeKey = n.nodeKey ∧
      n2.posNodeKeyStart = n.posNodeKeyStart ∧ n2.parent = n.parent ∧
      (n.bInUse = false → n2.bInUse = false)) :
    Tidy h2 root S := by
  refine ⟨?_, ?_, ?_⟩
  · intro p n2 hp b hb
    obtain ⟨n, hn, hk, _⟩ := hold p n2 hp
    rw [hk] at hb
    exact ht.bytes p n hn b hb
  · intro g gn2 hg hgr hgh
    obtain ⟨gn, hgn, hk, ho, _⟩ := hold g gn2 hg
    rw [hk]
    exact ht.ghostKey g gn hgn hgr (by rw [← ho, ← hk]; exact hgh)
  · intro g gn2 q qn2 hg hgr hgh hpar hq
    obtain ⟨gn, hgn, hk, ho, hp, _⟩ := hold g gn2 hg
    obtain ⟨qn, hqn, _, _, _, hqv⟩ := hold q qn2 hq
    exact hqv (ht.ghostPar g gn q qn hgn hgr (by rw [← ho, ← hk]; exact hgh)
      (by rw [← hp]; exact hpar) hqn)

/-- The loop of `erase` keeps the heap tidy. -/
theorem eraseLoop_tidy (root : Nat) (S : List Key) :
    ∀ (fuel : Nat) (h : Heap T) (nn : Int) (x : Nat) (h' : Heap T) (nn' : Int),
      Tidy h root S → eraseLoop fuel h nn (some x) = some (h', nn') → Tidy h' root S := by
  apply eraseLoop_induct (fun h _ => Tidy h root S) (fun h' => Tidy h' root S)
  · intro h x xn ht _ _
    exact ht
  · intro h x xn ht _ _ _ _
    apply ht.of_sub
    intro p n2 hp
    simp only [Heap.free] at hp
    split at hp
    · cases hp
    · exact ⟨n2, hp, rfl, rfl, rfl, fun hv => hv⟩
  · intro h x xn par pn ht _ _ _ _ hpn
    apply ht.of_sub
    intro p n2 hp
    simp only [Heap.free] at hp
    split at hp
    · cases hp
    · simp only [Heap.write] at hp
      split at hp
      · rename_i hpp
        injection hp with hp
        subst hp
        subst hpp
        exact ⟨pn, hpn, rfl, rfl, rfl, fun hv => hv⟩
      · exact ⟨n2, hp, rfl, rfl, rfl, fun hv => hv⟩

/-- Every `erase` that returns keeps the heap tidy. -/
theorem erase_tidy {s s' : Trie T} {k : Key} {c : Nat} {S : List Key}
    (ht : Tidy s.heap s.root S) (h : s.erase k = some (s', c)) :
    Tidy s'.heap s'.root S := by
  rcases erase_cases h with ⟨_, hs', _⟩ | ⟨m, mn, h1, nn, _, hm, hl, hs', _⟩
  · subst hs'
    exact ht
  · subst hs'
    apply eraseLoop_tidy s.root S (fuelOf k) _ s.numnodes m h1 nn ?_ hl
    apply ht.of_sub
    intro p n2 hp
    simp only [Heap.write] at hp
    split at hp
    · rename_i hpm
      injection hp with hp
      subst hp
      subst hpm
      exact ⟨mn, hm, rfl, rfl, rfl, fun _ => rfl⟩
    · exact ⟨n2, hp, rfl, rfl, rfl, fun hv => hv⟩

theorem tidy_new [Inhabited T] :
    Tidy (Trie.new : Trie T).heap (Trie.new : Trie T).root [] := by
  have hnew : ∀ p n, (Trie.new : Trie T).heap p = some n →
      p = (Trie.new : Trie T).root ∧ n.nodeKey = [] := by
    intro p n hp
    simp only [Trie.new, Heap.write] at hp ⊢
    split at hp
    · rename_i hpr
      injection hp with hp
      subst hp
      exact ⟨hpr, rfl⟩
    · cases hp
  refine ⟨?_, ?_, ?_⟩
  · intro p n hp b hb
    rw [(hnew p n hp).2] at hb
    cases hb
  · intro g gn hg hgr
    exact absurd (hnew g gn hg).1 hgr
  · intro g gn q qn hg hgr
    exact absurd (hnew g gn hg).1 hgr

/-- A sequence of calls of `insert` and `erase`, with keys of bytes in 1..127 of which
those inserted are distinct, not empty and not in `S`, that returns leaves no live
node, or a heap of the shape that is tidy and whose root holds no value. -/
theorem run_tidy [Inhabited T] :
    ∀ (ops : List (Op T)) (s s2 : Trie T) (i e : Nat) (S : List Key), Basic s →
      RootPlain s → Shape s.heap s.root → GhostSlot s.heap s.root →
      Tidy s.heap s.root S →
      (∀ op ∈ ops, op.isIndex = false) → (∀ op ∈ ops, ∀ c ∈ op.key, c ≠ 0 ∧ c < 128) →
      (∀ k ∈ insertedKeys ops, k ≠ [] ∧ k ∉ S) → (insertedKeys ops).Nodup →
      run s ops = some (s2, i, e) →
      (RootPlain s2 ∧ Shape s2.heap s2.root ∧ GhostSlot s2.heap s2.root ∧
        ∃ S2, Tidy s2.heap s2.root S2) ∨ ∀ p, s2.heap p = none := by
  intro ops
  induction ops with
  | nil =>
    intro s s2 i e S _ hrp hs hg ht _ _ _ _ h
    simp only [run, Option.some.injEq, Prod.mk.injEq] at h
    obtain ⟨h1, _, _⟩ := h
    subst h1
    exact Or.inl ⟨hrp, hs, hg, S, ht⟩
  | cons op rest ih =>
    intro s s2 i e S hb hrp hs hg ht hni hk hins hnd h
    cases hst : s.step op with
    | none => simp [run, hst] at h
    | some r1 =>
      obtain ⟨s1, i1, e1⟩ := r1
      cases hr : run s1 rest with
      | none => simp [run, hst, hr] at h
      | some r2 =>
        obtain ⟨s3, ni, ne⟩ := r2
        simp only [run, hst, hr, Option.some.injEq, Prod.mk.injEq] at h
        obtain ⟨h1, _, _⟩ := h
        subst h1
        have hb1 := (step_basic hb hst).1
        have hk1 := hk op (List.mem_cons_self _ _)
        have hk7 : ∀ c ∈ op.key, c < 128 := fun c hc => (hk1 c hc).2
        have hni2 : ∀ o ∈ rest, o.isIndex = false :=
          fun o ho => hni o (List.mem_cons_of_mem _ ho)
        have hk2 : ∀ o ∈ rest, ∀ c ∈ o.key, c ≠ 0 ∧ c < 128 :=
          fun o ho => hk o (List.mem_cons_of_mem _ ho)
        have hdead : (∀ p, s1.heap p = none) → ∀ p, s3.heap p = none := by
          intro hd
          cases rest with
          | nil =>
            simp only [run, Option.some.injEq, Prod.mk.injEq] at hr
            obtain ⟨h1, _, _⟩ := hr
            subst h1
            exact hd
          | cons op2 rest2 =>
            simp [run, step_dead (hd s1.root) op2] at hr
        cases op with
        | insert k v =>
          simp only [Trie.step, Option.map_eq_some', Prod.mk.injEq] at hst
          obtain ⟨⟨s0, it, b⟩, hst, h1, _, _⟩ := hst
          subst h1
          simp only [insertedKeys, List.nodup_cons] at hnd
          have hkn := hins k (by simp [insertedKeys])
          have hrp1 := (insert_basic hb hst).2.2.2 hkn.1 hrp
          have hs1 := insert_shape hb hs hk7 hst
          have hg1 := insert_ghostSlot hb hs hg hk7 hst
          have ht1 := insert_tidy hb hs ht hk1 hkn.2 hst
          apply ih s0 s3 ni ne (k :: S) hb1 hrp1 hs1 hg1 ht1 hni2 hk2 ?_ hnd.2 hr
          intro k2 hk2m
          refine ⟨(hins k2 (by simp [insertedKeys, hk2m])).1, ?_⟩
          intro hmem
          rcases List.mem_cons.mp hmem with h2 | h2
          · rw [h2] at hk2m
            exact hnd.1 hk2m
          · exact (hins k2 (by simp [insertedKeys, hk2m])).2 h2
        | erase k =>
          simp only [Trie.step, Option.map_eq_some', Prod.mk.injEq] at hst
          obtain ⟨⟨s0, c⟩, hst, h1, _, _⟩ := hst
          subst h1
          have hrp1 := (erase_basic hb hst).2.2.2.2.1 hrp
          have hg1 := erase_ghostSlot hg hst
          have ht1 := erase_tidy ht hst
          rcases erase_shape hs hst with hs1 | hd
          · exact ih s0 s3 ni ne S hb1 hrp1 hs1 hg1 ht1 hni2 hk2 hins hnd hr
          · exact Or.inr (hdead hd)
        | index k =>
          have := hni (.index k) (List.mem_cons_self _ _)
          simp [Op.isIndex] at this

/-- In every state that stores a key and is reached from a new trie by calls of
`insert` and `erase` with keys of bytes in 1..127, those inserted distinct and not
empty, the loop from `begin()` to `end()` returns, and the keys it produces are
strictly increasing in lexicographic byte order. -/
theorem keys_increasing [Inhabited T] (ops : List (Op T)) (s : Trie T) (i e : Nat)
    (hni : ∀ op ∈ ops, op.isIndex = false)
    (hk : ∀ op ∈ ops, ∀ c ∈ op.key, c ≠ 0 ∧ c < 128)
    (hne : ∀ k ∈ insertedKeys ops, k ≠ []) (hnd : (insertedKeys ops).Nodup)
    (h : run Trie.new ops = some (s, i, e)) (hsz : s.size ≠ 0) :
    ∃ ks, s.keys = some ks ∧ ks.Pairwise (List.Lex (fun a b : Nat => a < b)) ∧
      ks ≠ [] := by
  have hb := (run_basic ops Trie.new s i e basic_new.1 h).1
  rcases run_tidy ops Trie.new s i e [] basic_new.1 basic_new.2 shape_new ghostSlot_new
    tidy_new hni hk (fun k hk => ⟨hne k hk, List.not_mem_nil k⟩) hnd h with
    ⟨hrp, hs, hg, S, ht⟩ | hd
  · exact keys_sorted hb hrp hs hg ht hsz
  · exfalso
    apply hsz
    show s.nsize = 0
    rw [hb.size]
    unfold Trie.valueNodes
    rw [List.length_eq_zero, List.filter_eq_nil_iff]
    intro x _
    simp [valueAt, hd x]

/-- The order of the walk at the calls `insert("testing", 1)`, `insert("b", 2)`,
`insert("test", 3)`, `insert("a", 4)`, `insert("te__ing", 5)`, `erase("b")`. -/
theorem keys_increasing_example :
    ∃ ks, ((run Trie.new opsOrder).get (by decide)).1.keys = some ks ∧
      ks.Pairwise (List.Lex (fun a b : Nat => a < b)) ∧ ks ≠ [] :=
  keys_increasing opsOrder _ _ _ (by decide) (by decide) (by decide) (by decide)
    (Option.some_get (by decide)).symm (by decide)

/-- C23, at the tries that store no key: a new trie, to which no key has been
inserted, and the trie after `insert("a", 1)`, `erase("a")` have `size() == 0`, and on
both the walk from `begin()` does not return, so that it produces no sequence of
keys: `begin()` dereferences the null pointer that `next(root)` returns, or `next`
reads the destroyed root.  On a trie that stores keys the walk is in key order: after
`insert("testing", 1)`, `insert("b", 2)`, `insert("test", 3)`, `insert("a", 4)`,
`insert("te__ing", 5)`, `erase("b")` it produces "a", "te__ing", "test", "testing". -/
theorem C23_no_walk_on_trie_without_keys :
    (Trie.new : Trie Int).size = 0 ∧
    (Trie.new : Trie Int).next (some (Trie.new : Trie Int).root) = some none ∧
    (Trie.new : Trie Int).keys = none ∧
    trieEmptied.map Trie.size = some 0 ∧
    (trieEmptied.map fun s => (s.heap s.root).isNone) = some true ∧
    trieEmptied.map Trie.keys = some none ∧
    ((run Trie.new opsOrder).map fun r => r.1.keys)
      = some (some [kA, kTe__ing, kTest, kTesting]) := by
  refine ⟨?_, ?_, ?_, ?_, ?_, ?_, ?_⟩ <;> decide

/-! ## The loop of erase returns -/

/-- A chain of registered nodes up to the root is no longer than the weight of the
node it starts from. -/
theorem Chain.length_le {h : Heap T} {root : Nat} (hs : Shape h root) :
    ∀ (up : List Nat) (x : Nat) (xn : Node T), Chain h root x up → h x = some xn →
      up.length ≤ xn.weight := by
  intro up
  induction up with
  | nil =>
    intro x xn _ _
    exact Nat.zero_le _
  | cons q rest ih =>
    intro x xn hc hx
    obtain ⟨⟨xn2, qn, hx2, hq, hqn, _⟩, hrest⟩ := hc
    rw [hx] at hx2
    cases hx2
    have hw := weight_parent hs hx hq hqn
    have := ih q qn hrest hqn
    simp only [List.length_cons]
    omega

/-- One removal of the loop of `erase`, at the lower end of a chain of registered
nodes: the heap keeps the shape, and the rest of the chain leads from the parent up
to the root. -/
theorem unlink_chain {h : Heap T} {root x par : Nat} {xn pn : Node T} {up : List Nat}
    (hs : Shape h root) (hch : Chain h root x up) (hx : h x = some xn)
    (hc : xn.childless) (hv : xn.bInUse = false) (hpar : xn.parent = some par)
    (hpn : h par = some pn) :
    Shape ((h.write par (pn.setTable xn.gettableindex none)).free x) root ∧
      ∃ rest, up = par :: rest ∧
        Chain ((h.write par (pn.setTable xn.gettableindex none)).free x) root par rest := by
  have hxr : x ≠ root := hs.ne_root hx hpar
  cases up with
  | nil => exact absurd hch hxr
  | cons q rest =>
    obtain ⟨⟨xn2, qn, hx2, hq, hqn, hreg⟩, hrest⟩ := id hch
    rw [hx] at hx2
    cases hx2
    rw [hpar] at hq
    injection hq with hq
    subst hq
    rw [hpn] at hqn
    cases hqn
    refine ⟨hs.unlink hx hc hv hpar hpn hreg, rest, rfl, ?_⟩
    have hnoghost : xn.posNodeKeyStart ≠ xn.nodeKey.length := by
      intro hg
      have := (hs.ghost x xn hx hxr hg).1
      rw [hv] at this
      cases this
    have hle := hs.offset_le hx
    have hlen := Chain.key_le hs (par :: rest) x xn hch hx
    have hkeep : ∀ y ∈ par :: rest, y ≠ x := by
      intro y hy he
      subst he
      obtain ⟨yn, hyn, hl⟩ := hlen y hy
      rw [hx] at hyn
      cases hyn
      omega
    apply Chain.transfer (fun y => y ≠ x) ?_ rest par hrest
      (hkeep par (List.mem_cons_self _ _))
      (fun y hy => hkeep y (List.mem_cons_of_mem _ hy))
    intro y yn hy hyx
    obtain ⟨yn2, h1, h2, h3, h4, _⟩ := unlink_agree xn hpn hreg y yn hy hyx
    exact ⟨yn2, h1, h2, h3, h4⟩

/-- In a heap of the shape the loop of `erase`, started at the lower end of a chain of
registered nodes that leads up to the root, returns, given fuel for the nodes of the
chain. -/
theorem eraseLoop_defined (root : Nat) :
    ∀ (fuel : Nat) (h : Heap T) (nn : Int) (x : Nat) (up : List Nat),
      Shape h root → Chain h root x up → up.length < fuel →
      ∃ r, eraseLoop fuel h nn (some x) = some r := by
  intro fuel
  induction fuel with
  | zero =>
    intro h nn x up _ _ hf
    omega
  | succ fuel ih =>
    intro h nn x up hs hch hf
    have hlive : ∃ xn, h x = some xn := by
      cases up with
      | nil =>
        obtain ⟨r, hr, _⟩ := hs.root_live
        have hx : x = root := hch
        rw [hx]
        exact ⟨r, hr⟩
      | cons q rest =>
        obtain ⟨⟨xn, _, hx, _⟩, _⟩ := hch
        exact ⟨xn, hx⟩
    obtain ⟨xn, hx⟩ := hlive
    simp only [eraseLoop, hx]
    by_cases hc0 : RANGE = scanTable xn.table RANGE 0 ∧ xn.bInUse = false
    · rw [if_pos hc0]
      have hc : xn.childless := (scan_eq_range xn).mp hc0.1
      cases hpar : xn.parent with
      | none =>
        simp only []
        cases fuel <;> exact ⟨_, rfl⟩
      | some par =>
        have hxr := hs.ne_root hx hpar
        obtain ⟨_, _, q, pn, h1, hpn, _⟩ := hs.link x xn hx hxr
        rw [hpar] at h1
        injection h1 with h1
        subst h1
        simp only [hpn]
        obtain ⟨hs2, rest, hup, hch2⟩ := unlink_chain hs hch hx hc hc0.2 hpar hpn
        rw [hup] at hf
        simp only [List.length_cons] at hf
        exact ih _ _ par rest hs2 hch2 (by omega)
    · rw [if_neg hc0]
      exact ⟨_, rfl⟩

/-- In a heap of the shape, while the root lives, `erase` of a 7-bit key returns. -/
theorem erase_defined {s : Trie T} (hs : Shape s.heap s.root) (k : Key)
    (hk : ∀ c ∈ k, c < 128) : ∃ s2 c, s.erase k = some (s2, c) := by
  obtain ⟨r, hr, r1, r2, r3⟩ := hs.root_live
  obtain ⟨a, ha⟩ := findpartial_defined hs k hk (fuelOf k) s.root r hr (by rw [r2]; rfl)
    (by rw [r2]; omega) (by rw [r1, r2]; simp [fuelOf])
  obtain ⟨res, hres⟩ := find_of_findpartial s.heap k (fuelOf k) s.root _ a ha
  rw [r2] at hres
  cases res with
  | none =>
    refine ⟨s, 0, ?_⟩
    simp only [Trie.erase, Trie.find, hres]
  | some m =>
    have hf0 : _find s.heap (fuelOf k) s.root k r.posNodeKeyStart = some (some m) := by
      rw [r2]
      exact hres
    obtain ⟨mn, up, hm, hmk, hch, hne⟩ := find_shape hs k (fuelOf k) s.root r hr
      (by rw [r2]; rfl) (by rw [r2]; omega) m hf0
    cases hv : mn.hasValue with
    | false =>
      refine ⟨s, 0, ?_⟩
      simp only [Trie.erase, Trie.find, hres, hm, hv, if_true]
    | true =>
      have hfind : s.find k = some (some m) := by
        simp only [Trie.find, hres, hm, hv, Bool.true_eq_false, if_false]
      have hs0 : Shape (s.heap.write m { mn with bInUse := false }) s.root := by
        apply @Shape.reflag T s.heap s.root m mn { mn with bInUse := false } hs hm rfl rfl rfl
          rfl
        intro hmr hg
        by_cases he : m = s.root
        · exact absurd he hmr
        · have := hne he
          omega
      have hch0 : Chain (s.heap.write m { mn with bInUse := false }) s.root m up := by
        apply Chain.transfer (fun _ => True) ?_ up m hch trivial (fun _ _ => trivial)
        intro y yn hy _
        by_cases hym : y = m
        · subst hym
          rw [hm] at hy
          cases hy
          exact ⟨_, Heap.write_same _ _ _, rfl, rfl, fun _ _ hic _ => hic⟩
        · exact ⟨yn, by rw [Heap.write_other _ _ _ _ hym]; exact hy, rfl, rfl,
            fun _ _ hic _ => hic⟩
      have hlen := Chain.length_le hs up m mn hch hm
      have hmo := hs.offset_le hm
      obtain ⟨res2, hloop⟩ := eraseLoop_defined s.root (fuelOf k)
        (s.heap.write m { mn with bInUse := false }) s.numnodes m up hs0 hch0
        (by
          unfold Node.weight at hlen
          rw [hmk] at hlen hmo
          simp only [fuelOf]
          omega)
      simp only [Trie.erase, hfind, hm, hloop]
      exact ⟨_, _, rfl⟩

/-- C20: in every state reached from a new trie by calls of `insert` and `erase` (and
of `operator[]`), every node other than the root that has no occupied slot holds a
value.  Every `erase(k)` on such a state leaves a state of which this holds again;
a node that it destroys had no value, unless it is the node found for `k`, and each
occupied slot of such a node was the slot of a node naming it as parent which is
destroyed too; and the loop of `erase` stops, destroying nothing, at a node that has
a value or an occupied slot.  And `erase` does return: when the keys of the calls and
the key `k` have bytes in 0..127 only and the root has not been destroyed, `erase(k)`
returns a state and a count. -/
theorem C20_childless_nodes_hold_values [Inhabited T] (ops : List (Op T)) (s : Trie T)
    (i e : Nat) (h : run Trie.new ops = some (s, i, e)) :
    (∀ p n, s.heap p = some n → p ≠ s.root → n.childless → n.hasValue = true) ∧
    (∀ k s' c, s.erase k = some (s', c) →
      (∀ p n, s'.heap p = some n → p ≠ s'.root → n.childless → n.hasValue = true) ∧
      (∀ p n, s.heap p = some n → s'.heap p = none →
        (n.hasValue = true → s.find k = some (some p)) ∧
        ∀ j, j < RANGE → n.table j ≠ none →
          ∃ y yn, s.heap y = some yn ∧ s'.heap y = none ∧ yn.parent = some p ∧
            yn.gettableindex = j)) ∧
    (∀ (fuel : Nat) (hp : Heap T) (nn : Int) (x : Nat) (xn : Node T), hp x = some xn →
      (xn.hasValue = true ∨ ¬ xn.childless) →
      eraseLoop (fuel + 1) hp nn (some x) = some (hp, nn)) ∧
    ((∀ op ∈ ops, ∀ c ∈ op.key, c < 128) → s.heap s.root ≠ none →
      ∀ k, (∀ c ∈ k, c < 128) → ∃ s' c, s.erase k = some (s', c)) := by
  obtain ⟨g1, _, _, _⟩ := run_basic ops Trie.new s i e basic_new.1 h
  refine ⟨g1.prune, ?_, fun fuel hp nn x xn => eraseLoop_stop fuel hp nn x xn, ?_⟩
  · intro k s' c he
    exact ⟨(erase_basic g1 he).1.prune, fun p n hp hd => erase_removed g1 he p n hp hd⟩
  · intro hb hroot k hk
    rcases run_shape ops Trie.new s i e basic_new.1 shape_new hb h with hs | hd
    · exact erase_defined hs k hk
    · exact absurd (hd s.root) hroot

/-- C20 at a concrete input: after `insert("a", 1)`, `insert("testing", 2)`,
`insert("te__ing", 3)`, `erase("testing")` node 2, which held "testing", is destroyed,
and node 3, the split node "te" without a value, holds node 4 in slot '_'.  Then
`erase("te__ing")` returns 1 and destroys node 4 and node 3, and leaves the root and
node 1, which holds "a". -/
theorem C20_childless_witness :
    ∃ x r, run Trie.new opsPrune = some x ∧
      (x.1.heap 2).isNone = true ∧
      (x.1.heap 3).map (fun n => (n.getkey, n.hasValue, n.table 95)) = some (kTe, false, some 4) ∧
      x.1.erase kTe__ing = some r ∧ r.2 = 1 ∧
      (r.1.heap 3).isNone = true ∧ (r.1.heap 4).isNone = true ∧
      (r.1.heap r.1.root).isSome = true ∧
      (r.1.heap 1).map (fun n => (n.getkey, n.hasValue)) = some (kA, true) ∧
      (∀ p n, x.1.heap p = some n → p ≠ x.1.root → n.childless → n.hasValue = true) ∧
      (∀ p n, r.1.heap p = some n → p ≠ r.1.root → n.childless → n.hasValue = true) ∧
      (∀ p n, x.1.heap p = some n → r.1.heap p = none →
        (n.hasValue = true → x.1.find kTe__ing = some (some p)) ∧
        ∀ j, j < RANGE → n.table j ≠ none →
          ∃ y yn, x.1.heap y = some yn ∧ r.1.heap y = none ∧ yn.parent = some p ∧
            yn.gettableindex = j) ∧
      (∀ k, (∀ c ∈ k, c < 128) → ∃ s2 c, x.1.erase k = some (s2, c)) :=
  ⟨(run Trie.new opsPrune).get (by decide),
    (((run Trie.new opsPrune).get (by decide)).1.erase kTe__ing).get (by decide),
    (Option.some_get _).symm, by decide, by decide, (Option.some_get _).symm, by decide,
    by decide, by decide, by decide, by decide,
    (C20_childless_nodes_hold_values opsPrune _ _ _ (Option.some_get (by decide)).symm).1,
    ((C20_childless_nodes_hold_values opsPrune _ _ _
      (Option.some_get (by decide)).symm).2.1 kTe__ing _ _
        (Option.some_get (by decide)).symm).1,
    ((C20_childless_nodes_hold_values opsPrune _ _ _
      (Option.some_get (by decide)).symm).2.1 kTe__ing _ _
        (Option.some_get (by decide)).symm).2,
    (C20_childless_nodes_hold_values opsPrune _ _ _
      (Option.some_get (by decide)).symm).2.2.2 (by decide)
        (Option.ne_none_iff_isSome.mpr (by decide))⟩

/-! ## The searches with their reads recorded -/

/-- The search with its reads recorded returns what `_find` returns, and is undefined
exactly where `_find` is. -/
theorem findReads_result (h : Heap T) (key : Key) :
    ∀ (fuel self pos : Nat),
      (findReads h fuel self key pos).map Prod.fst = _find h fuel self key pos := by
  intro fuel
  induction fuel with
  | zero =>
    intro self pos
    rfl
  | succ fuel ih =>
    intro self pos
    cases hs : h self with
    | none => simp [findReads, _find, hs]
    | some sn =>
      simp only [findReads, _find, hs]
      split
      · rfl
      · split
        · rfl
        · cases ht : sn.tableAt
              (key.getD (pos + matchlen (sn.nodeKey.drop sn.posNodeKeyStart) (key.drop pos)) 0) with
          | none => rfl
          | some c =>
            cases c with
            | none => rfl
            | some t =>
              simp only [Option.map_map]
              exact ih t _

/-- The partial descent with its reads recorded returns what `_findpartial` returns,
and is undefined exactly where `_findpartial` is. -/
theorem findpartialReads_result (h : Heap T) (key : Key) :
    ∀ (fuel self pos : Nat),
      (findpartialReads h fuel self key pos).map Prod.fst
        = _findpartial h fuel self key pos := by
  intro fuel
  induction fuel with
  | zero =>
    intro self pos
    rfl
  | succ fuel ih =>
    intro self pos
    cases hs : h self with
    | none => simp [findpartialReads, _findpartial, hs]
    | some sn =>
      simp only [findpartialReads, _findpartial, hs]
      split
      · rfl
      · split
        · rfl
        · cases ht : sn.tableAt
              (key.getD (pos + matchlen (sn.nodeKey.drop sn.posNodeKeyStart) (key.drop pos)) 0) with
          | none => rfl
          | some c =>
            cases c with
            | none => rfl
            | some t =>
              simp only [Option.map_map]
              exact ih t _

/-- The two searches make the same reads. -/
theorem findpartialReads_reads (h : Heap T) (key : Key) :
    ∀ (fuel self pos : Nat),
      (findpartialReads h fuel self key pos).map Prod.snd
        = (findReads h fuel self key pos).map Prod.snd := by
  intro fuel
  induction fuel with
  | zero =>
    intro self pos
    rfl
  | succ fuel ih =>
    intro self pos
    cases hs : h self with
    | none => simp [findpartialReads, findReads, hs]
    | some sn =>
      simp only [findpartialReads, findReads, hs]
      split
      · rfl
      · split
        · rfl
        · cases ht : sn.tableAt
              (key.getD (pos + matchlen (sn.nodeKey.drop sn.posNodeKeyStart) (key.drop pos)) 0) with
          | none => rfl
          | some c =>
            cases c with
            | none => rfl
            | some t =>
              simp only [Option.map_map]
              have := ih t (pos + matchlen (sn.nodeKey.drop sn.posNodeKeyStart) (key.drop pos))
              cases h1 : findpartialReads h fuel t key
                  (pos + matchlen (sn.nodeKey.drop sn.posNodeKeyStart) (key.drop pos)) with
              | none =>
                rw [h1] at this
                cases h2 : findReads h fuel t key
                    (pos + matchlen (sn.nodeKey.drop sn.posNodeKeyStart) (key.drop pos)) with
                | none => rfl
                | some r2 => rw [h2] at this; cases this
              | some r1 =>
                rw [h1] at this
                cases h2 : findReads h fuel t key
                    (pos + matchlen (sn.nodeKey.drop sn.posNodeKeyStart) (key.drop pos)) with
                | none => rw [h2] at this; cases this
                | some r2 =>
                  rw [h2] at this
                  simp only [Option.map_some', Option.some.injEq] at this
                  simp only [Option.map_some', Function.comp, this]

/-- In a heap of the shape every read of `table[key[pos]]` that `_find` makes for a
7-bit key is at a position inside the key and at an index below 128, and a child it
finds there is live and has this index. -/
theorem findReads_shape {h : Heap T} {root : Nat} (hs : Shape h root) (key : Key)
    (hk : ∀ c ∈ key, c < 128) :
    ∀ (f : Nat) (p : Nat) (n : Node T), h p = some n →
      n.nodeKey.take n.posNodeKeyStart = key.take n.posNodeKeyStart →
      n.posNodeKeyStart ≤ key.length →
      ∀ r, findReads h f p key n.posNodeKeyStart = some r →
      ∀ t ∈ r.2,
        t.2.1 < key.length ∧ t.2.2 = key.getD t.2.1 0 ∧ t.2.2 < RANGE ∧
        ∀ xn c, h t.1 = some xn → xn.table t.2.2 = some c →
          ∃ cn, h c = some cn ∧ cn.gettableindex = t.2.2 := by
  intro f
  induction f with
  | zero =>
    intro p n _ _ _ r hr
    simp [findReads] at hr
  | succ f ih =>
    intro p n hp hpath hks r hr t ht
    have hksn := hs.offset_le hp
    have hM := matchlen_of_take_eq n.nodeKey key n.posNodeKeyStart hksn hks hpath
    have hMl := matchlen_le_left n.nodeKey key
    have hMr := matchlen_le_right n.nodeKey key
    simp only [findReads, hp, ← hM] at hr
    by_cases c1 : matchlen n.nodeKey key = key.length ∧ matchlen n.nodeKey key = n.nodeKey.length
    · rw [if_pos c1] at hr
      injection hr with hr
      subst hr
      cases ht
    · rw [if_neg c1] at hr
      by_cases c2 : matchlen n.nodeKey key < n.nodeKey.length
      · rw [if_pos c2] at hr
        injection hr with hr
        subst hr
        cases ht
      · rw [if_neg c2] at hr
        have hMeq : matchlen n.nodeKey key = n.nodeKey.length := by omega
        have hlt : n.nodeKey.length < key.length := by omega
        have hbyte : key.getD n.nodeKey.length 0 < 128 := hk _ (getD_mem_or _ _ hlt)
        rw [hMeq] at hr
        have htab : n.tableAt (key.getD n.nodeKey.length 0)
            = some (n.table (key.getD n.nodeKey.length 0)) := by
          simp only [Node.tableAt, RANGE]
          rw [if_pos hbyte]
        rw [htab] at hr
        have hfirst : ∀ t2 : Nat × Nat × Nat,
            t2 = (p, n.nodeKey.length, key.getD n.nodeKey.length 0) →
            t2.2.1 < key.length ∧ t2.2.2 = key.getD t2.2.1 0 ∧ t2.2.2 < RANGE ∧
            ∀ xn c, h t2.1 = some xn → xn.table t2.2.2 = some c →
              ∃ cn, h c = some cn ∧ cn.gettableindex = t2.2.2 := by
          intro t2 ht2
          subst ht2
          refine ⟨hlt, rfl, hbyte, ?_⟩
          intro xn c hx hc
          rw [hp] at hx
          injection hx with hx
          subst hx
          obtain ⟨_, cn, hcn, _, hci⟩ := hs.slot p n _ c hp hc
          exact ⟨cn, hcn, hci⟩
        cases hc : n.table (key.getD n.nodeKey.length 0) with
        | none =>
          rw [hc] at hr
          injection hr with hr
          subst hr
          exact hfirst t (List.mem_singleton.mp ht)
        | some c =>
          rw [hc] at hr
          obtain ⟨hcr, cn, hcn, hcp, hci⟩ := hs.slot p n _ c hp hc
          obtain ⟨hck, hclen⟩ := hs.parent_key hcn hcp hp
          have hnpre : n.nodeKey <+: key := prefix_of_matchlen_eq _ _ hMeq
          have hcpath : cn.nodeKey.take cn.posNodeKeyStart
              = key.take cn.posNodeKeyStart := by
            rw [← hck, hclen]
            exact List.prefix_iff_eq_take.mp hnpre
          rw [← hclen] at hr
          simp only [] at hr
          cases hrec : findReads h f c key cn.posNodeKeyStart with
          | none =>
            rw [hrec] at hr
            cases hr
          | some r2 =>
            rw [hrec] at hr
            simp only [Option.map_some', Option.some.injEq] at hr
            subst hr
            rcases List.mem_cons.mp ht with ht | ht
            · exact hfirst t (by rw [ht, hclen])
            · exact ih c cn hcn hcpath (by omega) r2 hrec t ht

/-- In every state reached from a new trie by calls of `insert`, `erase` and
`operator[]` with keys whose bytes are in 0..127, and for every such key: unless the
root is destroyed, `_find` and `_findpartial` from the root return, they make the
same reads of `table[key[pos]]`, and each read is at a position `pos < key.length()`
and at the index `key[pos] < 128`, and a child found in that slot is live and was
registered under this index, its `gettableindex()`; the index `gettableindex()`,
which `addchild`, `erase` and `next` use, is below 128 for every node; and a scan of
`next` or `erase` that starts at an index up to 128 ends at an index up to 128. -/
theorem table_reads_in_range [Inhabited T] (ops : List (Op T)) (s : Trie T)
    (i e : Nat) (key : Key) (hb : ∀ op ∈ ops, ∀ c ∈ op.key, c < 128)
    (hk : ∀ c ∈ key, c < 128) (h : run Trie.new ops = some (s, i, e)) :
    (s.heap s.root ≠ none →
      ∃ r a reads, findReads s.heap (fuelOf key) s.root key 0 = some (r, reads) ∧
        findpartialReads s.heap (fuelOf key) s.root key 0 = some (a, reads) ∧
        _find s.heap (fuelOf key) s.root key 0 = some r ∧
        _findpartial s.heap (fuelOf key) s.root key 0 = some a ∧
        ∀ t ∈ reads,
          t.2.1 < key.length ∧ t.2.2 = key.getD t.2.1 0 ∧ t.2.2 < RANGE ∧
          ∀ xn c, s.heap t.1 = some xn → xn.table t.2.2 = some c →
            ∃ cn, s.heap c = some cn ∧ cn.gettableindex = t.2.2) ∧
    (∀ n : Node T, n.gettableindex < RANGE ∧ n.gettableindex + 1 ≤ RANGE) ∧
    (∀ (table : Nat → Option Nat) (j : Nat), j ≤ RANGE →
      scanTable table (RANGE - j) j ≤ RANGE) := by
  refine ⟨?_, fun n => ⟨gettableindex_lt n, gettableindex_lt n⟩, scanTable_range⟩
  intro hroot
  rcases run_shape ops Trie.new s i e basic_new.1 shape_new hb h with hs | hd
  · obtain ⟨rn, hr, r1, r2, r3⟩ := hs.root_live
    obtain ⟨a, ha⟩ := findpartial_defined hs key hk (fuelOf key) s.root rn hr
      (by rw [r2]; rfl) (by rw [r2]; omega) (by rw [r1, r2]; simp [fuelOf])
    rw [r2] at ha
    have h1 := findpartialReads_result s.heap key (fuelOf key) s.root 0
    have h2 := findReads_result s.heap key (fuelOf key) s.root 0
    have h3 := findpartialReads_reads s.heap key (fuelOf key) s.root 0
    cases hfp : findpartialReads s.heap (fuelOf key) s.root key 0 with
    | none =>
      rw [hfp, ha] at h1
      cases h1
    | some x =>
      cases hfr : findReads s.heap (fuelOf key) s.root key 0 with
      | none =>
        rw [hfp, hfr] at h3
        cases h3
      | some y =>
        rw [hfp, ha] at h1
        rw [hfr] at h2
        rw [hfp, hfr] at h3
        simp only [Option.map_some', Option.some.injEq] at h1 h3
        refine ⟨y.1, a, y.2, rfl, ?_, h2.symm, ha, ?_⟩
        · rw [← h1, ← h3]
        · have hfr0 : findReads s.heap (fuelOf key) s.root key rn.posNodeKeyStart
              = some y := by
            rw [r2]
            exact hfr
          exact findReads_shape hs key hk (fuelOf key) s.root rn hr (by rw [r2]; rfl)
            (by rw [r2]; omega) y hfr0
  · exact absurd (hd s.root) hroot

/-- The reads of a search at a concrete input: after `insert("testing", 1)`,
`insert("test", 2)`, `insert("te__ing", 3)`, `erase("testing")` the search for
"testing" reads slot 't' of the root at position 0, slot 's' of node 4 at position 2
and slot 'i' of node 2 at position 4. -/
theorem table_reads_example :
    ∃ x, run Trie.new opsSplit = some x ∧
      (findReads x.1.heap (fuelOf kTesting) x.1.root kTesting 0).map Prod.snd
        = some [(0, 0, 116), (4, 2, 115), (2, 4, 105)] ∧
      ∃ r a reads, findReads x.1.heap (fuelOf kTesting) x.1.root kTesting 0
          = some (r, reads) ∧
        findpartialReads x.1.heap (fuelOf kTesting) x.1.root kTesting 0 = some (a, reads) ∧
        _find x.1.heap (fuelOf kTesting) x.1.root kTesting 0 = some r ∧
        _findpartial x.1.heap (fuelOf kTesting) x.1.root kTesting 0 = some a ∧
        ∀ t ∈ reads,
          t.2.1 < kTesting.length ∧ t.2.2 = kTesting.getD t.2.1 0 ∧ t.2.2 < RANGE ∧
          ∀ xn c, x.1.heap t.1 = some xn → xn.table t.2.2 = some c →
            ∃ cn, x.1.heap c = some cn ∧ cn.gettableindex = t.2.2 :=
  ⟨(run Trie.new opsSplit).get (by decide), (Option.some_get _).symm, by decide,
    (table_reads_in_range opsSplit _ _ _ kTesting (by decide) (by decide)
      (Option.some_get (by decide)).symm).1 (Option.ne_none_iff_isSome.mpr (by decide))⟩

/-- C22, the code at the failing input: after `insert("a", 1)`, `erase("a")` the root
is destroyed, and every search reads the destroyed node: `root->_find("a", 0)` and
`root->_findpartial("a", 0)` read its key and its table, so that `find("a")`,
`insert("a", 2)` and `erase("a")` are undefined, and so is `next(root)`, which scans
the table of the destroyed root.  While the root lives the reads are in range: after
`insert("testing", 1)`, `insert("test", 2)`, `insert("te__ing", 3)`,
`erase("testing")` the search for "testing" finds nothing and reads slot 't' of the
root at position 0, slot 's' of node 4 at position 2 and slot 'i' of node 2 at
position 4. -/
theorem C22_search_reads_destroyed_root :
    (trieEmptied.map fun s => (s.heap s.root).isNone) = some true ∧
    (trieEmptied.map fun s => _find s.heap (fuelOf kA) s.root kA 0) = some none ∧
    (trieEmptied.map fun s => (findReads s.heap (fuelOf kA) s.root kA 0).isNone)
      = some true ∧
    (trieEmptied.map fun s => (findpartialReads s.heap (fuelOf kA) s.root kA 0).isNone)
      = some true ∧
    (trieEmptied.map fun s => s.find kA) = some none ∧
    (trieEmptied.map fun s => (s.insert kA 2).isNone) = some true ∧
    (trieEmptied.map fun s => (s.erase kA).isNone) = some true ∧
    (trieEmptied.map fun s => s.next (some s.root)) = some none ∧
    ((run Trie.new opsSplit).bind fun x =>
        findReads x.1.heap (fuelOf kTesting) x.1.root kTesting 0)
      = some (none, [(0, 0, 116), (4, 2, 115), (2, 4, 105)]) := by
  refine ⟨?_, ?_, ?_, ?_, ?_, ?_, ?_, ?_, ?_⟩ <;> decide

end StringTrie
